import Mathlib

/-!
# Mantis: colored de Bruijn graph index — verification development

Shallow embedding of the coloring engine (`include/coloreddbg.h`) and of the
color-graph MST compressor (`src/mst.cc`, `include/mst.h`).

Conventions of the embedding

* An `sdsl::bit_vector` is a `List Bool` (index 0 first).  `get_int` and
  `set_int` read and write little-endian bit fields, as in sdsl.
* The 64-bit counters that grow by one per call (color-class ids, abundances,
  `num_serializations`) are natural numbers: they cannot wrap before 2^64 calls.
  Where a width matters (the loop counter compared with `num_kmers`, the packed
  `sdsl::int_vector` cells, `deltaOffset - 1`) the arithmetic is explicit.
* `exit(1)` is a `Fatal` outcome that carries the state at the point of exit.
* The quotient filter, the 128-bit Murmur hash of a bitmap and the heap
  primitives of the standard library are not part of the sources: the filter is
  modelled from the specification, the hash and the heap rearrangements are
  parameters.  So are the decoders of the two indices of a merge (`MSTQuery`)
  and the operations of `dna::canonical_kmer`.
* The iteration order of a `std::unordered_map` is left open: a result that is
  read from one is stated for every order.
-/

namespace Mantis

/-! ## Bit vectors -/

/-- The all-zero bit vector of `n` bits, `BitVector(n)`. -/
def zeros (n : Nat) : List Bool := List.replicate n false

/-- The call `bv.get_int(idx, len)`: the `len` bits at `idx ..` as an integer, lowest bit first. -/
def get_int (bv : List Bool) : Nat → Nat → Nat
  | _, 0 => 0
  | idx, len + 1 => Nat.bit (bv.getD idx false) (get_int bv (idx + 1) len)

/-- The call `bv.set_int(idx, x, len)`: writes the low `len` bits of `x` at `idx ..`. -/
def set_int (bv : List Bool) : Nat → Nat → Nat → List Bool
  | _, _, 0 => bv
  | idx, x, len + 1 => set_int (bv.set idx (x.testBit 0)) (idx + 1) (x / 2) len

/-! ## The quotient filter (external) -/

/-- Modelled from the spec: the counting quotient filter `CQF<key_obj>` (class not in the
sources; `gqf.h` only declares the C interface).  A key-to-count store: `slots` holds the
distinct keys with their counts, `capacity` is the number of distinct keys beyond which
auto-resize fails. -/
structure CQF where
  slots : List (Nat × Nat)
  capacity : Nat
deriving DecidableEq, Repr

/-- Modelled from the spec: `dbg.query(key)`, the count stored for the key, 0 when absent
(`qf_query`: "If it returns 0, then, the key is not present"). -/
def CQF.query (f : CQF) (key : Nat) : Nat :=
  match f.slots.find? (fun e => e.1 == key) with
  | some e => e.2
  | none => 0

/-- Modelled from the spec: `dbg.insert(KeyObject(key, 0, count))`, which increments the
counter of the key by `count` (`qf_insert`); `none` is `QF_NO_SPACE`. -/
def CQF.insert (f : CQF) (key count : Nat) : Option CQF :=
  if f.slots.any (fun e => e.1 == key) then
    some { f with slots := f.slots.map (fun e => if e.1 == key then (e.1, e.2 + count) else e) }
  else if f.slots.length < f.capacity then
    some { f with slots := f.slots ++ [(key, count)] }
  else none

/-! ## The coloring engine: `ColoredDbg` -/

/-- The fields of `ColoredDbg` that the build touches.  `eqclass_map` lists the entries
`hash ↦ (id, abundance)` in insertion order; `files` are the buffer files written so far,
`(n, bits)` for the file numbered `n`. -/
structure ColoredDbg where
  eqclass_map : List (Nat × (Nat × Nat))
  dbg : CQF
  bv_buffer : List Bool
  files : List (Nat × List Bool)
  num_samples : Nat
  num_serializations : Nat
  colorClassPerBuffer : Nat
deriving DecidableEq, Repr

/-- The lookup `eqclass_map.find(h)`. -/
def mapFind (m : List (Nat × (Nat × Nat))) (h : Nat) : Option (Nat × Nat) :=
  (m.find? (fun e => e.1 == h)).map (fun e => e.2)

/-- The update `it->second.second += 1` on the entry of key `h`. -/
def mapIncr (m : List (Nat × (Nat × Nat))) (h : Nat) : List (Nat × (Nat × Nat)) :=
  m.map (fun e => if e.1 == h then (e.1, (e.2.1, e.2.2 + 1)) else e)

/-- The method `get_num_eqclasses`. -/
def ColoredDbg.get_num_eqclasses (s : ColoredDbg) : Nat := s.eqclass_map.length

/-- The method `get_next_available_id`. -/
def ColoredDbg.get_next_available_id (s : ColoredDbg) : Nat := s.get_num_eqclasses + 1

/-- The method `add_bitvector(vector, eq_id)` on the buffer: whole 64-bit words first, then
the remaining `num_samples % 64` bits. -/
def add_bitvector (num_samples colorClassPerBuffer : Nat) (bv_buffer vector : List Bool)
    (eq_id : Nat) : List Bool :=
  let start_idx := (eq_id % colorClassPerBuffer) * num_samples
  let buf := (List.range (num_samples / 64)).foldl
    (fun b w => set_int b (start_idx + w * 64) (get_int vector (w * 64) 64) 64) bv_buffer
  if num_samples % 64 ≠ 0 then
    set_int buf (start_idx + num_samples / 64 * 64)
      (get_int vector (num_samples / 64 * 64) (num_samples % 64)) (num_samples % 64)
  else buf

/-- The method `add_colorClass(eq_id, vector)`: the new state, the value left in `eq_id`
and the returned flag. -/
def add_colorClass (vecHash : List Bool → Nat) (s : ColoredDbg) (vector : List Bool) :
    ColoredDbg × Nat × Bool :=
  let vec_hash := vecHash vector
  match mapFind s.eqclass_map vec_hash with
  | none =>
    let eq_id := s.get_next_available_id
    ({ s with
        eqclass_map := s.eqclass_map ++ [(vec_hash, (eq_id, 1))]
        bv_buffer := add_bitvector s.num_samples s.colorClassPerBuffer s.bv_buffer vector
          (eq_id - 1) }, eq_id, true)
  | some e => ({ s with eqclass_map := mapIncr s.eqclass_map vec_hash }, e.1, false)

/-- The two `exit(1)` paths of `add_kmer`. -/
inductive Fatal where
  | kmerPresent
  | noSpace
deriving DecidableEq, Repr

/-- The method `add_kmer(key, vector)`.  An error carries the state at the `exit(1)`. -/
def add_kmer (vecHash : List Bool → Nat) (s : ColoredDbg) (key : Nat) (vector : List Bool) :
    Except (Fatal × ColoredDbg) (ColoredDbg × Bool) :=
  let r := add_colorClass vecHash s vector
  let s1 := r.1
  let eq_id := r.2.1
  let count := s1.dbg.query key
  if count > 0 then .error (Fatal.kmerPresent, s1)
  else
    match s1.dbg.insert key eq_id with
    | none => .error (Fatal.noSpace, s1)
    | some d => .ok ({ s1 with dbg := d }, r.2.2)

/-- The constructor `ColoredDbg(qbits, key_bits, hashmode, seed, prefix, nqf, flag)`: an empty
index over `nqf` samples.  `BV_BUF_LEN` (the bit budget of the buffer, a constant missing
from `mantisconfig.hpp`) and the capacity of the filter are parameters. -/
def ColoredDbg.init (BV_BUF_LEN capacity nqf : Nat) : ColoredDbg :=
  { eqclass_map := []
    dbg := { slots := [], capacity := capacity }
    bv_buffer := zeros (BV_BUF_LEN / nqf * nqf)
    files := []
    num_samples := nqf
    num_serializations := 0
    colorClassPerBuffer := BV_BUF_LEN / nqf }

/-- A sequence of `add_colorClass` calls, one per bitmap of the list. -/
def addColorClasses (vecHash : List Bool → Nat) (s : ColoredDbg) (vs : List (List Bool)) :
    ColoredDbg :=
  vs.foldl (fun st v => (add_colorClass vecHash st v).1) s

/-- The id that `eqclass_map` holds for a hash, if any. -/
def idOf (m : List (Nat × (Nat × Nat))) (h : Nat) : Option Nat :=
  (mapFind m h).map (fun e => e.1)

/-- A collision-free stand-in for the Murmur hash in worked examples: the bitmap read as a
binary number. -/
def exampleHash (v : List Bool) : Nat := get_int v 0 v.length

/-- The two-sample index (buffer of two bitmaps) after the k-mer 7 was added with bitmap
`{0}`: one color-class, id 1. -/
def oneKmerIndex : ColoredDbg :=
  { eqclass_map := [(1, (1, 1))]
    dbg := { slots := [(7, 1)], capacity := 8 }
    bv_buffer := [true, false, false, false]
    files := []
    num_samples := 2
    num_serializations := 0
    colorClassPerBuffer := 2 }

/-- The invariant of the color-class store after the hashes `hs` were presented in order. -/
def StoreInv (m : List (Nat × (Nat × Nat))) (hs : List Nat) : Prop :=
  m.map (fun e => e.2.1) = List.range' 1 m.length ∧
  (m.map (fun e => e.1)).Nodup ∧
  (∀ h, h ∈ m.map (fun e => e.1) ↔ h ∈ hs) ∧
  (∀ pre h post, hs = pre ++ h :: post → h ∉ pre →
    idOf m h = some (pre.toFinset.card + 1))

/-! ## The N-way merge of `construct` -/

/-- The value `invalid`, `std::numeric_limits<uint64_t>::max()`. -/
def invalid : Nat := 2 ^ 64 - 1

/-- The struct `Iterator<key_obj>` over one input filter: `id` is the sample, `kmer` the
current key, `rest` the keys that the filter iterator has still to yield, in iteration
order. -/
structure Iterator where
  id : Nat
  kmer : Nat
  rest : List Nat
deriving DecidableEq, Repr

/-- The standard heap primitives `std::push_heap` and `std::pop_heap` (with
`std::greater`), applied to the whole vector `c` of `Minheap_PQ`.  They are not part of
the sources and are parameters of the merge. -/
structure HeapOps where
  push_heap : List Iterator → List Iterator
  pop_heap : List Iterator → List Iterator

/-- What the merge relies on from the heap primitives, for some notion `IsHeap` of heap
order that they maintain: the front of a heap has a least key; `push_heap` turns a heap
followed by one new element into a heap of the same elements; `pop_heap` moves the front to
the back and leaves a heap of the others in front of it, also in `replace_top`, where the
front has been advanced in place and a copy of it appended (the elements below the root are
still in heap order). How elements of equal key are ordered is left open. -/
structure HeapLaws (ops : HeapOps) (IsHeap : List Iterator → Prop) : Prop where
  nil : IsHeap []
  front_min : ∀ t tl, IsHeap (t :: tl) → ∀ x ∈ tl, t.kmer ≤ x.kmer
  push : ∀ c x, IsHeap c →
    (ops.push_heap (c ++ [x])).Perm (c ++ [x]) ∧ IsHeap (ops.push_heap (c ++ [x]))
  pop : ∀ t tl, IsHeap (t :: tl) →
    ∃ h, ops.pop_heap (t :: tl) = h ++ [t] ∧ h.Perm tl ∧ IsHeap h
  replace : ∀ t tl x, IsHeap (t :: tl) →
    ∃ h, ops.pop_heap (x :: tl ++ [x]) = h ++ [x] ∧ h.Perm (tl ++ [x]) ∧ IsHeap h

/-- The method `Minheap_PQ::push`. -/
def Minheap_PQ.push (ops : HeapOps) (c : List Iterator) (obj : Iterator) : List Iterator :=
  ops.push_heap (c ++ [obj])

/-- The method `Minheap_PQ::pop`: `pop_heap` then `pop_back`. -/
def Minheap_PQ.pop (ops : HeapOps) (c : List Iterator) : List Iterator :=
  (ops.pop_heap c).dropLast

/-- The method `Minheap_PQ::replace_top`: `emplace_back(obj)` then `pop()`. -/
def Minheap_PQ.replace_top (ops : HeapOps) (c : List Iterator) (obj : Iterator) :
    List Iterator :=
  Minheap_PQ.pop ops (c ++ [obj])

/-- The seeding loop of `construct`: one iterator per non-empty input, pushed in sample
order (`if (qfi.end()) continue;`). -/
def seedHeap (ops : HeapOps) (num_samples : Nat) (incqfs : List (List Nat)) : List Iterator :=
  (List.range num_samples).foldl
    (fun c i =>
      match incqfs.getD i [] with
      | [] => c
      | k :: r => Minheap_PQ.push ops c { id := i, kmer := k, rest := r })
    []

/-- The number of keys that the iterators of the heap still hold: the bound of the loops. -/
def heapKeys (c : List Iterator) : Nat := (c.map (fun it => it.rest.length + 1)).sum

/-- One pass through the body of the `do ... while` of `construct`: `cur` is the front of
the heap, which `cur.next()` advances in place; the result is the heap, the bitmap and
`last_key`. -/
def groupStep (ops : HeapOps) (c : List Iterator) (eq_class : List Bool) :
    List Iterator × List Bool × Nat :=
  match c with
  | [] => ([], eq_class, 0)
  | cur :: tl =>
    match cur.rest with
    | k :: r =>
      (Minheap_PQ.replace_top ops ({ cur with kmer := k, rest := r } :: tl)
        { cur with kmer := k, rest := r }, eq_class.set cur.id true, cur.kmer)
    | [] => (Minheap_PQ.pop ops (cur :: tl), eq_class.set cur.id true, cur.kmer)

/-- The `do ... while (!minheap.empty() && last_key == minheap.top().key())` of `construct`;
the first argument bounds the number of repetitions. -/
def groupLoop (ops : HeapOps) : Nat → List Iterator → List Bool →
    List Iterator × List Bool × Nat
  | fuel, c, eq_class =>
    let r := groupStep ops c eq_class
    match fuel with
    | 0 => r
    | fuel + 1 =>
      match r.1 with
      | [] => r
      | t :: _ => if r.2.2 = t.kmer then groupLoop ops fuel r.1 r.2.1 else r

/-- The resize `bv.resize(n)`. -/
def resize (bv : List Bool) (n : Nat) : List Bool := bv.take n ++ zeros (n - bv.length)

/-- The method `bv_buffer_serialize`: the occupied part of the buffer becomes the file
numbered `num_serializations` (the compression is lossless and left out), the buffer is
zeroed and the counter incremented. -/
def bv_buffer_serialize (s : ColoredDbg) : ColoredDbg :=
  { s with
      files := s.files.filter (fun f => f.1 != s.num_serializations) ++
        [(s.num_serializations,
          if s.get_num_eqclasses % s.colorClassPerBuffer > 0 then
            resize s.bv_buffer (s.get_num_eqclasses % s.colorClassPerBuffer * s.num_samples)
          else s.bv_buffer)]
      bv_buffer := zeros s.bv_buffer.length
      num_serializations := s.num_serializations + 1 }

/-- The part of the loop body of `construct` that follows the `do ... while`:
`add_kmer`, `++counter` (64 bits), then flush, stop or go on.  The result is the state,
the counter and whether the loop goes on. -/
def afterGroup (vecHash : List Bool → Nat) (num_kmers : Nat) (s : ColoredDbg) (counter : Nat)
    (last_key : Nat) (eq_class : List Bool) :
    Except (Fatal × ColoredDbg) (ColoredDbg × Nat × Bool) :=
  match add_kmer vecHash s last_key eq_class with
  | .error e => .error e
  | .ok (s1, added_eq_class) =>
    if added_eq_class ∧ s1.get_num_eqclasses % s1.colorClassPerBuffer = 0 then
      if num_kmers < invalid then .ok (s1, (counter + 1) % 2 ^ 64, false)
      else .ok (bv_buffer_serialize s1, (counter + 1) % 2 ^ 64, true)
    else if (counter + 1) % 2 ^ 64 > num_kmers then .ok (s1, (counter + 1) % 2 ^ 64, false)
    else .ok (s1, (counter + 1) % 2 ^ 64, true)

/-- The loop `while (!minheap.empty())` of `construct`; the first argument bounds the number
of iterations, and `none` says that the bound was hit with a non-empty heap. -/
def constructLoop (ops : HeapOps) (vecHash : List Bool → Nat) (num_kmers : Nat) :
    Nat → List Iterator → ColoredDbg → Nat → Option (Except (Fatal × ColoredDbg) ColoredDbg)
  | _, [], s, _ => some (.ok s)
  | 0, _ :: _, _, _ => none
  | fuel + 1, t :: tl, s, counter =>
    match afterGroup vecHash num_kmers s counter
        (groupLoop ops (heapKeys (t :: tl)) (t :: tl) (zeros s.num_samples)).2.2
        (groupLoop ops (heapKeys (t :: tl)) (t :: tl) (zeros s.num_samples)).2.1 with
    | .error e => some (.error e)
    | .ok (s1, counter1, true) =>
      constructLoop ops vecHash num_kmers fuel
        (groupLoop ops (heapKeys (t :: tl)) (t :: tl) (zeros s.num_samples)).1 s1 counter1
    | .ok (s1, _, false) => some (.ok s1)

/-- The method `construct(incqfs, num_kmers)`: input `i` is given by the keys that its filter
yields in iteration order.  Sampling mode is `num_kmers < invalid`. -/
def construct (ops : HeapOps) (vecHash : List Bool → Nat) (s : ColoredDbg)
    (incqfs : List (List Nat)) (num_kmers : Nat) :
    Option (Except (Fatal × ColoredDbg) ColoredDbg) :=
  constructLoop ops vecHash num_kmers (heapKeys (seedHeap ops s.num_samples incqfs))
    (seedHeap ops s.num_samples incqfs) s 0

/-- The `(last_key, eq_class)` arguments of the successive `add_kmer` calls of the loop of
`construct` from the heap `c`, for a run that no exit or `break` cuts short. -/
def mergeCalls (ops : HeapOps) (num_samples : Nat) : Nat → List Iterator →
    List (Nat × List Bool)
  | _, [] => []
  | 0, _ :: _ => []
  | fuel + 1, t :: tl =>
    ((groupLoop ops (heapKeys (t :: tl)) (t :: tl) (zeros num_samples)).2.2,
      (groupLoop ops (heapKeys (t :: tl)) (t :: tl) (zeros num_samples)).2.1) ::
      mergeCalls ops num_samples fuel
        (groupLoop ops (heapKeys (t :: tl)) (t :: tl) (zeros num_samples)).1

/-- The loop body of `construct` in full mode run over a list of `add_kmer` arguments. -/
def runCalls (vecHash : List Bool → Nat) :
    ColoredDbg → Nat → List (Nat × List Bool) → Except (Fatal × ColoredDbg) ColoredDbg
  | s, _, [] => .ok s
  | s, counter, (key, bm) :: rest =>
    match afterGroup vecHash invalid s counter key bm with
    | .error e => .error e
    | .ok (s1, counter1, _) => runCalls vecHash s1 counter1 rest

/-- A heap for worked examples: the vector is kept sorted by key (insertion sort, stable). -/
def exampleHeap : HeapOps :=
  { push_heap := fun c => c.insertionSort (fun a b => a.kmer ≤ b.kmer)
    pop_heap := fun c =>
      match c with
      | [] => []
      | t :: tl => tl.insertionSort (fun a b => a.kmer ≤ b.kmer) ++ [t] }

/-- The keys that an iterator has still to deliver, the current one first. -/
def Iterator.keys (it : Iterator) : List Nat := it.kmer :: it.rest

/-- Well-formed heap content over `S` samples: one iterator per sample at most, each over a
strictly increasing run of keys. -/
def HeapInv (S : Nat) (c : List Iterator) : Prop :=
  (c.map (fun it => it.id)).Nodup ∧ ∀ it ∈ c, it.id < S ∧ it.keys.Sorted (· < ·)

/-- Sample `i` still has the key `k` to deliver. -/
def memKey (c : List Iterator) (i k : Nat) : Prop := ∃ it ∈ c, it.id = i ∧ k ∈ it.keys

/-- The iterator after the key `m` has been consumed from it, if it was its current key. -/
def advance (m : Nat) (it : Iterator) : Option Iterator :=
  if it.kmer = m then
    match it.rest with
    | [] => none
    | k :: r => some { it with kmer := k, rest := r }
  else some it

/-- What the `do ... while` must deliver for the least key `m` of the heap `c`. -/
def GroupPost (IsHeap : List Iterator → Prop) (m : Nat) (c : List Iterator) (eq : List Bool)
    (g : List Iterator × List Bool × Nat) : Prop :=
  IsHeap g.1 ∧ g.1.Perm (c.filterMap (advance m)) ∧ g.2.2 = m ∧
  g.2.1.length = eq.length ∧
  ∀ i, (g.2.1.getD i false = true ↔
    eq.getD i false = true ∨ (i < eq.length ∧ ∃ it ∈ c, it.kmer = m ∧ it.id = i))

/-- The contract of the trace of the merge from the heap `c`: keys strictly increasing, one
entry per key that some iterator still holds, with the bitmap of the samples holding it. -/
def TraceSpec (S : Nat) (c : List Iterator) (L : List (Nat × List Bool)) : Prop :=
  (L.map Prod.fst).Sorted (· < ·) ∧
  (∀ k, k ∈ L.map Prod.fst ↔ ∃ i, memKey c i k) ∧
  (∀ p ∈ L, p.2.length = S ∧ ∀ i, i < S → (p.2.getD i false = true ↔ memKey c i p.1))

/-- The calls that the specification of the merge asks for: every distinct key once, in
increasing order, with the bitmap whose bit `i` says whether input `i` holds the key. -/
def expectedCalls (incqfs : List (List Nat)) : List (Nat × List Bool) :=
  (incqfs.flatten.toFinset.sort (· ≤ ·)).map
    (fun k => (k, incqfs.map (fun l => decide (k ∈ l))))

/-! ## The MST builder: `kruskalMSF` -/

/-- The struct `Edge` of `mst.h`. -/
structure Edge where
  n1 : Nat
  n2 : Nat
deriving DecidableEq, Repr

/-- The struct `DisjointSetNode` of `mst.h`. -/
structure DisjointSetNode where
  parent : Nat := 0
  rnk : Nat := 0
  w : Nat := 0
  edges : Nat := 0
deriving DecidableEq, Repr

/-- The struct `DisjointSets` of `mst.h`. -/
structure DisjointSets where
  els : List DisjointSetNode
  n : Nat
deriving DecidableEq, Repr

/-- The cell `els[u]`. -/
def DisjointSets.node (ds : DisjointSets) (u : Nat) : DisjointSetNode := ds.els.getD u {}

/-- The assignment `els[u] = x`. -/
def DisjointSets.update (ds : DisjointSets) (u : Nat) (x : DisjointSetNode) : DisjointSets :=
  { ds with els := ds.els.set u x }

/-- The constructor `DisjointSets(n)`: every element is its own parent (the cast to the 32-bit
`colorIdType` is explicit), rank 0. -/
def DisjointSets.init (n : Nat) : DisjointSets :=
  { els := (List.range n).map (fun i => { parent := i % 2 ^ 32 }), n := n }

/-- The method `DisjointSets::find` with path compression.  The first argument bounds the
depth of the recursion; `none` says that the bound was hit. -/
def DisjointSets.find : Nat → DisjointSets → Nat → Option (DisjointSets × Nat)
  | 0, _, _ => none
  | fuel + 1, ds, u =>
    if u ≠ (ds.node u).parent then
      match DisjointSets.find fuel ds (ds.node u).parent with
      | none => none
      | some (ds1, r) => some (ds1.update u { ds1.node u with parent := r }, r)
    else some (ds, (ds.node u).parent)

/-- The method `DisjointSetNode::mergeWith`, called on `els[a]` with argument `els[b]`. -/
def DisjointSets.mergeWith (ds : DisjointSets) (a b edgeW : Nat) : DisjointSets :=
  let ds1 := ds.update b { ds.node b with parent := (ds.node a).parent }
  let ds2 := ds1.update a { ds1.node a with w := (ds1.node a).w + ((ds1.node b).w + edgeW) }
  let ds3 := ds2.update a
    { ds2.node a with edges := (ds2.node a).edges + ((ds2.node b).edges + 1) }
  let ds4 := ds3.update b { ds3.node b with edges := 0 }
  let ds5 := ds4.update b { ds4.node b with w := 0 }
  if (ds5.node a).rnk = (ds5.node b).rnk then
    ds5.update a { ds5.node a with rnk := (ds5.node a).rnk + 1 }
  else ds5

/-- The method `DisjointSets::merge`: union by rank of the sets of `x` and `y`. -/
def DisjointSets.merge (fuel : Nat) (ds : DisjointSets) (x y edgeW : Nat) :
    Option DisjointSets :=
  match ds.find fuel x with
  | none => none
  | some (ds1, x1) =>
    match ds1.find fuel y with
    | none => none
    | some (ds2, y1) =>
      if (ds2.node x1).rnk > (ds2.node y1).rnk then some (ds2.mergeWith x1 y1 edgeW)
      else some (ds2.mergeWith y1 x1 edgeW)

/-- The variables that `kruskalMSF` updates: the disjoint sets, the adjacency lists `mst`
(`(neighbour, weight)` pairs), `mstTotalWeight` and the two counters. -/
structure KruskalState where
  ds : DisjointSets
  mst : List (List (Nat × Nat))
  mstTotalWeight : Nat
  edgeCntr : Nat
  selectedEdgeCntr : Nat
deriving DecidableEq, Repr

/-- The call `mst[u].emplace_back(v, w)`. -/
def adjPush (mst : List (List (Nat × Nat))) (u v w : Nat) : List (List (Nat × Nat)) :=
  mst.set u (mst.getD u [] ++ [(v, w)])

/-- The body of the inner loop of `kruskalMSF` for the edge `it` of weight `w`. -/
def kruskalEdge (fuel w : Nat) (st : KruskalState) (it : Edge) : Option KruskalState :=
  match st.ds.find fuel it.n1 with
  | none => none
  | some (ds1, root_of_u) =>
    match ds1.find fuel it.n2 with
    | none => none
    | some (ds2, root_of_v) =>
      if root_of_u ≠ root_of_v then
        match ds2.merge fuel root_of_u root_of_v w with
        | none => none
        | some ds3 =>
          some { ds := ds3
                 mst := adjPush (adjPush st.mst it.n1 it.n2 w) it.n2 it.n1 w
                 mstTotalWeight := st.mstTotalWeight + w
                 edgeCntr := st.edgeCntr + 1
                 selectedEdgeCntr := st.selectedEdgeCntr + 1 }
      else some { st with ds := ds2, edgeCntr := st.edgeCntr + 1 }

/-- The inner loop of `kruskalMSF` over one bucket. -/
def kruskalBucket (fuel w : Nat) : KruskalState → List Edge → Option KruskalState
  | st, [] => some st
  | st, it :: rest =>
    match kruskalEdge fuel w st it with
    | none => none
    | some st1 => kruskalBucket fuel w st1 rest

/-- The outer loop of `kruskalMSF` over the bucket indices `bucketCntr`; the bucket of index
`bucketCntr` holds the edges of weight `bucketCntr + 1`. -/
def kruskalBuckets (fuel : Nat) (weightBuckets : List (List Edge)) :
    KruskalState → List Nat → Option KruskalState
  | st, [] => some st
  | st, bucketCntr :: rest =>
    match kruskalBucket fuel (bucketCntr + 1) st (weightBuckets.getD bucketCntr []) with
    | none => none
    | some st1 => kruskalBuckets fuel weightBuckets st1 rest

/-- The method `kruskalMSF` on a fresh `MST` object (`mst` empty, `mstTotalWeight` 0): the
buckets `0 .. numSamples - 1` are processed in order and one slot is added to
`mstTotalWeight` for the root.  The buckets are cleared as they are consumed, which nothing
reads afterwards.  `fuel` bounds the recursion depth of `find`. -/
def kruskalMSF (fuel numSamples num_colorClasses : Nat) (weightBuckets : List (List Edge)) :
    Option KruskalState :=
  match kruskalBuckets fuel weightBuckets
      { ds := DisjointSets.init num_colorClasses
        mst := List.replicate num_colorClasses []
        mstTotalWeight := 0
        edgeCntr := 0
        selectedEdgeCntr := 0 }
      (List.range numSamples) with
  | none => none
  | some st => some { st with mstTotalWeight := st.mstTotalWeight + 1 }

/-- The undirected graph on the color ids `0 .. n - 1` whose edges are the entries of the
adjacency lists `mst`. -/
def mstGraph (n : Nat) (mst : List (List (Nat × Nat))) : SimpleGraph (Fin n) :=
  SimpleGraph.fromRel (fun a b => ∃ w, (b.val, w) ∈ mst.getD a.val [])

/-- The undirected graph on the color ids `0 .. n - 1` given by a list of weighted edges
`(u, v, w)`. -/
def edgeGraph (n : Nat) (E : List (Nat × Nat × Nat)) : SimpleGraph (Fin n) :=
  SimpleGraph.fromRel (fun a b => ∃ w, (a.val, b.val, w) ∈ E)

/-- The weighted edges of the input of `kruskalMSF`: the edges of the buckets
`0 .. numSamples - 1`, an edge of bucket `i` with weight `i + 1`. -/
def bucketEdges (numSamples : Nat) (weightBuckets : List (List Edge)) :
    List (Nat × Nat × Nat) :=
  (List.range numSamples).flatMap
    (fun i => (weightBuckets.getD i []).map (fun e => (e.n1, e.n2, i + 1)))

/-- The parent pointer `els[u].parent`. -/
def DisjointSets.par (ds : DisjointSets) (u : Nat) : Nat := (ds.node u).parent

/-- The rank `els[u].rnk`. -/
def DisjointSets.rk (ds : DisjointSets) (u : Nat) : Nat := (ds.node u).rnk

/-- The disjoint sets represent the partition whose representative function is `ρ`: every
parent chain leads to the representative, ranks grow along it and are at most `K`. -/
def Rep (ds : DisjointSets) (ρ : Nat → Nat) (K : Nat) : Prop :=
  ∀ u, u < ds.els.length →
    ρ u < ds.els.length ∧ ds.par (ρ u) = ρ u ∧ ds.par u < ds.els.length ∧
    ρ (ds.par u) = ρ u ∧ (ds.par u = u → ρ u = u) ∧ (u ≠ ρ u → ds.rk u < ds.rk (ρ u)) ∧
    (ds.par u ≠ u → ds.rk u < ds.rk (ds.par u)) ∧ ds.rk u ≤ K

/-- The invariant of `kruskalMSF` over `n` color ids: `ρ` is the partition held by the
disjoint sets, `T` the selected edges (those of the adjacency lists), `P` the edges processed
so far, of weight at most `W`. -/
structure KInv (n : Nat) (st : KruskalState) (ρ : Nat → Nat) (T P : List (Nat × Nat × Nat))
    (W : Nat) : Prop where
  len : st.ds.els.length = n
  rep : Rep st.ds ρ T.length
  mstLen : st.mst.length = n
  adj : ∀ a b w, (b, w) ∈ st.mst.getD a [] ↔ ((a, b, w) ∈ T ∨ (b, a, w) ∈ T)
  sub : ∀ e ∈ T, e ∈ P
  range : ∀ e ∈ P, e.1 < n ∧ e.2.1 < n ∧ e.2.2 ≤ W
  same : ∀ a b : Fin n, ρ a = ρ b ↔ (edgeGraph n T).Reachable a b
  proc : ∀ a b : Fin n, (edgeGraph n P).Adj a b → (edgeGraph n T).Reachable a b
  comps : Nat.card (edgeGraph n T).ConnectedComponent + T.length = n
  acyclic : (edgeGraph n T).IsAcyclic
  selected : st.selectedEdgeCntr = T.length
  total : st.mstTotalWeight = (T.map (fun e => e.2.2)).sum
  adjsum : (st.mst.flatten.map Prod.snd).sum = 2 * (T.map (fun e => e.2.2)).sum
  layers : ∀ t, (T.filter (fun e => e.2.2 ≤ t)).length +
    Nat.card (edgeGraph n (P.filter (fun e => e.2.2 ≤ t))).ConnectedComponent = n

/-! ## The MST encoding: `encodeColorClassUsingMST` -/

/-- The width of an `sdsl::int_vector<>(size, 0, int_width)`: a requested width outside
`1 .. 64` is replaced by 64. -/
def intWidth (int_width : Nat) : Nat :=
  if 0 < int_width ∧ int_width ≤ 64 then int_width else 64

/-- The assignment `v[i] = x` to a cell of an `sdsl::int_vector<>` of width `width`: the
value is masked to the width. -/
def ivSet (width : Nat) (v : List Nat) (i x : Nat) : List Nat := v.set i (x % 2 ^ width)

/-- The search for the least `k2 ≥ k` with `x ≤ 2 ^ k2`, in at most `fuel` steps. -/
def ceilLog2From : Nat → Nat → Nat → Nat
  | 0, k, _ => k
  | fuel + 1, k, x => if x ≤ 2 ^ k then k else ceilLog2From fuel (k + 1) x

/-- The value `ceil(log2(x))` for `x ≥ 1`: the least `k` with `x ≤ 2 ^ k`. -/
def ceilLog2 (x : Nat) : Nat := ceilLog2From x 0 x

/-- The variables of the breadth-first pass of `encodeColorClassUsingMST`. -/
structure BfsState where
  q : List Nat
  parentbv : List Nat
  weightbv : List Nat
  visited : List Bool
deriving DecidableEq, Repr

/-- The loop `for (auto &neighbor : mst[parent])` of the breadth-first pass; `wp` and `ww`
are the widths of `parentbv` and `weightbv`. -/
def bfsNeighbors (wp ww parent : Nat) : BfsState → List (Nat × Nat) → BfsState
  | s, [] => s
  | s, neighbor :: rest =>
    if s.visited.getD neighbor.1 false = false then
      bfsNeighbors wp ww parent
        { s with
            parentbv := ivSet wp s.parentbv neighbor.1 parent
            weightbv := ivSet ww s.weightbv neighbor.1 neighbor.2
            q := s.q ++ [neighbor.1] } rest
    else bfsNeighbors wp ww parent s rest

/-- The loop `while (!q.empty())` of the breadth-first pass; the first argument bounds the
number of iterations, `none` says that the bound was hit. -/
def bfsLoop (mst : List (List (Nat × Nat))) (wp ww : Nat) : Nat → BfsState → Option BfsState
  | fuel, s =>
    match s.q with
    | [] => some s
    | parent :: q1 =>
      match fuel with
      | 0 => none
      | fuel + 1 =>
        bfsLoop mst wp ww fuel
          { bfsNeighbors wp ww parent { s with q := q1 } (mst.getD parent []) with
              visited := (bfsNeighbors wp ww parent { s with q := q1 }
                (mst.getD parent [])).visited.set parent true }

/-- The loop that fills `bbv`: the prefix sums of `weightbv` mark the last slot of every
node.  `deltaOffset` is a 64-bit unsigned integer; a write outside the vector (undefined
behaviour in the source) is dropped. -/
def fillBbv (weightbv : List Nat) : Nat → Nat → Nat → List Bool → List Bool
  | 0, _, _, bbv => bbv
  | k + 1, i, deltaOffset, bbv =>
    fillBbv weightbv k (i + 1) ((deltaOffset + weightbv.getD i 0) % 2 ^ 64)
      (bbv.set (((deltaOffset + weightbv.getD i 0) % 2 ^ 64 + (2 ^ 64 - 1)) % 2 ^ 64) true)

/-- The select support `sbbv(k)`: the position of the `k`-th set bit of `bbv`, `k ≥ 1`. -/
def select1 : List Bool → Nat → Nat
  | [], _ => 0
  | b :: rest, k =>
    if b then (if k ≤ 1 then 0 else 1 + select1 rest (k - 1)) else 1 + select1 rest k

/-- The merge loop of `getMSTBasedDeltaList` and its two tail loops on two decoded colors
(increasing lists of sample indices); the first argument bounds the number of steps. -/
def deltaMergeLoop : Nat → List Nat → List Nat → List Nat
  | 0, _, _ => []
  | _ + 1, [], eq2 => eq2
  | _ + 1, a :: eq1, [] => a :: eq1
  | fuel + 1, a :: eq1, b :: eq2 =>
    if a = b then deltaMergeLoop fuel eq1 eq2
    else if a < b then a :: deltaMergeLoop fuel eq1 (b :: eq2)
    else b :: deltaMergeLoop fuel (a :: eq1) eq2

/-- The delta of two decoded colors: the indices that are in exactly one of them. -/
def deltaMerge (eq1 eq2 : List Nat) : List Nat :=
  deltaMergeLoop (eq1.length + eq2.length + 1) eq1 eq2

/-- The method `getMSTBasedDeltaList(eqid1, eqid2, isFirst)`; `decode` stands for
`buildMSTBasedColor` on the MST of the index chosen by `isFirst` (the decoder `MSTQuery` of
an existing index is not in the sources). -/
def getMSTBasedDeltaList (decode : Nat → List Nat) (eqid1 eqid2 : Nat) : List Nat :=
  if eqid1 = eqid2 then [] else deltaMerge (decode eqid1) (decode eqid2)

/-- What the merge branch of the encoding reads besides the tree: the two old indices, given
by their decoders and the ids of their roots, the number of samples of the first one, and
the table `colorPairs` of the new color ids. -/
structure MergeInput where
  decode1 : Nat → List Nat
  decode2 : Nat → List Nat
  mst1Zero : Nat
  mst2Zero : Nat
  numOfFirstMantisSamples : Nat
  colorPairs : List (Nat × Nat)

/-- The pair of old ids of the new id `p` (`p == zero ? (mst1Zero, mst2Zero) : colorPairs[p]`). -/
def MergeInput.pairOf (m : MergeInput) (zero p : Nat) : Nat × Nat :=
  if p = zero then (m.mst1Zero, m.mst2Zero) else m.colorPairs.getD p (0, 0)

/-- The delta list that `calcDeltasInParallel` (MST-based branch) computes for the node `p`
with parent `q`: the delta in the first index, then the delta in the second one shifted by
the number of samples of the first. -/
def deltaVals (m : MergeInput) (zero p q : Nat) : List Nat :=
  getMSTBasedDeltaList m.decode1 (m.pairOf zero p).1 (m.pairOf zero q).1 ++
    (getMSTBasedDeltaList m.decode2 (m.pairOf zero p).2 (m.pairOf zero q).2).map
      (fun v => v + m.numOfFirstMantisSamples)

/-- The writes `deltabv[startingOffset + cntr] = deltaVals[cntr]` for one node. -/
def writeDelta (wd : Nat) (deltabv : List Nat) (startingOffset : Nat) : List Nat → List Nat
  | [] => deltabv
  | v :: rest => writeDelta wd (ivSet wd deltabv startingOffset v) (startingOffset + 1) rest

/-- The method `calcDeltasInParallel(threadID, ..., isMSTBased = true)`: the worker handles
the nodes `s .. e - 1` of its slice (32-bit bounds) and commits their delta lists. -/
def calcDeltasInParallel (m : MergeInput) (zero nThreads wd : Nat) (parentbv : List Nat)
    (bbv : List Bool) (threadID : Nat) (deltabv : List Nat) : List Nat :=
  (List.range' (parentbv.length * threadID / nThreads % 2 ^ 32)
      (parentbv.length * (threadID + 1) / nThreads % 2 ^ 32 -
        parentbv.length * threadID / nThreads % 2 ^ 32)).foldl
    (fun d p =>
      writeDelta wd d (if p > 0 then select1 bbv p + 1 else 0)
        (deltaVals m zero p (parentbv.getD p 0)))
    deltabv

/-- The three vectors that `encodeColorClassUsingMST` serializes. -/
structure Encoding where
  parentbv : List Nat
  bbv : List Bool
  deltabv : List Nat
deriving DecidableEq, Repr

/-- The method `encodeColorClassUsingMST`: `kruskalMSF`, the breadth-first pass from `zero`
that fills `parentbv` and `weightbv`, the boundary bits, and the delta lists computed by the
workers, which are run one after the other (they commit under a mutex and write disjoint
slots).  `fuel` bounds the recursion of `find` and the number of nodes taken from the
queue. -/
def encodeColorClassUsingMST (m : MergeInput) (fuel numSamples num_colorClasses zero nThreads :
    Nat) (weightBuckets : List (List Edge)) : Option Encoding :=
  match kruskalMSF fuel numSamples num_colorClasses weightBuckets with
  | none => none
  | some st =>
    match bfsLoop st.mst (intWidth (ceilLog2 num_colorClasses)) (intWidth (ceilLog2 numSamples))
        fuel
        { q := [zero]
          parentbv := ivSet (intWidth (ceilLog2 num_colorClasses))
            (List.replicate num_colorClasses 0) zero zero
          weightbv := ivSet (intWidth (ceilLog2 numSamples))
            (List.replicate num_colorClasses 0) zero 1
          visited := List.replicate num_colorClasses false } with
    | none => none
    | some b =>
      some
        { parentbv := b.parentbv
          bbv := fillBbv b.weightbv num_colorClasses 0 0
            (List.replicate st.mstTotalWeight false)
          deltabv := (List.range nThreads).foldl
            (fun d t =>
              calcDeltasInParallel m zero nThreads (intWidth (ceilLog2 numSamples)) b.parentbv
                (fillBbv b.weightbv num_colorClasses 0 0
                  (List.replicate st.mstTotalWeight false)) t d)
            (List.replicate st.mstTotalWeight 0) }

/-- Modelled from the spec: the slice of `deltabv` that belongs to the node `c`, from
`select1(boundary, c) + 1` (0 for the first node) up to and including the next boundary
bit (the decoder `MSTQuery::buildColor` is not in the sources). -/
def deltaSlice (e : Encoding) (c : Nat) : List Nat :=
  (e.deltabv.drop (if c > 0 then select1 e.bbv c + 1 else 0)).take
    (select1 e.bbv (c + 1) + 1 - (if c > 0 then select1 e.bbv c + 1 else 0))

/-- Modelled from the spec: the delta values met on the parent path from `c` up to, and
not including, the root (the node that is its own parent). -/
def pathDeltas (e : Encoding) : Nat → Nat → List Nat
  | 0, _ => []
  | fuel + 1, c =>
    if e.parentbv.getD c 0 = c then []
    else deltaSlice e c ++ pathDeltas e fuel (e.parentbv.getD c 0)

/-- Modelled from the spec: the color decoder, the XOR-fold of the delta lists along the
path `c → root`: the sample indices that occur an odd number of times, in increasing
order. -/
def decodeColor (e : Encoding) (numSamples c : Nat) : List Nat :=
  (List.range numSamples).filter (fun s => (pathDeltas e e.parentbv.length c).count s % 2 = 1)

/-- The sample indices set in the bitmap of the new color id `p` of a merged index: those of
its first old color, then those of the second shifted by the number of samples of the first
index. -/
def pairBitmap (m : MergeInput) (zero p : Nat) : List Nat :=
  m.decode1 (m.pairOf zero p).1 ++
    (m.decode2 (m.pairOf zero p).2).map (fun v => v + m.numOfFirstMantisSamples)

/-- A merge of two one-sample indices `I1 = {A}` and `I2 = {C}` (old color 0 is the sample,
old id 1 the root of each): new color 0 is `{A}`, new color 1 is `{A, C}`. -/
def twoSampleMerge : MergeInput :=
  { decode1 := fun c => if c = 0 then [0] else []
    decode2 := fun c => if c = 0 then [0] else []
    mst1Zero := 1
    mst2Zero := 1
    numOfFirstMantisSamples := 1
    colorPairs := [(0, 1), (0, 0)] }

/-! ## Serialization, reload and `find_samples` -/

/-- The method `serialize`: the filter is stored as it is, and the buffer is flushed a last
time when it holds bitmaps that no file has yet. -/
def serialize (s : ColoredDbg) : ColoredDbg :=
  if s.get_num_eqclasses % s.colorClassPerBuffer > 0 then bv_buffer_serialize s else s

/-- The fields of `ColoredDbg` that a query reads, as the constructor
`ColoredDbg(cqf_file, eqclass_files, sample_file, flag)` loads them. -/
structure LoadedDbg where
  dbg : CQF
  eqclasses : List (List Bool)
  num_samples : Nat
  colorClassPerBuffer : Nat
deriving DecidableEq, Repr

/-- The constructor `ColoredDbg(cqf_file, eqclass_files, sample_file, flag)` applied to the
files that `s` left: the buffer files in the order of their numbers, one sample per line of
the sample list, `colorClassPerBuffer = BV_BUF_LEN / num_samples`. -/
def reload (BV_BUF_LEN : Nat) (s : ColoredDbg) : LoadedDbg :=
  { dbg := s.dbg
    eqclasses := (s.files.insertionSort (fun a b => a.1 ≤ b.1)).map Prod.snd
    num_samples := s.num_samples
    colorClassPerBuffer := BV_BUF_LEN / s.num_samples }

/-- The loop `for (i = 0, sCntr = w * 64; i < len; i++, sCntr++)` of `find_samples`: the
positions of the set bits of `wrd`, shifted by `sCntr`. -/
def wordSamples (wrd sCntr : Nat) : Nat → Nat → List Nat
  | 0, _ => []
  | k + 1, i =>
    if wrd.testBit i then (sCntr + i) :: wordSamples wrd sCntr k (i + 1)
    else wordSamples wrd sCntr k (i + 1)

/-- The loop `for (w = 0; w <= num_samples / 64; w++)` of `find_samples` over the words of
one bitmap; the first argument counts the iterations left.  The last word has
`len = num_samples % 64` bits, none when `num_samples` is a multiple of 64.  The counters
`w`, `i` and `sCntr` are 32-bit in the source and stay in range for `num_samples < 2 ^ 32`. -/
def wordLoop (bits : List Bool) (num_samples : Nat) : Nat → Nat → Nat → List Nat → List Nat
  | 0, _, _, vec => vec
  | k + 1, w, bucket_offset, vec =>
    wordLoop bits num_samples k (w + 1) (bucket_offset + min 64 (num_samples - w * 64))
      (vec ++ wordSamples (get_int bits bucket_offset (min 64 (num_samples - w * 64)))
        (w * 64) (min 64 (num_samples - w * 64)) 0)

/-- The body of the second loop of `find_samples` for one color-class id: the samples of
its bitmap, read from the buffer file `(id - 1) / B` at the slot `(id - 1) % B`. -/
def samplesOfId (d : LoadedDbg) (eqclass_id : Nat) : List Nat :=
  wordLoop (d.eqclasses.getD ((eqclass_id - 1) / d.colorClassPerBuffer) []) d.num_samples
    (d.num_samples / 64 + 1) 0
    ((eqclass_id - 1) % d.colorClassPerBuffer * d.num_samples) []

/-- The method `find_samples(uniqueKmers)`: the color-class ids of the k-mers that the
filter knows, each with the list of its samples.  `kmerHash` is the hash that the filter
applies to a queried k-mer (the build inserts keys that are hashes already). -/
def find_samples (kmerHash : Nat → Nat) (d : LoadedDbg) (uniqueKmers : List Nat) :
    List (Nat × List Nat) :=
  (((uniqueKmers.map (fun k => d.dbg.query (kmerHash k))).filter (fun c => c ≠ 0)).dedup).map
    (fun c => (c, samplesOfId d c))

/-- The state of the build after the calls `done` of the loop body, with the bitmaps `bms`
of the color-classes in the order of their ids: the filter maps each key to the id of its
bitmap, and the bitmap of class `j + 1` stands at slot `j % B` of the file `j / B`, or of the
buffer when that file is not written yet; every class is the class of some key, and every
file written so far is a full buffer. -/
structure BuildInv (vecHash : List Bool → Nat) (S B cap : Nat) (s : ColoredDbg)
    (done : List (Nat × List Bool)) (bms : List (List Bool)) : Prop where
  ns : s.num_samples = S
  cpb : s.colorClassPerBuffer = B
  buf : s.bv_buffer.length = B * S
  cap : s.dbg.capacity = cap
  slots : s.dbg.slots.map Prod.fst = done.map Prod.fst
  keys : s.eqclass_map.map Prod.fst = bms.map vecHash
  ids : s.eqclass_map.map (fun e => e.2.1) = List.range' 1 bms.length
  sub : ∀ b ∈ bms, ∃ p ∈ done, p.2 = b
  look : ∀ p ∈ done, ∃ j, bms[j]? = some p.2 ∧ s.dbg.query p.1 = j + 1
  nser : s.num_serializations = bms.length / B
  fnames : s.files.map Prod.fst = List.range (bms.length / B)
  stored : ∀ j i, j < bms.length → i < S →
    (if j / B < bms.length / B then (s.files.getD (j / B) (0, [])).2
      else s.bv_buffer).getD (j % B * S + i) false = (bms.getD j []).getD i false
  surj : ∀ j, j < bms.length →
    ∃ p ∈ done, p.2 = bms.getD j [] ∧ s.dbg.query p.1 = j + 1
  flen : ∀ f ∈ s.files, f.2.length = B * S

/-! ## Intermediate states of the merge loop -/

/-- The index after at most `n` passes through the body of the loop
`while (!minheap.empty())` of `construct`, started on the heap `c`: the state at the head of
pass `n + 1`, or the state in which the loop was left earlier (heap empty, `break`, or the
state at the `exit(1)`). -/
def constructAfter (ops : HeapOps) (vecHash : List Bool → Nat) (num_kmers : Nat) :
    Nat → List Iterator → ColoredDbg → Nat → ColoredDbg
  | 0, _, s, _ => s
  | _ + 1, [], s, _ => s
  | n + 1, t :: tl, s, counter =>
    match afterGroup vecHash num_kmers s counter
        (groupLoop ops (heapKeys (t :: tl)) (t :: tl) (zeros s.num_samples)).2.2
        (groupLoop ops (heapKeys (t :: tl)) (t :: tl) (zeros s.num_samples)).2.1 with
    | .error e => e.2
    | .ok (s1, counter1, true) =>
      constructAfter ops vecHash num_kmers n
        (groupLoop ops (heapKeys (t :: tl)) (t :: tl) (zeros s.num_samples)).1 s1 counter1
    | .ok (s1, _, false) => s1

/-- The range invariant of the build: the ids held by the color-class map and the values
held by the main filter lie in `1 .. get_num_eqclasses()`, and the filter holds every key
once. -/
def FilterInRange (s : ColoredDbg) : Prop :=
  (∀ e ∈ s.eqclass_map, 1 ≤ e.2.1 ∧ e.2.1 ≤ s.get_num_eqclasses) ∧
  (∀ e ∈ s.dbg.slots, 1 ≤ e.2 ∧ e.2 ≤ s.get_num_eqclasses) ∧
  (s.dbg.slots.map Prod.fst).Nodup

/-! ## The two-phase build: `reinit` -/

/-- The method `reinit(map)`.  In the source everything but the assignment
`eqclass_map = map` is commented out: the reset of the filter, the call of
`reshuffle_bit_vectors` and the flush of a full buffer. -/
def reinit (s : ColoredDbg) (map : List (Nat × (Nat × Nat))) : ColoredDbg :=
  { s with eqclass_map := map }

/-- Modelled from the spec: the two-phase build on one `ColoredDbg` object (the driver is
not in the sources): `construct` in sampling mode, `reinit` with the map that the caller
re-ordered (`reorder`), `construct` in full mode over the same inputs, `serialize`. -/
def twoPhaseBuild (ops : HeapOps) (vecHash : List Bool → Nat) (s : ColoredDbg)
    (incqfs : List (List Nat)) (num_kmers : Nat)
    (reorder : List (Nat × (Nat × Nat)) → List (Nat × (Nat × Nat))) :
    Option (Except (Fatal × ColoredDbg) ColoredDbg) :=
  match construct ops vecHash s incqfs num_kmers with
  | some (.ok s1) =>
    match construct ops vecHash (reinit s1 (reorder s1.eqclass_map)) incqfs invalid with
    | some (.ok s2) => some (.ok (serialize s2))
    | r => r
  | r => r

/-- The state of the failing input after the sampling phase: the color-classes 1 and 2 fill
the buffer (`|colors| = B = 2`), nothing is flushed. -/
def sampledIndex : ColoredDbg :=
  { eqclass_map := [(1, (1, 1)), (3, (2, 1))]
    dbg := { slots := [(3, 1), (5, 2)], capacity := 8 }
    bv_buffer := [true, false, true, true]
    files := []
    num_samples := 2
    num_serializations := 0
    colorClassPerBuffer := 2 }

/-! ## `find_samples` on a query set -/

/-- The statement `query_eqclass_map[eqclass] += 1` of `find_samples(kmers)` on the entries
`(id, count)` of the map. -/
def eqclassIncr : List (Nat × Nat) → Nat → List (Nat × Nat)
  | [], c => [(c, 1)]
  | e :: rest, c => if e.1 = c then (e.1, e.2 + 1) :: rest else e :: eqclassIncr rest c

/-- The first loop of `find_samples(kmers)`: the map from the color-class ids that the filter
returns for the k-mers of the query to the number of these k-mers; `kmerHash` is the hash
that the filter applies to a queried k-mer. -/
def queryEqclassMap (kmerHash : Nat → Nat) (d : LoadedDbg) (kmers : List Nat) :
    List (Nat × Nat) :=
  kmers.foldl
    (fun m k =>
      if d.dbg.query (kmerHash k) ≠ 0 then eqclassIncr m (d.dbg.query (kmerHash k)) else m)
    []

/-- The loop `for (i = 0, sCntr = w * 64; i < len; i++, sCntr++)` of `find_samples(kmers)`:
`sample_map[sCntr] += count` for every set bit of `wrd`. -/
def wordCounts (wrd sCntr count : Nat) : Nat → Nat → List Nat → List Nat
  | 0, _, sample_map => sample_map
  | k + 1, i, sample_map =>
    wordCounts wrd sCntr count k (i + 1)
      (if wrd.testBit i then
        sample_map.set (sCntr + i) (sample_map.getD (sCntr + i) 0 + count)
      else sample_map)

/-- The loop `for (w = 0; w <= num_samples / 64; w++)` of `find_samples(kmers)` over the
words of one bitmap; the first argument counts the iterations left. -/
def countLoop (bits : List Bool) (num_samples count : Nat) :
    Nat → Nat → Nat → List Nat → List Nat
  | 0, _, _, sample_map => sample_map
  | k + 1, w, bucket_offset, sample_map =>
    countLoop bits num_samples count k (w + 1)
      (bucket_offset + min 64 (num_samples - w * 64))
      (wordCounts (get_int bits bucket_offset (min 64 (num_samples - w * 64))) (w * 64) count
        (min 64 (num_samples - w * 64)) 0 sample_map)

/-- The body of the second loop of `find_samples(kmers)` for one entry `(eqclass_id, count)`
of the map. -/
def addSamplesOfId (d : LoadedDbg) (sample_map : List Nat) (entry : Nat × Nat) : List Nat :=
  countLoop (d.eqclasses.getD ((entry.1 - 1) / d.colorClassPerBuffer) []) d.num_samples
    entry.2 (d.num_samples / 64 + 1) 0
    ((entry.1 - 1) % d.colorClassPerBuffer * d.num_samples) sample_map

/-- The second loop of `find_samples(kmers)` over the entries of the map, in the order in
which the iterator of the `std::unordered_map` yields them. -/
def sampleLoop (d : LoadedDbg) (entries : List (Nat × Nat)) : List Nat :=
  entries.foldl (addSamplesOfId d) (List.replicate d.num_samples 0)

/-- The method `find_samples(kmers)` on a query set, with the entries of the map taken in
the order of their insertion.  No field of the index is written. -/
def find_samples_QuerySet (kmerHash : Nat → Nat) (d : LoadedDbg) (kmers : List Nat) :
    List Nat :=
  sampleLoop d (queryEqclassMap kmerHash d kmers)

/-- Bit `s` of the bitmap of the color-class id `c` in the loaded buffer files. -/
def colorBit (d : LoadedDbg) (c s : Nat) : Bool :=
  (d.eqclasses.getD ((c - 1) / d.colorClassPerBuffer) []).getD
    ((c - 1) % d.colorClassPerBuffer * d.num_samples + s) false

/-- A loaded two-sample index with buffers of two bitmaps: the k-mers 3, 5 and 9 have the
ids 1, 2 and 3 with the bitmaps `{0}`, `{0, 1}` (file 0) and `{1}` (file 1). -/
def exampleLoaded : LoadedDbg :=
  { dbg := { slots := [(3, 1), (5, 2), (9, 3)], capacity := 8 }
    eqclasses := [[true, false, true, true], [false, true]]
    num_samples := 2
    colorClassPerBuffer := 2 }

/-! ## The color graph: `findNeighborEdges` -/

/-- The struct `workItem` of `mst.h`: a k-mer (a `dna::canonical_kmer`, given by its value
`val`) and a color id (`colorIdType`, 32 bits). -/
structure workItem where
  node : Nat
  colorId : Nat
deriving DecidableEq, Repr

/-- The operations of `dna::canonical_kmer` that `neighbors` and `findNeighborEdges` use
(`canonicalKmer.h` is not part of the sources): the list `dna::bases`, the constructor from
`(k, key)`, the shifts `n << b` and `b >> n`, and `operator<`, which orders the `std::set`. -/
structure KmerOps where
  bases : List Nat
  ofKey : Nat → Nat → Nat
  shl : Nat → Nat → Nat
  shr : Nat → Nat → Nat
  lt : Nat → Nat → Bool

/-- The call `result.insert(x)` on a `std::set<workItem>`, kept in increasing order of
`node`: an item equivalent to one of the set is not inserted. -/
def setInsert (ops : KmerOps) : List workItem → workItem → List workItem
  | [], x => [x]
  | y :: rest, x =>
    if ops.lt x.node y.node then x :: y :: rest
    else if ops.lt y.node x.node then y :: setInsert ops rest x
    else y :: rest

/-- The method `MST::exists(cqf, e, eqid)`: `some eqid` when the filter knows the k-mer, with
`eqid` the filter value minus one.  `kmerHash` is the hash that the filter applies to a
queried k-mer. -/
def MST.exists (kmerHash : Nat → Nat) (cqf : CQF) (e : Nat) : Option Nat :=
  if cqf.query (kmerHash e) ≠ 0 then some (cqf.query (kmerHash e) - 1) else none

/-- One `if (exists(...)) { if (eqid != n.colorId) result.insert(...) }` of `neighbors`; the
constructor of `workItem` narrows `eqid` to 32 bits. -/
def neighborStep (ops : KmerOps) (kmerHash : Nat → Nat) (cqf : CQF) (n : workItem)
    (result : List workItem) (e : Nat) : List workItem :=
  match MST.exists kmerHash cqf e with
  | some eqid =>
    if eqid ≠ n.colorId then setInsert ops result { node := e, colorId := eqid % 2 ^ 32 }
    else result
  | none => result

/-- The method `MST::neighbors(cqf, n)`: the set of the neighbours `n.node << b` and
`b >> n.node` that the filter knows with another color id, in iteration order. -/
def MST.neighbors (ops : KmerOps) (kmerHash : Nat → Nat) (cqf : CQF) (n : workItem) :
    List workItem :=
  ops.bases.foldl
    (fun result b =>
      neighborStep ops kmerHash cqf n
        (neighborStep ops kmerHash cqf n result (ops.shl n.node b)) (ops.shr b n.node))
    []

/-- The method `MST::findNeighborEdges(cqf, keyobj, edgeList)` for the filter entry
`keyobj = (key, count)`: the color id of the k-mer is `count - 1` (64 bits) narrowed to
`colorIdType`. -/
def MST.findNeighborEdges (ops : KmerOps) (kmerHash : Nat → Nat) (k : Nat) (cqf : CQF)
    (keyobj : Nat × Nat) (edgeList : List Edge) : List Edge :=
  (MST.neighbors ops kmerHash cqf
      { node := ops.ofKey k keyobj.1
        colorId := (keyobj.2 + (2 ^ 64 - 1)) % 2 ^ 64 % 2 ^ 32 }).foldl
    (fun el nei =>
      if (keyobj.2 + (2 ^ 64 - 1)) % 2 ^ 64 % 2 ^ 32 < nei.colorId then
        el ++ [{ n1 := (keyobj.2 + (2 ^ 64 - 1)) % 2 ^ 64 % 2 ^ 32, n2 := nei.colorId }]
      else el)
    edgeList

/-- The 3-mers over the bases `0 .. 3` as numbers below 64, for worked examples:
`n << b` drops the first base and appends `b`, `b >> n` drops the last and prepends `b`. -/
def exampleKmers : KmerOps :=
  { bases := [0, 1, 2, 3]
    ofKey := fun _ key => key
    shl := fun n b => (n * 4 + b) % 64
    shr := fun b n => n / 4 + b * 16
    lt := fun a b => decide (a < b) }

/-- The k-mers that `neighbors` looks up for the k-mer `u`: `u << b` and `b >> u` for every
base `b`. -/
def neighborKmers (ops : KmerOps) (u : Nat) : List Nat :=
  ops.bases.flatMap (fun b => [ops.shl u b, ops.shr b u])

/-- A filter with two 3-mers that are de-Bruijn neighbours (`20 = 5 << 0`, `5 = 0 >> 20`):
the k-mer 5 has the filter value 3 (color id 2), the k-mer 20 the value 1 (color id 0). -/
def twoKmerFilter : CQF := { slots := [(5, 3), (20, 1)], capacity := 8 }

/-! ## The boundary vector of the specification -/

/-- Modelled from the spec: the array `boundary[]` for the node weights `weights` (in id
order): `total_weight` bits, with a 1 at `sum - 1` for every prefix sum of the weights. -/
def specBoundary (weights : List Nat) : List Bool :=
  (List.range weights.sum).map
    (fun p => decide (∃ i, i < weights.length ∧ (weights.take (i + 1)).sum = p + 1))

/-! ## The edge weights of the merger: `mstBasedHammingDist` -/

/-- The loop of `mstBasedHammingDist` on two decoded colors and its two tail additions
`dist += eq1.size() - i`, `dist += eq2.size() - j`; the first argument bounds the number of
steps. -/
def hammingLoop : Nat → List Nat → List Nat → Nat
  | 0, _, _ => 0
  | _ + 1, [], eq2 => eq2.length
  | _ + 1, a :: eq1, [] => (a :: eq1).length
  | fuel + 1, a :: eq1, b :: eq2 =>
    if a = b then hammingLoop fuel eq1 eq2
    else if a < b then hammingLoop fuel eq1 (b :: eq2) + 1
    else hammingLoop fuel (a :: eq1) eq2 + 1

/-- The method `mstBasedHammingDist(eqid1, eqid2, srcEq, isFirst)`; `decode` stands for
`buildMSTBasedColor` on the MST of the index chosen by `isFirst`. -/
def mstBasedHammingDist (decode : Nat → List Nat) (eqid1 eqid2 : Nat) : Nat :=
  hammingLoop ((decode eqid1).length + (decode eqid2).length + 1) (decode eqid1) (decode eqid2)

/-- The weight `w = w1 + w2` that `calcHammingDistInParallel` (MST-based branch) computes for
an edge of the color graph of the merged index. -/
def mstEdgeWeight (m : MergeInput) (zero : Nat) (edge : Edge) : Nat :=
  mstBasedHammingDist m.decode1 (m.pairOf zero edge.n1).1 (m.pairOf zero edge.n2).1 +
    mstBasedHammingDist m.decode2 (m.pairOf zero edge.n1).2 (m.pairOf zero edge.n2).2

/-- The call `localWeightBucket[j].push_back(edge)`. -/
def bucketPush (buckets : List (List Edge)) (j : Nat) (edge : Edge) : List (List Edge) :=
  buckets.set j (buckets.getD j [] ++ [edge])

/-- The loop of `calcHammingDistInParallel` (MST-based branch) over the edges of the slice
of the worker: an edge of weight `w` goes to the bucket `w - 1`, a weight 0 is fatal. -/
def hammingEdges (m : MergeInput) (zero : Nat) :
    List (List Edge) → List Edge → Option (List (List Edge))
  | localWeightBucket, [] => some localWeightBucket
  | localWeightBucket, edge :: rest =>
    if mstEdgeWeight m zero edge = 0 then none
    else hammingEdges m zero
      (bucketPush localWeightBucket (mstEdgeWeight m zero edge - 1) edge) rest

/-- A merge of the indices `I1 = {A, B}` and `I2 = {C}`: the old colors of `I1` are
`0 = {A, B}` and `1 = {A}` (root 2), the old color of `I2` is `0 = {C}` (root 1); the new
color 0 is the pair `(AB, C)`, the new color 1 the pair `(A, none)`, the new root is 2. -/
def exampleMerge : MergeInput :=
  { decode1 := fun c => if c = 0 then [0, 1] else if c = 1 then [0] else []
    decode2 := fun c => if c = 0 then [0] else []
    mst1Zero := 2
    mst2Zero := 1
    numOfFirstMantisSamples := 2
    colorPairs := [(0, 0), (1, 1)] }

/-! ## The bitmap reader of the MST builder: `buildColor`, `getBucketId` -/

/-- The constant `mantis::NUM_BV_BUFFER` of `mantisconfig.hpp`. -/
def NUM_BV_BUFFER : Nat := 20000000

/-- The loop `while (i < numSamples)` of `MST::buildColor`, which reads the bitmap word by
word from the bit `offset * numSamples` of the buffer `bv`; the first argument bounds the
number of iterations. -/
def buildColorLoop (bv : List Bool) (numSamples offset : Nat) :
    Nat → Nat → Nat → List Nat → List Nat
  | 0, _, _, eq => eq
  | fuel + 1, i, wrdcnt, eq =>
    if i < numSamples then
      buildColorLoop bv numSamples offset fuel (i + min (numSamples - i) 64) (wrdcnt + 1)
        (eq.set wrdcnt (get_int bv (offset * numSamples + i) (min (numSamples - i) 64)))
    else eq

/-- The method `MST::buildColor(eq, eqid, bv)`: the words of the bitmap of the color `eqid`,
read from the slot `eqid % NUM_BV_BUFFER` of the buffer `bv`; nothing is read for the
root. -/
def MST.buildColor (numSamples zero : Nat) (eq : List Nat) (eqid : Nat) (bv : List Bool) :
    List Nat :=
  if eqid = zero then eq
  else buildColorLoop bv numSamples (eqid % NUM_BV_BUFFER) numSamples 0 0 eq

/-- The method `MST::getBucketId(c1, c2)`: the bucket `cb1 * num_of_ccBuffers + cb2` of the
pair of buffers `cb1`, `cb2` that hold the two colors. -/
def MST.getBucketId (zero num_of_ccBuffers c1 c2 : Nat) : Nat :=
  if (if c1 = zero ∨ c1 > c2 then c1 else c2) = zero then
    (if c1 = zero ∨ c1 > c2 then c2 else c1) / NUM_BV_BUFFER * num_of_ccBuffers +
      (if c1 = zero ∨ c1 > c2 then c2 else c1) / NUM_BV_BUFFER
  else
    (if c1 = zero ∨ c1 > c2 then c2 else c1) / NUM_BV_BUFFER * num_of_ccBuffers +
      (if c1 = zero ∨ c1 > c2 then c1 else c2) / NUM_BV_BUFFER

/-! ## The constructor for a merge: `concat_sample_id_maps` -/

/-- The fields of `ColoredDbg` that the constructor for a merge
`ColoredDbg(cdbg1, cdbg2, prefix, flag)` reads and sets.  `sampleid_map` lists the entries
`id ↦ name` of the `std::unordered_map` in the order in which its iterator yields them. -/
structure SampleDbg where
  sampleid_map : List (Nat × String)
  num_samples : Nat
  num_serializations : Nat
  colorClassPerBuffer : Nat
  bv_buffer : List Bool
deriving DecidableEq, Repr

/-- The assignment `sampleid_map[id] = name`: the entry of the key is overwritten, a key that
the map does not hold gets a new entry. -/
def sampleAssign : List (Nat × String) → Nat → String → List (Nat × String)
  | [], id, name => [(id, name)]
  | e :: rest, id, name =>
    if e.1 = id then (id, name) :: rest else e :: sampleAssign rest id name

/-- The method `get_sample(id)`, whose argument is a 32-bit integer: the name stored for the
id, the empty string when there is none. -/
def get_sample (sampleid_map : List (Nat × String)) (id : Nat) : String :=
  match sampleid_map.find? (fun e => e.1 == id % 2 ^ 32) with
  | some e => e.2
  | none => ""

/-- The method `concat_sample_id_maps(cdbg1, cdbg2)` on the map `sampleid_map` of the new
index: the entries of `cdbg1` under their ids, then those of `cdbg2` under their ids shifted
by `cdbg1.get_num_samples()` (64-bit addition). -/
def concat_sample_id_maps (sampleid_map : List (Nat × String)) (cdbg1 cdbg2 : SampleDbg) :
    List (Nat × String) :=
  cdbg2.sampleid_map.foldl
    (fun m idSample => sampleAssign m ((cdbg1.num_samples + idSample.1) % 2 ^ 64) idSample.2)
    (cdbg1.sampleid_map.foldl (fun m idSample => sampleAssign m idSample.1 idSample.2)
      sampleid_map)

/-- The constructor `ColoredDbg(cdbg1, cdbg2, prefix, flag)` of the index of a merge: an empty
buffer, the sum of the sample counts (64 bits), then
`colorClassPerBuffer = mantis::BV_BUF_LEN / num_samples`, and the concatenated sample-id map.
The integer division by `num_samples = 0` ends the process, so there is no index then
(`none`). -/
def ColoredDbg.merged (BV_BUF_LEN : Nat) (cdbg1 cdbg2 : SampleDbg) : Option SampleDbg :=
  if (cdbg1.num_samples + cdbg2.num_samples) % 2 ^ 64 = 0 then none
  else
    some
      { sampleid_map := concat_sample_id_maps [] cdbg1 cdbg2
        num_samples := (cdbg1.num_samples + cdbg2.num_samples) % 2 ^ 64
        num_serializations := 0
        colorClassPerBuffer := BV_BUF_LEN / ((cdbg1.num_samples + cdbg2.num_samples) % 2 ^ 64)
        bv_buffer := [] }

/-- An index without samples, as the default constructor `ColoredDbg() {}` with zeroed
fields. -/
def exampleNoSamples : SampleDbg :=
  { sampleid_map := []
    num_samples := 0
    num_serializations := 0
    colorClassPerBuffer := 0
    bv_buffer := [] }

/-- An index over the two samples `a`, `b`, whose map yields the id 1 first. -/
def exampleSamples1 : SampleDbg :=
  { sampleid_map := [(1, "b"), (0, "a")]
    num_samples := 2
    num_serializations := 1
    colorClassPerBuffer := 4
    bv_buffer := [] }

/-- An index over the single sample `c`. -/
def exampleSamples2 : SampleDbg :=
  { sampleid_map := [(0, "c")]
    num_samples := 1
    num_serializations := 1
    colorClassPerBuffer := 8
    bv_buffer := [] }

/-! ## The reshuffle of the buffer: `reshuffle_bit_vectors` -/

/-- The two ways in which `reshuffle_bit_vectors` ends the process: the `exit(1)` for a hash
that `eqclass_map` does not hold, and the failure of its `assert`. -/
inductive ReshuffleExit where
  | hashNotFound
  | assertFailed
deriving DecidableEq, Repr

/-- The index `(id - 1) * num_samples` of the first bit of the slot of a color-class id in
the sampling phase, in 64-bit arithmetic. -/
def slotStart (id num_samples : Nat) : Nat :=
  (id + (2 ^ 64 - 1)) % 2 ^ 64 * num_samples % 2 ^ 64

/-- The loop `for (i = 0; i < num_samples; i++, src_idx++, dest_idx++)` of
`reshuffle_bit_vectors`: every set bit of the source slot is set in the new buffer (the
32-bit counter `i` reaches `num_samples` for `num_samples < 2 ^ 32`). -/
def copyBits (bv_buffer : List Bool) (num_samples src_idx dest_idx : Nat)
    (new_bv_buffer : List Bool) : List Bool :=
  (List.range num_samples).foldl
    (fun nb i => if bv_buffer.getD (src_idx + i) false then nb.set (dest_idx + i) true else nb)
    new_bv_buffer

/-- The loop `for (auto &it_input : map)` of `reshuffle_bit_vectors` over the entries of the
caller's map, in the order in which its iterator yields them. -/
def reshuffleLoop (s : ColoredDbg) :
    List (Nat × (Nat × Nat)) → List Bool → Except ReshuffleExit (List Bool)
  | [], new_bv_buffer => .ok new_bv_buffer
  | it_input :: rest, new_bv_buffer =>
    match mapFind s.eqclass_map it_input.1 with
    | none => .error ReshuffleExit.hashNotFound
    | some it_local =>
      if it_local.1 ≤ s.colorClassPerBuffer ∧ it_input.2.1 ≤ s.colorClassPerBuffer then
        reshuffleLoop s rest
          (copyBits s.bv_buffer s.num_samples (slotStart it_local.1 s.num_samples)
            (slotStart it_input.2.1 s.num_samples) new_bv_buffer)
      else .error ReshuffleExit.assertFailed

/-- The method `reshuffle_bit_vectors(map)`: a new buffer of `colorClassPerBuffer` slots into
which the bitmap of every entry of `map` is copied from the slot of its id in `eqclass_map`
to the slot of its id in `map`. -/
def reshuffle_bit_vectors (s : ColoredDbg) (map : List (Nat × (Nat × Nat))) :
    Except ReshuffleExit ColoredDbg :=
  match reshuffleLoop s map (zeros (s.colorClassPerBuffer * s.num_samples)) with
  | .ok new_bv_buffer => .ok { s with bv_buffer := new_bv_buffer }
  | .error e => .error e

/-- The `num_samples` bits of the slot `j` of a buffer. -/
def slotBits (bv_buffer : List Bool) (num_samples j : Nat) : List Bool :=
  (List.range num_samples).map (fun i => bv_buffer.getD (j * num_samples + i) false)

/-! ## The color graph: `buildEdgeSets` -/

/-- The constant `MAX_ALLOWED_TMP_EDGES` of `mst.cc`. -/
def MAX_ALLOWED_TMP_EDGES : Nat := 31250000

/-- The variables of a worker `buildPairedColorIdEdgesInParallel`: the edges written to its
file `tmp<threadId>` so far, the count `cnt` that ends up in the header of the file, the
pending `edgeList`, `localMaxId` and `kmerCntr`. -/
structure PairedState where
  tmpfile : List Edge
  cnt : Nat
  edgeList : List Edge
  localMaxId : Nat
  kmerCntr : Nat
deriving DecidableEq, Repr

/-- The body of the loop `while (!it.reachedHashLimit())` of
`buildPairedColorIdEdgesInParallel` for the filter entry `keyObject = (key, count)`:
`curEqId = count - 1` (64 bits), the edges of the k-mer, and the write of a full list. -/
def pairedStep (ops : KmerOps) (kmerHash : Nat → Nat) (k : Nat) (cqf : CQF)
    (tmpEdgeListSize : Nat) (st : PairedState) (keyObject : Nat × Nat) : PairedState :=
  if (MST.findNeighborEdges ops kmerHash k cqf keyObject st.edgeList).length ≥
      tmpEdgeListSize then
    { tmpfile := st.tmpfile ++ MST.findNeighborEdges ops kmerHash k cqf keyObject st.edgeList
      cnt := st.cnt + (MST.findNeighborEdges ops kmerHash k cqf keyObject st.edgeList).length
      edgeList := []
      localMaxId :=
        if (keyObject.2 + (2 ^ 64 - 1)) % 2 ^ 64 > st.localMaxId then
          (keyObject.2 + (2 ^ 64 - 1)) % 2 ^ 64
        else st.localMaxId
      kmerCntr := st.kmerCntr + 1 }
  else
    { tmpfile := st.tmpfile
      cnt := st.cnt
      edgeList := MST.findNeighborEdges ops kmerHash k cqf keyObject st.edgeList
      localMaxId :=
        if (keyObject.2 + (2 ^ 64 - 1)) % 2 ^ 64 > st.localMaxId then
          (keyObject.2 + (2 ^ 64 - 1)) % 2 ^ 64
        else st.localMaxId
      kmerCntr := st.kmerCntr + 1 }

/-- The method `buildPairedColorIdEdgesInParallel` of one worker, over the filter entries
`entries` that its iterator yields between its limits (`setIteratorLimits` belongs to the
filter library): the loop, then the write of the pending edges. -/
def buildPairedColorIdEdgesInParallel (ops : KmerOps) (kmerHash : Nat → Nat) (k : Nat)
    (cqf : CQF) (nThreads : Nat) (entries : List (Nat × Nat)) : PairedState :=
  { entries.foldl (pairedStep ops kmerHash k cqf (MAX_ALLOWED_TMP_EDGES / nThreads))
      { tmpfile := [], cnt := 0, edgeList := [], localMaxId := 0, kmerCntr := 0 } with
    tmpfile :=
      (entries.foldl (pairedStep ops kmerHash k cqf (MAX_ALLOWED_TMP_EDGES / nThreads))
        { tmpfile := [], cnt := 0, edgeList := [], localMaxId := 0, kmerCntr := 0 }).tmpfile ++
      (entries.foldl (pairedStep ops kmerHash k cqf (MAX_ALLOWED_TMP_EDGES / nThreads))
        { tmpfile := [], cnt := 0, edgeList := [], localMaxId := 0, kmerCntr := 0 }).edgeList
    cnt :=
      (entries.foldl (pairedStep ops kmerHash k cqf (MAX_ALLOWED_TMP_EDGES / nThreads))
        { tmpfile := [], cnt := 0, edgeList := [], localMaxId := 0, kmerCntr := 0 }).cnt +
      (entries.foldl (pairedStep ops kmerHash k cqf (MAX_ALLOWED_TMP_EDGES / nThreads))
        { tmpfile := [], cnt := 0, edgeList := [], localMaxId := 0,
          kmerCntr := 0 }).edgeList.length }

/-- The comparator of the `std::sort` calls of `buildEdgeSets`:
`e1.n1 == e2.n1 ? e1.n2 < e2.n2 : e1.n1 < e2.n1`. -/
def edgeLt (e1 e2 : Edge) : Bool :=
  if e1.n1 = e2.n1 then decide (e1.n2 < e2.n2) else decide (e1.n1 < e2.n1)

/-- The call `std::sort(begin, end, edgeLt)`: the sorted arrangement of the list, which is
unique because two edges that the comparator does not separate are equal. -/
def sortEdges (l : List Edge) : List Edge := l.insertionSort (fun a b => edgeLt b a = false)

/-- The scan of `std::unique` after the element `last` that was kept last. -/
def uniqueFrom (last : Edge) : List Edge → List Edge
  | [] => []
  | b :: rest =>
    if last.n1 = b.n1 ∧ last.n2 = b.n2 then uniqueFrom last rest else b :: uniqueFrom b rest

/-- The statement `l.erase(std::unique(begin, end, eq), end)` with the predicate
`e1.n1 == e2.n1 and e1.n2 == e2.n2`: of every run of equal edges the first is kept. -/
def uniqueEdges : List Edge → List Edge
  | [] => []
  | a :: rest => a :: uniqueFrom a rest

/-- The body of the loop of `buildEdgeSets` over the scratch files, for the edges read from
one file: sort, unique, and `edgeBucketList[getBucketId(n1, n2)].push_back(edge)`. -/
def reduceFile (zero num_of_ccBuffers : Nat) (edgeBucketList : List (List Edge))
    (file : List Edge) : List (List Edge) :=
  (uniqueEdges (sortEdges file)).foldl
    (fun bl edge => bucketPush bl (MST.getBucketId zero num_of_ccBuffers edge.n1 edge.n2) edge)
    edgeBucketList

/-- The reduction step of `buildEdgeSets` on a fresh `MST` object: `edgeBucketList` is
resized to `num_of_ccBuffers * num_of_ccBuffers` buckets, the edges read from the scratch
files are distributed, and every bucket is sorted and made unique.  `zero` is the value that
the field has at that point. -/
def reduceEdges (zero num_of_ccBuffers : Nat) (scratch : List (List Edge)) :
    List (List Edge) :=
  (scratch.foldl (reduceFile zero num_of_ccBuffers)
    (List.replicate (num_of_ccBuffers * num_of_ccBuffers) [])).map
    (fun bucket => uniqueEdges (sortEdges bucket))

/-- The fields of `MST` that `buildEdgeSets` sets. -/
structure EdgeSets where
  edgeBucketList : List (List Edge)
  num_colorClasses : Nat
  zero : Nat
deriving DecidableEq, Repr

/-- The maximum `maxId` that the workers of `buildEdgeSets` leave, each committing
`maxId = localMaxId > maxId ? localMaxId : maxId` under the mutex. -/
def commitMaxId (workers : List PairedState) : Nat :=
  workers.foldl (fun maxId w => if w.localMaxId > maxId then w.localMaxId else maxId) 0

/-- The method `buildEdgeSets` on a fresh `MST` object whose field `zero` holds `zero0`:
worker `i` runs over the filter entries `parts[i]`; `num_colorClasses = maxId + 1`; the
scratch files are read back (`cnt` edges each) and reduced; then `zero` becomes
`num_colorClasses` (narrowed to `colorIdType`), a root edge is pushed for every color id, and
`num_colorClasses` is incremented.  The loop counter `colorId` has 32 bits: the loop ends only
if `num_colorClasses < 2 ^ 32`, otherwise the result is `none`. -/
def MST.buildEdgeSets (ops : KmerOps) (kmerHash : Nat → Nat) (k : Nat) (cqf : CQF)
    (nThreads num_of_ccBuffers zero0 : Nat) (parts : List (List (Nat × Nat))) :
    Option EdgeSets :=
  let workers := (List.range nThreads).map
    (fun i => buildPairedColorIdEdgesInParallel ops kmerHash k cqf nThreads (parts.getD i []))
  let num_colorClasses := (commitMaxId workers + 1) % 2 ^ 64
  let zero := num_colorClasses % 2 ^ 32
  if num_colorClasses < 2 ^ 32 then
    some
      { edgeBucketList :=
          (List.range num_colorClasses).foldl
            (fun bl colorId =>
              bucketPush bl (MST.getBucketId zero num_of_ccBuffers colorId zero)
                { n1 := colorId, n2 := zero })
            (reduceEdges zero0 num_of_ccBuffers (workers.map (fun w => w.tmpfile.take w.cnt)))
        num_colorClasses := (num_colorClasses + 1) % 2 ^ 64
        zero := zero }
  else none

/-! ## The edge weights of the builder: `hammingDist` -/

/-- The function `sdsl::bits::cnt(x)`: the number of set bits of a 64-bit word. -/
def cnt (x : Nat) : Nat := ((List.range 64).filter (fun j => x.testBit j)).length

/-- The cache of one worker of `calcHammingDistInParallel`: the local variables `srcId` and
`srcBV`, which `hammingDist` receives by reference as `srcId` and `srcEq`. -/
structure SrcCache where
  srcId : Nat
  srcEq : List Nat
deriving DecidableEq, Repr

/-- The cache at the start of a worker: `srcId = (uint64_t) -1`, `srcBV` empty. -/
def SrcCache.empty : SrcCache := { srcId := 2 ^ 64 - 1, srcEq := [] }

/-- The loop `for (i = 0; i < eq1.size(); i++) if (eq1[i] != eq2[i]) dist += cnt(eq1[i] ^ eq2[i])`
of `hammingDist`. -/
def distLoop (eq1 eq2 : List Nat) : Nat :=
  (List.range eq1.length).foldl
    (fun dist i =>
      if eq1.getD i 0 ≠ eq2.getD i 0 then dist + cnt (eq1.getD i 0 ^^^ eq2.getD i 0) else dist)
    0

/-- The method `hammingDist(eqid1, eqid2, srcId, srcEq)` on the buffers `bvp1` and `bvp2` of
the bucket cell: the distance and the cache that the call leaves.  The vectors have
`(numSamples - 1) / 64 + 1` words, computed in the 32 bits of `numSamples`. -/
def MST.hammingDist (numSamples zero : Nat) (bvp1 bvp2 : List Bool) (eqid1 eqid2 : Nat)
    (c : SrcCache) : Nat × SrcCache :=
  if eqid1 = c.srcId then
    (distLoop c.srcEq
      (MST.buildColor numSamples zero
        (List.replicate ((numSamples + (2 ^ 32 - 1)) % 2 ^ 32 / 64 + 1) 0) eqid2 bvp2), c)
  else
    (distLoop
      (MST.buildColor numSamples zero
        (List.replicate ((numSamples + (2 ^ 32 - 1)) % 2 ^ 32 / 64 + 1) 0) eqid1 bvp1)
      (MST.buildColor numSamples zero
        (List.replicate ((numSamples + (2 ^ 32 - 1)) % 2 ^ 32 / 64 + 1) 0) eqid2 bvp2),
      { srcId := eqid1
        srcEq := MST.buildColor numSamples zero
          (List.replicate ((numSamples + (2 ^ 32 - 1)) % 2 ^ 32 / 64 + 1) 0) eqid1 bvp1 })

/-- The values that a sequence of `hammingDist` calls of one worker returns, one call per edge
`(n1, n2)` of the list, the cache being handed from call to call. -/
def hammingDists (numSamples zero : Nat) (bvp1 bvp2 : List Bool) :
    SrcCache → List Edge → List Nat
  | _, [] => []
  | c, edge :: rest =>
    (MST.hammingDist numSamples zero bvp1 bvp2 edge.n1 edge.n2 c).1 ::
      hammingDists numSamples zero bvp1 bvp2
        (MST.hammingDist numSamples zero bvp1 bvp2 edge.n1 edge.n2 c).2 rest

/-- Bit `i` of the bitmap of the color `eqid` as `buildColor` finds it in the buffer `bv`:
the bit `i` of the slot `eqid % NUM_BV_BUFFER`, and 0 for the root. -/
def bitmapBit (numSamples zero : Nat) (bv : List Bool) (eqid i : Nat) : Bool :=
  if eqid = zero then false else bv.getD (eqid % NUM_BV_BUFFER * numSamples + i) false

/-- The Hamming distance `popcount(bitmap[a] XOR bitmap[b])` of the bitmaps of the colors `a`
(in `bvp1`) and `b` (in `bvp2`): the number of samples in which they differ. -/
def popcountXor (numSamples zero : Nat) (bvp1 bvp2 : List Bool) (a b : Nat) : Nat :=
  ((List.range numSamples).filter
    (fun i => bitmapBit numSamples zero bvp1 a i != bitmapBit numSamples zero bvp2 b i)).length

/-- A buffer of three samples with the bitmaps `{0}`, `{0, 1, 2}` and `{1}` in the slots 0,
1 and 2. -/
def exampleBuffer : List Bool := [true, false, false, true, true, true, false, true, false]

/-- The breadth-first pass of `encodeColorClassUsingMST` over the adjacency lists `mst` that
`kruskalMSF` left: `parentbv` and `weightbv` are `sdsl::int_vector`s of the widths
`ceil(log2(num_colorClasses))` and `ceil(log2(numSamples))`, the root `zero` is its own
parent with the weight 1, and the queue starts with the root.  `fuel` bounds the number of
nodes taken from the queue. -/
def bfsPass (mst : List (List (Nat × Nat))) (numSamples num_colorClasses zero fuel : Nat) :
    Option BfsState :=
  bfsLoop mst (intWidth (ceilLog2 num_colorClasses)) (intWidth (ceilLog2 numSamples)) fuel
    { q := [zero]
      parentbv := ivSet (intWidth (ceilLog2 num_colorClasses))
        (List.replicate num_colorClasses 0) zero zero
      weightbv := ivSet (intWidth (ceilLog2 numSamples))
        (List.replicate num_colorClasses 0) zero 1
      visited := List.replicate num_colorClasses false }

/-! ## The invariant of the breadth-first pass -/

/-- Adjacency lists `mst` over the ids `0 .. n - 1` that describe a tree: the entries are ids
below `n`, no list names its own node or a node twice, an entry `(x, w)` of the list of `p`
has its mirror `(p, w)` in the list of `x`, and the graph is acyclic and connected. -/
structure TreeAdj (n : Nat) (mst : List (List (Nat × Nat))) : Prop where
  range : ∀ p, ∀ e ∈ mst.getD p [], e.1 < n
  irrefl : ∀ p, ∀ e ∈ mst.getD p [], e.1 ≠ p
  nodup : ∀ p, ((mst.getD p []).map Prod.fst).Nodup
  symm : ∀ p x w, (x, w) ∈ mst.getD p [] → (p, w) ∈ mst.getD x []
  acyclic : (mstGraph n mst).IsAcyclic
  connected : ∀ a b : Fin n, (mstGraph n mst).Reachable a b

/-- The edges of the graph of `mst` that have a visited endpoint. -/
def visitedGraph (n : Nat) (mst : List (List (Nat × Nat))) (visited : List Bool) :
    SimpleGraph (Fin n) where
  Adj a b := (mstGraph n mst).Adj a b ∧
    (visited.getD a.val false = true ∨ visited.getD b.val false = true)
  symm := fun _ _ h => ⟨h.1.symm, h.2.symm⟩
  loopless := fun _ h => h.1.ne rfl

/-- The invariant of the breadth-first pass at the head of the loop `while (!q.empty())`,
with the depth `d` of the discovered nodes: the queue holds distinct unvisited nodes; the root
is visited or heads the queue; every discovered node other than the root has a visited parent
one level up, whose adjacency list holds it with the stored weight; the neighbours of a
visited node are discovered; and every discovered node is joined to the root by edges with a
visited endpoint. -/
structure BfsInv (mst : List (List (Nat × Nat))) (n zero ww : Nat) (s : BfsState)
    (d : Nat → Nat) : Prop where
  lenP : s.parentbv.length = n
  lenW : s.weightbv.length = n
  lenV : s.visited.length = n
  qlt : ∀ x ∈ s.q, x < n ∧ s.visited.getD x false = false
  qnd : s.q.Nodup
  root : s.visited.getD zero false = true ∨ s.q.head? = some zero
  rootP : s.parentbv.getD zero 0 = zero
  rootW : s.weightbv.getD zero 0 = 1
  rootD : d zero = 0
  par : ∀ x, (x ∈ s.q ∨ s.visited.getD x false = true) → x ≠ zero →
    s.visited.getD (s.parentbv.getD x 0) false = true ∧
    ∃ w, (x, w) ∈ mst.getD (s.parentbv.getD x 0) [] ∧ s.weightbv.getD x 0 = w % 2 ^ ww ∧
      d x = d (s.parentbv.getD x 0) + 1
  closed : ∀ p, s.visited.getD p false = true →
    ∀ e ∈ mst.getD p [], e.1 ∈ s.q ∨ s.visited.getD e.1 false = true
  reach : ∀ x (hx : x < n) (hz : zero < n),
    (x ∈ s.q ∨ s.visited.getD x false = true) →
    (visitedGraph n mst s.visited).Reachable ⟨x, hx⟩ ⟨zero, hz⟩

/-! ## The delta list of the builder: `getDeltaList` -/

/-- The two nested loops of `getDeltaList` over the words `i` of the two colors and the bits
`j` of their XOR: the index `i * 64 + j` of every set bit is pushed to `res` (the index stays
below `2 ^ 32`, since the vectors have at most `2 ^ 26` words). -/
def deltaLoop (eq1 eq2 : List Nat) : List Nat :=
  (List.range eq1.length).foldl
    (fun res i =>
      (List.range 64).foldl
        (fun res j =>
          if ((eq1.getD i 0 ^^^ eq2.getD i 0) >>> j) &&& 1 ≠ 0 then res ++ [i * 64 + j]
          else res)
        res)
    []

/-- The method `MST::getDeltaList(eqid1, eqid2)` on the buffers `bvp1` and `bvp2` of the
bucket cell: nothing for equal ids; otherwise the ids are put in increasing order, the smaller
one is read from `bvp1` and the larger one from `bvp2`.  The vectors have
`(numSamples - 1) / 64 + 1` words, computed in the 32 bits of `numSamples`. -/
def MST.getDeltaList (numSamples zero : Nat) (bvp1 bvp2 : List Bool) (eqid1 eqid2 : Nat) :
    List Nat :=
  if eqid1 = eqid2 then []
  else
    deltaLoop
      (MST.buildColor numSamples zero
        (List.replicate ((numSamples + (2 ^ 32 - 1)) % 2 ^ 32 / 64 + 1) 0)
        (if eqid1 > eqid2 then eqid2 else eqid1) bvp1)
      (MST.buildColor numSamples zero
        (List.replicate ((numSamples + (2 ^ 32 - 1)) % 2 ^ 32 / 64 + 1) 0)
        (if eqid1 > eqid2 then eqid1 else eqid2) bvp2)

/-! ## The states of the disjoint sets of `mst.h` -/

/-- The states of the `DisjointSets` of `mst.h` over `n` elements that are reached from the
constructor by calls of `merge` and `find` on elements below `n` that return. -/
inductive DisjointSets.Reached (n : Nat) : DisjointSets → Prop
  | init : DisjointSets.Reached n (DisjointSets.init n)
  | merge (ds ds2 : DisjointSets) (fuel x y edgeW : Nat) :
      DisjointSets.Reached n ds → x < n → y < n → ds.merge fuel x y edgeW = some ds2 →
      DisjointSets.Reached n ds2
  | find (ds ds2 : DisjointSets) (fuel u r : Nat) :
      DisjointSets.Reached n ds → u < n → ds.find fuel u = some (ds2, r) →
      DisjointSets.Reached n ds2

/-! ## The packed disjoint sets of `mstMerger.h` -/

/-- The struct `DisjointSets` of `mstMerger.h`: `els` is an `sdsl::int_vector<>` whose cells
have `width` bits; bit 0 of a cell says that the element is its own parent, the other bits
hold the parent or the rank. -/
structure Merger.DisjointSets where
  els : List Nat
  width : Nat
  n : Nat
deriving DecidableEq, Repr

/-- The constructor `DisjointSets(n)` of `mstMerger.h`:
`els = sdsl::int_vector<>(n, 0, ceil(log2(n)) + 1)`; the loop that made every element its own
parent is commented out. -/
def Merger.DisjointSets.init (n : Nat) : Merger.DisjointSets :=
  { els := List.replicate n 0, width := intWidth (ceilLog2 n + 1), n := n }

/-- The method `selfParent(idx)`: `els[idx] & 1ULL`. -/
def Merger.DisjointSets.selfParent (ds : Merger.DisjointSets) (idx : Nat) : Bool :=
  ds.els.getD idx 0 &&& 1 != 0

/-- The method `setParent(idx, parentIdx)`:
`els[idx] = (parentIdx << 1ULL) | (idx == parentIdx)`. -/
def Merger.DisjointSets.setParent (ds : Merger.DisjointSets) (idx parentIdx : Nat) :
    Merger.DisjointSets :=
  { ds with
    els := ivSet ds.width ds.els idx
      ((parentIdx <<< 1) % 2 ^ 64 ||| (if idx = parentIdx then 1 else 0)) }

/-- The method `getParent(idx)`. -/
def Merger.DisjointSets.getParent (ds : Merger.DisjointSets) (idx : Nat) : Nat :=
  if ds.selfParent idx then idx else ds.els.getD idx 0 >>> 1

/-- The method `find(u)` of `mstMerger.h`:
`if (not selfParent(u)) setParent(u, find(u)); return getParent(u);` (the recursive call is on
`u` itself).  The first argument bounds the depth of the recursion; `none` says that the bound
was hit. -/
def Merger.DisjointSets.find : Nat → Merger.DisjointSets → Nat →
    Option (Merger.DisjointSets × Nat)
  | 0, _, _ => none
  | fuel + 1, ds, u =>
    if !ds.selfParent u then
      match Merger.DisjointSets.find fuel ds u with
      | none => none
      | some (ds1, r) => some (ds1.setParent u r, (ds1.setParent u r).getParent u)
    else some (ds, ds.getParent u)

/-- The method `getRank(idx)`: `els[find(idx)] >> 1`. -/
def Merger.DisjointSets.getRank (fuel : Nat) (ds : Merger.DisjointSets) (idx : Nat) :
    Option (Merger.DisjointSets × Nat) :=
  match ds.find fuel idx with
  | none => none
  | some (ds1, par) => some (ds1, ds1.els.getD par 0 >>> 1)

/-- The method `incrementRank(idx)`: with `parIdx = find(idx)` and
`rank = (els[parIdx] >> 1) + 1`, the assignment `els[parIdx] = (rank << 1ULL) & 1ULL`. -/
def Merger.DisjointSets.incrementRank (fuel : Nat) (ds : Merger.DisjointSets) (idx : Nat) :
    Option Merger.DisjointSets :=
  match ds.find fuel idx with
  | none => none
  | some (ds1, parIdx) =>
    some { ds1 with
      els := ivSet ds1.width ds1.els parIdx
        (((((ds1.els.getD parIdx 0 >>> 1) + 1) % 2 ^ 64) <<< 1) % 2 ^ 64 &&& 1) }

/-- The method `merge(x, y, edgeW)` of `mstMerger.h`: the two roots are found, they are
swapped when `getRank(x) <= getRank(y)` (with `incrementRank(x)` after the swap when the
ranks are equal), and `setParent(x, y)` ends the call.  The two operands of a comparison are
evaluated from left to right. -/
def Merger.DisjointSets.merge (fuel : Nat) (ds : Merger.DisjointSets) (x y edgeW : Nat) :
    Option Merger.DisjointSets :=
  match ds.find fuel x with
  | none => none
  | some (ds1, x1) =>
    match ds1.find fuel y with
    | none => none
    | some (ds2, y1) =>
      match ds2.getRank fuel x1 with
      | none => none
      | some (ds3, rx) =>
        match ds3.getRank fuel y1 with
        | none => none
        | some (ds4, ry) =>
          if rx ≤ ry then
            match ds4.getRank fuel y1 with
            | none => none
            | some (ds5, rx2) =>
              match ds5.getRank fuel x1 with
              | none => none
              | some (ds6, ry2) =>
                if rx2 = ry2 then
                  match ds6.incrementRank fuel y1 with
                  | none => none
                  | some ds7 => some (ds7.setParent y1 x1)
                else some (ds6.setParent y1 x1)
          else some (ds4.setParent x1 y1)

/-- The states of the packed `DisjointSets` over `n` elements that are reached from the
constructor by calls of `merge` that return. -/
inductive Merger.DisjointSets.Reached (n : Nat) : Merger.DisjointSets → Prop
  | init : Merger.DisjointSets.Reached n (Merger.DisjointSets.init n)
  | merge (ds ds2 : Merger.DisjointSets) (fuel x y edgeW : Nat) :
      Merger.DisjointSets.Reached n ds → ds.merge fuel x y edgeW = some ds2 →
      Merger.DisjointSets.Reached n ds2

/-- Two elements that are their own parents, of the ranks 0 and 1, in cells of two bits. -/
def packedRoots : Merger.DisjointSets := { els := [1, 3], width := 2, n := 2 }

/-- Two elements that are their own parents, both of rank 0, in cells of two bits: the state
that the comment of the constructor describes. -/
def packedSingletons : Merger.DisjointSets := { els := [1, 1], width := 2, n := 2 }

/-! ## The minimizers of a k-mer: `findMinimizer` -/

/-- The local `startPoint` of the worker `threadId` of `buildPairedColorIdEdgesInParallel`:
`threadId * (cqf.range() / (__uint128_t) nThreads)`, in 128 bits; `range` is the value that
`cqf.range()` returns. -/
def MST.startPoint (nThreads range threadId : Nat) : Nat :=
  threadId * (range / nThreads) % 2 ^ 128

/-- The local `endPoint` of the worker `threadId` of `buildPairedColorIdEdgesInParallel`:
`threadId + 1 == nThreads ? cqf.range() + 1 : (threadId + 1) * (cqf.range() / nThreads)`, the
sum `threadId + 1` in the 32 bits of `threadId` and `cqf.range() + 1` in the 64 bits of
`range()`. -/
def MST.endPoint (nThreads range threadId : Nat) : Nat :=
  if (threadId + 1) % 2 ^ 32 = nThreads then (range + 1) % 2 ^ 64
  else (threadId + 1) % 2 ^ 32 * (range / nThreads) % 2 ^ 128

/-- The hashes among `hashes` that lie between the iterator limits of the worker
`threadId`. -/
def workerHashes (nThreads range : Nat) (hashes : List Nat) (threadId : Nat) : List Nat :=
  hashes.filter (fun h =>
    decide (MST.startPoint nThreads range threadId ≤ h ∧
      h < MST.endPoint nThreads range threadId))

/-! ## The blocks of the partitioned filter: `divideKmersIntoBlocks` -/

/-- The constant `block_kmer_threshold` of `coloreddbg.h`. -/
def block_kmer_threshold : Nat := 100000000

/-- The variables of `divideKmersIntoBlocks`: the member `minimizerCntr` and the locals
`blockCnt`, `block` and `blockKmerCount`. -/
structure BlockState where
  minimizerCntr : List Nat
  blockCnt : Nat
  block : Nat
  blockKmerCount : List Nat
deriving DecidableEq, Repr

/-- The body of the loop `for (i = 1; i < minimizerCntr.size(); i++)` of
`divideKmersIntoBlocks`; the sums are 64-bit sums. -/
def divideStep (st : BlockState) (i : Nat) : BlockState :=
  if (st.blockCnt + (st.minimizerCntr.set (i - 1) st.block).getD i 0) % 2 ^ 64 >
      block_kmer_threshold then
    { minimizerCntr := st.minimizerCntr.set (i - 1) st.block
      blockCnt := (0 + (st.minimizerCntr.set (i - 1) st.block).getD i 0) % 2 ^ 64
      block := st.block + 1
      blockKmerCount := st.blockKmerCount ++ [st.blockCnt] }
  else
    { minimizerCntr := st.minimizerCntr.set (i - 1) st.block
      blockCnt := (st.blockCnt + (st.minimizerCntr.set (i - 1) st.block).getD i 0) % 2 ^ 64
      block := st.block
      blockKmerCount := st.blockKmerCount }

/-- The state of `divideKmersIntoBlocks` at the end of its loop, for a non-empty
`minimizerCntr`. -/
def divideLoop (minimizerCntr : List Nat) : BlockState :=
  (List.range' 1 (minimizerCntr.length - 1)).foldl divideStep
    { minimizerCntr := minimizerCntr
      blockCnt := minimizerCntr.getD 0 0
      block := 0
      blockKmerCount := [] }

/-- The method `ColoredDbg::divideKmersIntoBlocks()` on a non-empty `minimizerCntr`: the
vector `minimizerCntr` that it leaves and the vector `blockKmerCount` that it returns. -/
def ColoredDbg.divideKmersIntoBlocks (minimizerCntr : List Nat) : List Nat × List Nat :=
  ((divideLoop minimizerCntr).minimizerCntr.set (minimizerCntr.length - 1)
      (divideLoop minimizerCntr).block,
    (divideLoop minimizerCntr).blockKmerCount ++ [(divideLoop minimizerCntr).blockCnt])

/-- The invariant of the loop of `divideKmersIntoBlocks` before the iteration `i`, over the
original counts `c`; `G` lists, for the minimizers `0 .. i - 1`, the block of the minimizer
and its count. -/
structure DivInv (c : List Nat) (i : Nat) (G : List (Nat × Nat)) (st : BlockState) : Prop where
  len : G.length = i
  pos : 1 ≤ i
  le : i ≤ c.length
  cnts : G.map Prod.snd = c.take i
  arrLen : st.minimizerCntr.length = c.length
  arr : ∀ t, st.minimizerCntr.getD t 0 =
    if t + 1 < i then (G.map Prod.fst).getD t 0 else c.getD t 0
  last : (G.map Prod.fst).getD (i - 1) 0 = st.block
  head : (G.map Prod.fst).getD 0 0 = 0
  chain : ∀ t, t + 1 < i →
    (G.map Prod.fst).getD (t + 1) 0 = (G.map Prod.fst).getD t 0 ∨
    (G.map Prod.fst).getD (t + 1) 0 = (G.map Prod.fst).getD t 0 + 1
  bound : ∀ p ∈ G, p.1 ≤ st.block
  klen : st.blockKmerCount.length = st.block
  closed : ∀ b, b < st.block → st.blockKmerCount.getD b 0 =
    ((G.filter (fun p => decide (p.1 = b))).map Prod.snd).sum
  cur : st.blockCnt = ((G.filter (fun p => decide (p.1 = st.block))).map Prod.snd).sum
  single : ∀ b, b < st.block → st.blockKmerCount.getD b 0 > block_kmer_threshold →
    (G.filter (fun p => decide (p.1 = b))).length = 1
  curSingle : st.blockCnt > block_kmer_threshold →
    (G.filter (fun p => decide (p.1 = st.block))).length = 1
  total : st.blockKmerCount.sum + st.blockCnt = (G.map Prod.snd).sum

/-! ## The cells of `calculateWeights` -/

/-- The cells `i * num_of_ccBuffers + j` of `edgeBucketList` that the loops
`for (i = 0; i < eqclass_files.size(); i++) for (j = i; j < eqclass_files.size(); j++)` of
`calculateWeights` visit, in the order of the visits; `num_of_ccBuffers` is
`eqclass_files.size()`. -/
def calculateWeightsCells (num_of_ccBuffers : Nat) : List Nat :=
  (List.range num_of_ccBuffers).flatMap
    (fun i => (List.range' i (num_of_ccBuffers - i)).map (fun j => i * num_of_ccBuffers + j))

/-! # Theorems -/

/-! ## Bit fields -/

theorem length_set_int (bv : List Bool) (idx x len : Nat) :
    (set_int bv idx x len).length = bv.length := by
  induction len generalizing bv idx x with
  | zero => rfl
  | succ n ih => simp [set_int, ih]

theorem testBit_get_int (bv : List Bool) (idx len j : Nat) :
    (get_int bv idx len).testBit j = (decide (j < len) && bv.getD (idx + j) false) := by
  induction len generalizing idx j with
  | zero => simp [get_int]
  | succ n ih =>
    cases j with
    | zero => simp [get_int, Nat.testBit_bit_zero]
    | succ j =>
      rw [get_int, Nat.testBit_bit_succ, ih]
      have : idx + 1 + j = idx + (j + 1) := by omega
      simp [this]

theorem getD_set_int (bv : List Bool) (idx x len j : Nat) :
    (set_int bv idx x len).getD j false =
      if idx ≤ j ∧ j < idx + len ∧ j < bv.length then x.testBit (j - idx)
      else bv.getD j false := by
  induction len generalizing bv idx x with
  | zero =>
    have : ¬ (idx ≤ j ∧ j < idx + 0 ∧ j < bv.length) := by omega
    rw [if_neg this, set_int]
  | succ n ih =>
    rw [set_int, ih, List.length_set]
    by_cases h1 : idx + 1 ≤ j ∧ j < idx + 1 + n ∧ j < bv.length
    · have h2 : idx ≤ j ∧ j < idx + (n + 1) ∧ j < bv.length := by omega
      rw [if_pos h1, if_pos h2, Nat.testBit_div_two]
      congr 1
      omega
    · rw [if_neg h1]
      by_cases h3 : idx = j
      · subst h3
        by_cases h4 : idx < bv.length
        · have h2 : idx ≤ idx ∧ idx < idx + (n + 1) ∧ idx < bv.length := by omega
          rw [if_pos h2]
          simp [List.getD_eq_getElem?_getD, List.getElem?_set, h4]
        · have h2 : ¬ (idx ≤ idx ∧ idx < idx + (n + 1) ∧ idx < bv.length) := by omega
          rw [if_neg h2]
          have h5 : bv.length ≤ idx := by omega
          simp [List.getD_eq_getElem?_getD, List.getElem?_set, h4, List.getElem?_eq_none h5]
      · have h2 : ¬ (idx ≤ j ∧ j < idx + (n + 1) ∧ j < bv.length) := by omega
        rw [if_neg h2]
        simp [List.getD_eq_getElem?_getD, List.getElem?_set, h3]

theorem length_copyWords (start n : Nat) (buf v : List Bool) :
    ((List.range n).foldl
      (fun b w => set_int b (start + w * 64) (get_int v (w * 64) 64) 64) buf).length
      = buf.length := by
  induction n with
  | zero => rfl
  | succ n ih => rw [List.range_succ, List.foldl_append]; simp [length_set_int, ih]

theorem getD_copyWords (start n : Nat) (buf v : List Bool) (j : Nat) :
    ((List.range n).foldl
      (fun b w => set_int b (start + w * 64) (get_int v (w * 64) 64) 64) buf).getD j false
      = if start ≤ j ∧ j < start + n * 64 ∧ j < buf.length then v.getD (j - start) false
        else buf.getD j false := by
  induction n with
  | zero =>
    have : ¬ (start ≤ j ∧ j < start + 0 * 64 ∧ j < buf.length) := by omega
    rw [if_neg this]; rfl
  | succ n ih =>
    rw [List.range_succ, List.foldl_append]
    simp only [List.foldl_cons, List.foldl_nil]
    rw [getD_set_int, length_copyWords, ih]
    by_cases h1 : start + n * 64 ≤ j ∧ j < start + n * 64 + 64 ∧ j < buf.length
    · have h2 : start ≤ j ∧ j < start + (n + 1) * 64 ∧ j < buf.length := by omega
      rw [if_pos h1, if_pos h2, testBit_get_int]
      have h3 : j - (start + n * 64) < 64 := by omega
      have h4 : n * 64 + (j - (start + n * 64)) = j - start := by omega
      simp [h3, h4]
    · rw [if_neg h1]
      by_cases h2 : start ≤ j ∧ j < start + n * 64 ∧ j < buf.length
      · have h3 : start ≤ j ∧ j < start + (n + 1) * 64 ∧ j < buf.length := by omega
        rw [if_pos h2, if_pos h3]
      · have h3 : ¬ (start ≤ j ∧ j < start + (n + 1) * 64 ∧ j < buf.length) := by omega
        rw [if_neg h2, if_neg h3]

theorem length_add_bitvector (S B : Nat) (buf v : List Bool) (id : Nat) :
    (add_bitvector S B buf v id).length = buf.length := by
  unfold add_bitvector
  simp only
  split <;> simp [length_set_int, length_copyWords]

/-- Bit `j` of the buffer after `add_bitvector`: the slot of `id` holds the bits of the
vector, every other bit is unchanged. -/
theorem getD_add_bitvector (S B : Nat) (buf v : List Bool) (id j : Nat) :
    (add_bitvector S B buf v id).getD j false =
      if (id % B) * S ≤ j ∧ j < (id % B) * S + S ∧ j < buf.length
      then v.getD (j - (id % B) * S) false else buf.getD j false := by
  unfold add_bitvector
  simp only
  have hS : S / 64 * 64 + S % 64 = S := by omega
  split
  · rw [getD_set_int, length_copyWords, getD_copyWords, testBit_get_int]
    by_cases h1 : id % B * S + S / 64 * 64 ≤ j ∧ j < id % B * S + S / 64 * 64 + S % 64
        ∧ j < buf.length
    · have h2 : id % B * S ≤ j ∧ j < id % B * S + S ∧ j < buf.length := by omega
      have h3 : j - (id % B * S + S / 64 * 64) < S % 64 := by omega
      have h4 : S / 64 * 64 + (j - (id % B * S + S / 64 * 64)) = j - id % B * S := by omega
      rw [if_pos h1, if_pos h2]
      simp [h3, h4]
    · rw [if_neg h1]
      by_cases h2 : id % B * S ≤ j ∧ j < id % B * S + S / 64 * 64 ∧ j < buf.length
      · have h3 : id % B * S ≤ j ∧ j < id % B * S + S ∧ j < buf.length := by omega
        rw [if_pos h2, if_pos h3]
      · have h3 : ¬ (id % B * S ≤ j ∧ j < id % B * S + S ∧ j < buf.length) := by omega
        rw [if_neg h2, if_neg h3]
  · rename_i h0
    have h0 : S % 64 = 0 := by
      by_contra hc; exact h0 hc
    rw [getD_copyWords]
    have h5 : S / 64 * 64 = S := by omega
    rw [h5]

/-! ## The color-class store -/

theorem mapFind_append_new (m : List (Nat × (Nat × Nat))) (h : Nat) (e : Nat × Nat)
    (hnew : mapFind m h = none) : mapFind (m ++ [(h, e)]) h = some e := by
  unfold mapFind at *
  rw [List.find?_append]
  cases hf : m.find? (fun e => e.1 == h) with
  | none => simp
  | some x => simp [hf] at hnew

theorem mapFind_append_ne (m : List (Nat × (Nat × Nat))) (h k : Nat) (e : Nat × Nat)
    (hk : k ≠ h) : mapFind (m ++ [(h, e)]) k = mapFind m k := by
  unfold mapFind
  rw [List.find?_append]
  cases hf : m.find? (fun e => e.1 == k) with
  | none =>
    have : ¬ h = k := fun hc => hk hc.symm
    simp [this]
  | some x => simp

theorem mapFind_cons (a : Nat × (Nat × Nat)) (t : List (Nat × (Nat × Nat))) (k : Nat) :
    mapFind (a :: t) k = if a.1 = k then some a.2 else mapFind t k := by
  unfold mapFind
  by_cases h : a.1 = k
  · simp [List.find?_cons, h]
  · have h2 : (a.1 == k) = false := by simpa using h
    simp [List.find?_cons, h, h2]

theorem mapIncr_cons (a : Nat × (Nat × Nat)) (t : List (Nat × (Nat × Nat))) (h : Nat) :
    mapIncr (a :: t) h =
      (if a.1 = h then (a.1, (a.2.1, a.2.2 + 1)) else a) :: mapIncr t h := by
  unfold mapIncr
  by_cases hh : a.1 = h <;> simp [hh]

theorem mapFind_mapIncr (m : List (Nat × (Nat × Nat))) (h k : Nat) :
    mapFind (mapIncr m h) k =
      (mapFind m k).map (fun e => if k = h then (e.1, e.2 + 1) else e) := by
  induction m with
  | nil => simp [mapFind, mapIncr]
  | cons a t ih =>
    rw [mapIncr_cons, mapFind_cons, mapFind_cons, ih]
    by_cases hah : a.1 = h
    · by_cases hak : a.1 = k
      · have hkh : k = h := by rw [← hak, hah]
        simp [hah, hkh]
      · have hhk : ¬ h = k := by rw [← hah]; exact hak
        simp [hah, hak, hhk]
    · by_cases hak : a.1 = k
      · have hkh : ¬ k = h := by rw [← hak]; exact hah
        simp [hah, hak, hkh]
      · simp [hah, hak]

theorem mapIncr_keys (m : List (Nat × (Nat × Nat))) (h : Nat) :
    (mapIncr m h).map (fun e => e.1) = m.map (fun e => e.1) := by
  unfold mapIncr
  rw [List.map_map]
  apply List.map_congr_left
  intro a _
  by_cases hah : a.1 = h <;> simp [hah]

theorem mapIncr_ids (m : List (Nat × (Nat × Nat))) (h : Nat) :
    (mapIncr m h).map (fun e => e.2.1) = m.map (fun e => e.2.1) := by
  unfold mapIncr
  rw [List.map_map]
  apply List.map_congr_left
  intro a _
  by_cases hah : a.1 = h <;> simp [hah]

theorem add_colorClass_of_none (vecHash : List Bool → Nat) (s : ColoredDbg) (v : List Bool)
    (hnew : mapFind s.eqclass_map (vecHash v) = none) :
    add_colorClass vecHash s v =
      ({ s with
          eqclass_map := s.eqclass_map ++ [(vecHash v, (s.eqclass_map.length + 1, 1))]
          bv_buffer := add_bitvector s.num_samples s.colorClassPerBuffer s.bv_buffer v
            s.eqclass_map.length }, s.eqclass_map.length + 1, true) := by
  unfold add_colorClass
  simp only [hnew, ColoredDbg.get_next_available_id, ColoredDbg.get_num_eqclasses,
    Nat.add_sub_cancel]

theorem add_colorClass_of_some (vecHash : List Bool → Nat) (s : ColoredDbg) (v : List Bool)
    (e : Nat × Nat) (hold : mapFind s.eqclass_map (vecHash v) = some e) :
    add_colorClass vecHash s v =
      ({ s with eqclass_map := mapIncr s.eqclass_map (vecHash v) }, e.1, false) := by
  unfold add_colorClass
  simp only [hold]

/-- C7: `add_colorClass` on a bitmap whose hash is not yet in `eqclass_map` sets `eq_id` to
`|map| + 1` (size before the call), stores `hash ↦ (eq_id, 1)` (appending it to the entries,
which are otherwise untouched), writes the bits of the bitmap into the buffer slot of index
`(eq_id - 1) mod B`, and returns true. -/
theorem add_colorClass_new (vecHash : List Bool → Nat) (s : ColoredDbg) (v : List Bool)
    (hB : 0 < s.colorClassPerBuffer)
    (hbuf : s.colorClassPerBuffer * s.num_samples ≤ s.bv_buffer.length)
    (hnew : mapFind s.eqclass_map (vecHash v) = none) :
    (add_colorClass vecHash s v).2.1 = s.eqclass_map.length + 1 ∧
    (add_colorClass vecHash s v).2.2 = true ∧
    (add_colorClass vecHash s v).1.eqclass_map =
      s.eqclass_map ++ [(vecHash v, ((add_colorClass vecHash s v).2.1, 1))] ∧
    mapFind (add_colorClass vecHash s v).1.eqclass_map (vecHash v) =
      some ((add_colorClass vecHash s v).2.1, 1) ∧
    (∀ i, i < s.num_samples →
      (add_colorClass vecHash s v).1.bv_buffer.getD
        ((((add_colorClass vecHash s v).2.1 - 1) % s.colorClassPerBuffer) * s.num_samples + i)
        false = v.getD i false) := by
  rw [add_colorClass_of_none vecHash s v hnew]
  refine ⟨rfl, rfl, rfl, mapFind_append_new _ _ _ hnew, ?_⟩
  intro i hi
  simp only [Nat.add_sub_cancel]
  rw [getD_add_bitvector]
  have hlt : s.eqclass_map.length % s.colorClassPerBuffer < s.colorClassPerBuffer :=
    Nat.mod_lt _ hB
  have hle : (s.eqclass_map.length % s.colorClassPerBuffer + 1) * s.num_samples
      ≤ s.colorClassPerBuffer * s.num_samples := Nat.mul_le_mul_right _ hlt
  rw [Nat.add_mul, Nat.one_mul] at hle
  have hc : s.eqclass_map.length % s.colorClassPerBuffer * s.num_samples ≤
      s.eqclass_map.length % s.colorClassPerBuffer * s.num_samples + i ∧
      s.eqclass_map.length % s.colorClassPerBuffer * s.num_samples + i <
        s.eqclass_map.length % s.colorClassPerBuffer * s.num_samples + s.num_samples ∧
      s.eqclass_map.length % s.colorClassPerBuffer * s.num_samples + i <
        s.bv_buffer.length := by omega
  rw [if_pos hc, Nat.add_sub_cancel_left]

/-- Witness of C7 on the empty two-sample index with a buffer of two bitmaps. -/
theorem add_colorClass_new_witness :
    (add_colorClass exampleHash (ColoredDbg.init 4 8 2) [true, false]).2.1 = 1 ∧
    (add_colorClass exampleHash (ColoredDbg.init 4 8 2) [true, false]).2.2 = true ∧
    (add_colorClass exampleHash (ColoredDbg.init 4 8 2) [true, false]).1.bv_buffer
      = [true, false, false, false] := by
  have h := add_colorClass_new exampleHash (ColoredDbg.init 4 8 2) [true, false]
    (by decide) (by decide) (by decide)
  exact ⟨h.1, h.2.1, by decide⟩

/-- C8: `add_colorClass` on a bitmap whose hash is already in `eqclass_map` returns false,
sets `eq_id` to the id stored for that hash, increases that entry's abundance by exactly one,
and leaves the keys of the map, every other entry, every id and the whole bitmap buffer
(as well as the filter and the written files) unchanged. -/
theorem add_colorClass_existing (vecHash : List Bool → Nat) (s : ColoredDbg) (v : List Bool)
    (id ab : Nat) (hold : mapFind s.eqclass_map (vecHash v) = some (id, ab)) :
    (add_colorClass vecHash s v).2.2 = false ∧
    (add_colorClass vecHash s v).2.1 = id ∧
    mapFind (add_colorClass vecHash s v).1.eqclass_map (vecHash v) = some (id, ab + 1) ∧
    (∀ k, k ≠ vecHash v →
      mapFind (add_colorClass vecHash s v).1.eqclass_map k = mapFind s.eqclass_map k) ∧
    (add_colorClass vecHash s v).1.eqclass_map.map (fun e => e.1)
      = s.eqclass_map.map (fun e => e.1) ∧
    (add_colorClass vecHash s v).1.eqclass_map.map (fun e => e.2.1)
      = s.eqclass_map.map (fun e => e.2.1) ∧
    (add_colorClass vecHash s v).1.bv_buffer = s.bv_buffer ∧
    (add_colorClass vecHash s v).1.dbg = s.dbg ∧
    (add_colorClass vecHash s v).1.files = s.files ∧
    (add_colorClass vecHash s v).1.num_serializations = s.num_serializations := by
  rw [add_colorClass_of_some vecHash s v (id, ab) hold]
  refine ⟨rfl, rfl, ?_, ?_, mapIncr_keys _ _, mapIncr_ids _ _, rfl, rfl, rfl, rfl⟩
  · simp only [mapFind_mapIncr, hold, Option.map_some', if_true]
  · intro k hk
    simp only [mapFind_mapIncr, hk, if_false]
    cases mapFind s.eqclass_map k <;> rfl

/-- Witness of C8: the same bitmap added a second time. -/
theorem add_colorClass_existing_witness :
    (add_colorClass exampleHash
      (add_colorClass exampleHash (ColoredDbg.init 4 8 2) [true, false]).1 [true, false]).2.2
      = false ∧
    (add_colorClass exampleHash
      (add_colorClass exampleHash (ColoredDbg.init 4 8 2) [true, false]).1 [true, false]).2.1
      = 1 :=
  have h := add_colorClass_existing exampleHash
    (add_colorClass exampleHash (ColoredDbg.init 4 8 2) [true, false]).1 [true, false] 1 1
    (by decide)
  ⟨h.1, h.2.1⟩

/-! ## The filter model -/

theorem CQF.query_cons (a : Nat × Nat) (t : List (Nat × Nat)) (cap k : Nat) :
    CQF.query { slots := a :: t, capacity := cap } k =
      if a.1 = k then a.2 else CQF.query { slots := t, capacity := cap } k := by
  unfold CQF.query
  by_cases h : a.1 = k
  · simp [List.find?_cons, h]
  · have h2 : (a.1 == k) = false := by simpa using h
    simp [List.find?_cons, h, h2]

theorem CQF.query_nil (cap k : Nat) : CQF.query { slots := [], capacity := cap } k = 0 := rfl

theorem CQF.query_eq_zero_of_not_any (l : List (Nat × Nat)) (cap k : Nat)
    (h : l.any (fun e => e.1 == k) = false) :
    CQF.query { slots := l, capacity := cap } k = 0 := by
  induction l with
  | nil => rfl
  | cons a t ih =>
    rw [List.any_cons, Bool.or_eq_false_iff] at h
    have h1 : ¬ a.1 = k := by simpa using h.1
    rw [CQF.query_cons, if_neg h1, ih h.2]

theorem CQF.query_append_new (l : List (Nat × Nat)) (cap k c j : Nat)
    (h : l.any (fun e => e.1 == k) = false) :
    CQF.query { slots := l ++ [(k, c)], capacity := cap } j =
      if j = k then c else CQF.query { slots := l, capacity := cap } j := by
  induction l with
  | nil =>
    rw [List.nil_append, CQF.query_cons, CQF.query_nil]
    by_cases hjk : j = k
    · simp [hjk]
    · have : ¬ k = j := fun hc => hjk hc.symm
      simp [hjk, this]
  | cons a t ih =>
    rw [List.any_cons, Bool.or_eq_false_iff] at h
    have h1 : ¬ a.1 = k := by simpa using h.1
    rw [List.cons_append, CQF.query_cons, CQF.query_cons, ih h.2]
    by_cases haj : a.1 = j
    · have : ¬ j = k := by rw [← haj]; exact h1
      simp [haj, this]
    · simp [haj]

theorem CQF.query_map_incr (l : List (Nat × Nat)) (cap k c j : Nat) :
    CQF.query { slots := l.map (fun e => if e.1 == k then (e.1, e.2 + c) else e),
                capacity := cap } j =
      if j = k ∧ l.any (fun e => e.1 == k) = true
      then CQF.query { slots := l, capacity := cap } j + c
      else CQF.query { slots := l, capacity := cap } j := by
  induction l with
  | nil => simp [CQF.query_nil]
  | cons a t ih =>
    rw [List.map_cons, CQF.query_cons, CQF.query_cons, ih]
    by_cases hak : a.1 = k
    · by_cases haj : a.1 = j
      · have hjk : j = k := by rw [← haj, hak]
        simp [hak, hjk]
      · have hkj : ¬ k = j := by rw [← hak]; exact haj
        have hjk : ¬ j = k := fun hc => hkj hc.symm
        simp [hak, hkj, hjk]
    · have h2 : (a.1 == k) = false := by simpa using hak
      by_cases haj : a.1 = j
      · have hjk : ¬ j = k := by rw [← haj]; exact hak
        simp [h2, haj, hjk]
      · rw [if_neg haj, List.any_cons, h2, Bool.false_or]
        simp [h2, haj]

/-- The filter contract used by the build: after a successful insert the count of the key
has grown by the inserted count, and every other key keeps its count. -/
theorem CQF.query_insert (f d : CQF) (k c j : Nat) (h : f.insert k c = some d) :
    d.query j = if j = k then f.query j + c else f.query j := by
  unfold CQF.insert at h
  by_cases hany : f.slots.any (fun e => e.1 == k) = true
  · rw [if_pos hany] at h
    injection h with h
    subst h
    rw [CQF.query_map_incr]
    by_cases hjk : j = k
    · simp [hjk, hany]
    · simp [hjk]
  · rw [if_neg hany] at h
    have hany2 : f.slots.any (fun e => e.1 == k) = false := Bool.eq_false_iff.mpr hany
    by_cases hcap : f.slots.length < f.capacity
    · rw [if_pos hcap] at h
      injection h with h
      subst h
      rw [CQF.query_append_new _ _ _ _ _ hany2]
      by_cases hjk : j = k
      · subst hjk
        have := CQF.query_eq_zero_of_not_any f.slots f.capacity j hany2
        simp only [if_true]
        show c = CQF.query f j + c
        have e : f = { slots := f.slots, capacity := f.capacity } := rfl
        rw [e, this, Nat.zero_add]
      · simp only [hjk, if_false]
    · rw [if_neg hcap] at h
      exact absurd h (by simp)

/-! ## `add_kmer` -/

theorem add_colorClass_dbg (vecHash : List Bool → Nat) (s : ColoredDbg) (v : List Bool) :
    (add_colorClass vecHash s v).1.dbg = s.dbg := by
  cases h : mapFind s.eqclass_map (vecHash v) with
  | none => rw [add_colorClass_of_none vecHash s v h]
  | some e => rw [add_colorClass_of_some vecHash s v e h]

theorem add_colorClass_files (vecHash : List Bool → Nat) (s : ColoredDbg) (v : List Bool) :
    (add_colorClass vecHash s v).1.files = s.files ∧
    (add_colorClass vecHash s v).1.num_serializations = s.num_serializations ∧
    (add_colorClass vecHash s v).1.num_samples = s.num_samples ∧
    (add_colorClass vecHash s v).1.colorClassPerBuffer = s.colorClassPerBuffer := by
  cases h : mapFind s.eqclass_map (vecHash v) with
  | none => rw [add_colorClass_of_none vecHash s v h]; exact ⟨rfl, rfl, rfl, rfl⟩
  | some e => rw [add_colorClass_of_some vecHash s v e h]; exact ⟨rfl, rfl, rfl, rfl⟩

theorem add_kmer_of_present (vecHash : List Bool → Nat) (s : ColoredDbg) (key : Nat)
    (v : List Bool) (h : s.dbg.query key ≠ 0) :
    add_kmer vecHash s key v = .error (Fatal.kmerPresent, (add_colorClass vecHash s v).1) := by
  unfold add_kmer
  simp only [add_colorClass_dbg]
  rw [if_pos (Nat.pos_of_ne_zero h)]

theorem add_kmer_of_absent (vecHash : List Bool → Nat) (s : ColoredDbg) (key : Nat)
    (v : List Bool) (h : s.dbg.query key = 0) :
    add_kmer vecHash s key v =
      match s.dbg.insert key (add_colorClass vecHash s v).2.1 with
      | none => .error (Fatal.noSpace, (add_colorClass vecHash s v).1)
      | some d => .ok ({ (add_colorClass vecHash s v).1 with dbg := d },
          (add_colorClass vecHash s v).2.2) := by
  unfold add_kmer
  simp only [add_colorClass_dbg]
  rw [if_neg (by omega)]

/-- C9: `add_kmer` ends in a fatal error if and only if the main filter already returns a
non-zero count for the key or the filter insert reports no space; in every other case it
returns the flag of `add_colorClass` and the filter afterwards maps the key to the
color-class id produced by `add_colorClass` for the given bitmap. -/
theorem add_kmer_fatal_iff (vecHash : List Bool → Nat) (s : ColoredDbg) (key : Nat)
    (v : List Bool) :
    ((∃ e, add_kmer vecHash s key v = .error e) ↔
      (s.dbg.query key ≠ 0 ∨ s.dbg.insert key (add_colorClass vecHash s v).2.1 = none)) ∧
    (¬ (s.dbg.query key ≠ 0 ∨ s.dbg.insert key (add_colorClass vecHash s v).2.1 = none) →
      ∃ s2, add_kmer vecHash s key v = .ok (s2, (add_colorClass vecHash s v).2.2) ∧
        s2.dbg.query key = (add_colorClass vecHash s v).2.1) := by
  by_cases hq : s.dbg.query key = 0
  · rw [add_kmer_of_absent vecHash s key v hq]
    cases hi : s.dbg.insert key (add_colorClass vecHash s v).2.1 with
    | none =>
      refine ⟨⟨fun _ => Or.inr rfl, fun _ => ⟨_, rfl⟩⟩, fun hn => absurd (Or.inr rfl) hn⟩
    | some d =>
      refine ⟨⟨?_, ?_⟩, ?_⟩
      · rintro ⟨e, he⟩
        cases he
      · rintro (h1 | h1)
        · exact absurd hq h1
        · cases h1
      · intro _
        refine ⟨_, rfl, ?_⟩
        show d.query key = _
        rw [CQF.query_insert s.dbg d key _ key hi, if_pos rfl, hq, Nat.zero_add]
  · rw [add_kmer_of_present vecHash s key v hq]
    exact ⟨⟨fun _ => Or.inl hq, fun _ => ⟨_, rfl⟩⟩, fun hn => absurd (Or.inl hq) hn⟩

/-- C10, as stated, fails: on the reachable index `oneKmerIndex` (k-mer 7 present with
color-class 1), `add_kmer(7, {1})` ends in the fatal error, and at that point the
color-class map holds a second entry and the bitmap buffer holds the new bitmap. -/
theorem add_kmer_present_has_written :
    add_kmer exampleHash (ColoredDbg.init 4 8 2) 7 [true, false] = .ok (oneKmerIndex, true) ∧
    oneKmerIndex.dbg.query 7 ≠ 0 ∧
    add_kmer exampleHash oneKmerIndex 7 [false, true] =
      .error (Fatal.kmerPresent,
        { oneKmerIndex with
            eqclass_map := [(1, (1, 1)), (2, (2, 1))]
            bv_buffer := [true, false, false, true] }) ∧
    [(1, (1, 1)), (2, (2, 1))] ≠ oneKmerIndex.eqclass_map ∧
    [true, false, false, true] ≠ oneKmerIndex.bv_buffer := by
  refine ⟨rfl, by decide, rfl, by decide, by decide⟩

/-- C10 (amended): when `add_kmer` is called for a k-mer that is already present in the
main filter, the fatal error fires after `add_colorClass` has run and before any write to
the filter: the state at the point of failure is the one left by `add_colorClass`, whose
filter, written files and serialization counter equal those before the call. -/
theorem add_kmer_present_state (vecHash : List Bool → Nat) (s : ColoredDbg) (key : Nat)
    (v : List Bool) (h : s.dbg.query key ≠ 0) :
    add_kmer vecHash s key v = .error (Fatal.kmerPresent, (add_colorClass vecHash s v).1) ∧
    (add_colorClass vecHash s v).1.dbg = s.dbg ∧
    (add_colorClass vecHash s v).1.files = s.files ∧
    (add_colorClass vecHash s v).1.num_serializations = s.num_serializations :=
  ⟨add_kmer_of_present vecHash s key v h, add_colorClass_dbg vecHash s v,
    (add_colorClass_files vecHash s v).1, (add_colorClass_files vecHash s v).2.1⟩

/-- Witness of the amended C10 on `oneKmerIndex`. -/
theorem add_kmer_present_state_witness :
    oneKmerIndex.dbg.query 7 ≠ 0 ∧
    add_kmer exampleHash oneKmerIndex 7 [false, true] =
      .error (Fatal.kmerPresent, (add_colorClass exampleHash oneKmerIndex [false, true]).1) :=
  ⟨by decide, (add_kmer_present_state exampleHash oneKmerIndex 7 [false, true] (by decide)).1⟩

/-! ## Color-class ids are assigned in first-seen order -/

theorem mapFind_eq_none_iff (m : List (Nat × (Nat × Nat))) (h : Nat) :
    mapFind m h = none ↔ h ∉ m.map (fun e => e.1) := by
  induction m with
  | nil => simp [mapFind]
  | cons a t ih =>
    rw [mapFind_cons, List.map_cons, List.mem_cons, not_or]
    by_cases hah : a.1 = h
    · simp [hah]
    · rw [if_neg hah, ih]
      exact ⟨fun h2 => ⟨fun hc => hah hc.symm, h2⟩, fun h2 => h2.2⟩

theorem idOf_mapIncr (m : List (Nat × (Nat × Nat))) (h k : Nat) :
    idOf (mapIncr m h) k = idOf m k := by
  unfold idOf
  rw [mapFind_mapIncr]
  cases mapFind m k with
  | none => rfl
  | some e => by_cases hkh : k = h <;> simp [hkh]

theorem storeInv_nil : StoreInv [] [] := by
  refine ⟨rfl, List.nodup_nil, fun h => Iff.rfl, ?_⟩
  intro pre h post he
  cases pre <;> cases he

theorem storeInv_step (vecHash : List Bool → Nat) (s : ColoredDbg) (v : List Bool)
    (hs : List Nat) (hinv : StoreInv s.eqclass_map hs) :
    StoreInv (add_colorClass vecHash s v).1.eqclass_map (hs ++ [vecHash v]) := by
  obtain ⟨hids, hnd, hmem, hfirst⟩ := hinv
  cases hf : mapFind s.eqclass_map (vecHash v) with
  | none =>
    rw [add_colorClass_of_none vecHash s v hf]
    have hnotin : vecHash v ∉ s.eqclass_map.map (fun e => e.1) :=
      (mapFind_eq_none_iff _ _).mp hf
    refine ⟨?_, ?_, ?_, ?_⟩
    · simp only [List.map_append, List.map_cons, List.map_nil, List.length_append,
        List.length_singleton]
      rw [hids, List.range'_concat, Nat.one_mul, Nat.add_comm 1]
    · simp only [List.map_append, List.map_cons, List.map_nil]
      rw [List.nodup_append]
      refine ⟨hnd, List.nodup_singleton _, ?_⟩
      intro a ha hb
      rw [List.mem_singleton] at hb
      subst hb
      exact hnotin ha
    · intro h
      simp only [List.map_append, List.map_cons, List.map_nil, List.mem_append,
        List.mem_singleton, hmem h]
    · intro pre h post he hpre
      rcases List.eq_nil_or_concat post with hp | ⟨post2, x, hp⟩
      · subst hp
        have h1 := List.append_inj' he rfl
        have h2 : vecHash v = h := by simpa using h1.2
        have h3 : hs = pre := h1.1
        subst h2 h3
        unfold idOf
        rw [mapFind_append_new _ _ _ hf]
        simp only [Option.map_some', Option.some.injEq, Nat.add_right_cancel_iff]
        have e1 : (s.eqclass_map.map (fun e => e.1)).toFinset = hs.toFinset := by
          ext a
          simp only [List.mem_toFinset]
          exact hmem a
        rw [← e1, List.toFinset_card_of_nodup hnd, List.length_map]
      · subst hp
        have he2 : hs ++ [vecHash v] = (pre ++ h :: post2) ++ [x] := by
          rw [he]; simp
        have h1 := List.append_inj' he2 rfl
        have hhs : hs = pre ++ h :: post2 := h1.1
        have hin : h ∈ hs := by rw [hhs]; simp
        have hne : h ≠ vecHash v := by
          intro hc
          apply hnotin
          rw [← hc]
          exact (hmem h).mpr hin
        unfold idOf
        rw [mapFind_append_ne _ _ _ _ hne]
        exact hfirst pre h post2 hhs hpre
  | some e =>
    rw [add_colorClass_of_some vecHash s v e hf]
    have hin : vecHash v ∈ s.eqclass_map.map (fun e => e.1) := by
      by_contra hc
      rw [(mapFind_eq_none_iff _ _).mpr hc] at hf
      cases hf
    have hinhs : vecHash v ∈ hs := (hmem _).mp hin
    refine ⟨?_, ?_, ?_, ?_⟩
    · show (mapIncr s.eqclass_map (vecHash v)).map (fun e => e.2.1) = _
      rw [mapIncr_ids, hids]
      have : (mapIncr s.eqclass_map (vecHash v)).length = s.eqclass_map.length := by
        unfold mapIncr; simp
      rw [this]
    · show ((mapIncr s.eqclass_map (vecHash v)).map (fun e => e.1)).Nodup
      rw [mapIncr_keys]; exact hnd
    · intro h
      show h ∈ (mapIncr s.eqclass_map (vecHash v)).map (fun e => e.1) ↔ _
      rw [mapIncr_keys, hmem h, List.mem_append, List.mem_singleton]
      constructor
      · exact fun hh => Or.inl hh
      · rintro (hh | hh)
        · exact hh
        · rw [hh]; exact hinhs
    · intro pre h post he hpre
      show idOf (mapIncr s.eqclass_map (vecHash v)) h = _
      rw [idOf_mapIncr]
      rcases List.eq_nil_or_concat post with hp | ⟨post2, x, hp⟩
      · subst hp
        have h1 := List.append_inj' he rfl
        have h2 : vecHash v = h := by simpa using h1.2
        have h3 : hs = pre := h1.1
        subst h2 h3
        exact absurd hinhs hpre
      · subst hp
        have he2 : hs ++ [vecHash v] = (pre ++ h :: post2) ++ [x] := by
          rw [he]; simp
        have h1 := List.append_inj' he2 rfl
        exact hfirst pre h post2 h1.1 hpre

theorem storeInv_addColorClasses (vecHash : List Bool → Nat) (vs : List (List Bool))
    (s : ColoredDbg) (hs : List Nat) (hinv : StoreInv s.eqclass_map hs) :
    StoreInv (addColorClasses vecHash s vs).eqclass_map (hs ++ vs.map vecHash) := by
  induction vs generalizing s hs with
  | nil => simpa [addColorClasses] using hinv
  | cons v t ih =>
    have h1 := ih (add_colorClass vecHash s v).1 (hs ++ [vecHash v])
      (storeInv_step vecHash s v hs hinv)
    simpa [addColorClasses, List.append_assoc] using h1

/-- C6: starting from an empty color-class map, after any sequence of `add_colorClass` calls
the ids stored in `eqclass_map` are exactly `1..|map|` (entry `i` holds id `i`), each held by
exactly one bitmap hash (the keys are pairwise distinct and are the hashes presented), and a
hash first presented when `i - 1` distinct hashes had been seen holds id `i`. -/
theorem addColorClasses_ids_first_seen (vecHash : List Bool → Nat) (s : ColoredDbg)
    (vs : List (List Bool)) :
    ((addColorClasses vecHash { s with eqclass_map := [] } vs).eqclass_map.map
        (fun e => e.2.1)
      = List.range' 1 (addColorClasses vecHash { s with eqclass_map := [] } vs).eqclass_map.length) ∧
    ((addColorClasses vecHash { s with eqclass_map := [] } vs).eqclass_map.map
        (fun e => e.1)).Nodup ∧
    (∀ h, h ∈ (addColorClasses vecHash { s with eqclass_map := [] } vs).eqclass_map.map
        (fun e => e.1) ↔ h ∈ vs.map vecHash) ∧
    (∀ pre v post, vs = pre ++ v :: post → vecHash v ∉ pre.map vecHash →
      idOf (addColorClasses vecHash { s with eqclass_map := [] } vs).eqclass_map (vecHash v)
        = some ((pre.map vecHash).toFinset.card + 1)) := by
  have h := storeInv_addColorClasses vecHash vs { s with eqclass_map := [] } [] storeInv_nil
  rw [List.nil_append] at h
  refine ⟨h.1, h.2.1, h.2.2.1, ?_⟩
  intro pre v post he hpre
  apply h.2.2.2 (pre.map vecHash) (vecHash v) (post.map vecHash) _ hpre
  rw [he]; simp

/-! ## The merge loop of construct -/

theorem heapKeys_perm {c d : List Iterator} (h : c.Perm d) : heapKeys c = heapKeys d := by
  unfold heapKeys
  exact (h.map _).sum_eq

theorem groupStep_spec (ops : HeapOps) (IsHeap : List Iterator → Prop)
    (laws : HeapLaws ops IsHeap) (t : Iterator) (tl : List Iterator) (eq : List Bool)
    (hh : IsHeap (t :: tl)) :
    IsHeap (groupStep ops (t :: tl) eq).1 ∧
    (groupStep ops (t :: tl) eq).1.Perm (tl ++ (advance t.kmer t).toList) ∧
    (groupStep ops (t :: tl) eq).2.1 = eq.set t.id true ∧
    (groupStep ops (t :: tl) eq).2.2 = t.kmer := by
  cases hr : t.rest with
  | nil =>
    have e : groupStep ops (t :: tl) eq =
        (Minheap_PQ.pop ops (t :: tl), eq.set t.id true, t.kmer) := by
      simp only [groupStep, hr]
    have e2 : advance t.kmer t = none := by simp [advance, hr]
    rw [e, e2]
    obtain ⟨h, h1, h2, h3⟩ := laws.pop t tl hh
    simp only [Minheap_PQ.pop, h1, List.dropLast_concat]
    exact ⟨h3, by simpa using h2, trivial, trivial⟩
  | cons k r =>
    have e : groupStep ops (t :: tl) eq =
        (Minheap_PQ.replace_top ops ({ t with kmer := k, rest := r } :: tl)
          { t with kmer := k, rest := r }, eq.set t.id true, t.kmer) := by
      simp only [groupStep, hr]
    have e2 : advance t.kmer t = some { t with kmer := k, rest := r } := by
      simp [advance, hr]
    rw [e, e2]
    obtain ⟨h, h1, h2, h3⟩ := laws.replace t tl { t with kmer := k, rest := r } hh
    simp only [Minheap_PQ.replace_top, Minheap_PQ.pop, h1, List.dropLast_concat]
    exact ⟨h3, by simpa using h2, trivial, trivial⟩

theorem groupLoop_zero (ops : HeapOps) (c : List Iterator) (eq : List Bool) :
    groupLoop ops 0 c eq = groupStep ops c eq := by
  unfold groupLoop; rfl

theorem groupLoop_succ (ops : HeapOps) (fuel : Nat) (c : List Iterator) (eq : List Bool) :
    groupLoop ops (fuel + 1) c eq =
      match (groupStep ops c eq).1 with
      | [] => groupStep ops c eq
      | t :: _ =>
        if (groupStep ops c eq).2.2 = t.kmer then
          groupLoop ops fuel (groupStep ops c eq).1 (groupStep ops c eq).2.1
        else groupStep ops c eq := by
  rw [groupLoop]

theorem filterMap_advance_of_ne (m : Nat) (l : List Iterator) (h : ∀ x ∈ l, x.kmer ≠ m) :
    l.filterMap (advance m) = l := by
  induction l with
  | nil => rfl
  | cons a t ih =>
    have ha : advance m a = some a := by
      unfold advance; rw [if_neg (h a (List.mem_cons_self _ _))]
    rw [List.filterMap_cons, ha]
    simp only
    rw [ih (fun x hx => h x (List.mem_cons_of_mem _ hx))]

theorem advance_front (t : Iterator) (hs : t.keys.Sorted (· < ·)) :
    ∀ x ∈ (advance t.kmer t).toList,
      t.kmer < x.kmer ∧ x.id = t.id ∧ x.keys = t.rest ∧ x.keys.Sorted (· < ·) := by
  intro x hx
  unfold advance at hx
  rw [if_pos rfl] at hx
  cases hr : t.rest with
  | nil => rw [hr] at hx; simp at hx
  | cons k r =>
    rw [hr] at hx
    simp only [Option.toList_some, List.mem_singleton] at hx
    subst hx
    unfold Iterator.keys at hs ⊢
    rw [hr] at hs
    simp only
    exact ⟨List.rel_of_sorted_cons hs k (List.mem_cons_self _ _), trivial, trivial,
      List.Sorted.of_cons hs⟩

theorem getD_set_true (eq : List Bool) (j i : Nat) :
    (eq.set j true).getD i false = true ↔
      eq.getD i false = true ∨ (i = j ∧ i < eq.length) := by
  rw [List.getD_eq_getElem?_getD, List.getD_eq_getElem?_getD, List.getElem?_set]
  by_cases hji : j = i
  · subst hji
    by_cases hl : j < eq.length
    · simp [hl]
    · have : eq.length ≤ j := by omega
      simp [hl, List.getElem?_eq_none this]
  · have : ¬ i = j := fun hc => hji hc.symm
    simp [hji, this]

theorem filterMap_advance_cons (t : Iterator) (tl : List Iterator) :
    (t :: tl).filterMap (advance t.kmer) =
      (advance t.kmer t).toList ++ tl.filterMap (advance t.kmer) := by
  rw [List.filterMap_cons]
  cases advance t.kmer t <;> rfl

theorem groupStep_post_of_last (ops : HeapOps) (IsHeap : List Iterator → Prop)
    (laws : HeapLaws ops IsHeap) (t : Iterator) (tl : List Iterator) (eq : List Bool)
    (hh : IsHeap (t :: tl)) (hne : ∀ x ∈ tl, x.kmer ≠ t.kmer) :
    GroupPost IsHeap t.kmer (t :: tl) eq (groupStep ops (t :: tl) eq) := by
  obtain ⟨h1, h2, h3, h4⟩ := groupStep_spec ops IsHeap laws t tl eq hh
  refine ⟨h1, ?_, h4, ?_, ?_⟩
  · rw [filterMap_advance_cons, filterMap_advance_of_ne _ _ hne]
    exact h2.trans List.perm_append_comm
  · rw [h3, List.length_set]
  · intro i
    rw [h3, getD_set_true]
    constructor
    · rintro (h | ⟨h5, h6⟩)
      · exact Or.inl h
      · exact Or.inr ⟨h6, t, List.mem_cons_self _ _, rfl, h5.symm⟩
    · rintro (h | ⟨h5, it, h6, h7, h8⟩)
      · exact Or.inl h
      · rcases List.mem_cons.mp h6 with h9 | h9
        · subst h9
          exact Or.inr ⟨h8.symm, h5⟩
        · exact absurd h7 (hne it h9)

theorem groupLoop_spec (ops : HeapOps) (IsHeap : List Iterator → Prop)
    (laws : HeapLaws ops IsHeap) (fuel : Nat) :
    ∀ (t : Iterator) (tl : List Iterator) (eq : List Bool),
      IsHeap (t :: tl) → (∀ x ∈ tl, t.kmer ≤ x.kmer) →
      (∀ x ∈ t :: tl, x.keys.Sorted (· < ·)) →
      (tl.countP (fun x => x.kmer = t.kmer)) ≤ fuel →
      GroupPost IsHeap t.kmer (t :: tl) eq (groupLoop ops fuel (t :: tl) eq) := by
  induction fuel with
  | zero =>
    intro t tl eq hh _ _ hc
    rw [groupLoop_zero]
    apply groupStep_post_of_last ops IsHeap laws t tl eq hh
    intro x hx hk
    have : 0 < tl.countP (fun x => x.kmer = t.kmer) :=
      List.countP_pos_iff.mpr ⟨x, hx, by simpa using hk⟩
    omega
  | succ fuel ih =>
    intro t tl eq hh hmin hsort hc
    obtain ⟨h1, h2, h3, h4⟩ := groupStep_spec ops IsHeap laws t tl eq hh
    have hadv := advance_front t (hsort t (List.mem_cons_self _ _))
    rw [groupLoop_succ]
    cases hc1 : (groupStep ops (t :: tl) eq).1 with
    | nil =>
      simp only
      apply groupStep_post_of_last ops IsHeap laws t tl eq hh
      intro x hx
      rw [hc1] at h2
      have := h2.length_eq
      simp only [List.length_nil, List.length_append] at this
      have : tl = [] := List.length_eq_zero.mp (by omega)
      subst this
      cases hx
    | cons t1 tl1 =>
      simp only
      rw [hc1] at h1 h2
      by_cases hk : (groupStep ops (t :: tl) eq).2.2 = t1.kmer
      · rw [if_pos hk, h3]
        rw [h4] at hk
        -- the heap after one step
        have hmem1 : ∀ x ∈ t1 :: tl1, x ∈ tl ∨ x ∈ (advance t.kmer t).toList := by
          intro x hx
          exact List.mem_append.mp (h2.mem_iff.mp hx)
        have hmin1 : ∀ x ∈ tl1, t1.kmer ≤ x.kmer := by
          intro x hx
          rw [← hk]
          rcases hmem1 x (List.mem_cons_of_mem _ hx) with h | h
          · exact hmin x h
          · exact le_of_lt (hadv x h).1
        have hsort1 : ∀ x ∈ t1 :: tl1, x.keys.Sorted (· < ·) := by
          intro x hx
          rcases hmem1 x hx with h | h
          · exact hsort x (List.mem_cons_of_mem _ h)
          · exact (hadv x h).2.2.2
        have hcnt : (t1 :: tl1).countP (fun x => x.kmer = t.kmer) =
            tl.countP (fun x => x.kmer = t.kmer) := by
          rw [h2.countP_eq, List.countP_append]
          have : (advance t.kmer t).toList.countP (fun x => x.kmer = t.kmer) = 0 := by
            rw [List.countP_eq_zero]
            intro x hx
            have := (hadv x hx).1
            simp only [decide_eq_true_eq]
            omega
          rw [this, Nat.add_zero]
        have hcnt1 : tl1.countP (fun x => x.kmer = t1.kmer) ≤ fuel := by
          rw [← hk]
          have : (t1 :: tl1).countP (fun x => x.kmer = t.kmer) =
              tl1.countP (fun x => x.kmer = t.kmer) + 1 := by
            rw [List.countP_cons]
            simp [hk]
          omega
        have post := ih t1 tl1 (eq.set t.id true) h1 hmin1 hsort1 hcnt1
        rw [← hk] at post
        obtain ⟨p1, p2, p3, p4, p5⟩ := post
        refine ⟨p1, ?_, p3, ?_, ?_⟩
        · refine p2.trans ?_
          refine (List.Perm.filterMap _ h2).trans ?_
          rw [List.filterMap_append, filterMap_advance_cons]
          rw [filterMap_advance_of_ne t.kmer (advance t.kmer t).toList
            (fun x hx => by have := (hadv x hx).1; omega)]
          exact List.perm_append_comm
        · rw [p4, List.length_set]
        · intro i
          rw [p5, getD_set_true, List.length_set]
          constructor
          · rintro ((h | ⟨h5, h6⟩) | ⟨h5, it, h6, h7, h8⟩)
            · exact Or.inl h
            · exact Or.inr ⟨h6, t, List.mem_cons_self _ _, rfl, h5.symm⟩
            · rcases hmem1 it h6 with h | h
              · exact Or.inr ⟨h5, it, List.mem_cons_of_mem _ h, h7, h8⟩
              · have := (hadv it h).1
                omega
          · rintro (h | ⟨h5, it, h6, h7, h8⟩)
            · exact Or.inl (Or.inl h)
            · rcases List.mem_cons.mp h6 with h9 | h9
              · subst h9
                exact Or.inl (Or.inr ⟨h8.symm, h5⟩)
              · refine Or.inr ⟨h5, it, ?_, h7, h8⟩
                exact h2.mem_iff.mpr (List.mem_append_left _ h9)
      · rw [if_neg hk]
        rw [h4] at hk
        apply groupStep_post_of_last ops IsHeap laws t tl eq hh
        intro x hx hxk
        have hx1 : x ∈ t1 :: tl1 := h2.mem_iff.mpr (List.mem_append_left _ hx)
        have ht1 : t.kmer ≤ t1.kmer := by
          rcases List.mem_append.mp (h2.mem_iff.mp (List.mem_cons_self t1 tl1)) with h | h
          · exact hmin t1 h
          · exact le_of_lt (hadv t1 h).1
        rcases List.mem_cons.mp hx1 with h | h
        · subst h
          exact hk hxk.symm
        · have := laws.front_min t1 tl1 h1 x h
          omega

theorem advance_eq_some (m : Nat) (it x : Iterator) (h : advance m it = some x) :
    (it.kmer ≠ m ∧ x = it) ∨
    (it.kmer = m ∧ ∃ k r, it.rest = k :: r ∧ x = { it with kmer := k, rest := r }) := by
  unfold advance at h
  by_cases hm : it.kmer = m
  · rw [if_pos hm] at h
    cases hr : it.rest with
    | nil => rw [hr] at h; cases h
    | cons k r =>
      rw [hr] at h
      injection h with h
      exact Or.inr ⟨hm, k, r, rfl, h.symm⟩
  · rw [if_neg hm] at h
    injection h with h
    exact Or.inl ⟨hm, h.symm⟩

theorem keys_ge (it : Iterator) (hs : it.keys.Sorted (· < ·)) (k : Nat) (hk : k ∈ it.keys) :
    it.kmer ≤ k ∧ (k = it.kmer ∨ k ∈ it.rest) ∧ (k ∈ it.rest → it.kmer < k) := by
  unfold Iterator.keys at hs hk
  have h1 := List.rel_of_sorted_cons hs
  rcases List.mem_cons.mp hk with h | h
  · exact ⟨le_of_eq h.symm, Or.inl h, fun h2 => h1 k h2⟩
  · exact ⟨le_of_lt (h1 k h), Or.inr h, fun _ => h1 k h⟩

theorem heapKeys_cons (t : Iterator) (tl : List Iterator) :
    heapKeys (t :: tl) = t.rest.length + 1 + heapKeys tl := by
  unfold heapKeys; simp

theorem heapKeys_append (a b : List Iterator) :
    heapKeys (a ++ b) = heapKeys a + heapKeys b := by
  unfold heapKeys; simp

theorem heapKeys_advance_toList (m : Nat) (it : Iterator) :
    heapKeys (advance m it).toList ≤ it.rest.length + 1 ∧
    (it.kmer = m → heapKeys (advance m it).toList = it.rest.length) := by
  unfold advance
  by_cases hm : it.kmer = m
  · rw [if_pos hm]
    cases hr : it.rest with
    | nil => simp [heapKeys]
    | cons k r => simp [heapKeys]
  · rw [if_neg hm]
    simp [heapKeys, hm]

theorem heapKeys_filterMap_le (m : Nat) (l : List Iterator) :
    heapKeys (l.filterMap (advance m)) ≤ heapKeys l := by
  induction l with
  | nil => simp [heapKeys]
  | cons a t ih =>
    have e : (a :: t).filterMap (advance m) =
        (advance m a).toList ++ t.filterMap (advance m) := by
      rw [List.filterMap_cons]
      cases advance m a <;> rfl
    rw [e, heapKeys_append, heapKeys_cons]
    have := (heapKeys_advance_toList m a).1
    omega

theorem heapKeys_advance_lt (t : Iterator) (tl : List Iterator) :
    heapKeys ((t :: tl).filterMap (advance t.kmer)) < heapKeys (t :: tl) := by
  rw [filterMap_advance_cons, heapKeys_append, heapKeys_cons]
  have h1 := (heapKeys_advance_toList t.kmer t).2 rfl
  have h2 := heapKeys_filterMap_le t.kmer tl
  omega

theorem map_id_filterMap_advance_sublist (m : Nat) (l : List Iterator) :
    ((l.filterMap (advance m)).map (fun it => it.id)).Sublist (l.map (fun it => it.id)) := by
  induction l with
  | nil => simp
  | cons a t ih =>
    rw [List.filterMap_cons]
    cases ha : advance m a with
    | none =>
      simp only [List.map_cons]
      exact List.Sublist.cons _ ih
    | some x =>
      simp only [List.map_cons]
      have hid : x.id = a.id := by
        rcases advance_eq_some m a x ha with ⟨_, h⟩ | ⟨_, k, r, _, h⟩
        · rw [h]
        · rw [h]
      rw [hid]
      exact List.Sublist.cons₂ _ ih

theorem heapInv_perm {S : Nat} {c d : List Iterator} (h : c.Perm d) (hc : HeapInv S c) :
    HeapInv S d := by
  refine ⟨(h.map _).nodup_iff.mp hc.1, ?_⟩
  intro it hit
  exact hc.2 it (h.mem_iff.mpr hit)

theorem heapInv_advance (S m : Nat) (c : List Iterator) (hc : HeapInv S c) :
    HeapInv S (c.filterMap (advance m)) := by
  refine ⟨hc.1.sublist (map_id_filterMap_advance_sublist m c), ?_⟩
  intro x hx
  obtain ⟨it, hit, ha⟩ := List.mem_filterMap.mp hx
  have h2 := hc.2 it hit
  rcases advance_eq_some m it x ha with ⟨_, h⟩ | ⟨_, k, r, hr, h⟩
  · rw [h]; exact h2
  · rw [h]
    refine ⟨h2.1, ?_⟩
    have h3 := h2.2
    unfold Iterator.keys at h3 ⊢
    rw [hr] at h3
    exact List.Sorted.of_cons h3

theorem memKey_perm {c d : List Iterator} (h : c.Perm d) (i k : Nat) :
    memKey c i k ↔ memKey d i k := by
  unfold memKey
  constructor
  · rintro ⟨it, h1, h2⟩
    exact ⟨it, h.mem_iff.mp h1, h2⟩
  · rintro ⟨it, h1, h2⟩
    exact ⟨it, h.mem_iff.mpr h1, h2⟩

theorem memKey_advance (m : Nat) (c : List Iterator)
    (hmin : ∀ x ∈ c, m ≤ x.kmer) (hsort : ∀ x ∈ c, x.keys.Sorted (· < ·)) (i k : Nat) :
    memKey (c.filterMap (advance m)) i k ↔ memKey c i k ∧ k ≠ m := by
  unfold memKey
  constructor
  · rintro ⟨x, hx, hid, hk⟩
    obtain ⟨it, hit, ha⟩ := List.mem_filterMap.mp hx
    rcases advance_eq_some m it x ha with ⟨hne, h⟩ | ⟨he, k0, r, hr, h⟩
    · subst h
      refine ⟨⟨x, hit, hid, hk⟩, ?_⟩
      have h1 := (keys_ge x (hsort x hit) k hk).1
      have h2 := hmin x hit
      intro hc
      apply hne
      omega
    · subst h
      have hk2 : k ∈ it.rest := by rw [hr]; exact hk
      have h1 := (keys_ge it (hsort it hit) k (List.mem_cons_of_mem _ hk2)).2.2 hk2
      exact ⟨⟨it, hit, hid, List.mem_cons_of_mem _ hk2⟩, by omega⟩
  · rintro ⟨⟨it, hit, hid, hk⟩, hne⟩
    by_cases hm : it.kmer = m
    · have hk2 : k ∈ it.rest := by
        rcases (keys_ge it (hsort it hit) k hk).2.1 with h | h
        · exact absurd (h.trans hm) hne
        · exact h
      cases hr : it.rest with
      | nil => rw [hr] at hk2; cases hk2
      | cons k0 r =>
        refine ⟨{ it with kmer := k0, rest := r }, ?_, hid, ?_⟩
        · apply List.mem_filterMap.mpr
          refine ⟨it, hit, ?_⟩
          unfold advance
          rw [if_pos hm, hr]
        · show k ∈ k0 :: r
          rw [← hr]; exact hk2
    · refine ⟨it, ?_, hid, hk⟩
      apply List.mem_filterMap.mpr
      refine ⟨it, hit, ?_⟩
      unfold advance
      rw [if_neg hm]

theorem memKey_min_iff (m : Nat) (c : List Iterator)
    (hmin : ∀ x ∈ c, m ≤ x.kmer) (hsort : ∀ x ∈ c, x.keys.Sorted (· < ·)) (i : Nat) :
    (∃ it ∈ c, it.kmer = m ∧ it.id = i) ↔ memKey c i m := by
  unfold memKey
  constructor
  · rintro ⟨it, hit, hk, hid⟩
    exact ⟨it, hit, hid, by rw [← hk]; exact List.mem_cons_self _ _⟩
  · rintro ⟨it, hit, hid, hk⟩
    refine ⟨it, hit, ?_, hid⟩
    rcases (keys_ge it (hsort it hit) m hk).2.1 with h | h
    · exact h.symm
    · have h1 := (keys_ge it (hsort it hit) m hk).2.2 h
      have h2 := hmin it hit
      omega

theorem getD_zeros (n i : Nat) : (zeros n).getD i false = false := by
  unfold zeros
  rw [List.getD_eq_getElem?_getD]
  by_cases h : i < n
  · simp [List.getElem?_replicate, h]
  · simp [List.getElem?_replicate, h]

theorem length_le_heapKeys (l : List Iterator) : l.length ≤ heapKeys l := by
  induction l with
  | nil => simp [heapKeys]
  | cons a b ih => rw [heapKeys_cons, List.length_cons]; omega

theorem front_group (ops : HeapOps) (IsHeap : List Iterator → Prop)
    (laws : HeapLaws ops IsHeap) (S : Nat) (t : Iterator) (tl : List Iterator)
    (hh : IsHeap (t :: tl)) (hinv : HeapInv S (t :: tl)) :
    GroupPost IsHeap t.kmer (t :: tl) (zeros S)
      (groupLoop ops (heapKeys (t :: tl)) (t :: tl) (zeros S)) := by
  apply groupLoop_spec ops IsHeap laws _ t tl (zeros S) hh (laws.front_min t tl hh)
    (fun x hx => (hinv.2 x hx).2)
  have h1 : tl.countP (fun x => x.kmer = t.kmer) ≤ tl.length := List.countP_le_length _
  have h2 := length_le_heapKeys tl
  rw [heapKeys_cons]
  omega

theorem mergeCalls_spec (ops : HeapOps) (IsHeap : List Iterator → Prop)
    (laws : HeapLaws ops IsHeap) (S : Nat) (fuel : Nat) :
    ∀ c, IsHeap c → HeapInv S c → heapKeys c ≤ fuel →
      TraceSpec S c (mergeCalls ops S fuel c) := by
  induction fuel with
  | zero =>
    intro c _ _ hk
    have : c = [] := by
      cases c with
      | nil => rfl
      | cons a b => rw [heapKeys_cons] at hk; omega
    subst this
    rw [mergeCalls]
    refine ⟨List.sorted_nil, ?_, fun p hp => by cases hp⟩
    intro k
    simp [memKey]
  | succ fuel ih =>
    intro c hh hinv hk
    cases c with
    | nil =>
      rw [mergeCalls]
      refine ⟨List.sorted_nil, ?_, fun p hp => by cases hp⟩
      intro k
      simp [memKey]
    | cons t tl =>
      rw [mergeCalls]
      obtain ⟨g1, g2, g3, g4, g5⟩ := front_group ops IsHeap laws S t tl hh hinv
      have hmin : ∀ x ∈ t :: tl, t.kmer ≤ x.kmer := by
        intro x hx
        rcases List.mem_cons.mp hx with h | h
        · rw [h]
        · exact laws.front_min t tl hh x h
      have hsort : ∀ x ∈ t :: tl, x.keys.Sorted (· < ·) := fun x hx => (hinv.2 x hx).2
      have hinv2 : HeapInv S (groupLoop ops (heapKeys (t :: tl)) (t :: tl) (zeros S)).1 :=
        heapInv_perm g2.symm (heapInv_advance S t.kmer (t :: tl) hinv)
      have hlt : heapKeys (groupLoop ops (heapKeys (t :: tl)) (t :: tl) (zeros S)).1 ≤ fuel := by
        rw [heapKeys_perm g2]
        have := heapKeys_advance_lt t tl
        omega
      have hmk : ∀ i k, memKey (groupLoop ops (heapKeys (t :: tl)) (t :: tl) (zeros S)).1 i k
          ↔ memKey (t :: tl) i k ∧ k ≠ t.kmer := by
        intro i k
        rw [memKey_perm g2, memKey_advance t.kmer (t :: tl) hmin hsort]
      have hge : ∀ i k, memKey (t :: tl) i k → t.kmer ≤ k := by
        rintro i k ⟨it, hit, _, hkk⟩
        have h1 := (keys_ge it (hsort it hit) k hkk).1
        have h2 := hmin it hit
        omega
      obtain ⟨r1, r2, r3⟩ := ih _ g1 hinv2 hlt
      refine ⟨?_, ?_, ?_⟩
      · rw [List.map_cons, List.sorted_cons]
        refine ⟨?_, r1⟩
        intro k hk2
        obtain ⟨i, hi⟩ := (r2 k).mp hk2
        have h1 := (hmk i k).mp hi
        have h2 := hge i k h1.1
        simp only [g3]
        have := h1.2
        omega
      · intro k
        rw [List.map_cons, List.mem_cons, r2 k]
        simp only [g3]
        constructor
        · rintro (h | ⟨i, hi⟩)
          · exact ⟨t.id, t, List.mem_cons_self _ _, rfl, by rw [h]; exact List.mem_cons_self _ _⟩
          · exact ⟨i, ((hmk i k).mp hi).1⟩
        · rintro ⟨i, hi⟩
          by_cases hkm : k = t.kmer
          · exact Or.inl hkm
          · exact Or.inr ⟨i, (hmk i k).mpr ⟨hi, hkm⟩⟩
      · intro p hp
        rcases List.mem_cons.mp hp with h | h
        · subst h
          simp only
          refine ⟨by rw [g4]; simp [zeros], ?_⟩
          intro i hi
          rw [g5 i, g3, ← memKey_min_iff t.kmer (t :: tl) hmin hsort i, getD_zeros]
          simp [zeros, hi]
        · have h1 := r3 p h
          refine ⟨h1.1, ?_⟩
          intro i hi
          rw [h1.2 i hi, hmk]
          constructor
          · exact fun h2 => h2.1
          · intro h2
            refine ⟨h2, ?_⟩
            have h3 : p.1 ∈ (mergeCalls ops S fuel
                (groupLoop ops (heapKeys (t :: tl)) (t :: tl) (zeros S)).1).map Prod.fst :=
              List.mem_map_of_mem _ h
            obtain ⟨j, hj⟩ := (r2 p.1).mp h3
            exact ((hmk j p.1).mp hj).2

theorem seedHeap_succ (ops : HeapOps) (n : Nat) (incqfs : List (List Nat)) :
    seedHeap ops (n + 1) incqfs =
      match incqfs.getD n [] with
      | [] => seedHeap ops n incqfs
      | k :: r => Minheap_PQ.push ops (seedHeap ops n incqfs) { id := n, kmer := k, rest := r } := by
  unfold seedHeap
  rw [List.range_succ, List.foldl_append]
  rfl

theorem seedHeap_inv (ops : HeapOps) (IsHeap : List Iterator → Prop)
    (laws : HeapLaws ops IsHeap) (incqfs : List (List Nat)) (n : Nat) :
    IsHeap (seedHeap ops n incqfs) ∧
    ((seedHeap ops n incqfs).map (fun it => it.id)).Nodup ∧
    (∀ it ∈ seedHeap ops n incqfs, it.id < n ∧ it.keys = incqfs.getD it.id []) ∧
    (∀ i, i < n → incqfs.getD i [] ≠ [] → ∃ it ∈ seedHeap ops n incqfs, it.id = i) := by
  induction n with
  | zero =>
    have e : seedHeap ops 0 incqfs = [] := rfl
    rw [e]
    refine ⟨laws.nil, List.nodup_nil, ?_, ?_⟩
    · intro it hit
      cases hit
    · intro i hi
      omega
  | succ n ih =>
    obtain ⟨h1, h2, h3, h4⟩ := ih
    rw [seedHeap_succ]
    cases hg : incqfs.getD n [] with
    | nil =>
      simp only
      refine ⟨h1, h2, ?_, ?_⟩
      · intro it hit
        have := h3 it hit
        exact ⟨by omega, this.2⟩
      · intro i hi hne
        have hin : i ≠ n := by
          intro hc; subst hc; exact hne hg
        exact h4 i (by omega) hne
    | cons k r =>
      simp only
      obtain ⟨p1, p2⟩ := laws.push (seedHeap ops n incqfs) { id := n, kmer := k, rest := r } h1
      unfold Minheap_PQ.push
      refine ⟨p2, ?_, ?_, ?_⟩
      · rw [(p1.map _).nodup_iff, List.map_append, List.nodup_append]
        refine ⟨h2, by simp, ?_⟩
        intro a ha hb
        simp only [List.map_cons, List.map_nil, List.mem_singleton] at hb
        obtain ⟨it, hit, hid⟩ := List.mem_map.mp ha
        have := (h3 it hit).1
        omega
      · intro it hit
        rcases List.mem_append.mp (p1.mem_iff.mp hit) with h | h
        · have := h3 it h
          exact ⟨by omega, this.2⟩
        · rw [List.mem_singleton] at h
          subst h
          exact ⟨by simp, by simp only [Iterator.keys]; exact hg.symm⟩
      · intro i hi hne
        by_cases hin : i = n
        · subst hin
          exact ⟨_, p1.mem_iff.mpr (List.mem_append_right _ (List.mem_singleton_self _)), rfl⟩
        · obtain ⟨it, hit, hid⟩ := h4 i (by omega) hne
          exact ⟨it, p1.mem_iff.mpr (List.mem_append_left _ hit), hid⟩

theorem seedHeap_spec (ops : HeapOps) (IsHeap : List Iterator → Prop)
    (laws : HeapLaws ops IsHeap) (incqfs : List (List Nat)) (S : Nat)
    (hsorted : ∀ l ∈ incqfs, l.Sorted (· < ·)) :
    IsHeap (seedHeap ops S incqfs) ∧ HeapInv S (seedHeap ops S incqfs) ∧
    ∀ i k, memKey (seedHeap ops S incqfs) i k ↔ i < S ∧ k ∈ incqfs.getD i [] := by
  obtain ⟨h1, h2, h3, h4⟩ := seedHeap_inv ops IsHeap laws incqfs S
  have hs : ∀ i, (incqfs.getD i []).Sorted (· < ·) := by
    intro i
    rw [List.getD_eq_getElem?_getD]
    cases hi : incqfs[i]? with
    | none => exact List.sorted_nil
    | some l => exact hsorted l (List.getElem?_mem hi)
  refine ⟨h1, ⟨h2, ?_⟩, ?_⟩
  · intro it hit
    refine ⟨(h3 it hit).1, ?_⟩
    rw [(h3 it hit).2]
    exact hs _
  · intro i k
    unfold memKey
    constructor
    · rintro ⟨it, hit, hid, hk⟩
      have := h3 it hit
      rw [this.2, hid] at hk
      exact ⟨by omega, hk⟩
    · rintro ⟨hi, hk⟩
      have hne : incqfs.getD i [] ≠ [] := by
        intro hc; rw [hc] at hk; cases hk
      obtain ⟨it, hit, hid⟩ := h4 i hi hne
      refine ⟨it, hit, hid, ?_⟩
      rw [(h3 it hit).2, hid]
      exact hk

theorem bool_list_ext (a b : List Bool) (hl : a.length = b.length)
    (h : ∀ i, i < a.length → (a.getD i false = true ↔ b.getD i false = true)) : a = b := by
  apply List.ext_getElem hl
  intro i h1 h2
  have := h i h1
  rw [List.getD_eq_getElem?_getD, List.getD_eq_getElem?_getD,
    List.getElem?_eq_getElem h1, List.getElem?_eq_getElem h2] at this
  simp only [Option.getD_some] at this
  cases ha : a[i] <;> cases hb : b[i] <;> simp [ha, hb] at this ⊢

theorem traceSpec_seed_eq (S : Nat) (c : List Iterator) (incqfs : List (List Nat))
    (hS : incqfs.length = S)
    (hmem : ∀ i k, memKey c i k ↔ i < S ∧ k ∈ incqfs.getD i [])
    (L : List (Nat × List Bool)) (hL : TraceSpec S c L) : L = expectedCalls incqfs := by
  obtain ⟨h1, h2, h3⟩ := hL
  have hkeys : (L.map Prod.fst).toFinset = incqfs.flatten.toFinset := by
    ext k
    rw [List.mem_toFinset, List.mem_toFinset, h2 k, List.mem_flatten]
    constructor
    · rintro ⟨i, hi⟩
      obtain ⟨hi1, hi2⟩ := (hmem i k).mp hi
      refine ⟨incqfs.getD i [], ?_, hi2⟩
      rw [List.getD_eq_getElem?_getD, List.getElem?_eq_getElem (by omega)]
      exact List.getElem_mem _
    · rintro ⟨l, hl, hk⟩
      obtain ⟨i, hi, he⟩ := List.getElem_of_mem hl
      refine ⟨i, (hmem i k).mpr ⟨by omega, ?_⟩⟩
      rw [List.getD_eq_getElem?_getD, List.getElem?_eq_getElem hi]
      simpa [he] using hk
  have hnd : (L.map Prod.fst).Nodup := h1.nodup
  have hle : (L.map Prod.fst).Sorted (· ≤ ·) := h1.imp (fun h => le_of_lt h)
  have hsort : incqfs.flatten.toFinset.sort (· ≤ ·) = L.map Prod.fst := by
    rw [← hkeys]
    exact (List.toFinset_sort (· ≤ ·) hnd).mpr hle
  unfold expectedCalls
  rw [hsort, List.map_map]
  symm
  conv_rhs => rw [← List.map_id L]
  apply List.map_congr_left
  intro p hp
  obtain ⟨q1, q2⟩ := h3 p hp
  simp only [Function.comp, id]
  have : incqfs.map (fun l => decide (p.1 ∈ l)) = p.2 := by
    symm
    apply bool_list_ext
    · rw [q1, List.length_map, hS]
    · intro i hi
      rw [q1] at hi
      rw [q2 i hi, hmem i p.1]
      rw [List.getD_eq_getElem?_getD, List.getD_eq_getElem?_getD, List.getElem?_map]
      rw [List.getElem?_eq_getElem (by omega : i < incqfs.length)]
      simp [hi]
  rw [this]

theorem mergeCalls_eq_expected (ops : HeapOps) (IsHeap : List Iterator → Prop)
    (laws : HeapLaws ops IsHeap) (incqfs : List (List Nat))
    (hsorted : ∀ l ∈ incqfs, l.Sorted (· < ·)) :
    mergeCalls ops incqfs.length (heapKeys (seedHeap ops incqfs.length incqfs))
      (seedHeap ops incqfs.length incqfs) = expectedCalls incqfs := by
  obtain ⟨h1, h2, h3⟩ := seedHeap_spec ops IsHeap laws incqfs incqfs.length hsorted
  exact traceSpec_seed_eq incqfs.length _ incqfs rfl h3 _
    (mergeCalls_spec ops IsHeap laws incqfs.length _ _ h1 h2 (le_refl _))

theorem add_kmer_num_samples (vecHash : List Bool → Nat) (s s1 : ColoredDbg) (key : Nat)
    (v : List Bool) (b : Bool) (h : add_kmer vecHash s key v = .ok (s1, b)) :
    s1.num_samples = s.num_samples ∧ s1.colorClassPerBuffer = s.colorClassPerBuffer := by
  unfold add_kmer at h
  simp only at h
  split at h
  · cases h
  · split at h
    · cases h
    · injection h with h
      injection h with h1 h2
      subst h1
      exact ⟨(add_colorClass_files vecHash s v).2.2.1, (add_colorClass_files vecHash s v).2.2.2⟩

theorem afterGroup_full (vecHash : List Bool → Nat) (s s1 : ColoredDbg)
    (counter key counter1 : Nat) (bm : List Bool) (b : Bool)
    (h : afterGroup vecHash invalid s counter key bm = .ok (s1, counter1, b)) :
    b = true ∧ s1.num_samples = s.num_samples := by
  unfold afterGroup at h
  cases hk : add_kmer vecHash s key bm with
  | error e => rw [hk] at h; cases h
  | ok r =>
    obtain ⟨s2, added⟩ := r
    have hns := (add_kmer_num_samples vecHash s s2 key bm added hk).1
    rw [hk] at h
    simp only at h
    have hinv : ¬ invalid < invalid := Nat.lt_irrefl _
    have hc : ¬ (counter + 1) % 2 ^ 64 > invalid := by
      unfold invalid
      have := Nat.mod_lt (counter + 1) (by norm_num : 2 ^ 64 > 0)
      omega
    split at h
    · injection h with h
      injection h with h1 h2
      injection h2 with h2 h3
      subst h1
      exact ⟨h3.symm, hns⟩
    · injection h with h
      injection h with h1 h2
      injection h2 with h2 h3
      subst h1
      exact ⟨h3.symm, hns⟩

theorem constructLoop_full (ops : HeapOps) (IsHeap : List Iterator → Prop)
    (laws : HeapLaws ops IsHeap) (vecHash : List Bool → Nat) (S : Nat) (fuel : Nat) :
    ∀ (c : List Iterator) (s : ColoredDbg) (counter : Nat),
      IsHeap c → HeapInv S c → heapKeys c ≤ fuel → s.num_samples = S →
      constructLoop ops vecHash invalid fuel c s counter =
        some (runCalls vecHash s counter (mergeCalls ops S fuel c)) := by
  induction fuel with
  | zero =>
    intro c s counter _ _ hk _
    have : c = [] := by
      cases c with
      | nil => rfl
      | cons a b => rw [heapKeys_cons] at hk; omega
    subst this
    rw [constructLoop, mergeCalls, runCalls]
  | succ fuel ih =>
    intro c s counter hh hinv hk hS
    cases c with
    | nil => rw [constructLoop, mergeCalls, runCalls]
    | cons t tl =>
      obtain ⟨g1, g2, _, _, _⟩ := front_group ops IsHeap laws S t tl hh hinv
      have hinv2 : HeapInv S (groupLoop ops (heapKeys (t :: tl)) (t :: tl) (zeros S)).1 :=
        heapInv_perm g2.symm (heapInv_advance S t.kmer (t :: tl) hinv)
      have hlt : heapKeys (groupLoop ops (heapKeys (t :: tl)) (t :: tl) (zeros S)).1 ≤ fuel := by
        rw [heapKeys_perm g2]
        have := heapKeys_advance_lt t tl
        omega
      rw [constructLoop, mergeCalls, runCalls, hS]
      cases ha : afterGroup vecHash invalid s counter
          (groupLoop ops (heapKeys (t :: tl)) (t :: tl) (zeros S)).2.2
          (groupLoop ops (heapKeys (t :: tl)) (t :: tl) (zeros S)).2.1 with
      | error e => rfl
      | ok r =>
        obtain ⟨s1, counter1, b⟩ := r
        obtain ⟨hb, hs1⟩ := afterGroup_full vecHash s s1 counter _ counter1 _ b ha
        subst hb
        simp only
        exact ih _ s1 counter1 g1 hinv2 hlt (hs1.trans hS)

theorem exampleHeap_laws :
    HeapLaws exampleHeap (List.Sorted (fun a b : Iterator => a.kmer ≤ b.kmer)) := by
  haveI : IsTotal Iterator (fun a b => a.kmer ≤ b.kmer) := ⟨fun a b => Nat.le_total _ _⟩
  haveI : IsTrans Iterator (fun a b => a.kmer ≤ b.kmer) := ⟨fun _ _ _ h1 h2 => Nat.le_trans h1 h2⟩
  refine ⟨List.sorted_nil, ?_, ?_, ?_, ?_⟩
  · intro t tl h x hx
    exact List.rel_of_sorted_cons h x hx
  · intro c x _
    exact ⟨List.perm_insertionSort _ _, List.sorted_insertionSort _ _⟩
  · intro t tl _
    exact ⟨_, rfl, List.perm_insertionSort _ _, List.sorted_insertionSort _ _⟩
  · intro t tl x _
    exact ⟨_, rfl, List.perm_insertionSort _ _, List.sorted_insertionSort _ _⟩

/-- C3: given `N` input iterators that each yield strictly increasing keys, the merge loop of
`construct` in full mode is the loop body (`add_kmer`, then the flush test) run exactly once
for every distinct key, in increasing key order, with the bitmap whose bit `i` is set if and
only if input `i` contains that key (`expectedCalls`, up to the first fatal exit); this holds
for every heap implementation that meets `HeapLaws`, however it orders equal keys. -/
theorem construct_merge_calls (ops : HeapOps) (IsHeap : List Iterator → Prop)
    (laws : HeapLaws ops IsHeap) (vecHash : List Bool → Nat) (s : ColoredDbg)
    (incqfs : List (List Nat)) (hS : incqfs.length = s.num_samples)
    (hsorted : ∀ l ∈ incqfs, l.Sorted (· < ·)) :
    mergeCalls ops s.num_samples (heapKeys (seedHeap ops s.num_samples incqfs))
      (seedHeap ops s.num_samples incqfs) = expectedCalls incqfs ∧
    construct ops vecHash s incqfs invalid =
      some (runCalls vecHash s 0 (expectedCalls incqfs)) := by
  have h1 := mergeCalls_eq_expected ops IsHeap laws incqfs hsorted
  rw [hS] at h1
  refine ⟨h1, ?_⟩
  obtain ⟨q1, q2, _⟩ := seedHeap_spec ops IsHeap laws incqfs s.num_samples hsorted
  unfold construct
  rw [constructLoop_full ops IsHeap laws vecHash s.num_samples _ _ s 0 q1 q2 (le_refl _) rfl,
    h1]

/-- Witness of C3: two inputs that share the key 5. -/
theorem construct_merge_calls_witness :
    mergeCalls exampleHeap 2 (heapKeys (seedHeap exampleHeap 2 [[3, 5], [5, 9]]))
      (seedHeap exampleHeap 2 [[3, 5], [5, 9]]) = expectedCalls [[3, 5], [5, 9]] ∧
    construct exampleHeap exampleHash (ColoredDbg.init 4 8 2) [[3, 5], [5, 9]] invalid =
      some (runCalls exampleHash (ColoredDbg.init 4 8 2) 0 (expectedCalls [[3, 5], [5, 9]])) :=
  construct_merge_calls exampleHeap _ exampleHeap_laws exampleHash (ColoredDbg.init 4 8 2)
    [[3, 5], [5, 9]] rfl (by decide)



/-! ## Connected components of finite graphs -/

theorem reachable_of_adj_reachable {V : Type} {G G2 : SimpleGraph V}
    (h : ∀ x y, G.Adj x y → G2.Reachable x y) {x y : V} (hr : G.Reachable x y) :
    G2.Reachable x y := by
  rw [SimpleGraph.reachable_iff_reflTransGen] at hr
  induction hr with
  | refl => exact SimpleGraph.Reachable.refl _
  | tail _ ha ih => exact ih.trans (h _ _ ha)

theorem numComp_le_of_reachable {V : Type} [Finite V] {G G2 : SimpleGraph V}
    (h : ∀ x y, G.Adj x y → G2.Reachable x y) : Nat.card G2.ConnectedComponent ≤ Nat.card G.ConnectedComponent := by
  let f : G.ConnectedComponent → G2.ConnectedComponent :=
    Quot.lift (fun v => G2.connectedComponentMk v)
      (fun a b hab => SimpleGraph.ConnectedComponent.sound (reachable_of_adj_reachable h hab))
  apply Nat.card_le_card_of_surjective f
  intro c
  induction c using SimpleGraph.ConnectedComponent.ind with
  | h v => exact ⟨G.connectedComponentMk v, rfl⟩

/-- Reachability after one edge `u - v` is added. -/
theorem reachable_add_edge {V : Type} {G G2 : SimpleGraph V} {u v : V}
    (hadj : ∀ x y, G2.Adj x y → G.Adj x y ∨ (x = u ∧ y = v) ∨ (x = v ∧ y = u))
    {x y : V} (hr : G2.Reachable x y) :
    G.Reachable x y ∨ (G.Reachable x u ∧ G.Reachable v y) ∨
      (G.Reachable x v ∧ G.Reachable u y) := by
  rw [SimpleGraph.reachable_iff_reflTransGen] at hr
  induction hr with
  | refl => exact Or.inl (SimpleGraph.Reachable.refl _)
  | tail _ ha ih =>
    rename_i b c
    rcases hadj _ _ ha with h | ⟨h1, h2⟩ | ⟨h1, h2⟩
    · rcases ih with i | ⟨i1, i2⟩ | ⟨i1, i2⟩
      · exact Or.inl (i.trans h.reachable)
      · exact Or.inr (Or.inl ⟨i1, i2.trans h.reachable⟩)
      · exact Or.inr (Or.inr ⟨i1, i2.trans h.reachable⟩)
    · rw [h2]
      rw [h1] at ih
      rcases ih with i | ⟨i1, _⟩ | ⟨i1, _⟩
      · exact Or.inr (Or.inl ⟨i, SimpleGraph.Reachable.refl _⟩)
      · exact Or.inr (Or.inl ⟨i1, SimpleGraph.Reachable.refl _⟩)
      · exact Or.inl i1
    · rw [h2]
      rw [h1] at ih
      rcases ih with i | ⟨i1, _⟩ | ⟨i1, _⟩
      · exact Or.inr (Or.inr ⟨i, SimpleGraph.Reachable.refl _⟩)
      · exact Or.inl i1
      · exact Or.inr (Or.inr ⟨i1, SimpleGraph.Reachable.refl _⟩)

theorem numComp_add_edge_le {V : Type} [Finite V] {G G2 : SimpleGraph V} {u v : V}
    (hadj : ∀ x y, G2.Adj x y → G.Adj x y ∨ (x = u ∧ y = v) ∨ (x = v ∧ y = u)) :
    Nat.card G.ConnectedComponent ≤ Nat.card G2.ConnectedComponent + 1 := by
  classical
  let g : V → G.ConnectedComponent := fun x =>
    if G.Reachable x v then G.connectedComponentMk u else G.connectedComponentMk x
  have hg : ∀ a b, G2.Reachable a b → g a = g b := by
    intro a b hab
    simp only [g]
    rcases reachable_add_edge hadj hab with h | ⟨h1, h2⟩ | ⟨h1, h2⟩
    · have e1 : G.Reachable a v ↔ G.Reachable b v :=
        ⟨fun h3 => h.symm.trans h3, fun h3 => h.trans h3⟩
      by_cases h3 : G.Reachable a v
      · rw [if_pos h3, if_pos (e1.mp h3)]
      · rw [if_neg h3, if_neg (fun h4 => h3 (e1.mpr h4))]
        exact SimpleGraph.ConnectedComponent.sound h
    · rw [if_pos h2.symm]
      by_cases h3 : G.Reachable a v
      · rw [if_pos h3]
      · rw [if_neg h3]
        exact SimpleGraph.ConnectedComponent.sound h1
    · rw [if_pos h1]
      by_cases h3 : G.Reachable b v
      · rw [if_pos h3]
      · rw [if_neg h3]
        exact SimpleGraph.ConnectedComponent.sound h2
  let f : Option G2.ConnectedComponent → G.ConnectedComponent := fun o =>
    match o with
    | none => G.connectedComponentMk v
    | some c => Quot.lift g hg c
  have hf : Function.Surjective f := by
    intro c
    induction c using SimpleGraph.ConnectedComponent.ind with
    | h x =>
      by_cases h3 : G.Reachable x v
      · exact ⟨none, (SimpleGraph.ConnectedComponent.sound h3).symm⟩
      · refine ⟨some (G2.connectedComponentMk x), ?_⟩
        show g x = _
        simp only [g]
        rw [if_neg h3]
  haveI : Fintype G2.ConnectedComponent := Fintype.ofFinite _
  have := Nat.card_le_card_of_surjective f hf
  rw [Finite.card_option] at this
  exact this

theorem numComp_add_edge_lt {V : Type} [Finite V] {G G2 : SimpleGraph V} {u v : V}
    (hsub : ∀ x y, G.Adj x y → G2.Adj x y) (huv : G2.Reachable u v)
    (hnr : ¬ G.Reachable u v) :
    Nat.card G2.ConnectedComponent < Nat.card G.ConnectedComponent := by
  let f : G.ConnectedComponent → G2.ConnectedComponent :=
    Quot.lift (fun x => G2.connectedComponentMk x)
      (fun a b hab => SimpleGraph.ConnectedComponent.sound
        (reachable_of_adj_reachable (fun x y h => (hsub x y h).reachable) hab))
  have hs : Function.Surjective f := by
    intro c
    induction c using SimpleGraph.ConnectedComponent.ind with
    | h x => exact ⟨G.connectedComponentMk x, rfl⟩
  have hni : ¬ Function.Injective f := by
    intro hi
    have : G.connectedComponentMk u = G.connectedComponentMk v :=
      hi (SimpleGraph.ConnectedComponent.sound huv)
    exact hnr (SimpleGraph.ConnectedComponent.exact this)
  haveI : Fintype G.ConnectedComponent := Fintype.ofFinite _
  haveI : Fintype G2.ConnectedComponent := Fintype.ofFinite _
  rw [Nat.card_eq_fintype_card, Nat.card_eq_fintype_card]
  exact Fintype.card_lt_of_surjective_not_injective f hs hni

theorem isAcyclic_add_edge {V : Type} {G G2 : SimpleGraph V} {u v : V}
    (hac : G.IsAcyclic)
    (hadj : ∀ x y, G2.Adj x y → G.Adj x y ∨ (x = u ∧ y = v) ∨ (x = v ∧ y = u))
    (hnr : ¬ G.Reachable u v) : G2.IsAcyclic := by
  rw [SimpleGraph.isAcyclic_iff_forall_adj_isBridge] at hac ⊢
  intro a b hab
  rw [SimpleGraph.isBridge_iff]
  refine ⟨hab, ?_⟩
  intro hr
  have hnew : ∀ x y, (G2 \ SimpleGraph.fromEdgeSet {s(u, v)}).Adj x y → G.Adj x y := by
    intro x y hxy
    rw [SimpleGraph.sdiff_adj, SimpleGraph.fromEdgeSet_adj] at hxy
    rcases hadj x y hxy.1 with h | ⟨h1, h2⟩ | ⟨h1, h2⟩
    · exact h
    · exfalso
      apply hxy.2
      subst h1 h2
      exact ⟨rfl, hxy.1.ne⟩
    · exfalso
      apply hxy.2
      subst h1 h2
      exact ⟨Sym2.eq_swap, hxy.1.ne⟩
  rcases hadj a b hab with h | ⟨h1, h2⟩ | ⟨h1, h2⟩
  · have hb := ((SimpleGraph.isBridge_iff).mp (hac h)).2
    have hadjH : ∀ x y, (G2 \ SimpleGraph.fromEdgeSet {s(a, b)}).Adj x y →
        (G \ SimpleGraph.fromEdgeSet {s(a, b)}).Adj x y ∨ (x = u ∧ y = v) ∨ (x = v ∧ y = u) := by
      intro x y hxy
      rw [SimpleGraph.sdiff_adj] at hxy
      rcases hadj x y hxy.1 with h3 | h3 | h3
      · exact Or.inl ((SimpleGraph.sdiff_adj _ _ _ _).mpr ⟨h3, hxy.2⟩)
      · exact Or.inr (Or.inl h3)
      · exact Or.inr (Or.inr h3)
    have hle : ∀ x y, (G \ SimpleGraph.fromEdgeSet {s(a, b)}).Reachable x y →
        G.Reachable x y := by
      intro x y hxy
      exact reachable_of_adj_reachable
        (fun p q hpq => ((SimpleGraph.sdiff_adj _ _ _ _).mp hpq).1.reachable) hxy
    rcases reachable_add_edge hadjH hr with h3 | ⟨h3, h4⟩ | ⟨h3, h4⟩
    · exact hb h3
    · exact hnr (((hle _ _ h3).symm.trans h.reachable).trans (hle _ _ h4).symm)
    · exact hnr (((hle _ _ h4).trans h.reachable.symm).trans (hle _ _ h3))
  · subst h1 h2
    exact hnr (reachable_of_adj_reachable (fun x y hxy => (hnew x y hxy).reachable) hr)
  · subst h1 h2
    have hr2 : (G2 \ SimpleGraph.fromEdgeSet {s(b, a)}).Reachable a b := by
      rw [Sym2.eq_swap]; exact hr
    exact hnr (reachable_of_adj_reachable (fun x y hxy => (hnew x y hxy).reachable) hr2).symm

theorem connected_of_card_le_one {V : Type} [Finite V] [Nonempty V] {G : SimpleGraph V}
    (h : Nat.card G.ConnectedComponent ≤ 1) : G.Connected := by
  haveI : Subsingleton G.ConnectedComponent := Finite.card_le_one_iff_subsingleton.mp h
  refine ⟨fun u v => ?_⟩
  exact SimpleGraph.ConnectedComponent.exact (Subsingleton.elim _ _)

theorem card_eq_one_of_connected {V : Type} [Finite V] {G : SimpleGraph V}
    (h : G.Connected) : Nat.card G.ConnectedComponent = 1 := by
  haveI := h.nonempty
  haveI : Subsingleton G.ConnectedComponent := h.preconnected.subsingleton_connectedComponent
  have h1 : Nat.card G.ConnectedComponent ≤ 1 := Finite.card_le_one_iff_subsingleton.mpr this
  have h2 : 0 < Nat.card G.ConnectedComponent := by
    haveI : Nonempty G.ConnectedComponent :=
      ⟨G.connectedComponentMk (Classical.arbitrary V)⟩
    exact Finite.card_pos
  omega

/-! ## Union-find and Kruskal -/

theorem DisjointSets.length_update (ds : DisjointSets) (u : Nat) (x : DisjointSetNode) :
    (ds.update u x).els.length = ds.els.length := by
  simp [DisjointSets.update]

theorem DisjointSets.node_update (ds : DisjointSets) (u : Nat) (x : DisjointSetNode) (j : Nat) :
    (ds.update u x).node j = if u = j ∧ u < ds.els.length then x else ds.node j := by
  unfold DisjointSets.update DisjointSets.node
  simp only [List.getD_eq_getElem?_getD, List.getElem?_set]
  by_cases h : u = j
  · subst h
    by_cases h2 : u < ds.els.length
    · simp [h2]
    · have : ds.els.length ≤ u := by omega
      simp [h2, List.getElem?_eq_none this]
  · simp [h]

theorem DisjointSets.par_update (ds : DisjointSets) (u : Nat) (x : DisjointSetNode) (j : Nat) :
    (ds.update u x).par j = if u = j ∧ u < ds.els.length then x.parent else ds.par j := by
  unfold DisjointSets.par
  rw [DisjointSets.node_update]
  split <;> rfl

theorem DisjointSets.rk_update (ds : DisjointSets) (u : Nat) (x : DisjointSetNode) (j : Nat) :
    (ds.update u x).rk j = if u = j ∧ u < ds.els.length then x.rnk else ds.rk j := by
  unfold DisjointSets.rk
  rw [DisjointSets.node_update]
  split <;> rfl

theorem DisjointSets.mergeWith_spec (ds : DisjointSets) (a b edgeW : Nat) (hab : a ≠ b)
    (ha : a < ds.els.length) (hb : b < ds.els.length) :
    (ds.mergeWith a b edgeW).els.length = ds.els.length ∧
    (∀ x, (ds.mergeWith a b edgeW).par x = if x = b then ds.par a else ds.par x) ∧
    (∀ x, (ds.mergeWith a b edgeW).rk x =
      if x = a ∧ ds.rk a = ds.rk b then ds.rk a + 1 else ds.rk x) := by
  have hba : b ≠ a := fun h => hab h.symm
  unfold DisjointSets.mergeWith
  simp only [DisjointSets.node_update, DisjointSets.length_update, ha, hb, hab, hba,
    and_true, and_false, if_true, if_false, false_and, true_and]
  refine ⟨?_, ?_, ?_⟩
  · split <;> simp [DisjointSets.length_update]
  · intro x
    split
    · simp only [DisjointSets.par_update, DisjointSets.length_update]
      by_cases hxb : x = b
      · subst hxb
        simp [hab, hb, DisjointSets.par, DisjointSets.node_update, ha, hba]
      · have hbx : ¬ b = x := fun h => hxb h.symm
        by_cases hxa : x = a
        · subst hxa
          simp [hb, hbx, hxb, DisjointSets.par, DisjointSets.node_update, ha]
        · have hax : ¬ a = x := fun h => hxa h.symm
          simp [hbx, hxb, hax, DisjointSets.par, DisjointSets.node_update]
    · simp only [DisjointSets.par_update, DisjointSets.length_update]
      by_cases hxb : x = b
      · subst hxb
        simp [hab, hb, DisjointSets.par, DisjointSets.node_update, ha, hba]
      · have hbx : ¬ b = x := fun h => hxb h.symm
        by_cases hxa : x = a
        · subst hxa
          simp [hb, hbx, hxb, DisjointSets.par, DisjointSets.node_update, ha]
        · have hax : ¬ a = x := fun h => hxa h.symm
          simp [hbx, hxb, hax, DisjointSets.par, DisjointSets.node_update]
  · intro x
    by_cases hr : ds.rk a = ds.rk b
    · have hr2 : (ds.node a).rnk = (ds.node b).rnk := hr
      simp only [hr2, if_true, DisjointSets.rk_update, DisjointSets.length_update]
      by_cases hxa : x = a
      · subst hxa
        simp [ha, hr, DisjointSets.rk, DisjointSets.node_update, hb, hba, hr2]
      · have hax : ¬ a = x := fun h => hxa h.symm
        by_cases hxb : x = b
        · subst hxb
          simp [hax, hxa, hb, DisjointSets.rk, DisjointSets.node_update, ha, hab]
        · have hbx : ¬ b = x := fun h => hxb h.symm
          simp [hax, hxa, hbx, DisjointSets.rk, DisjointSets.node_update]
    · have hr2 : ¬ (ds.node a).rnk = (ds.node b).rnk := hr
      simp only [hr2, if_false, DisjointSets.rk_update, DisjointSets.length_update]
      by_cases hxa : x = a
      · subst hxa
        simp [ha, hr, DisjointSets.rk, DisjointSets.node_update, hb, hba, hr2]
      · have hax : ¬ a = x := fun h => hxa h.symm
        by_cases hxb : x = b
        · subst hxb
          simp [hax, hxa, hb, DisjointSets.rk, DisjointSets.node_update, ha, hab]
        · have hbx : ¬ b = x := fun h => hxb h.symm
          simp [hax, hxa, hbx, DisjointSets.rk, DisjointSets.node_update]

theorem Rep.idem {ds : DisjointSets} {ρ : Nat → Nat} {K : Nat} (h : Rep ds ρ K) (u : Nat)
    (hu : u < ds.els.length) : ρ (ρ u) = ρ u := by
  obtain ⟨h1, h2, _⟩ := h u hu
  exact (h (ρ u) h1).2.2.2.2.1 h2

theorem DisjointSets.find_spec (ρ : Nat → Nat) (K : Nat) (fuel : Nat) :
    ∀ (ds : DisjointSets) (u : Nat), Rep ds ρ K → u < ds.els.length → K - ds.rk u < fuel →
      ∃ ds2, ds.find fuel u = some (ds2, ρ u) ∧ ds2.els.length = ds.els.length ∧
        ds2.n = ds.n ∧ Rep ds2 ρ K := by
  induction fuel with
  | zero => intro ds u _ _ hf; omega
  | succ fuel ih =>
    intro ds u hrep hu hf
    obtain ⟨h1, h2, h3, h4, h5, h6, h7, h8⟩ := hrep u hu
    rw [DisjointSets.find]
    by_cases hp : u ≠ (ds.node u).parent
    · rw [if_pos hp]
      have hp2 : ds.par u ≠ u := fun h => hp h.symm
      have hlt := h7 hp2
      have hKp := (hrep (ds.par u) h3).2.2.2.2.2.2.2
      obtain ⟨ds1, e1, e2, e3, e4⟩ := ih ds (ds.par u) hrep h3 (by omega)
      have e1b : ds.find fuel (ds.node u).parent = some (ds1, ρ (ds.par u)) := e1
      rw [e1b]
      simp only
      rw [h4]
      refine ⟨_, rfl, by rw [DisjointSets.length_update, e2], e3, ?_⟩
      have hu1 : u < ds1.els.length := by omega
      obtain ⟨g1, g2, g3, g4, g5, g6, g7, g8⟩ := e4 u hu1
      have hidem := e4.idem u hu1
      intro x hx
      rw [DisjointSets.length_update] at hx ⊢
      obtain ⟨x1, x2, x3, x4, x5, x6, x7, x8⟩ := e4 x hx
      have hrk : ∀ y, (ds1.update u { ds1.node u with parent := ρ u }).rk y = ds1.rk y := by
        intro y
        rw [DisjointSets.rk_update]
        split
        · rename_i hc
          rw [← hc.1]; rfl
        · rfl
      have hpar : ∀ y, (ds1.update u { ds1.node u with parent := ρ u }).par y =
          if y = u then ρ u else ds1.par y := by
        intro y
        rw [DisjointSets.par_update]
        by_cases hy : y = u
        · subst hy; simp [hu1]
        · have : ¬ u = y := fun h => hy h.symm
          simp [hy, this]
      rw [hpar, hpar, hrk, hrk, hrk]
      have hroot_u : ρ x = u → ρ u = u := by
        intro hxu
        rw [← hxu]; exact e4.idem x hx
      refine ⟨x1, ?_, ?_, ?_, ?_, x6, ?_, x8⟩
      · by_cases hxu : ρ x = u
        · rw [if_pos hxu, hroot_u hxu, hxu]
        · rw [if_neg hxu]; exact x2
      · by_cases hxu : x = u
        · rw [if_pos hxu]; exact g1
        · rw [if_neg hxu]; exact x3
      · by_cases hxu : x = u
        · rw [if_pos hxu, hxu]; exact hidem
        · rw [if_neg hxu]; exact x4
      · by_cases hxu : x = u
        · rw [if_pos hxu, hxu]; exact fun h => h
        · rw [if_neg hxu]; exact x5
      · by_cases hxu : x = u
        · rw [if_pos hxu, hxu]
          intro hne
          exact g6 (fun h => hne h.symm)
        · rw [if_neg hxu]; exact x7
    · rw [if_neg hp]
      have hp2 : ds.par u = u := by
        by_contra hc
        exact hp (fun h => hc h.symm)
      have : (ds.node u).parent = ρ u := by
        show ds.par u = ρ u
        rw [hp2, h5 hp2]
      rw [this]
      exact ⟨ds, rfl, rfl, rfl, hrep⟩

theorem DisjointSets.mergeWith_rep (ds : DisjointSets) (ρ : Nat → Nat) (K win lose edgeW : Nat)
    (hrep : Rep ds ρ K) (hw : win < ds.els.length) (hl : lose < ds.els.length)
    (hne : win ≠ lose) (hwr : ds.par win = win) (hlr : ds.par lose = lose)
    (hrk : ds.rk lose ≤ ds.rk win) :
    (ds.mergeWith win lose edgeW).els.length = ds.els.length ∧
    Rep (ds.mergeWith win lose edgeW) (fun x => if ρ x = lose then win else ρ x) (K + 1) := by
  obtain ⟨m1, m2, m3⟩ := DisjointSets.mergeWith_spec ds win lose edgeW hne hw hl
  refine ⟨m1, ?_⟩
  have hρw : ρ win = win := (hrep win hw).2.2.2.2.1 hwr
  have hρl : ρ lose = lose := (hrep lose hl).2.2.2.2.1 hlr
  have hrk_ge : ∀ x, ds.rk x ≤ (ds.mergeWith win lose edgeW).rk x := by
    intro x; rw [m3]; split
    · rename_i hc; rw [hc.1]; omega
    · exact le_refl _
  have hrk_ne : ∀ x, x ≠ win → (ds.mergeWith win lose edgeW).rk x = ds.rk x := by
    intro x hx; rw [m3, if_neg (fun hc => hx hc.1)]
  have hrk_win : ds.rk lose < (ds.mergeWith win lose edgeW).rk win := by
    rw [m3]
    by_cases hc : ds.rk win = ds.rk lose
    · rw [if_pos ⟨rfl, hc⟩]; omega
    · rw [if_neg (fun h => hc h.2)]; omega
  intro u hu
  rw [m1] at hu ⊢
  obtain ⟨h1, h2, h3, h4, h5, h6, h7, h8⟩ := hrep u hu
  have hle_root : ds.rk u ≤ ds.rk (ρ u) := by
    by_cases hc : u = ρ u
    · rw [← hc]
    · exact le_of_lt (h6 hc)
  simp only [m2]
  refine ⟨?_, ?_, ?_, ?_, ?_, ?_, ?_, ?_⟩
  · split
    · exact hw
    · exact h1
  · by_cases hc : ρ u = lose
    · rw [if_pos hc, if_neg hne, hwr]
    · rw [if_neg hc, if_neg hc, h2]
  · split
    · rw [hwr]; exact hw
    · exact h3
  · by_cases hc : u = lose
    · subst hc
      rw [if_pos rfl, hwr, hρw, if_neg hne, if_pos hρl]
    · rw [if_neg hc, h4]
  · by_cases hc : u = lose
    · subst hc
      rw [if_pos rfl, hwr]
      intro h; exact absurd h hne
    · rw [if_neg hc]
      intro h
      have := h5 h
      rw [this, if_neg hc]
  · by_cases hc : ρ u = lose
    · rw [if_pos hc]
      intro hne2
      rw [hrk_ne u hne2]
      rw [hc] at hle_root
      omega
    · rw [if_neg hc]
      intro hne2
      have huw : u ≠ win := by
        intro h; apply hne2; rw [h, hρw]
      rw [hrk_ne u huw]
      have := h6 hne2
      have := hrk_ge (ρ u)
      omega
  · by_cases hc : u = lose
    · subst hc
      rw [if_pos rfl, hwr]
      intro _
      rw [hrk_ne u (fun h => hne h.symm)]
      exact hrk_win
    · rw [if_neg hc]
      intro hne2
      have huw : u ≠ win := by
        intro h; rw [h] at hne2; exact hne2 hwr
      rw [hrk_ne u huw]
      have := h7 hne2
      have := hrk_ge (ds.par u)
      omega
  · rw [m3]
    split
    · rename_i hc
      rw [← hc.1]; omega
    · omega

theorem DisjointSets.merge_spec (ds : DisjointSets) (ρ : Nat → Nat) (K fuel a b edgeW : Nat)
    (hrep : Rep ds ρ K) (ha : a < ds.els.length) (hb : b < ds.els.length)
    (hne : a ≠ b) (har : ds.par a = a) (hbr : ds.par b = b) (hf : K < fuel) :
    ∃ ds2 win lose, ds.merge fuel a b edgeW = some ds2 ∧
      ((win = a ∧ lose = b) ∨ (win = b ∧ lose = a)) ∧
      ds2.els.length = ds.els.length ∧
      Rep ds2 (fun x => if ρ x = lose then win else ρ x) (K + 1) := by
  have hρa : ρ a = a := (hrep a ha).2.2.2.2.1 har
  have hρb : ρ b = b := (hrep b hb).2.2.2.2.1 hbr
  obtain ⟨ds1, e1, e2, _, e4⟩ := DisjointSets.find_spec ρ K fuel ds a hrep ha (by omega)
  obtain ⟨ds2, f1, f2, _, f4⟩ :=
    DisjointSets.find_spec ρ K fuel ds1 b e4 (by omega) (by omega)
  rw [hρa] at e1
  rw [hρb] at f1
  unfold DisjointSets.merge
  rw [e1]
  simp only
  rw [f1]
  simp only
  have ha2 : a < ds2.els.length := by omega
  have hb2 : b < ds2.els.length := by omega
  have har2 : ds2.par a = a := by
    have := (f4 a ha2).2.1; rw [hρa] at this; exact this
  have hbr2 : ds2.par b = b := by
    have := (f4 b hb2).2.1; rw [hρb] at this; exact this
  by_cases hr : (ds2.node a).rnk > (ds2.node b).rnk
  · rw [if_pos hr]
    obtain ⟨g1, g2⟩ := DisjointSets.mergeWith_rep ds2 ρ K a b edgeW f4 ha2 hb2 hne har2 hbr2
      (le_of_lt hr)
    exact ⟨_, a, b, rfl, Or.inl ⟨rfl, rfl⟩, by omega, g2⟩
  · rw [if_neg hr]
    obtain ⟨g1, g2⟩ := DisjointSets.mergeWith_rep ds2 ρ K b a edgeW f4 hb2 ha2
      (fun h => hne h.symm) hbr2 har2 (by
        have : ¬ ds2.rk a > ds2.rk b := hr
        omega)
    exact ⟨_, b, a, rfl, Or.inr ⟨rfl, rfl⟩, by omega, g2⟩

theorem edgeGraph_adj (n : Nat) (E : List (Nat × Nat × Nat)) (x y : Fin n) :
    (edgeGraph n E).Adj x y ↔
      x ≠ y ∧ ((∃ w, (x.val, y.val, w) ∈ E) ∨ (∃ w, (y.val, x.val, w) ∈ E)) := by
  unfold edgeGraph
  rw [SimpleGraph.fromRel_adj]

theorem edgeGraph_append_adj (n : Nat) (E : List (Nat × Nat × Nat)) (u v w : Nat)
    (x y : Fin n) :
    (edgeGraph n (E ++ [(u, v, w)])).Adj x y ↔
      (edgeGraph n E).Adj x y ∨
        (x ≠ y ∧ ((x.val = u ∧ y.val = v) ∨ (x.val = v ∧ y.val = u))) := by
  rw [edgeGraph_adj, edgeGraph_adj]
  simp only [List.mem_append, List.mem_singleton, Prod.mk.injEq]
  constructor
  · rintro ⟨hne, ⟨w1, h | h⟩ | ⟨w1, h | h⟩⟩
    · exact Or.inl ⟨hne, Or.inl ⟨w1, h⟩⟩
    · exact Or.inr ⟨hne, Or.inl ⟨h.1, h.2.1⟩⟩
    · exact Or.inl ⟨hne, Or.inr ⟨w1, h⟩⟩
    · exact Or.inr ⟨hne, Or.inr ⟨h.2.1, h.1⟩⟩
  · rintro (⟨hne, ⟨w1, h⟩ | ⟨w1, h⟩⟩ | ⟨hne, h | h⟩)
    · exact ⟨hne, Or.inl ⟨w1, Or.inl h⟩⟩
    · exact ⟨hne, Or.inr ⟨w1, Or.inl h⟩⟩
    · exact ⟨hne, Or.inl ⟨w, Or.inr ⟨h.1, h.2, rfl⟩⟩⟩
    · exact ⟨hne, Or.inr ⟨w, Or.inr ⟨h.2, h.1, rfl⟩⟩⟩

theorem edgeGraph_mono (n : Nat) (E F : List (Nat × Nat × Nat)) (h : ∀ e ∈ E, e ∈ F)
    (x y : Fin n) (hxy : (edgeGraph n E).Adj x y) : (edgeGraph n F).Adj x y := by
  rw [edgeGraph_adj] at hxy ⊢
  obtain ⟨hne, ⟨w, hw⟩ | ⟨w, hw⟩⟩ := hxy
  · exact ⟨hne, Or.inl ⟨w, h _ hw⟩⟩
  · exact ⟨hne, Or.inr ⟨w, h _ hw⟩⟩

theorem getD_adjPush (m : List (List (Nat × Nat))) (u v w a : Nat) :
    (adjPush m u v w).getD a [] =
      if a = u ∧ u < m.length then m.getD u [] ++ [(v, w)] else m.getD a [] := by
  unfold adjPush
  simp only [List.getD_eq_getElem?_getD, List.getElem?_set]
  by_cases h : u = a
  · subst h
    by_cases h2 : u < m.length
    · simp [h2]
    · have : m.length ≤ u := by omega
      simp [h2, List.getElem?_eq_none this]
  · have : ¬ a = u := fun hc => h hc.symm
    simp [h, this]

theorem sum_adjPush (m : List (List (Nat × Nat))) (u v w : Nat) (hu : u < m.length) :
    ((adjPush m u v w).flatten.map Prod.snd).sum = (m.flatten.map Prod.snd).sum + w := by
  unfold adjPush
  induction m generalizing u with
  | nil => simp at hu
  | cons a t ih =>
    cases u with
    | zero =>
      simp only [List.set_cons_zero, List.flatten_cons, List.map_append, List.sum_append,
        List.getD_cons_zero, List.map_cons, List.map_nil, List.sum_cons, List.sum_nil]
      omega
    | succ k =>
      simp only [List.set_cons_succ, List.flatten_cons, List.map_append, List.sum_append,
        List.getD_cons_succ]
      rw [ih k (by simpa using hu)]
      omega

theorem length_adjPush (m : List (List (Nat × Nat))) (u v w : Nat) :
    (adjPush m u v w).length = m.length := by
  simp [adjPush]

theorem card_comp_eq_of_reachable {n : Nat} {G H : SimpleGraph (Fin n)}
    (h1 : ∀ x y, G.Adj x y → H.Reachable x y) (h2 : ∀ x y, H.Adj x y → G.Reachable x y) :
    Nat.card G.ConnectedComponent = Nat.card H.ConnectedComponent :=
  le_antisymm (numComp_le_of_reachable h2) (numComp_le_of_reachable h1)

theorem filter_le_eq_self (L : List (Nat × Nat × Nat)) (W t : Nat) (hW : ∀ e ∈ L, e.2.2 ≤ W)
    (ht : W ≤ t) : L.filter (fun e => e.2.2 ≤ t) = L := by
  rw [List.filter_eq_self]
  intro e he
  have := hW e he
  simp only [decide_eq_true_eq]
  omega

theorem KInv.length_lt {n : Nat} {st : KruskalState} {ρ : Nat → Nat}
    {T P : List (Nat × Nat × Nat)} {W : Nat} (h : KInv n st ρ T P W) (hn : 0 < n) :
    T.length < n := by
  haveI : Nonempty (Fin n) := ⟨⟨0, hn⟩⟩
  haveI : Nonempty (edgeGraph n T).ConnectedComponent :=
    ⟨(edgeGraph n T).connectedComponentMk ⟨0, hn⟩⟩
  have h1 : 0 < Nat.card (edgeGraph n T).ConnectedComponent := Finite.card_pos
  have := h.comps
  omega

theorem layers_of_same {n : Nat} (T P : List (Nat × Nat × Nat)) (W w : Nat)
    (Pold Told : List (Nat × Nat × Nat)) (e : Nat × Nat × Nat) (he : e.2.2 = w)
    (hP : P = Pold ++ [e]) (hT : T = Told ∨ T = Told ++ [e])
    (hWw : W ≤ w) (hPold : ∀ x ∈ Pold, x.2.2 ≤ W)
    (hlay : ∀ t, (Told.filter (fun e => e.2.2 ≤ t)).length +
      Nat.card (edgeGraph n (Pold.filter (fun e => e.2.2 ≤ t))).ConnectedComponent = n)
    (hcomps : Nat.card (edgeGraph n T).ConnectedComponent + T.length = n)
    (hproc : ∀ a b : Fin n, (edgeGraph n P).Adj a b → (edgeGraph n T).Reachable a b)
    (hsub : ∀ x ∈ T, x ∈ P) :
    ∀ t, (T.filter (fun e => e.2.2 ≤ t)).length +
      Nat.card (edgeGraph n (P.filter (fun e => e.2.2 ≤ t))).ConnectedComponent = n := by
  intro t
  by_cases ht : w ≤ t
  · have hPw : ∀ x ∈ P, x.2.2 ≤ w := by
      intro x hx
      rw [hP, List.mem_append, List.mem_singleton] at hx
      rcases hx with h | h
      · have := hPold x h; omega
      · rw [h, he]
    have hTw : ∀ x ∈ T, x.2.2 ≤ w := fun x hx => hPw x (hsub x hx)
    rw [filter_le_eq_self T w t hTw ht, filter_le_eq_self P w t hPw ht]
    have := card_comp_eq_of_reachable (G := edgeGraph n T) (H := edgeGraph n P)
      (fun x y h => (edgeGraph_mono n T P hsub x y h).reachable) hproc
    omega
  · have hf : ∀ L : List (Nat × Nat × Nat), (L ++ [e]).filter (fun e => e.2.2 ≤ t) =
        L.filter (fun e => e.2.2 ≤ t) := by
      intro L
      rw [List.filter_append]
      have : [e].filter (fun e => e.2.2 ≤ t) = [] := by
        rw [List.filter_eq_nil_iff]
        intro x hx
        rw [List.mem_singleton] at hx
        rw [hx]
        simp only [decide_eq_true_eq, he]
        exact ht
      rw [this, List.append_nil]
    rw [hP, hf]
    rcases hT with h | h
    · rw [h]; exact hlay t
    · rw [h, hf]; exact hlay t

theorem kruskalEdge_spec (n fuel w W : Nat) (st : KruskalState) (ρ : Nat → Nat)
    (T P : List (Nat × Nat × Nat)) (it : Edge) (hinv : KInv n st ρ T P W)
    (hu : it.n1 < n) (hv : it.n2 < n) (hWw : W ≤ w) (hfuel : n ≤ fuel) :
    ∃ st2 ρ2 T2, kruskalEdge fuel w st it = some st2 ∧
      KInv n st2 ρ2 T2 (P ++ [(it.n1, it.n2, w)]) w ∧
      (T2 = T ∨ T2 = T ++ [(it.n1, it.n2, w)]) := by
  have hn : 0 < n := by omega
  have hTlt := hinv.length_lt hn
  have hlen := hinv.len
  obtain ⟨ds1, e1, e2, _, e4⟩ :=
    DisjointSets.find_spec ρ T.length fuel st.ds it.n1 hinv.rep (by omega) (by omega)
  obtain ⟨ds2, f1, f2, _, f4⟩ :=
    DisjointSets.find_spec ρ T.length fuel ds1 it.n2 e4 (by omega) (by omega)
  have hlen2 : ds2.els.length = n := by omega
  unfold kruskalEdge
  rw [e1]
  simp only
  rw [f1]
  simp only
  have hPrange : ∀ e ∈ P ++ [(it.n1, it.n2, w)], e.1 < n ∧ e.2.1 < n ∧ e.2.2 ≤ w := by
    intro e he
    rw [List.mem_append, List.mem_singleton] at he
    rcases he with h | h
    · have := hinv.range e h
      exact ⟨this.1, this.2.1, by omega⟩
    · rw [h]; exact ⟨hu, hv, le_refl _⟩
  by_cases hroots : ρ it.n1 = ρ it.n2
  · -- the edge closes a cycle: it is skipped
    rw [if_neg (fun h => h hroots)]
    refine ⟨_, ρ, T, rfl, ?_, Or.inl rfl⟩
    have hsub : ∀ e ∈ T, e ∈ P ++ [(it.n1, it.n2, w)] :=
      fun e he => List.mem_append_left _ (hinv.sub e he)
    have hproc : ∀ a b : Fin n, (edgeGraph n (P ++ [(it.n1, it.n2, w)])).Adj a b →
        (edgeGraph n T).Reachable a b := by
      intro a b hab
      rw [edgeGraph_append_adj] at hab
      rcases hab with h | ⟨_, ⟨h1, h2⟩ | ⟨h1, h2⟩⟩
      · exact hinv.proc a b h
      · apply (hinv.same a b).mp
        rw [h1, h2]; exact hroots
      · apply (hinv.same a b).mp
        rw [h1, h2]; exact hroots.symm
    exact
      { len := hlen2
        rep := f4
        mstLen := hinv.mstLen
        adj := hinv.adj
        sub := hsub
        range := hPrange
        same := hinv.same
        proc := hproc
        comps := hinv.comps
        acyclic := hinv.acyclic
        selected := hinv.selected
        total := hinv.total
        adjsum := hinv.adjsum
        layers := layers_of_same T (P ++ [(it.n1, it.n2, w)]) W w P T (it.n1, it.n2, w) rfl rfl
          (Or.inl rfl) hWw (fun x hx => (hinv.range x hx).2.2) hinv.layers hinv.comps hproc
          hsub }
  · -- the edge joins two sets: it is selected
    rw [if_pos hroots]
    have hr1 := (f4 it.n1 (by omega))
    have hr2 := (f4 it.n2 (by omega))
    obtain ⟨ds3, win, lose, g1, g2, g3, g4⟩ :=
      DisjointSets.merge_spec ds2 ρ T.length fuel (ρ it.n1) (ρ it.n2) w f4 hr1.1 hr2.1 hroots
        hr1.2.1 hr2.2.1 (by omega)
    rw [g1]
    simp only
    refine ⟨_, (fun x => if ρ x = lose then win else ρ x), T ++ [(it.n1, it.n2, w)], rfl, ?_,
      Or.inr rfl⟩
    have hnr : ¬ (edgeGraph n T).Reachable ⟨it.n1, hu⟩ ⟨it.n2, hv⟩ :=
      fun h => hroots ((hinv.same ⟨it.n1, hu⟩ ⟨it.n2, hv⟩).mpr h)
    have huv : it.n1 ≠ it.n2 := fun h => hroots (by rw [h])
    have hadj : ∀ x y : Fin n, (edgeGraph n (T ++ [(it.n1, it.n2, w)])).Adj x y →
        (edgeGraph n T).Adj x y ∨ (x = ⟨it.n1, hu⟩ ∧ y = ⟨it.n2, hv⟩) ∨
          (x = ⟨it.n2, hv⟩ ∧ y = ⟨it.n1, hu⟩) := by
      intro x y hxy
      rw [edgeGraph_append_adj] at hxy
      rcases hxy with h | ⟨_, ⟨h1, h2⟩ | ⟨h1, h2⟩⟩
      · exact Or.inl h
      · exact Or.inr (Or.inl ⟨Fin.ext h1, Fin.ext h2⟩)
      · exact Or.inr (Or.inr ⟨Fin.ext h1, Fin.ext h2⟩)
    have hmono : ∀ x y : Fin n, (edgeGraph n T).Adj x y →
        (edgeGraph n (T ++ [(it.n1, it.n2, w)])).Adj x y :=
      fun x y h => (edgeGraph_append_adj n T it.n1 it.n2 w x y).mpr (Or.inl h)
    have hmonoR : ∀ x y : Fin n, (edgeGraph n T).Reachable x y →
        (edgeGraph n (T ++ [(it.n1, it.n2, w)])).Reachable x y :=
      fun x y h => reachable_of_adj_reachable (fun a b hab => (hmono a b hab).reachable) h
    have hnew : (edgeGraph n (T ++ [(it.n1, it.n2, w)])).Adj ⟨it.n1, hu⟩ ⟨it.n2, hv⟩ := by
      rw [edgeGraph_append_adj]
      exact Or.inr ⟨fun h => huv (Fin.mk.inj_iff.mp h), Or.inl ⟨rfl, rfl⟩⟩
    have hsub : ∀ e ∈ T ++ [(it.n1, it.n2, w)], e ∈ P ++ [(it.n1, it.n2, w)] := by
      intro e he
      rw [List.mem_append] at he ⊢
      rcases he with h | h
      · exact Or.inl (hinv.sub e h)
      · exact Or.inr h
    have hproc : ∀ a b : Fin n, (edgeGraph n (P ++ [(it.n1, it.n2, w)])).Adj a b →
        (edgeGraph n (T ++ [(it.n1, it.n2, w)])).Reachable a b := by
      intro a b hab
      rw [edgeGraph_append_adj] at hab
      rcases hab with h | h
      · exact hmonoR a b (hinv.proc a b h)
      · exact ((edgeGraph_append_adj n T it.n1 it.n2 w a b).mpr (Or.inr h)).reachable
    have hcomps : Nat.card (edgeGraph n (T ++ [(it.n1, it.n2, w)])).ConnectedComponent +
        (T ++ [(it.n1, it.n2, w)]).length = n := by
      have h1 := numComp_add_edge_le hadj
      have h2 := numComp_add_edge_lt hmono hnew.reachable hnr
      have h3 := hinv.comps
      rw [List.length_append, List.length_singleton]
      omega
    have hwl : (win = ρ it.n1 ∧ lose = ρ it.n2) ∨ (win = ρ it.n2 ∧ lose = ρ it.n1) := g2
    have hsame : ∀ a b : Fin n, (fun x => if ρ x = lose then win else ρ x) a.val =
        (fun x => if ρ x = lose then win else ρ x) b.val ↔
        (edgeGraph n (T ++ [(it.n1, it.n2, w)])).Reachable a b := by
      intro a b
      have su := hinv.same a ⟨it.n1, hu⟩
      have sv := hinv.same a ⟨it.n2, hv⟩
      have tu := hinv.same b ⟨it.n1, hu⟩
      have tv := hinv.same b ⟨it.n2, hv⟩
      have sab := hinv.same a b
      simp only at su sv tu tv
      have ruv : (edgeGraph n (T ++ [(it.n1, it.n2, w)])).Reachable ⟨it.n1, hu⟩ ⟨it.n2, hv⟩ :=
        hnew.reachable
      simp only
      constructor
      · intro h
        by_cases hab : ρ a = ρ b
        · exact hmonoR a b (sab.mp hab)
        · -- the two classes are the merged ones
          have hcase : (ρ a = ρ it.n1 ∧ ρ b = ρ it.n2) ∨ (ρ a = ρ it.n2 ∧ ρ b = ρ it.n1) := by
            by_cases ha : ρ a.val = lose
            · by_cases hb : ρ b.val = lose
              · exact absurd (ha.trans hb.symm) hab
              · rw [if_pos ha, if_neg hb] at h
                rcases hwl with ⟨w1, w2⟩ | ⟨w1, w2⟩
                · exact Or.inr ⟨ha.trans w2, h.symm.trans w1⟩
                · exact Or.inl ⟨ha.trans w2, h.symm.trans w1⟩
            · by_cases hb : ρ b.val = lose
              · rw [if_neg ha, if_pos hb] at h
                rcases hwl with ⟨w1, w2⟩ | ⟨w1, w2⟩
                · exact Or.inl ⟨h.trans w1, hb.trans w2⟩
                · exact Or.inr ⟨h.trans w1, hb.trans w2⟩
              · rw [if_neg ha, if_neg hb] at h
                exact absurd h hab
          rcases hcase with ⟨c1, c2⟩ | ⟨c1, c2⟩
          · exact ((hmonoR _ _ (su.mp c1)).trans ruv).trans (hmonoR _ _ (tv.mp c2)).symm
          · exact ((hmonoR _ _ (sv.mp c1)).trans ruv.symm).trans (hmonoR _ _ (tu.mp c2)).symm
      · intro h
        have key : ∀ x : Fin n, (edgeGraph n T).Reachable x ⟨it.n1, hu⟩ ∨
            (edgeGraph n T).Reachable x ⟨it.n2, hv⟩ →
            (if ρ x.val = lose then win else ρ x.val) = win := by
          intro x hx
          have xu := hinv.same x ⟨it.n1, hu⟩
          have xv := hinv.same x ⟨it.n2, hv⟩
          simp only at xu xv
          rcases hx with hx | hx
          · have := xu.mpr hx
            rcases hwl with ⟨w1, w2⟩ | ⟨w1, w2⟩
            · by_cases hc : ρ x.val = lose
              · rw [if_pos hc]
              · rw [if_neg hc, this, w1]
            · rw [if_pos (this.trans w2.symm)]
          · have := xv.mpr hx
            rcases hwl with ⟨w1, w2⟩ | ⟨w1, w2⟩
            · rw [if_pos (this.trans w2.symm)]
            · by_cases hc : ρ x.val = lose
              · rw [if_pos hc]
              · rw [if_neg hc, this, w1]
        rcases reachable_add_edge hadj h with h1 | ⟨h1, h2⟩ | ⟨h1, h2⟩
        · rw [sab.mpr h1]
        · rw [key a (Or.inl h1), key b (Or.inr h2.symm)]
        · rw [key a (Or.inr h1), key b (Or.inl h2.symm)]
    have hadjlist : ∀ a b w2, (b, w2) ∈
        (adjPush (adjPush st.mst it.n1 it.n2 w) it.n2 it.n1 w).getD a [] ↔
        ((a, b, w2) ∈ T ++ [(it.n1, it.n2, w)] ∨ (b, a, w2) ∈ T ++ [(it.n1, it.n2, w)]) := by
      intro a b w2
      have hml := hinv.mstLen
      rw [getD_adjPush, length_adjPush, getD_adjPush, getD_adjPush]
      simp only [List.mem_append, List.mem_singleton, Prod.mk.injEq]
      have hvu : it.n2 ≠ it.n1 := fun h => huv h.symm
      by_cases ha2 : a = it.n2
      · subst ha2
        rw [if_pos ⟨rfl, by omega⟩, if_neg (fun h => hvu h.1)]
        rw [List.mem_append, List.mem_singleton, hinv.adj]
        simp only [Prod.mk.injEq]
        constructor
        · rintro (h | h)
          · rcases h with h | h
            · exact Or.inl (Or.inl h)
            · exact Or.inr (Or.inl h)
          · exact Or.inr (Or.inr ⟨h.1, trivial, h.2⟩)
        · rintro ((h | h) | (h | h))
          · exact Or.inl (Or.inl h)
          · exact absurd h.1 hvu
          · exact Or.inl (Or.inr h)
          · exact Or.inr ⟨h.1, h.2.2⟩
      · rw [if_neg (fun h => ha2 h.1)]
        by_cases ha1 : a = it.n1
        · subst ha1
          rw [if_pos ⟨rfl, by omega⟩]
          rw [List.mem_append, List.mem_singleton, hinv.adj]
          simp only [Prod.mk.injEq]
          constructor
          · rintro (h | h)
            · rcases h with h | h
              · exact Or.inl (Or.inl h)
              · exact Or.inr (Or.inl h)
            · exact Or.inl (Or.inr ⟨trivial, h.1, h.2⟩)
          · rintro ((h | h) | (h | h))
            · exact Or.inl (Or.inl h)
            · exact Or.inr ⟨h.2.1, h.2.2⟩
            · exact Or.inl (Or.inr h)
            · exact absurd h.2.1 ha2
        · rw [if_neg (fun h => ha1 h.1), hinv.adj]
          constructor
          · rintro (h | h)
            · exact Or.inl (Or.inl h)
            · exact Or.inr (Or.inl h)
          · rintro ((h | h) | (h | h))
            · exact Or.inl h
            · exact absurd h.1 ha1
            · exact Or.inr h
            · exact absurd h.2.1 ha2
    exact
      { len := by rw [g3]; exact hlen2
        rep := by rw [List.length_append, List.length_singleton]; exact g4
        mstLen := by rw [length_adjPush, length_adjPush]; exact hinv.mstLen
        adj := hadjlist
        sub := hsub
        range := hPrange
        same := hsame
        proc := hproc
        comps := hcomps
        acyclic := isAcyclic_add_edge hinv.acyclic hadj hnr
        selected := by
          rw [List.length_append, List.length_singleton]
          show st.selectedEdgeCntr + 1 = _
          rw [hinv.selected]
        total := by
          show st.mstTotalWeight + w = _
          rw [hinv.total]; simp
        adjsum := by
          show ((adjPush (adjPush st.mst it.n1 it.n2 w) it.n2 it.n1 w).flatten.map
            Prod.snd).sum = _
          rw [sum_adjPush _ _ _ _ (by rw [length_adjPush, hinv.mstLen]; exact hv),
            sum_adjPush _ _ _ _ (by rw [hinv.mstLen]; exact hu), hinv.adjsum]
          simp only [List.map_append, List.map_cons, List.map_nil, List.sum_append,
            List.sum_cons, List.sum_nil]
          omega
        layers := layers_of_same (T ++ [(it.n1, it.n2, w)]) (P ++ [(it.n1, it.n2, w)]) W w P T
          (it.n1, it.n2, w) rfl rfl (Or.inr rfl) hWw (fun x hx => (hinv.range x hx).2.2)
          hinv.layers hcomps hproc hsub }

theorem KInv.weaken {n : Nat} {st : KruskalState} {ρ : Nat → Nat}
    {T P : List (Nat × Nat × Nat)} {W W2 : Nat} (h : KInv n st ρ T P W) (hW : W ≤ W2) :
    KInv n st ρ T P W2 :=
  { h with range := fun e he => ⟨(h.range e he).1, (h.range e he).2.1,
      le_trans (h.range e he).2.2 hW⟩ }

theorem kruskalBucket_spec (n fuel w : Nat) (hfuel : n ≤ fuel) (es : List Edge) :
    ∀ (st : KruskalState) (ρ : Nat → Nat) (T P : List (Nat × Nat × Nat)),
      KInv n st ρ T P w → (∀ e ∈ es, e.n1 < n ∧ e.n2 < n) →
      ∃ st2 ρ2 T2, kruskalBucket fuel w st es = some st2 ∧
        KInv n st2 ρ2 T2 (P ++ es.map (fun e => (e.n1, e.n2, w))) w := by
  induction es with
  | nil =>
    intro st ρ T P hinv _
    exact ⟨st, ρ, T, rfl, by simpa using hinv⟩
  | cons e rest ih =>
    intro st ρ T P hinv hr
    obtain ⟨st1, ρ1, T1, h1, h2, _⟩ := kruskalEdge_spec n fuel w w st ρ T P e hinv
      (hr e (List.mem_cons_self _ _)).1 (hr e (List.mem_cons_self _ _)).2 (le_refl _) hfuel
    obtain ⟨st2, ρ2, T2, h3, h4⟩ := ih st1 ρ1 T1 _ h2
      (fun x hx => hr x (List.mem_cons_of_mem _ hx))
    refine ⟨st2, ρ2, T2, ?_, ?_⟩
    · rw [kruskalBucket, h1]
      exact h3
    · simpa [List.append_assoc] using h4

theorem kruskalBuckets_spec (n fuel : Nat) (hfuel : n ≤ fuel) (weightBuckets : List (List Edge))
    (len : Nat) :
    ∀ (s : Nat) (st : KruskalState) (ρ : Nat → Nat) (T P : List (Nat × Nat × Nat)),
      KInv n st ρ T P s →
      (∀ i, s ≤ i → i < s + len → ∀ e ∈ weightBuckets.getD i [], e.n1 < n ∧ e.n2 < n) →
      ∃ st2 ρ2 T2, kruskalBuckets fuel weightBuckets st (List.range' s len) = some st2 ∧
        KInv n st2 ρ2 T2
          (P ++ (List.range' s len).flatMap
            (fun i => (weightBuckets.getD i []).map (fun e => (e.n1, e.n2, i + 1))))
          (s + len) := by
  induction len with
  | zero =>
    intro s st ρ T P hinv _
    exact ⟨st, ρ, T, rfl, by simpa using hinv⟩
  | succ len ih =>
    intro s st ρ T P hinv hr
    obtain ⟨st1, ρ1, T1, h1, h2⟩ := kruskalBucket_spec n fuel (s + 1) hfuel
      (weightBuckets.getD s []) st ρ T P (hinv.weaken (by omega))
      (hr s (le_refl _) (by omega))
    obtain ⟨st2, ρ2, T2, h3, h4⟩ := ih (s + 1) st1 ρ1 T1 _ h2
      (fun i hi1 hi2 => hr i (by omega) (by omega))
    refine ⟨st2, ρ2, T2, ?_, ?_⟩
    · rw [List.range'_succ, kruskalBuckets, h1]
      exact h3
    · have e : s + 1 + len = s + (len + 1) := by omega
      rw [e] at h4
      rw [List.range'_succ, List.flatMap_cons, ← List.append_assoc]
      exact h4

theorem reachable_of_no_adj {V : Type} {G : SimpleGraph V} (h : ∀ x y, ¬ G.Adj x y) {a b : V}
    (hr : G.Reachable a b) : a = b := by
  rw [SimpleGraph.reachable_iff_reflTransGen] at hr
  induction hr with
  | refl => rfl
  | tail _ ha _ => exact absurd ha (h _ _)

theorem card_comp_of_no_adj (n : Nat) (G : SimpleGraph (Fin n)) (h : ∀ x y, ¬ G.Adj x y) :
    Nat.card G.ConnectedComponent = n := by
  have hb : Function.Bijective (G.connectedComponentMk) := by
    constructor
    · intro a b hab
      exact reachable_of_no_adj h (SimpleGraph.ConnectedComponent.exact hab)
    · intro c
      induction c using SimpleGraph.ConnectedComponent.ind with
      | h v => exact ⟨v, rfl⟩
  rw [← Nat.card_eq_of_bijective _ hb, Nat.card_eq_fintype_card, Fintype.card_fin]

theorem edgeGraph_nil_adj (n : Nat) (x y : Fin n) : ¬ (edgeGraph n []).Adj x y := by
  rw [edgeGraph_adj]
  simp

theorem DisjointSets.node_init (n u : Nat) (hu : u < n) :
    (DisjointSets.init n).node u = { parent := u % 2 ^ 32 } := by
  unfold DisjointSets.init DisjointSets.node
  simp [List.getD_eq_getElem?_getD, hu]

theorem kInv_init (n : Nat) (hn : n ≤ 2 ^ 32) :
    KInv n
      { ds := DisjointSets.init n
        mst := List.replicate n []
        mstTotalWeight := 0
        edgeCntr := 0
        selectedEdgeCntr := 0 }
      (fun x => x) [] [] 0 := by
  have hlen : (DisjointSets.init n).els.length = n := by simp [DisjointSets.init]
  have hpar : ∀ u, u < n → (DisjointSets.init n).par u = u := by
    intro u hu
    unfold DisjointSets.par
    rw [DisjointSets.node_init n u hu]
    exact Nat.mod_eq_of_lt (by omega)
  have hrk : ∀ u, u < n → (DisjointSets.init n).rk u = 0 := by
    intro u hu
    unfold DisjointSets.rk
    rw [DisjointSets.node_init n u hu]
  have hcard := card_comp_of_no_adj n (edgeGraph n []) (edgeGraph_nil_adj n)
  exact
    { len := hlen
      rep := by
        intro u hu
        rw [hlen] at hu ⊢
        refine ⟨hu, hpar u hu, ?_, ?_, fun _ => rfl, fun h => absurd rfl h, ?_, ?_⟩
        · rw [hpar u hu]; exact hu
        · show (DisjointSets.init n).par u = u
          exact hpar u hu
        · intro h; exact absurd (hpar u hu) h
        · rw [hrk u hu]; exact Nat.zero_le _
      mstLen := by simp
      adj := by
        intro a b w
        have : (List.replicate n ([] : List (Nat × Nat))).getD a [] = [] := by
          rw [List.getD_eq_getElem?_getD]
          by_cases h : a < n
          · simp [List.getElem?_replicate, h]
          · simp [List.getElem?_replicate, h]
        simp [this]
      sub := fun e he => he
      range := fun e he => by cases he
      same := by
        intro a b
        constructor
        · intro h
          rw [Fin.ext h]
        · intro h
          rw [reachable_of_no_adj (edgeGraph_nil_adj n) h]
      proc := fun a b h => absurd h (edgeGraph_nil_adj n a b)
      comps := by simpa using hcard
      acyclic := by
        intro v p hp
        cases p with
        | nil => exact hp.not_of_nil
        | cons h _ => exact absurd h (edgeGraph_nil_adj n _ _)
      selected := rfl
      total := rfl
      adjsum := by simp
      layers := by
        intro t
        simpa using hcard }

theorem kruskalMSF_inv (fuel numSamples n : Nat) (weightBuckets : List (List Edge))
    (hn32 : n ≤ 2 ^ 32) (hfuel : n ≤ fuel)
    (hrange : ∀ i, i < numSamples → ∀ e ∈ weightBuckets.getD i [], e.n1 < n ∧ e.n2 < n) :
    ∃ st ρ T, KInv n st ρ T (bucketEdges numSamples weightBuckets) numSamples ∧
      kruskalMSF fuel numSamples n weightBuckets =
        some { st with mstTotalWeight := st.mstTotalWeight + 1 } := by
  obtain ⟨st, ρ, T, h1, h2⟩ := kruskalBuckets_spec n fuel hfuel weightBuckets numSamples 0 _ _
    [] [] (kInv_init n hn32) (fun i _ hi e he => hrange i (by omega) e he)
  refine ⟨st, ρ, T, ?_, ?_⟩
  · unfold bucketEdges
    rw [List.range_eq_range']
    simpa using h2
  · unfold kruskalMSF
    rw [List.range_eq_range', h1]

theorem mstGraph_eq_edgeGraph (n : Nat) (mst : List (List (Nat × Nat)))
    (T : List (Nat × Nat × Nat))
    (h : ∀ a b w, (b, w) ∈ mst.getD a [] ↔ ((a, b, w) ∈ T ∨ (b, a, w) ∈ T)) :
    mstGraph n mst = edgeGraph n T := by
  ext x y
  rw [edgeGraph_adj]
  unfold mstGraph
  rw [SimpleGraph.fromRel_adj]
  simp only [h]
  constructor
  · rintro ⟨hne, ⟨w, h1 | h1⟩ | ⟨w, h1 | h1⟩⟩
    · exact ⟨hne, Or.inl ⟨w, h1⟩⟩
    · exact ⟨hne, Or.inr ⟨w, h1⟩⟩
    · exact ⟨hne, Or.inr ⟨w, h1⟩⟩
    · exact ⟨hne, Or.inl ⟨w, h1⟩⟩
  · rintro ⟨hne, ⟨w, h1⟩ | ⟨w, h1⟩⟩
    · exact ⟨hne, Or.inl ⟨w, Or.inl h1⟩⟩
    · exact ⟨hne, Or.inl ⟨w, Or.inr h1⟩⟩

theorem mem_bucketEdges (numSamples : Nat) (weightBuckets : List (List Edge)) (u v w : Nat) :
    (u, v, w) ∈ bucketEdges numSamples weightBuckets ↔
      ∃ i, i < numSamples ∧ w = i + 1 ∧ (⟨u, v⟩ : Edge) ∈ weightBuckets.getD i [] := by
  unfold bucketEdges
  simp only [List.mem_flatMap, List.mem_range, List.mem_map, Prod.mk.injEq]
  constructor
  · rintro ⟨i, hi, e, he, h1, h2, h3⟩
    refine ⟨i, hi, h3.symm, ?_⟩
    have : e = ⟨u, v⟩ := by cases e; simp at h1 h2; simp [h1, h2]
    rw [← this]; exact he
  · rintro ⟨i, hi, hw, he⟩
    exact ⟨i, hi, ⟨u, v⟩, he, rfl, rfl, hw.symm⟩

/-- C4: for every weighted edge collection (buckets `0 .. numSamples - 1`, endpoints below
`num_colorClasses`) that contains an edge `(c, zero)` for every color id `c < zero`, where
`zero = num_colorClasses - 1`, `kruskalMSF` returns (for every recursion bound of `find` that is
at least `num_colorClasses`), selects exactly `num_colorClasses - 1` edges, and the adjacency
lists it records form a connected acyclic graph over all `num_colorClasses` nodes. -/
theorem kruskalMSF_spanning_tree (fuel numSamples num_colorClasses : Nat)
    (weightBuckets : List (List Edge)) (hn : 0 < num_colorClasses)
    (hn32 : num_colorClasses ≤ 2 ^ 32) (hfuel : num_colorClasses ≤ fuel)
    (hrange : ∀ i, i < numSamples → ∀ e ∈ weightBuckets.getD i [],
      e.n1 < num_colorClasses ∧ e.n2 < num_colorClasses)
    (hroot : ∀ c, c < num_colorClasses - 1 →
      ∃ i, i < numSamples ∧ (⟨c, num_colorClasses - 1⟩ : Edge) ∈ weightBuckets.getD i []) :
    ∃ st, kruskalMSF fuel numSamples num_colorClasses weightBuckets = some st ∧
      st.selectedEdgeCntr = num_colorClasses - 1 ∧
      (mstGraph num_colorClasses st.mst).IsTree := by
  obtain ⟨st, ρ, T, hinv, hres⟩ :=
    kruskalMSF_inv fuel numSamples num_colorClasses weightBuckets hn32 hfuel hrange
  refine ⟨_, hres, ?_, ?_⟩
  all_goals
    haveI : Nonempty (Fin num_colorClasses) := ⟨⟨0, hn⟩⟩
    have hzero : num_colorClasses - 1 < num_colorClasses := by omega
    have hreach : ∀ a : Fin num_colorClasses,
        (edgeGraph num_colorClasses T).Reachable a ⟨num_colorClasses - 1, hzero⟩ := by
      intro a
      by_cases ha : a.val = num_colorClasses - 1
      · have : a = ⟨num_colorClasses - 1, hzero⟩ := Fin.ext ha
        rw [this]
      · have hlt : a.val < num_colorClasses - 1 := by have := a.isLt; omega
        obtain ⟨i, hi, he⟩ := hroot a.val hlt
        apply hinv.proc
        rw [edgeGraph_adj]
        refine ⟨fun h => ha (by rw [h]), Or.inl ⟨i + 1, ?_⟩⟩
        exact (mem_bucketEdges _ _ _ _ _).mpr ⟨i, hi, rfl, he⟩
    have hconn : (edgeGraph num_colorClasses T).Connected :=
      ⟨fun a b => (hreach a).trans (hreach b).symm⟩
  · show st.selectedEdgeCntr = _
    have h1 := card_eq_one_of_connected hconn
    have h2 := hinv.comps
    rw [hinv.selected]
    omega
  · show (mstGraph num_colorClasses st.mst).IsTree
    rw [mstGraph_eq_edgeGraph _ _ T hinv.adj]
    exact ⟨hconn, hinv.acyclic⟩

/-- Witness of C4: two colors and the root, joined by the two root edges. -/
theorem kruskalMSF_spanning_tree_witness :
    ∃ st, kruskalMSF 3 2 3 [[⟨0, 2⟩], [⟨1, 2⟩]] = some st ∧
      st.selectedEdgeCntr = 3 - 1 ∧ (mstGraph 3 st.mst).IsTree :=
  kruskalMSF_spanning_tree 3 2 3 [[⟨0, 2⟩], [⟨1, 2⟩]] (by decide) (by norm_num) (by decide)
    (by decide) (by decide)

theorem sum_eq_layers (E : List (Nat × Nat × Nat)) (M : Nat) (h : ∀ e ∈ E, e.2.2 ≤ M) :
    (E.map (fun e => e.2.2)).sum =
      ∑ t in Finset.range M, (E.filter (fun e => decide (t < e.2.2))).length := by
  induction E with
  | nil => simp
  | cons a L ih =>
    have ha : a.2.2 ≤ M := h a (List.mem_cons_self _ _)
    rw [List.map_cons, List.sum_cons, ih (fun e he => h e (List.mem_cons_of_mem _ he))]
    have e1 : ∀ t, ((a :: L).filter (fun e => decide (t < e.2.2))).length =
        (if t < a.2.2 then 1 else 0) + (L.filter (fun e => decide (t < e.2.2))).length := by
      intro t
      rw [List.filter_cons]
      by_cases ht : t < a.2.2
      · simp [ht]; omega
      · simp [ht]
    simp only [e1]
    rw [Finset.sum_add_distrib]
    congr 1
    rw [Finset.sum_ite, Finset.sum_const_zero, add_zero, Finset.sum_const, smul_eq_mul, mul_one]
    have : Finset.filter (fun t => t < a.2.2) (Finset.range M) = Finset.range a.2.2 := by
      ext t
      simp only [Finset.mem_filter, Finset.mem_range]
      omega
    rw [this, Finset.card_range]

theorem card_comp_add_edges (n : Nat) (F : List (Nat × Nat × Nat))
    (hF : ∀ e ∈ F, e.1 < n ∧ e.2.1 < n) :
    ∀ E : List (Nat × Nat × Nat),
      Nat.card (edgeGraph n E).ConnectedComponent ≤
        Nat.card (edgeGraph n (E ++ F)).ConnectedComponent + F.length := by
  induction F with
  | nil => intro E; simp
  | cons f F ih =>
    intro E
    obtain ⟨u, v, w⟩ := f
    have hf := hF (u, v, w) (List.mem_cons_self _ _)
    have hadj : ∀ x y : Fin n, (edgeGraph n (E ++ [(u, v, w)])).Adj x y →
        (edgeGraph n E).Adj x y ∨ (x = ⟨u, hf.1⟩ ∧ y = ⟨v, hf.2⟩) ∨
          (x = ⟨v, hf.2⟩ ∧ y = ⟨u, hf.1⟩) := by
      intro x y hxy
      rw [edgeGraph_append_adj] at hxy
      rcases hxy with h | ⟨_, ⟨h1, h2⟩ | ⟨h1, h2⟩⟩
      · exact Or.inl h
      · exact Or.inr (Or.inl ⟨Fin.ext h1, Fin.ext h2⟩)
      · exact Or.inr (Or.inr ⟨Fin.ext h1, Fin.ext h2⟩)
    have h1 := numComp_add_edge_le hadj
    have h2 := ih (fun e he => hF e (List.mem_cons_of_mem _ he)) (E ++ [(u, v, w)])
    rw [List.append_assoc, List.singleton_append] at h2
    rw [List.length_cons]
    omega

theorem length_filter_lt (E : List (Nat × Nat × Nat)) (t : Nat) :
    (E.filter (fun e => decide (t < e.2.2))).length +
      (E.filter (fun e => decide (e.2.2 ≤ t))).length = E.length := by
  induction E with
  | nil => rfl
  | cons a L ih =>
    rw [List.filter_cons, List.filter_cons]
    by_cases h : t < a.2.2
    · have h2 : ¬ a.2.2 ≤ t := by omega
      simp only [h, h2, decide_True, decide_False, if_true, List.length_cons]
      simp only [Bool.false_eq_true, if_false]
      omega
    · have h2 : a.2.2 ≤ t := by omega
      simp only [h, h2, decide_True, decide_False, if_true, List.length_cons]
      simp only [Bool.false_eq_true, if_false]
      omega

theorem kruskal_layer_le (n numSamples : Nat) (st : KruskalState) (ρ : Nat → Nat)
    (T P S : List (Nat × Nat × Nat)) (hinv : KInv n st ρ T P numSamples)
    (hS : ∀ e ∈ S, e ∈ P) (hconn : (edgeGraph n S).Connected) (t : Nat) :
    (T.filter (fun e => decide (t < e.2.2))).length ≤
      (S.filter (fun e => decide (t < e.2.2))).length := by
  have hPconn : ∀ a b : Fin n, (edgeGraph n P).Reachable a b := fun a b =>
    reachable_of_adj_reachable (fun x y h => (edgeGraph_mono n S P hS x y h).reachable)
      (hconn.preconnected a b)
  have hTconn : (edgeGraph n T).Connected := by
    haveI := hconn.nonempty
    exact ⟨fun a b => reachable_of_adj_reachable hinv.proc (hPconn a b)⟩
  have hT1 := card_eq_one_of_connected hTconn
  have hTlen := hinv.comps
  have hlay := hinv.layers t
  have hsplitT := length_filter_lt T t
  -- the spanning tree S: its edges above `t` must join the components of those up to `t`
  have hSrange : ∀ e ∈ S.filter (fun e => decide (t < e.2.2)), e.1 < n ∧ e.2.1 < n := by
    intro e he
    have := hinv.range e (hS e (List.mem_of_mem_filter he))
    exact ⟨this.1, this.2.1⟩
  have h1 := card_comp_add_edges n (S.filter (fun e => decide (t < e.2.2))) hSrange
    (S.filter (fun e => decide (e.2.2 ≤ t)))
  have hmem : ∀ e, e ∈ S.filter (fun e => decide (e.2.2 ≤ t)) ++
      S.filter (fun e => decide (t < e.2.2)) ↔ e ∈ S := by
    intro e
    simp only [List.mem_append, List.mem_filter, decide_eq_true_eq]
    constructor
    · rintro (h | h) <;> exact h.1
    · intro h
      by_cases hc : e.2.2 ≤ t
      · exact Or.inl ⟨h, hc⟩
      · exact Or.inr ⟨h, by omega⟩
  have h2 : Nat.card (edgeGraph n (S.filter (fun e => decide (e.2.2 ≤ t)) ++
      S.filter (fun e => decide (t < e.2.2)))).ConnectedComponent = 1 := by
    apply card_eq_one_of_connected
    haveI := hconn.nonempty
    refine ⟨fun a b => ?_⟩
    exact reachable_of_adj_reachable
      (fun x y h => (edgeGraph_mono n S _ (fun e he => (hmem e).mpr he) x y h).reachable)
      (hconn.preconnected a b)
  have h3 : Nat.card (edgeGraph n (P.filter (fun e => decide (e.2.2 ≤ t)))).ConnectedComponent ≤
      Nat.card (edgeGraph n (S.filter (fun e => decide (e.2.2 ≤ t)))).ConnectedComponent := by
    apply numComp_le_of_reachable
    intro x y h
    apply SimpleGraph.Adj.reachable
    apply edgeGraph_mono n _ _ _ x y h
    intro e he
    rw [List.mem_filter] at he ⊢
    exact ⟨hS e he.1, he.2⟩
  omega

/-- C5: the tree selected by `kruskalMSF` is a minimum spanning tree.  When the input color
graph (the edges of the buckets, an edge of bucket `i` weighing `i + 1`) is connected,
`kruskalMSF` returns, and there is a list `T` of input edges such that the adjacency lists
`mst` hold exactly the edges of `T`, each at both endpoints; `T` is a spanning tree: its graph
over the `num_colorClasses` ids is connected and acyclic and it has `num_colorClasses - 1`
edges; its weight sum is `mstTotalWeight - 1`, half the sum of the weights in the adjacency
lists; and this weight sum is at most the weight sum of every list `S` of input edges that
connects all color ids, in particular of every spanning tree of the input graph.  The buckets
are arbitrary lists, so the order of the edges inside a bucket does not matter. -/
theorem kruskalMSF_minimum (fuel numSamples num_colorClasses : Nat)
    (weightBuckets : List (List Edge)) (hn32 : num_colorClasses ≤ 2 ^ 32)
    (hfuel : num_colorClasses ≤ fuel)
    (hrange : ∀ i, i < numSamples → ∀ e ∈ weightBuckets.getD i [],
      e.n1 < num_colorClasses ∧ e.n2 < num_colorClasses)
    (hconn : (edgeGraph num_colorClasses (bucketEdges numSamples weightBuckets)).Connected) :
    ∃ st T, kruskalMSF fuel numSamples num_colorClasses weightBuckets = some st ∧
      (∀ a b w, (b, w) ∈ st.mst.getD a [] ↔ ((a, b, w) ∈ T ∨ (b, a, w) ∈ T)) ∧
      (∀ e ∈ T, e ∈ bucketEdges numSamples weightBuckets) ∧
      (edgeGraph num_colorClasses T).IsTree ∧
      (mstGraph num_colorClasses st.mst).IsTree ∧
      T.length = num_colorClasses - 1 ∧
      st.selectedEdgeCntr = num_colorClasses - 1 ∧
      (T.map (fun e => e.2.2)).sum = st.mstTotalWeight - 1 ∧
      ((st.mst.flatten.map Prod.snd).sum = 2 * (st.mstTotalWeight - 1)) ∧
      ∀ S : List (Nat × Nat × Nat), (∀ e ∈ S, e ∈ bucketEdges numSamples weightBuckets) →
        (edgeGraph num_colorClasses S).Connected →
        (T.map (fun e => e.2.2)).sum ≤ (S.map (fun e => e.2.2)).sum := by
  obtain ⟨st, ρ, T, hinv, hres⟩ :=
    kruskalMSF_inv fuel numSamples num_colorClasses weightBuckets hn32 hfuel hrange
  have hTconn : (edgeGraph num_colorClasses T).Connected := by
    haveI := hconn.nonempty
    refine ⟨fun a b => ?_⟩
    exact reachable_of_adj_reachable (fun x y h => hinv.proc x y h) (hconn.preconnected a b)
  have hcard := card_eq_one_of_connected hTconn
  have hcomps := hinv.comps
  refine ⟨_, T, hres, hinv.adj, hinv.sub, ⟨hTconn, hinv.acyclic⟩, ?_, by omega, ?_, ?_, ?_, ?_⟩
  · show (mstGraph num_colorClasses st.mst).IsTree
    rw [mstGraph_eq_edgeGraph _ _ T hinv.adj]
    exact ⟨hTconn, hinv.acyclic⟩
  · show st.selectedEdgeCntr = _
    rw [hinv.selected]
    omega
  · show _ = st.mstTotalWeight + 1 - 1
    rw [Nat.add_sub_cancel, hinv.total]
  · show (st.mst.flatten.map Prod.snd).sum = 2 * (st.mstTotalWeight + 1 - 1)
    rw [hinv.adjsum, hinv.total, Nat.add_sub_cancel]
  · intro S hS hSconn
    rw [sum_eq_layers T numSamples (fun e he => (hinv.range e (hinv.sub e he)).2.2),
      sum_eq_layers S numSamples (fun e he => (hinv.range e (hS e he)).2.2)]
    apply Finset.sum_le_sum
    intro t _
    exact kruskal_layer_le num_colorClasses numSamples st ρ T _ S hinv hS hSconn t

/-- Witness of C5: the triangle on two colors and the root, bucket 0 holding the edges of
weight 1 and bucket 1 the edge of weight 2. -/
theorem kruskalMSF_minimum_witness :
    ∃ st T, kruskalMSF 3 2 3 [[⟨0, 2⟩, ⟨0, 1⟩], [⟨1, 2⟩]] = some st ∧
      (∀ a b w, (b, w) ∈ st.mst.getD a [] ↔ ((a, b, w) ∈ T ∨ (b, a, w) ∈ T)) ∧
      (∀ e ∈ T, e ∈ bucketEdges 2 [[⟨0, 2⟩, ⟨0, 1⟩], [⟨1, 2⟩]]) ∧
      (edgeGraph 3 T).IsTree ∧
      (mstGraph 3 st.mst).IsTree ∧
      T.length = 3 - 1 ∧
      st.selectedEdgeCntr = 3 - 1 ∧
      (T.map (fun e => e.2.2)).sum = st.mstTotalWeight - 1 ∧
      ((st.mst.flatten.map Prod.snd).sum = 2 * (st.mstTotalWeight - 1)) ∧
      ∀ S : List (Nat × Nat × Nat),
        (∀ e ∈ S, e ∈ bucketEdges 2 [[⟨0, 2⟩, ⟨0, 1⟩], [⟨1, 2⟩]]) →
        (edgeGraph 3 S).Connected →
        (T.map (fun e => e.2.2)).sum ≤ (S.map (fun e => e.2.2)).sum :=
  kruskalMSF_minimum 3 2 3 [[⟨0, 2⟩, ⟨0, 1⟩], [⟨1, 2⟩]] (by norm_num) (by decide) (by decide)
    (by
      have h02 : (edgeGraph 3 (bucketEdges 2 [[⟨0, 2⟩, ⟨0, 1⟩], [⟨1, 2⟩]])).Adj 0 2 := by
        rw [edgeGraph_adj]
        exact ⟨by decide, Or.inl ⟨1, by decide⟩⟩
      have h12 : (edgeGraph 3 (bucketEdges 2 [[⟨0, 2⟩, ⟨0, 1⟩], [⟨1, 2⟩]])).Adj 1 2 := by
        rw [edgeGraph_adj]
        exact ⟨by decide, Or.inl ⟨2, by decide⟩⟩
      have hr : ∀ a : Fin 3,
          (edgeGraph 3 (bucketEdges 2 [[⟨0, 2⟩, ⟨0, 1⟩], [⟨1, 2⟩]])).Reachable a 2 := by
        intro a
        fin_cases a
        · exact h02.reachable
        · exact h12.reachable
        · exact SimpleGraph.Reachable.refl _
      exact ⟨fun a b => (hr a).trans (hr b).symm⟩)

/-! ## The MST encoding -/

/-- C1 fails on the code: in the merge of two one-sample indices (`numSamples = 2`) with the
new colors `0 = {A}` and `1 = {A, C}` joined to the root `zero = 2` by the edges of weight 1
and 2, the weight 2 of the node 1 does not fit the one-bit cells of `weightbv` and is stored
as 0; the boundary bits come out as `1100` instead of `1011`, and the XOR-fold for the color
1 yields `{0}` while its bitmap is `{0, 1}`. -/
theorem encode_weight_truncated :
    encodeColorClassUsingMST twoSampleMerge 3 2 3 2 1 [[⟨0, 2⟩], [⟨1, 2⟩]] =
      some { parentbv := [2, 2, 2], bbv := [true, true, false, false],
             deltabv := [0, 0, 1, 0] } ∧
    decodeColor { parentbv := [2, 2, 2], bbv := [true, true, false, false],
                  deltabv := [0, 0, 1, 0] } 2 1 = [0] ∧
    pairBitmap twoSampleMerge 2 1 = [0, 1] := by
  refine ⟨by decide, by decide, by decide⟩

/-- The same merge with a two-sample second index (`numSamples = 3`, the new color 1 is
`{A, C, D}` with a root edge of weight 3): the weight fits the two-bit cells and every color
decodes to its bitmap. -/
theorem encode_three_samples_decodes :
    (encodeColorClassUsingMST
      { twoSampleMerge with decode2 := fun c => if c = 0 then [0, 1] else [] }
      4 3 3 2 1 [[⟨0, 2⟩], [], [⟨1, 2⟩]]).map
        (fun e => (decodeColor e 3 0, decodeColor e 3 1, decodeColor e 3 2)) =
      some ([0], [0, 1, 2], []) := by
  decide

/-! ## Build, serialize, reload and query -/

theorem wordSamples_eq (wrd sCntr k i : Nat) :
    wordSamples wrd sCntr k i =
      ((List.range' i k).filter (fun x => wrd.testBit x)).map (fun x => sCntr + x) := by
  induction k generalizing i with
  | zero => rfl
  | succ k ih =>
    rw [wordSamples, ih, List.range'_succ, List.filter_cons]
    by_cases h : wrd.testBit i = true
    · rw [if_pos h, if_pos h, List.map_cons]
    · rw [if_neg h, if_neg h]

theorem wordSamples_get_int (bits : List Bool) (base sCntr len : Nat) :
    wordSamples (get_int bits (base + sCntr) len) sCntr len 0 =
      (List.range' sCntr len).filter (fun x => bits.getD (base + x) false) := by
  rw [wordSamples_eq]
  have h1 : List.range' sCntr len = (List.range' 0 len).map (fun x => sCntr + x) := by
    rw [List.map_add_range']
    simp
  rw [h1, List.filter_map]
  congr 1
  apply List.filter_congr
  intro x hx
  rw [List.mem_range'_1] at hx
  rw [testBit_get_int]
  have : x < len := by omega
  simp [this, Nat.add_assoc]

theorem wordLoop_eq (bits : List Bool) (S base : Nat) (k : Nat) :
    ∀ (w off : Nat) (vec : List Nat), w + k = S / 64 + 1 → (k ≠ 0 → off = base + w * 64) →
      wordLoop bits S k w off vec =
        vec ++ (List.range' (w * 64) (S - w * 64)).filter
          (fun x => bits.getD (base + x) false) := by
  induction k with
  | zero =>
    intro w off vec hw _
    have : S - w * 64 = 0 := by omega
    rw [wordLoop, this]
    simp
  | succ k ih =>
    intro w off vec hw hoff
    have hoff2 := hoff (Nat.succ_ne_zero k)
    subst hoff2
    rw [wordLoop, ih (w + 1) _ _ (by omega), wordSamples_get_int, List.append_assoc]
    · congr 1
      rw [← List.filter_append]
      congr 1
      generalize hlen : min 64 (S - w * 64) = len
      generalize hr : S - (w + 1) * 64 = r
      have h1 : (w + 1) * 64 = w * 64 + len ∨ r = 0 := by omega
      have h2 : S - w * 64 = r + len := by omega
      rw [h2]
      rcases h1 with h1 | h1
      · rw [h1]
        have := List.range'_append (w * 64) len r 1
        simp only [Nat.one_mul] at this
        exact this
      · rw [h1]
        simp
    · intro hk
      have : min 64 (S - w * 64) = 64 := by omega
      rw [this]
      ring

theorem samplesOfId_eq (d : LoadedDbg) (c : Nat) :
    samplesOfId d c =
      (List.range d.num_samples).filter (fun x =>
        (d.eqclasses.getD ((c - 1) / d.colorClassPerBuffer) []).getD
          ((c - 1) % d.colorClassPerBuffer * d.num_samples + x) false) := by
  unfold samplesOfId
  rw [wordLoop_eq _ _ ((c - 1) % d.colorClassPerBuffer * d.num_samples) _ 0 _ []
    (by omega) (fun _ => by omega)]
  simp [List.range_eq_range']

theorem mapFind_of_keys_ids (vecHash : List Bool → Nat) (m : List (Nat × (Nat × Nat)))
    (bms : List (List Bool)) (x : Nat) (e : Nat × Nat)
    (hk : m.map Prod.fst = bms.map vecHash)
    (hi : m.map (fun e => e.2.1) = List.range' 1 bms.length)
    (h : mapFind m x = some e) :
    ∃ j b, bms[j]? = some b ∧ vecHash b = x ∧ e.1 = j + 1 := by
  unfold mapFind at h
  rw [Option.map_eq_some'] at h
  obtain ⟨a, ha, hae⟩ := h
  have hp := List.find?_some ha
  have hmem := List.mem_of_find?_eq_some ha
  obtain ⟨j, hj⟩ := List.mem_iff_getElem?.mp hmem
  have h1 := congrArg (fun l => l[j]?) hk
  have h2 := congrArg (fun l => l[j]?) hi
  simp only [List.getElem?_map, hj, Option.map_some'] at h1 h2
  cases hb : bms[j]? with
  | none => rw [hb] at h1; cases h1
  | some b =>
    rw [hb] at h1
    simp only [Option.map_some', Option.some.injEq] at h1
    refine ⟨j, b, hb, ?_, ?_⟩
    · rw [← h1]; simpa using hp
    · have hjl : j < bms.length := by
        by_contra hc
        rw [List.getElem?_eq_none (by omega)] at hb
        cases hb
      rw [List.getElem?_range' _ _ hjl] at h2
      simp only [Option.some.injEq] at h2
      rw [← hae, h2]
      omega

theorem getD_resize (bv : List Bool) (n j : Nat) :
    (resize bv n).getD j false = if j < n then bv.getD j false else false := by
  unfold resize zeros
  rw [List.getD_eq_getElem?_getD, List.getD_eq_getElem?_getD]
  by_cases h1 : j < (bv.take n).length
  · rw [List.getElem?_append_left h1, List.getElem?_take]
    rw [List.length_take] at h1
    have : j < n := by omega
    simp [this]
  · rw [List.getElem?_append_right (by omega)]
    rw [List.length_take] at h1
    by_cases h2 : j < n
    · have h3 : bv.length ≤ j := by omega
      rw [if_pos h2, List.getElem?_eq_none h3]
      simp only [List.getElem?_replicate]
      split <;> rfl
    · rw [if_neg h2]
      simp only [List.getElem?_replicate]
      split <;> rfl

theorem succ_div_of_mod_ne (n B : Nat) (h : (n + 1) % B ≠ 0) : (n + 1) / B = n / B := by
  rw [Nat.succ_div, if_neg (fun hd => h (Nat.mod_eq_zero_of_dvd hd)), Nat.add_zero]

theorem succ_div_of_mod_eq (n B : Nat) (h : (n + 1) % B = 0) : (n + 1) / B = n / B + 1 := by
  rw [Nat.succ_div, if_pos (Nat.dvd_of_mod_eq_zero h)]

theorem mod_lt_of_div_eq (j n B : Nat) (hjn : j < n) (hq : j / B = n / B) :
    j % B < n % B := by
  have h1 := Nat.div_add_mod j B
  have h2 := Nat.div_add_mod n B
  rw [hq] at h1
  omega

theorem slot_lt (a b S i : Nat) (hab : a < b) (hi : i < S) : a * S + i < b * S := by
  have := Nat.mul_le_mul_right S (Nat.succ_le_of_lt hab)
  rw [Nat.succ_mul] at this
  omega

theorem afterGroup_ok (vecHash : List Bool → Nat) (s s1 : ColoredDbg) (counter key : Nat)
    (bm : List Bool) (added : Bool) (h : add_kmer vecHash s key bm = .ok (s1, added)) :
    afterGroup vecHash invalid s counter key bm =
      .ok (if added = true ∧ s1.get_num_eqclasses % s1.colorClassPerBuffer = 0
        then bv_buffer_serialize s1 else s1, (counter + 1) % 2 ^ 64, true) := by
  unfold afterGroup
  rw [h]
  simp only
  have hinv : ¬ invalid < invalid := Nat.lt_irrefl _
  have hc : ¬ (counter + 1) % 2 ^ 64 > invalid := by
    unfold invalid
    have := Nat.mod_lt (counter + 1) (by norm_num : 2 ^ 64 > 0)
    omega
  by_cases hf : added = true ∧ s1.get_num_eqclasses % s1.colorClassPerBuffer = 0
  · rw [if_pos hf, if_pos hf, if_neg hinv]
  · rw [if_neg hf, if_neg hf, if_neg hc]

theorem getD_buffer_after_add (S B : Nat) (buf bm : List Bool) (bms : List (List Bool))
    (hB : 0 < B) (hbuf : buf.length = B * S)
    (hold : ∀ j i, j < bms.length → ¬ j / B < bms.length / B → i < S →
      buf.getD (j % B * S + i) false = (bms.getD j []).getD i false)
    (j i : Nat) (hj : j < bms.length + 1) (hq : ¬ j / B < bms.length / B) (hi : i < S) :
    (add_bitvector S B buf bm bms.length).getD (j % B * S + i) false =
      ((bms ++ [bm]).getD j []).getD i false := by
  rw [getD_add_bitvector]
  by_cases hjn : j = bms.length
  · subst hjn
    have h1 := slot_lt (bms.length % B) B S i (Nat.mod_lt _ hB) hi
    rw [if_pos ⟨by omega, by omega, by omega⟩]
    have h2 : bms.length % B * S + i - bms.length % B * S = i := by omega
    rw [h2]
    simp [List.getD_eq_getElem?_getD]
  · have hjl : j < bms.length := by omega
    have hq2 : j / B = bms.length / B := by
      have := Nat.div_le_div_right (c := B) (Nat.le_of_lt hjl)
      omega
    have h1 := slot_lt (j % B) (bms.length % B) S i (mod_lt_of_div_eq j _ B hjl hq2) hi
    rw [if_neg (by omega), hold j i hjl hq hi]
    simp [List.getD_eq_getElem?_getD, List.getElem?_append_left hjl]

theorem cqf_query_absent (f : CQF) (keys : List Nat) (key : Nat)
    (hs : f.slots.map Prod.fst = keys) (hkey : key ∉ keys) :
    f.slots.any (fun e => e.1 == key) = false := by
  rw [Bool.eq_false_iff]
  intro hc
  rw [List.any_eq_true] at hc
  obtain ⟨e, he, hek⟩ := hc
  apply hkey
  rw [← hs]
  have : e.1 = key := by simpa using hek
  rw [← this]
  exact List.mem_map_of_mem _ he

theorem add_kmer_fresh (vecHash : List Bool → Nat) (s : ColoredDbg) (key : Nat)
    (bm : List Bool) (keys : List Nat) (hs : s.dbg.slots.map Prod.fst = keys)
    (hkey : key ∉ keys) (hlen : keys.length < s.dbg.capacity) :
    s.dbg.query key = 0 ∧
    add_kmer vecHash s key bm =
      .ok ({ (add_colorClass vecHash s bm).1 with
              dbg := { s.dbg with
                slots := s.dbg.slots ++ [(key, (add_colorClass vecHash s bm).2.1)] } },
        (add_colorClass vecHash s bm).2.2) := by
  have hany := cqf_query_absent s.dbg keys key hs hkey
  have hq : s.dbg.query key = 0 := CQF.query_eq_zero_of_not_any s.dbg.slots s.dbg.capacity key hany
  refine ⟨hq, ?_⟩
  rw [add_kmer_of_absent vecHash s key bm hq]
  have hl : s.dbg.slots.length < s.dbg.capacity := by
    have := congrArg List.length hs
    rw [List.length_map] at this
    omega
  have hins : s.dbg.insert key (add_colorClass vecHash s bm).2.1 =
      some { s.dbg with
        slots := s.dbg.slots ++ [(key, (add_colorClass vecHash s bm).2.1)] } := by
    unfold CQF.insert
    rw [if_neg (by rw [hany]; exact Bool.false_ne_true), if_pos hl]
  rw [hins]

theorem cqf_query_after (f : CQF) (keys : List Nat) (key c j : Nat)
    (hs : f.slots.map Prod.fst = keys) (hkey : key ∉ keys) :
    CQF.query { f with slots := f.slots ++ [(key, c)] } j =
      if j = key then c else f.query j :=
  CQF.query_append_new f.slots f.capacity key c j (cqf_query_absent f keys key hs hkey)

theorem bv_buffer_serialize_files (t : ColoredDbg) (m : Nat)
    (hn : t.files.map Prod.fst = List.range m) (hns : t.num_serializations = m) :
    (bv_buffer_serialize t).files = t.files ++
      [(m, if t.get_num_eqclasses % t.colorClassPerBuffer > 0 then
          resize t.bv_buffer (t.get_num_eqclasses % t.colorClassPerBuffer * t.num_samples)
        else t.bv_buffer)] := by
  have hfilter : t.files.filter (fun f => f.1 != t.num_serializations) = t.files := by
    rw [List.filter_eq_self]
    intro f hfm
    have : f.1 ∈ List.range m := by
      rw [← hn]; exact List.mem_map_of_mem _ hfm
    rw [List.mem_range] at this
    rw [hns]
    simp only [bne_iff_ne, ne_eq]
    omega
  unfold bv_buffer_serialize
  simp only
  rw [hfilter, hns]

theorem getD_files_append (F : List (Nat × List Bool)) (x : Nat × List Bool) (q : Nat)
    (hq : q ≤ F.length) :
    ((F ++ [x]).getD q (0, [])).2 = if q < F.length then (F.getD q (0, [])).2 else x.2 := by
  by_cases h : q < F.length
  · rw [if_pos h, List.getD_eq_getElem?_getD, List.getElem?_append_left h,
      ← List.getD_eq_getElem?_getD]
  · have : q = F.length := by omega
    subst this
    rw [if_neg h, List.getD_eq_getElem?_getD, List.getElem?_append_right (le_refl _),
      Nat.sub_self]
    rfl

theorem getD_bms_append (bms : List (List Bool)) (bm : List Bool) (j : Nat)
    (hj : j < bms.length) : (bms ++ [bm]).getD j [] = bms.getD j [] := by
  rw [List.getD_eq_getElem?_getD, List.getElem?_append_left hj, ← List.getD_eq_getElem?_getD]

theorem buildInv_step (vecHash : List Bool → Nat) (S B cap : Nat) (s : ColoredDbg)
    (done : List (Nat × List Bool)) (bms : List (List Bool)) (counter key : Nat)
    (bm : List Bool) (inv : BuildInv vecHash S B cap s done bms) (hB : 0 < B)
    (hkey : key ∉ done.map Prod.fst) (hlen : done.length < cap)
    (hinj : ∀ p ∈ done, vecHash p.2 = vecHash bm → p.2 = bm) :
    ∃ s1 counter1 bms1,
      afterGroup vecHash invalid s counter key bm = .ok (s1, counter1, true) ∧
      BuildInv vecHash S B cap s1 (done ++ [(key, bm)]) bms1 := by
  have hcap : (done.map Prod.fst).length < s.dbg.capacity := by
    rw [List.length_map, inv.cap]; exact hlen
  obtain ⟨hq, hadd⟩ := add_kmer_fresh vecHash s key bm _ inv.slots hkey hcap
  have hmlen : s.eqclass_map.length = bms.length := by
    have := congrArg List.length inv.keys
    simpa using this
  have hold : ∀ c, ∀ p ∈ done,
      CQF.query { s.dbg with slots := s.dbg.slots ++ [(key, c)] } p.1 = s.dbg.query p.1 := by
    intro c p hp
    rw [cqf_query_after s.dbg _ key c p.1 inv.slots hkey, if_neg]
    intro hc
    exact hkey (hc ▸ List.mem_map_of_mem _ hp)
  have hnew : ∀ c, CQF.query { s.dbg with slots := s.dbg.slots ++ [(key, c)] } key = c := by
    intro c
    rw [cqf_query_after s.dbg _ key c key inv.slots hkey, if_pos rfl]
  have hslots : ∀ c, (s.dbg.slots ++ [(key, c)]).map Prod.fst =
      (done ++ [(key, bm)]).map Prod.fst := by
    intro c
    rw [List.map_append, List.map_append, inv.slots]
    rfl
  cases hm : mapFind s.eqclass_map (vecHash bm) with
  | some e =>
    rw [add_colorClass_of_some vecHash s bm e hm] at hadd
    rw [afterGroup_ok vecHash s _ counter key bm _ hadd]
    obtain ⟨j, b, hjb, hvb, hej⟩ := mapFind_of_keys_ids vecHash _ bms _ e inv.keys inv.ids hm
    have hbm : b = bm := by
      obtain ⟨p, hp, hpb⟩ := inv.sub b (List.getElem?_mem hjb)
      rw [← hpb]
      exact hinj p hp (by rw [hpb]; exact hvb)
    rw [if_neg (by simp)]
    refine ⟨_, _, bms, rfl, inv.ns, inv.cpb, inv.buf, inv.cap, hslots _,
      (mapIncr_keys _ _).trans inv.keys, (mapIncr_ids _ _).trans inv.ids, ?_, ?_, inv.nser,
      inv.fnames, inv.stored, ?_, inv.flen⟩
    · intro b2 hb2
      obtain ⟨p, hp, hpb⟩ := inv.sub b2 hb2
      exact ⟨p, List.mem_append_left _ hp, hpb⟩
    · intro p hp
      rcases List.mem_append.mp hp with hp | hp
      · obtain ⟨j2, h1, h2⟩ := inv.look p hp
        exact ⟨j2, h1, (hold _ p hp).trans h2⟩
      · rw [List.mem_singleton] at hp
        subst hp
        exact ⟨j, by rw [hjb, hbm], (hnew _).trans hej⟩
    · intro j2 hj2
      obtain ⟨p, hp, h1, h2⟩ := inv.surj j2 hj2
      exact ⟨p, List.mem_append_left _ hp, h1, (hold _ p hp).trans h2⟩
  | none =>
    rw [add_colorClass_of_none vecHash s bm hm] at hadd
    obtain ⟨s1, hs1⟩ : ∃ s1 : ColoredDbg, s1 =
        { eqclass_map := s.eqclass_map ++ [(vecHash bm, (s.eqclass_map.length + 1, 1))]
          dbg := { slots := s.dbg.slots ++ [(key, s.eqclass_map.length + 1)]
                   capacity := s.dbg.capacity }
          bv_buffer := add_bitvector s.num_samples s.colorClassPerBuffer s.bv_buffer bm
            s.eqclass_map.length
          files := s.files
          num_samples := s.num_samples
          num_serializations := s.num_serializations
          colorClassPerBuffer := s.colorClassPerBuffer } := ⟨_, rfl⟩
    have hadd2 : add_kmer vecHash s key bm = .ok (s1, true) := by rw [hs1]; exact hadd
    have e1 : s1.eqclass_map = s.eqclass_map ++ [(vecHash bm, (s.eqclass_map.length + 1, 1))] := by
      rw [hs1]
    have e2 : s1.dbg = { slots := s.dbg.slots ++ [(key, s.eqclass_map.length + 1)]
                         capacity := s.dbg.capacity } := by rw [hs1]
    have e3 : s1.bv_buffer = add_bitvector S B s.bv_buffer bm bms.length := by
      rw [hs1, inv.ns, inv.cpb, hmlen]
    have e4 : s1.files = s.files := by rw [hs1]
    have e5 : s1.num_samples = S := by rw [hs1]; exact inv.ns
    have e6 : s1.num_serializations = bms.length / B := by rw [hs1]; exact inv.nser
    have e7 : s1.colorClassPerBuffer = B := by rw [hs1]; exact inv.cpb
    have e8 : s1.get_num_eqclasses = bms.length + 1 := by
      unfold ColoredDbg.get_num_eqclasses
      rw [e1, List.length_append, List.length_singleton, hmlen]
    clear hs1
    rw [afterGroup_ok vecHash s s1 counter key bm true hadd2, e7, e8]
    have hbuf2 : ∀ j i, j < bms.length + 1 → ¬ j / B < bms.length / B → i < S →
        s1.bv_buffer.getD (j % B * S + i) false = ((bms ++ [bm]).getD j []).getD i false := by
      rw [e3]
      intro j i hj hq2 hi
      refine getD_buffer_after_add S B s.bv_buffer bm bms hB inv.buf ?_ j i hj hq2 hi
      intro j2 i2 hj2 hq3 hi2
      have := inv.stored j2 i2 hj2 hi2
      rw [if_neg hq3] at this
      exact this
    have hfiles2 : ∀ j i, j < bms.length + 1 → j / B < bms.length / B → i < S →
        (s.files.getD (j / B) (0, [])).2.getD (j % B * S + i) false =
          ((bms ++ [bm]).getD j []).getD i false := by
      intro j i hj hq2 hi
      have hjl : j < bms.length := by
        by_contra hc
        have : j = bms.length := by omega
        rw [this] at hq2
        omega
      have := inv.stored j i hjl hi
      rw [if_pos hq2] at this
      rw [this, getD_bms_append bms bm j hjl]
    have hbl : s1.bv_buffer.length = B * S := by
      rw [e3, length_add_bitvector, inv.buf]
    have hkeys : s1.eqclass_map.map Prod.fst = (bms ++ [bm]).map vecHash := by
      rw [e1, List.map_append, List.map_append, inv.keys]
      rfl
    have hids : s1.eqclass_map.map (fun e : Nat × (Nat × Nat) => e.2.1) =
        List.range' 1 (bms ++ [bm]).length := by
      rw [e1, List.map_append, inv.ids, List.length_append, List.length_singleton,
        List.range'_concat, hmlen, Nat.one_mul]
      simp [Nat.add_comm]
    have hsub : ∀ b ∈ bms ++ [bm], ∃ p ∈ done ++ [(key, bm)], p.2 = b := by
      intro b2 hb2
      rcases List.mem_append.mp hb2 with hb2 | hb2
      · obtain ⟨p, hp, hpb⟩ := inv.sub b2 hb2
        exact ⟨p, List.mem_append_left _ hp, hpb⟩
      · rw [List.mem_singleton] at hb2
        exact ⟨(key, bm), List.mem_append_right _ (List.mem_singleton.mpr rfl), hb2.symm⟩
    have hlook : ∀ p ∈ done ++ [(key, bm)], ∃ j, (bms ++ [bm])[j]? = some p.2 ∧
        s1.dbg.query p.1 = j + 1 := by
      rw [e2]
      intro p hp
      rcases List.mem_append.mp hp with hp | hp
      · obtain ⟨j2, h1, h2⟩ := inv.look p hp
        have hj2 : j2 < bms.length := by
          by_contra hc
          rw [List.getElem?_eq_none (by omega)] at h1
          cases h1
        exact ⟨j2, by rw [List.getElem?_append_left hj2, h1], (hold _ p hp).trans h2⟩
      · rw [List.mem_singleton] at hp
        subst hp
        refine ⟨bms.length, by simp, ?_⟩
        exact (hnew _).trans (by rw [hmlen])
    have hslots1 : s1.dbg.slots.map Prod.fst = (done ++ [(key, bm)]).map Prod.fst := by
      rw [e2]; exact hslots _
    have hcap1 : s1.dbg.capacity = cap := by rw [e2]; exact inv.cap
    have hlen1 : (bms ++ [bm]).length = bms.length + 1 := by
      rw [List.length_append, List.length_singleton]
    have hsurj : ∀ j, j < (bms ++ [bm]).length →
        ∃ p ∈ done ++ [(key, bm)], p.2 = (bms ++ [bm]).getD j [] ∧
          s1.dbg.query p.1 = j + 1 := by
      rw [e2, hlen1]
      intro j hj
      by_cases hjl : j < bms.length
      · obtain ⟨p, hp, h1, h2⟩ := inv.surj j hjl
        exact ⟨p, List.mem_append_left _ hp, by rw [getD_bms_append bms bm j hjl]; exact h1,
          (hold _ p hp).trans h2⟩
      · have hje : j = bms.length := by omega
        subst hje
        refine ⟨(key, bm), List.mem_append_right _ (List.mem_singleton.mpr rfl), ?_, ?_⟩
        · simp [List.getD_eq_getElem?_getD]
        · exact (hnew _).trans (by rw [hmlen])
    by_cases hf : (bms.length + 1) % B = 0
    · have hdiv := succ_div_of_mod_eq bms.length B hf
      have hfl : s.files.length = bms.length / B := by
        have := congrArg List.length inv.fnames
        simpa using this
      rw [if_pos ⟨rfl, hf⟩]
      have hF := bv_buffer_serialize_files s1 (bms.length / B) (by rw [e4]; exact inv.fnames) e6
      rw [e8, e7, hf, if_neg (Nat.lt_irrefl 0), e4] at hF
      refine ⟨_, _, bms ++ [bm], rfl, e5, e7, ?_, hcap1, hslots1, hkeys, hids,
        hsub, hlook, ?_, ?_, ?_, hsurj, ?_⟩
      · show (zeros s1.bv_buffer.length).length = B * S
        unfold zeros
        rw [List.length_replicate, hbl]
      · show s1.num_serializations + 1 = (bms ++ [bm]).length / B
        rw [hlen1, hdiv, e6]
      · rw [hF, List.map_append, inv.fnames, hlen1, hdiv, List.range_succ]
        rfl
      · intro j i hj hi
        rw [hlen1] at hj
        have hjq : j / B ≤ bms.length / B := Nat.div_le_div_right (by omega)
        rw [hlen1, hdiv, if_pos (by omega), hF, getD_files_append _ _ _ (by omega), hfl]
        by_cases hq2 : j / B < bms.length / B
        · rw [if_pos hq2]
          exact hfiles2 j i hj hq2 hi
        · rw [if_neg hq2]
          exact hbuf2 j i hj hq2 hi
      · intro f hfm
        rw [hF] at hfm
        rcases List.mem_append.mp hfm with hfm | hfm
        · exact inv.flen f hfm
        · rw [List.mem_singleton] at hfm
          rw [hfm]
          exact hbl
    · have hdiv := succ_div_of_mod_ne bms.length B hf
      rw [if_neg (fun hc => hf hc.2)]
      refine ⟨_, _, bms ++ [bm], rfl, e5, e7, hbl, hcap1, hslots1, hkeys, hids,
        hsub, hlook, ?_, ?_, ?_, hsurj, ?_⟩
      · rw [hlen1, hdiv, e6]
      · rw [hlen1, hdiv, e4, inv.fnames]
      · intro j i hj hi
        rw [hlen1] at hj
        rw [hlen1, hdiv, e4]
        by_cases hq2 : j / B < bms.length / B
        · rw [if_pos hq2]
          exact hfiles2 j i hj hq2 hi
        · rw [if_neg hq2]
          exact hbuf2 j i hj hq2 hi
      · rw [e4]
        exact inv.flen

theorem buildInv_runCalls (vecHash : List Bool → Nat) (S B cap : Nat) (hB : 0 < B)
    (calls : List (Nat × List Bool)) :
    ∀ (s : ColoredDbg) (counter : Nat) (done : List (Nat × List Bool)) (bms : List (List Bool)),
      BuildInv vecHash S B cap s done bms →
      ((done ++ calls).map Prod.fst).Nodup → (done ++ calls).length ≤ cap →
      (∀ p ∈ done ++ calls, ∀ q ∈ done ++ calls, vecHash p.2 = vecHash q.2 → p.2 = q.2) →
      ∃ s1 bms1, runCalls vecHash s counter calls = .ok s1 ∧
        BuildInv vecHash S B cap s1 (done ++ calls) bms1 := by
  induction calls with
  | nil =>
    intro s counter done bms inv _ _ _
    rw [List.append_nil]
    exact ⟨s, bms, rfl, inv⟩
  | cons c rest ih =>
    intro s counter done bms inv hnd hlen hinj
    obtain ⟨key, bm⟩ := c
    have happ : done ++ (key, bm) :: rest = (done ++ [(key, bm)]) ++ rest := by
      rw [List.append_assoc, List.singleton_append]
    have hkey : key ∉ done.map Prod.fst := by
      rw [List.map_append, List.nodup_append] at hnd
      intro hc
      exact hnd.2.2 hc (by simp)
    have hl : done.length < cap := by
      rw [List.length_append, List.length_cons] at hlen
      omega
    obtain ⟨s1, counter1, bms1, hstep, inv1⟩ := buildInv_step vecHash S B cap s done bms counter
      key bm inv hB hkey hl (fun p hp => hinj p (List.mem_append_left _ hp) (key, bm)
        (List.mem_append_right _ (List.mem_cons_self _ _)))
    rw [runCalls, hstep]
    simp only
    rw [happ] at hnd hlen hinj ⊢
    exact ih s1 counter1 _ bms1 inv1 hnd hlen hinj

theorem buildInv_init (vecHash : List Bool → Nat) (L cap S : Nat) :
    BuildInv vecHash S (L / S) cap (ColoredDbg.init L cap S) [] [] := by
  refine ⟨rfl, rfl, ?_, rfl, rfl, rfl, rfl, ?_, ?_, ?_, ?_, ?_, ?_, ?_⟩
  · show (zeros (L / S * S)).length = L / S * S
    unfold zeros
    rw [List.length_replicate]
  · intro b hb; cases hb
  · intro p hp; cases hp
  · show 0 = 0 / (L / S)
    rw [Nat.zero_div]
  · show [] = List.range (0 / (L / S))
    rw [Nat.zero_div]
    rfl
  · intro j i hj
    exact absurd hj (Nat.not_lt_zero _)
  · intro j hj
    exact absurd hj (Nat.not_lt_zero _)
  · intro f hf
    cases hf

theorem serialize_files (vecHash : List Bool → Nat) (S B cap : Nat) (s : ColoredDbg)
    (done : List (Nat × List Bool)) (bms : List (List Bool))
    (inv : BuildInv vecHash S B cap s done bms) (hB : 0 < B) :
    (serialize s).dbg = s.dbg ∧ (serialize s).num_samples = S ∧
    (∃ m, (serialize s).files.map Prod.fst = List.range m) ∧
    ∀ j i, j < bms.length → i < S →
      (((serialize s).files.getD (j / B) (0, [])).2).getD (j % B * S + i) false =
        (bms.getD j []).getD i false := by
  have hmlen : s.eqclass_map.length = bms.length := by
    have := congrArg List.length inv.keys
    simpa using this
  have hfl : s.files.length = bms.length / B := by
    have := congrArg List.length inv.fnames
    simpa using this
  unfold serialize ColoredDbg.get_num_eqclasses
  rw [hmlen, inv.cpb]
  by_cases hr : bms.length % B > 0
  · rw [if_pos hr]
    have hF := bv_buffer_serialize_files s (bms.length / B) inv.fnames inv.nser
    unfold ColoredDbg.get_num_eqclasses at hF
    rw [hmlen, inv.cpb, if_pos hr, inv.ns] at hF
    refine ⟨rfl, inv.ns, ⟨bms.length / B + 1, ?_⟩, ?_⟩
    · rw [hF, List.map_append, inv.fnames, List.range_succ]
      rfl
    · intro j i hj hi
      have hjq : j / B ≤ bms.length / B := Nat.div_le_div_right (Nat.le_of_lt hj)
      rw [hF, getD_files_append _ _ _ (by omega), hfl]
      have := inv.stored j i hj hi
      by_cases hq : j / B < bms.length / B
      · rw [if_pos hq] at this ⊢
        exact this
      · rw [if_neg hq] at this ⊢
        have hq2 : j / B = bms.length / B := by omega
        have h1 := slot_lt (j % B) (bms.length % B) S i (mod_lt_of_div_eq j _ B hj hq2) hi
        rw [getD_resize, if_pos h1]
        exact this
  · rw [if_neg hr]
    refine ⟨rfl, inv.ns, ⟨_, inv.fnames⟩, ?_⟩
    intro j i hj hi
    have := inv.stored j i hj hi
    have hq : j / B < bms.length / B := by
      rw [Nat.div_lt_iff_lt_mul hB]
      have := Nat.div_add_mod bms.length B
      have hm : bms.length % B = 0 := by omega
      rw [hm, Nat.add_zero, Nat.mul_comm] at this
      omega
    rw [if_pos hq] at this
    exact this

theorem reload_eqclasses (L : Nat) (s : ColoredDbg) (m : Nat)
    (h : s.files.map Prod.fst = List.range m) (q : Nat) :
    (reload L s).eqclasses.getD q [] = (s.files.getD q (0, [])).2 := by
  have hs : s.files.Sorted (fun a b => a.1 ≤ b.1) := by
    have h1 : (s.files.map Prod.fst).Sorted (· ≤ ·) := by
      rw [h]
      exact (List.sorted_lt_range m).le_of_lt
    exact List.pairwise_map.mp h1
  unfold reload
  simp only
  rw [List.Sorted.insertionSort_eq hs, List.getD_eq_getElem?_getD, List.getElem?_map,
    List.getD_eq_getElem?_getD]
  cases s.files[q]? <;> rfl

theorem buildInv_query (vecHash : List Bool → Nat) (S L cap : Nat) (s : ColoredDbg)
    (done : List (Nat × List Bool)) (bms : List (List Bool))
    (inv : BuildInv vecHash S (L / S) cap s done bms) (hB : 0 < L / S)
    (p : Nat × List Bool) (hp : p ∈ done) :
    (reload L (serialize s)).dbg.query p.1 ≠ 0 ∧
    samplesOfId (reload L (serialize s)) ((reload L (serialize s)).dbg.query p.1) =
      (List.range S).filter (fun i => p.2.getD i false) := by
  obtain ⟨h1, h2, ⟨m, h3⟩, h4⟩ := serialize_files vecHash S (L / S) cap s done bms inv hB
  obtain ⟨j, hj, hq⟩ := inv.look p hp
  have hjl : j < bms.length := by
    by_contra hc
    rw [List.getElem?_eq_none (by omega)] at hj
    cases hj
  have hd : (reload L (serialize s)).dbg = s.dbg := h1
  have hn : (reload L (serialize s)).num_samples = S := h2
  have hc : (reload L (serialize s)).colorClassPerBuffer = L / S := by
    show L / (serialize s).num_samples = L / S
    rw [h2]
  rw [hd, hq]
  refine ⟨Nat.succ_ne_zero j, ?_⟩
  rw [samplesOfId_eq, hn, hc, Nat.add_sub_cancel]
  apply List.filter_congr
  intro x hx
  rw [List.mem_range] at hx
  have hb : bms.getD j [] = p.2 := by
    rw [List.getD_eq_getElem?_getD, hj]
    rfl
  rw [reload_eqclasses L (serialize s) m h3, h4 j x hjl hx, hb]

theorem lookup_map_self (f : Nat → List Nat) (l : List Nat) (c : Nat) (hc : c ∈ l) :
    (l.map (fun x => (x, f x))).lookup c = some (f c) := by
  induction l with
  | nil => cases hc
  | cons a t ih =>
    rw [List.map_cons, List.lookup_cons]
    by_cases h : c = a
    · subst h
      simp
    · have h2 : (c == a) = false := by simpa using h
      rw [h2]
      rcases List.mem_cons.mp hc with h3 | h3
      · exact absurd h3 h
      · exact ih h3

theorem lookup_find_samples (kmerHash : Nat → Nat) (d : LoadedDbg) (uniqueKmers : List Nat)
    (kmer : Nat) (hk : kmer ∈ uniqueKmers) (hq : d.dbg.query (kmerHash kmer) ≠ 0) :
    (find_samples kmerHash d uniqueKmers).lookup (d.dbg.query (kmerHash kmer)) =
      some (samplesOfId d (d.dbg.query (kmerHash kmer))) := by
  unfold find_samples
  apply lookup_map_self
  rw [List.mem_dedup, List.mem_filter]
  refine ⟨List.mem_map.mpr ⟨kmer, hk, rfl⟩, ?_⟩
  simpa using hq

theorem exampleHash_injective (a b : List Bool) (hl : a.length = b.length)
    (h : exampleHash a = exampleHash b) : a = b := by
  apply bool_list_ext a b hl
  intro i hi
  unfold exampleHash at h
  have h1 := congrArg (fun n => n.testBit i) h
  simp only [testBit_get_int, Nat.zero_add] at h1
  have hib : i < b.length := by omega
  simp only [hi, hib, decide_True, Bool.true_and] at h1
  rw [h1]

theorem expectedCalls_keys (incqfs : List (List Nat)) :
    (expectedCalls incqfs).map Prod.fst = incqfs.flatten.toFinset.sort (· ≤ ·) := by
  unfold expectedCalls
  rw [List.map_map]
  exact List.map_id _

theorem getD_bitmap (incqfs : List (List Nat)) (k i : Nat) :
    (incqfs.map (fun l => decide (k ∈ l))).getD i false = decide (k ∈ incqfs.getD i []) := by
  rw [List.getD_eq_getElem?_getD, List.getElem?_map, List.getD_eq_getElem?_getD]
  cases incqfs[i]? with
  | none => simp
  | some l => rfl

/-- C2: a full-mode `construct` over `N` sample filters (strictly increasing keys, a buffer
of at least one bitmap, room in the filter for every distinct key, no collision of the bitmap
hash) returns; after `serialize` and the reload of the buffer files, for every queried k-mer
that occurs in at least one sample the filter returns a non-zero color id, and `find_samples`
maps that color id to the list of exactly the indices of the samples that hold the k-mer, in
increasing order. -/
theorem construct_serialize_find_samples (ops : HeapOps) (IsHeap : List Iterator → Prop)
    (laws : HeapLaws ops IsHeap) (vecHash : List Bool → Nat) (kmerHash : Nat → Nat)
    (BV_BUF_LEN capacity : Nat) (incqfs : List (List Nat))
    (hsorted : ∀ l ∈ incqfs, l.Sorted (· < ·))
    (hinj : ∀ a b : List Bool, a.length = incqfs.length → b.length = incqfs.length →
      vecHash a = vecHash b → a = b)
    (hbuf : incqfs.length ≤ BV_BUF_LEN)
    (hcap : incqfs.flatten.toFinset.card ≤ capacity) :
    ∃ s, construct ops vecHash (ColoredDbg.init BV_BUF_LEN capacity incqfs.length) incqfs
        invalid = some (.ok s) ∧
      ∀ (uniqueKmers : List Nat) (kmer : Nat), kmer ∈ uniqueKmers →
        (∃ l ∈ incqfs, kmerHash kmer ∈ l) →
        (reload BV_BUF_LEN (serialize s)).dbg.query (kmerHash kmer) ≠ 0 ∧
        (find_samples kmerHash (reload BV_BUF_LEN (serialize s)) uniqueKmers).lookup
            ((reload BV_BUF_LEN (serialize s)).dbg.query (kmerHash kmer)) =
          some ((List.range incqfs.length).filter
            (fun i => decide (kmerHash kmer ∈ incqfs.getD i []))) := by
  obtain ⟨q1, q2, _⟩ := seedHeap_spec ops IsHeap laws incqfs incqfs.length hsorted
  have hc : construct ops vecHash (ColoredDbg.init BV_BUF_LEN capacity incqfs.length) incqfs
      invalid = some (runCalls vecHash (ColoredDbg.init BV_BUF_LEN capacity incqfs.length) 0
        (expectedCalls incqfs)) := by
    unfold construct
    show constructLoop ops vecHash invalid
      (heapKeys (seedHeap ops incqfs.length incqfs)) (seedHeap ops incqfs.length incqfs) _ 0 = _
    rw [constructLoop_full ops IsHeap laws vecHash incqfs.length _ _ _ 0 q1 q2 (le_refl _) rfl,
      mergeCalls_eq_expected ops IsHeap laws incqfs hsorted]
  rw [hc]
  by_cases hS : incqfs = []
  · subst hS
    have he : expectedCalls [] = [] := by
      unfold expectedCalls
      simp
    rw [he, runCalls]
    refine ⟨_, rfl, ?_⟩
    intro _ _ _ h
    obtain ⟨l, hl, _⟩ := h
    cases hl
  have hSpos : 0 < incqfs.length := List.length_pos.mpr hS
  have hB : 0 < BV_BUF_LEN / incqfs.length := Nat.div_pos hbuf hSpos
  have hp2 : ∀ p ∈ expectedCalls incqfs, p.2 = incqfs.map (fun l => decide (p.1 ∈ l)) := by
    intro p hp
    unfold expectedCalls at hp
    obtain ⟨k, _, hk⟩ := List.mem_map.mp hp
    rw [← hk]
  obtain ⟨s, bms, hrun, inv⟩ := buildInv_runCalls vecHash incqfs.length
    (BV_BUF_LEN / incqfs.length) capacity hB (expectedCalls incqfs)
    (ColoredDbg.init BV_BUF_LEN capacity incqfs.length) 0 [] []
    (buildInv_init vecHash BV_BUF_LEN capacity incqfs.length)
    (by rw [List.nil_append, expectedCalls_keys]; exact Finset.sort_nodup _ _)
    (by
      rw [List.nil_append]
      have := congrArg List.length (expectedCalls_keys incqfs)
      rw [List.length_map, Finset.length_sort] at this
      omega)
    (by
      rw [List.nil_append]
      intro p hp q hq h
      refine hinj p.2 q.2 ?_ ?_ h
      · rw [hp2 p hp, List.length_map]
      · rw [hp2 q hq, List.length_map])
  rw [List.nil_append] at inv
  refine ⟨s, by rw [hrun], ?_⟩
  intro uniqueKmers kmer hk hocc
  have hmem : (kmerHash kmer, incqfs.map (fun l => decide (kmerHash kmer ∈ l))) ∈
      expectedCalls incqfs := by
    unfold expectedCalls
    refine List.mem_map.mpr ⟨kmerHash kmer, ?_, rfl⟩
    rw [Finset.mem_sort, List.mem_toFinset, List.mem_flatten]
    exact hocc
  obtain ⟨h1, h2⟩ := buildInv_query vecHash incqfs.length BV_BUF_LEN capacity s _ bms inv hB
    _ hmem
  refine ⟨h1, ?_⟩
  rw [lookup_find_samples kmerHash _ uniqueKmers kmer hk h1, h2]
  congr 1
  apply List.filter_congr
  intro i _
  exact getD_bitmap incqfs (kmerHash kmer) i

/-- Witness of C2: two samples that share the k-mer 5, with a buffer of two bitmaps (the
first two color-classes go to file 0, the third to file 1 at `serialize`). -/
theorem construct_serialize_find_samples_witness :
    ∃ s, construct exampleHeap exampleHash (ColoredDbg.init 4 8 2) [[3, 5], [5, 9]] invalid =
        some (.ok s) ∧
      (reload 4 (serialize s)).dbg.query 5 ≠ 0 ∧
      (find_samples (fun k => k) (reload 4 (serialize s)) [9, 5]).lookup
          ((reload 4 (serialize s)).dbg.query 5) = some [0, 1] := by
  obtain ⟨s, h1, h2⟩ := construct_serialize_find_samples exampleHeap _ exampleHeap_laws
    exampleHash (fun k => k) 4 8 [[3, 5], [5, 9]] (by decide)
    (fun a b ha hb h => exampleHash_injective a b (ha.trans hb.symm) h) (by decide) (by decide)
  exact ⟨s, h1, h2 [9, 5] 5 (by decide) ⟨[3, 5], by decide, by decide⟩⟩

/-! ## The filter values stay in range -/

theorem filterInRange_init (L cap S : Nat) : FilterInRange (ColoredDbg.init L cap S) := by
  refine ⟨?_, ?_, List.nodup_nil⟩
  · intro e he; cases he
  · intro e he; cases he

theorem mem_mapIncr (m : List (Nat × (Nat × Nat))) (h : Nat) (e : Nat × (Nat × Nat))
    (he : e ∈ mapIncr m h) : ∃ e0 ∈ m, e0.2.1 = e.2.1 := by
  unfold mapIncr at he
  obtain ⟨a, ha, hae⟩ := List.mem_map.mp he
  refine ⟨a, ha, ?_⟩
  by_cases hah : a.1 = h
  · simp [hah] at hae
    rw [← hae]
  · simp [hah] at hae
    rw [hae]

theorem length_mapIncr (m : List (Nat × (Nat × Nat))) (h : Nat) :
    (mapIncr m h).length = m.length := by
  unfold mapIncr
  rw [List.length_map]

theorem mapFind_mem (m : List (Nat × (Nat × Nat))) (h : Nat) (e : Nat × Nat)
    (hf : mapFind m h = some e) : (h, e) ∈ m := by
  unfold mapFind at hf
  rw [Option.map_eq_some'] at hf
  obtain ⟨a, ha, hae⟩ := hf
  have hp := List.find?_some ha
  have hmem := List.mem_of_find?_eq_some ha
  have h1 : a.1 = h := by simpa using hp
  have : a = (h, e) := by
    rw [← h1, ← hae]
  rw [← this]
  exact hmem

/-- The color-class step keeps the ids of the map in range and hands out an id in range:
"every k-mer inserted into the main filter has color-class-id in `[1, |map|]` at the moment
of insertion". -/
theorem add_colorClass_range (vecHash : List Bool → Nat) (s : ColoredDbg) (v : List Bool)
    (hm : ∀ e ∈ s.eqclass_map, 1 ≤ e.2.1 ∧ e.2.1 ≤ s.get_num_eqclasses) :
    (∀ e ∈ (add_colorClass vecHash s v).1.eqclass_map,
      1 ≤ e.2.1 ∧ e.2.1 ≤ (add_colorClass vecHash s v).1.get_num_eqclasses) ∧
    1 ≤ (add_colorClass vecHash s v).2.1 ∧
    (add_colorClass vecHash s v).2.1 ≤ (add_colorClass vecHash s v).1.get_num_eqclasses ∧
    s.get_num_eqclasses ≤ (add_colorClass vecHash s v).1.get_num_eqclasses := by
  unfold ColoredDbg.get_num_eqclasses at hm ⊢
  cases h : mapFind s.eqclass_map (vecHash v) with
  | none =>
    rw [add_colorClass_of_none vecHash s v h]
    simp only [List.length_append, List.length_singleton]
    refine ⟨?_, by omega, le_refl _, by omega⟩
    intro e he
    rcases List.mem_append.mp he with he | he
    · have := hm e he
      omega
    · rw [List.mem_singleton] at he
      subst he
      simp
  | some e0 =>
    rw [add_colorClass_of_some vecHash s v e0 h]
    simp only [length_mapIncr]
    have h0 := hm _ (mapFind_mem _ _ _ h)
    refine ⟨?_, h0.1, h0.2, le_refl _⟩
    intro e he
    obtain ⟨e1, he1, h1⟩ := mem_mapIncr _ _ e he
    rw [← h1]
    exact hm e1 he1

theorem cqf_query_pos_of_any (f : CQF) (key : Nat) (hpos : ∀ e ∈ f.slots, 1 ≤ e.2)
    (hany : f.slots.any (fun e => e.1 == key) = true) : 1 ≤ f.query key := by
  unfold CQF.query
  cases hf : f.slots.find? (fun e => e.1 == key) with
  | none =>
    rw [List.find?_eq_none] at hf
    rw [List.any_eq_true] at hany
    obtain ⟨e, he, hek⟩ := hany
    exact absurd hek (hf e he)
  | some e => exact hpos e (List.mem_of_find?_eq_some hf)

theorem filterInRange_after_add (vecHash : List Bool → Nat) (s : ColoredDbg) (v : List Bool)
    (h : FilterInRange s) : FilterInRange (add_colorClass vecHash s v).1 := by
  obtain ⟨h1, h2, h3⟩ := h
  obtain ⟨a1, _, _, a4⟩ := add_colorClass_range vecHash s v h1
  refine ⟨a1, ?_, ?_⟩
  · rw [add_colorClass_dbg]
    intro e he
    have := h2 e he
    omega
  · rw [add_colorClass_dbg]
    exact h3

theorem add_kmer_range (vecHash : List Bool → Nat) (s : ColoredDbg) (key : Nat)
    (v : List Bool) (h : FilterInRange s) :
    (∀ s1 b, add_kmer vecHash s key v = .ok (s1, b) → FilterInRange s1) ∧
    (∀ f s1, add_kmer vecHash s key v = .error (f, s1) → FilterInRange s1) := by
  have hadd := filterInRange_after_add vecHash s v h
  obtain ⟨_, b2, b3, _⟩ := add_colorClass_range vecHash s v h.1
  by_cases hq : s.dbg.query key = 0
  · rw [add_kmer_of_absent vecHash s key v hq]
    have hany : s.dbg.slots.any (fun e => e.1 == key) = false := by
      rw [Bool.eq_false_iff]
      intro hc
      have := cqf_query_pos_of_any s.dbg key (fun e he => (h.2.1 e he).1) hc
      omega
    by_cases hcap : s.dbg.slots.length < s.dbg.capacity
    · have hins : s.dbg.insert key (add_colorClass vecHash s v).2.1 =
          some { s.dbg with
            slots := s.dbg.slots ++ [(key, (add_colorClass vecHash s v).2.1)] } := by
        unfold CQF.insert
        rw [if_neg (by rw [hany]; exact Bool.false_ne_true), if_pos hcap]
      rw [hins]
      refine ⟨?_, fun f s1 hc => by cases hc⟩
      intro s1 b hs
      injection hs with hs
      injection hs with hs1 _
      subst hs1
      refine ⟨hadd.1, ?_, ?_⟩
      · intro e he
        rcases List.mem_append.mp he with he | he
        · have := hadd.2.1 e (by rw [add_colorClass_dbg]; exact he)
          exact this
        · rw [List.mem_singleton] at he
          subst he
          exact ⟨b2, b3⟩
      · show ((s.dbg.slots ++ [(key, _)]).map Prod.fst).Nodup
        rw [List.map_append, List.nodup_append]
        refine ⟨h.2.2, List.nodup_singleton _, ?_⟩
        intro a ha hb
        rw [List.map_singleton, List.mem_singleton] at hb
        subst hb
        obtain ⟨e, he, hek⟩ := List.mem_map.mp ha
        have : s.dbg.slots.any (fun e => e.1 == a) = true := by
          rw [List.any_eq_true]
          exact ⟨e, he, by simpa using hek⟩
        rw [hany] at this
        exact Bool.false_ne_true this
    · have hins : s.dbg.insert key (add_colorClass vecHash s v).2.1 = none := by
        unfold CQF.insert
        rw [if_neg (by rw [hany]; exact Bool.false_ne_true), if_neg hcap]
      rw [hins]
      refine ⟨fun s1 b hc => (by cases hc), ?_⟩
      intro f s1 hs
      injection hs with hs
      injection hs with _ hs1
      subst hs1
      exact hadd
  · rw [add_kmer_of_present vecHash s key v hq]
    refine ⟨fun s1 b hc => (by cases hc), ?_⟩
    intro f s1 hs
    injection hs with hs
    injection hs with _ hs1
    subst hs1
    exact hadd

theorem filterInRange_serialize (s : ColoredDbg) (h : FilterInRange s) :
    FilterInRange (bv_buffer_serialize s) := h

theorem afterGroup_range (vecHash : List Bool → Nat) (num_kmers : Nat) (s : ColoredDbg)
    (counter key : Nat) (v : List Bool) (h : FilterInRange s) :
    (∀ s1 c b, afterGroup vecHash num_kmers s counter key v = .ok (s1, c, b) →
      FilterInRange s1) ∧
    (∀ f s1, afterGroup vecHash num_kmers s counter key v = .error (f, s1) →
      FilterInRange s1) := by
  obtain ⟨k1, k2⟩ := add_kmer_range vecHash s key v h
  unfold afterGroup
  cases hk : add_kmer vecHash s key v with
  | error e =>
    obtain ⟨f, s1⟩ := e
    refine ⟨fun s1 c b hc => (by cases hc), ?_⟩
    intro f2 s2 hs
    injection hs with hs
    injection hs with _ hs1
    subst hs1
    exact k2 f s1 hk
  | ok r =>
    obtain ⟨s2, added⟩ := r
    have hs2 := k1 s2 added hk
    simp only
    refine ⟨?_, ?_⟩
    · intro s1 c b hs
      split at hs
      · split at hs
        · injection hs with hs
          injection hs with hs1 _
          subst hs1
          exact hs2
        · injection hs with hs
          injection hs with hs1 _
          subst hs1
          exact filterInRange_serialize s2 hs2
      · split at hs
        · injection hs with hs
          injection hs with hs1 _
          subst hs1
          exact hs2
        · injection hs with hs
          injection hs with hs1 _
          subst hs1
          exact hs2
    · intro f s1 hs
      split at hs
      · split at hs <;> cases hs
      · split at hs <;> cases hs

theorem constructAfter_range (ops : HeapOps) (vecHash : List Bool → Nat) (num_kmers n : Nat) :
    ∀ (c : List Iterator) (s : ColoredDbg) (counter : Nat), FilterInRange s →
      FilterInRange (constructAfter ops vecHash num_kmers n c s counter) := by
  induction n with
  | zero =>
    intro c s counter h
    rw [constructAfter]
    exact h
  | succ n ih =>
    intro c s counter h
    cases c with
    | nil => rw [constructAfter]; exact h
    | cons t tl =>
      rw [constructAfter]
      obtain ⟨a1, a2⟩ := afterGroup_range vecHash num_kmers s counter
        (groupLoop ops (heapKeys (t :: tl)) (t :: tl) (zeros s.num_samples)).2.2
        (groupLoop ops (heapKeys (t :: tl)) (t :: tl) (zeros s.num_samples)).2.1 h
      cases ha : afterGroup vecHash num_kmers s counter
          (groupLoop ops (heapKeys (t :: tl)) (t :: tl) (zeros s.num_samples)).2.2
          (groupLoop ops (heapKeys (t :: tl)) (t :: tl) (zeros s.num_samples)).2.1 with
      | error e =>
        obtain ⟨f, s1⟩ := e
        exact a2 f s1 ha
      | ok r =>
        obtain ⟨s1, counter1, b⟩ := r
        cases b with
        | true => exact ih _ s1 counter1 (a1 s1 counter1 true ha)
        | false => exact a1 s1 counter1 false ha

theorem cqf_query_of_mem (l : List (Nat × Nat)) (cap k v : Nat)
    (hnd : (l.map Prod.fst).Nodup) (hm : (k, v) ∈ l) :
    CQF.query { slots := l, capacity := cap } k = v := by
  induction l with
  | nil => cases hm
  | cons a t ih =>
    rw [CQF.query_cons]
    rw [List.map_cons, List.nodup_cons] at hnd
    rcases List.mem_cons.mp hm with h | h
    · rw [← h, if_pos rfl]
    · have hne : ¬ a.1 = k := by
        intro hc
        apply hnd.1
        rw [hc]
        exact List.mem_map.mpr ⟨(k, v), h, rfl⟩
      rw [if_neg hne]
      exact ih hnd.2 h

theorem constructLoop_state (ops : HeapOps) (vecHash : List Bool → Nat) (num_kmers fuel : Nat) :
    ∀ (c : List Iterator) (s : ColoredDbg) (counter : Nat)
      (r : Except (Fatal × ColoredDbg) ColoredDbg),
      constructLoop ops vecHash num_kmers fuel c s counter = some r →
      (match r with
        | .ok s1 => s1
        | .error e => e.2) = constructAfter ops vecHash num_kmers fuel c s counter := by
  induction fuel with
  | zero =>
    intro c s counter r h
    cases c with
    | nil =>
      rw [constructLoop] at h
      injection h with h
      subst h
      rw [constructAfter]
    | cons t tl => rw [constructLoop] at h; cases h
  | succ fuel ih =>
    intro c s counter r h
    cases c with
    | nil =>
      rw [constructLoop] at h
      injection h with h
      subst h
      rw [constructAfter]
    | cons t tl =>
      rw [constructLoop] at h
      rw [constructAfter]
      cases ha : afterGroup vecHash num_kmers s counter
          (groupLoop ops (heapKeys (t :: tl)) (t :: tl) (zeros s.num_samples)).2.2
          (groupLoop ops (heapKeys (t :: tl)) (t :: tl) (zeros s.num_samples)).2.1 with
      | error e =>
        rw [ha] at h
        injection h with h
        subst h
        rfl
      | ok q =>
        obtain ⟨s1, counter1, b⟩ := q
        rw [ha] at h
        cases b with
        | true => exact ih _ s1 counter1 r h
        | false =>
          injection h with h
          subst h
          rfl

/-- C11: after any number `n` of passes through the merge loop of `construct` (sampling or
full mode, any heap, any bitmap hash) started on the empty index, every key stored in the
main filter has a value `v` with `1 ≤ v ≤ get_num_eqclasses()`, and this `v` is what the
filter returns for the key. -/
theorem construct_filter_values_in_range (ops : HeapOps) (vecHash : List Bool → Nat)
    (num_kmers BV_BUF_LEN capacity n : Nat) (incqfs : List (List Nat)) (key value : Nat)
    (h : (key, value) ∈ (constructAfter ops vecHash num_kmers n
      (seedHeap ops incqfs.length incqfs)
      (ColoredDbg.init BV_BUF_LEN capacity incqfs.length) 0).dbg.slots) :
    1 ≤ value ∧
    value ≤ (constructAfter ops vecHash num_kmers n (seedHeap ops incqfs.length incqfs)
      (ColoredDbg.init BV_BUF_LEN capacity incqfs.length) 0).get_num_eqclasses ∧
    (constructAfter ops vecHash num_kmers n (seedHeap ops incqfs.length incqfs)
      (ColoredDbg.init BV_BUF_LEN capacity incqfs.length) 0).dbg.query key = value := by
  obtain ⟨_, h2, h3⟩ := constructAfter_range ops vecHash num_kmers n
    (seedHeap ops incqfs.length incqfs) _ 0
    (filterInRange_init BV_BUF_LEN capacity incqfs.length)
  exact ⟨(h2 _ h).1, (h2 _ h).2, cqf_query_of_mem _ _ key value h3 h⟩

/-- Witness of C11: two samples sharing the k-mer 5; after two passes the filter holds
`3 ↦ 1` and `5 ↦ 2`, and there are two color-classes. -/
theorem construct_filter_values_in_range_witness :
    (5, 2) ∈ (constructAfter exampleHeap exampleHash invalid 2
      (seedHeap exampleHeap 2 [[3, 5], [5, 9]]) (ColoredDbg.init 4 8 2) 0).dbg.slots ∧
    1 ≤ 2 ∧
    2 ≤ (constructAfter exampleHeap exampleHash invalid 2
      (seedHeap exampleHeap 2 [[3, 5], [5, 9]]) (ColoredDbg.init 4 8 2) 0).get_num_eqclasses ∧
    (constructAfter exampleHeap exampleHash invalid 2
      (seedHeap exampleHeap 2 [[3, 5], [5, 9]]) (ColoredDbg.init 4 8 2) 0).dbg.query 5 = 2 :=
  ⟨by decide, construct_filter_values_in_range exampleHeap exampleHash invalid 4 8 2
    [[3, 5], [5, 9]] 5 2 (by decide)⟩

/-! ## The two-phase build -/

theorem add_kmer_ok_query (vecHash : List Bool → Nat) (s s1 : ColoredDbg) (key : Nat)
    (v : List Bool) (b : Bool) (h : add_kmer vecHash s key v = .ok (s1, b)) :
    ∀ j, s1.dbg.query j =
      if j = key then (add_colorClass vecHash s v).2.1 else s.dbg.query j := by
  by_cases hq : s.dbg.query key = 0
  · rw [add_kmer_of_absent vecHash s key v hq] at h
    cases hins : s.dbg.insert key (add_colorClass vecHash s v).2.1 with
    | none => rw [hins] at h; cases h
    | some d =>
      rw [hins] at h
      injection h with h
      injection h with h1 _
      subst h1
      intro j
      show d.query j = _
      rw [CQF.query_insert s.dbg d key _ j hins]
      by_cases hj : j = key
      · rw [if_pos hj, if_pos hj, hj, hq, Nat.zero_add]
      · rw [if_neg hj, if_neg hj]
  · rw [add_kmer_of_present vecHash s key v hq] at h
    cases h

theorem afterGroup_ok_state (vecHash : List Bool → Nat) (num_kmers : Nat) (s s1 : ColoredDbg)
    (counter key counter1 : Nat) (v : List Bool) (b : Bool)
    (h : afterGroup vecHash num_kmers s counter key v = .ok (s1, counter1, b)) :
    ∃ s2 added, add_kmer vecHash s key v = .ok (s2, added) ∧ s1.dbg = s2.dbg ∧
      s1.num_samples = s2.num_samples := by
  unfold afterGroup at h
  cases hk : add_kmer vecHash s key v with
  | error e => rw [hk] at h; cases h
  | ok r =>
    obtain ⟨s2, added⟩ := r
    rw [hk] at h
    simp only at h
    refine ⟨s2, added, rfl, ?_⟩
    split at h
    · split at h
      · injection h with h
        injection h with h1 _
        subst h1
        exact ⟨rfl, rfl⟩
      · injection h with h
        injection h with h1 _
        subst h1
        exact ⟨rfl, rfl⟩
    · split at h
      · injection h with h
        injection h with h1 _
        subst h1
        exact ⟨rfl, rfl⟩
      · injection h with h
        injection h with h1 _
        subst h1
        exact ⟨rfl, rfl⟩

theorem afterGroup_ok_query (vecHash : List Bool → Nat) (num_kmers : Nat) (s s1 : ColoredDbg)
    (counter key counter1 : Nat) (v : List Bool) (b : Bool) (hr : FilterInRange s)
    (h : afterGroup vecHash num_kmers s counter key v = .ok (s1, counter1, b)) :
    s1.num_samples = s.num_samples ∧ s1.dbg.query key ≠ 0 ∧
    ∀ j, s.dbg.query j ≠ 0 → s1.dbg.query j ≠ 0 := by
  obtain ⟨s2, added, hk, hd, hn⟩ := afterGroup_ok_state vecHash num_kmers s s1 counter key
    counter1 v b h
  have hq := add_kmer_ok_query vecHash s s2 key v added hk
  obtain ⟨_, b2, _, _⟩ := add_colorClass_range vecHash s v hr.1
  refine ⟨hn.trans (add_kmer_num_samples vecHash s s2 key v added hk).1, ?_, ?_⟩
  · rw [hd, hq key, if_pos rfl]
    omega
  · intro j hj
    rw [hd, hq j]
    by_cases hjk : j = key
    · rw [if_pos hjk]
      omega
    · rw [if_neg hjk]
      exact hj

theorem constructLoop_ok_query (ops : HeapOps) (vecHash : List Bool → Nat)
    (num_kmers fuel : Nat) :
    ∀ (c : List Iterator) (s : ColoredDbg) (counter : Nat) (s1 : ColoredDbg),
      FilterInRange s → constructLoop ops vecHash num_kmers fuel c s counter = some (.ok s1) →
      s1.num_samples = s.num_samples ∧ ∀ j, s.dbg.query j ≠ 0 → s1.dbg.query j ≠ 0 := by
  induction fuel with
  | zero =>
    intro c s counter s1 _ h
    cases c with
    | nil =>
      rw [constructLoop] at h
      injection h with h
      injection h with h
      subst h
      exact ⟨rfl, fun j hj => hj⟩
    | cons t tl => rw [constructLoop] at h; cases h
  | succ fuel ih =>
    intro c s counter s1 hr h
    cases c with
    | nil =>
      rw [constructLoop] at h
      injection h with h
      injection h with h
      subst h
      exact ⟨rfl, fun j hj => hj⟩
    | cons t tl =>
      rw [constructLoop] at h
      cases ha : afterGroup vecHash num_kmers s counter
          (groupLoop ops (heapKeys (t :: tl)) (t :: tl) (zeros s.num_samples)).2.2
          (groupLoop ops (heapKeys (t :: tl)) (t :: tl) (zeros s.num_samples)).2.1 with
      | error e => rw [ha] at h; cases h
      | ok q =>
        obtain ⟨s2, counter2, b⟩ := q
        rw [ha] at h
        obtain ⟨q1, _, q3⟩ := afterGroup_ok_query vecHash num_kmers s s2 counter _ counter2 _ b
          hr ha
        have hr2 := (afterGroup_range vecHash num_kmers s counter _ _ hr).1 s2 counter2 b ha
        cases b with
        | true =>
          obtain ⟨i1, i2⟩ := ih _ s2 counter2 s1 hr2 h
          exact ⟨i1.trans q1, fun j hj => i2 j (q3 j hj)⟩
        | false =>
          injection h with h
          injection h with h
          subst h
          exact ⟨q1, q3⟩

theorem constructLoop_total (ops : HeapOps) (IsHeap : List Iterator → Prop)
    (laws : HeapLaws ops IsHeap) (vecHash : List Bool → Nat) (num_kmers S fuel : Nat) :
    ∀ (c : List Iterator) (s : ColoredDbg) (counter : Nat),
      IsHeap c → HeapInv S c → heapKeys c ≤ fuel → s.num_samples = S → FilterInRange s →
      ∃ r, constructLoop ops vecHash num_kmers fuel c s counter = some r := by
  induction fuel with
  | zero =>
    intro c s counter _ _ hk _ _
    cases c with
    | nil => exact ⟨_, by rw [constructLoop]⟩
    | cons a b => rw [heapKeys_cons] at hk; omega
  | succ fuel ih =>
    intro c s counter hh hinv hk hS hr
    cases c with
    | nil => exact ⟨_, by rw [constructLoop]⟩
    | cons t tl =>
      obtain ⟨g1, g2, _, _, _⟩ := front_group ops IsHeap laws S t tl hh hinv
      have hinv2 : HeapInv S (groupLoop ops (heapKeys (t :: tl)) (t :: tl) (zeros S)).1 :=
        heapInv_perm g2.symm (heapInv_advance S t.kmer (t :: tl) hinv)
      have hlt : heapKeys (groupLoop ops (heapKeys (t :: tl)) (t :: tl) (zeros S)).1 ≤ fuel := by
        rw [heapKeys_perm g2]
        have := heapKeys_advance_lt t tl
        omega
      rw [constructLoop, hS]
      cases ha : afterGroup vecHash num_kmers s counter
          (groupLoop ops (heapKeys (t :: tl)) (t :: tl) (zeros S)).2.2
          (groupLoop ops (heapKeys (t :: tl)) (t :: tl) (zeros S)).2.1 with
      | error e => exact ⟨_, rfl⟩
      | ok q =>
        obtain ⟨s2, counter2, b⟩ := q
        obtain ⟨q1, _, _⟩ := afterGroup_ok_query vecHash num_kmers s s2 counter _ counter2 _ b
          hr ha
        have hr2 := (afterGroup_range vecHash num_kmers s counter _ _ hr).1 s2 counter2 b ha
        cases b with
        | true => exact ih _ s2 counter2 g1 hinv2 hlt (q1.trans hS) hr2
        | false => exact ⟨_, rfl⟩

theorem heapKeys_pos (t : Iterator) (tl : List Iterator) : 1 ≤ heapKeys (t :: tl) := by
  rw [heapKeys_cons]
  omega

theorem constructLoop_first_key (ops : HeapOps) (IsHeap : List Iterator → Prop)
    (laws : HeapLaws ops IsHeap) (vecHash : List Bool → Nat) (num_kmers S fuel : Nat)
    (t : Iterator) (tl : List Iterator) (s s1 : ColoredDbg) (counter : Nat)
    (hh : IsHeap (t :: tl)) (hinv : HeapInv S (t :: tl)) (hS : s.num_samples = S)
    (hr : FilterInRange s)
    (h : constructLoop ops vecHash num_kmers fuel (t :: tl) s counter = some (.ok s1)) :
    s1.num_samples = S ∧ s1.dbg.query t.kmer ≠ 0 := by
  obtain ⟨_, _, g3, _, _⟩ := front_group ops IsHeap laws S t tl hh hinv
  cases fuel with
  | zero => rw [constructLoop] at h; cases h
  | succ fuel =>
    rw [constructLoop, hS] at h
    cases ha : afterGroup vecHash num_kmers s counter
        (groupLoop ops (heapKeys (t :: tl)) (t :: tl) (zeros S)).2.2
        (groupLoop ops (heapKeys (t :: tl)) (t :: tl) (zeros S)).2.1 with
    | error e => rw [ha] at h; cases h
    | ok q =>
      obtain ⟨s2, counter2, b⟩ := q
      rw [ha] at h
      obtain ⟨q1, q2, _⟩ := afterGroup_ok_query vecHash num_kmers s s2 counter _ counter2 _ b
        hr ha
      rw [g3] at q2
      have hr2 := (afterGroup_range vecHash num_kmers s counter _ _ hr).1 s2 counter2 b ha
      cases b with
      | true =>
        obtain ⟨i1, i2⟩ := constructLoop_ok_query ops vecHash num_kmers fuel _ s2 counter2 s1
          hr2 h
        exact ⟨i1.trans (q1.trans hS), i2 _ q2⟩
      | false =>
        injection h with h
        injection h with h
        subst h
        exact ⟨q1.trans hS, q2⟩

theorem constructLoop_present (ops : HeapOps) (IsHeap : List Iterator → Prop)
    (laws : HeapLaws ops IsHeap) (vecHash : List Bool → Nat) (num_kmers S fuel : Nat)
    (t : Iterator) (tl : List Iterator) (s : ColoredDbg) (counter : Nat)
    (hh : IsHeap (t :: tl)) (hinv : HeapInv S (t :: tl)) (hS : s.num_samples = S)
    (hq : s.dbg.query t.kmer ≠ 0) :
    ∃ st, constructLoop ops vecHash num_kmers (fuel + 1) (t :: tl) s counter =
      some (.error (Fatal.kmerPresent, st)) := by
  obtain ⟨_, _, g3, _, _⟩ := front_group ops IsHeap laws S t tl hh hinv
  rw [constructLoop, hS]
  unfold afterGroup
  rw [g3, add_kmer_of_present vecHash s t.kmer _ hq]
  exact ⟨_, rfl⟩

/-- C12 fails on the code: `reinit` does not reset the main filter (nor reshuffle or flush
the buffer: its body is commented out), so whenever some sample holds a k-mer the two-phase
build on one index ends in a fatal exit and writes no buffer file.  If the sampling phase
itself returns, the full phase stops at its first k-mer, the least key, with "K-mer was
already present". -/
theorem twoPhaseBuild_fatal (ops : HeapOps) (IsHeap : List Iterator → Prop)
    (laws : HeapLaws ops IsHeap) (vecHash : List Bool → Nat)
    (BV_BUF_LEN capacity num_kmers : Nat) (incqfs : List (List Nat))
    (reorder : List (Nat × (Nat × Nat)) → List (Nat × (Nat × Nat)))
    (hsorted : ∀ l ∈ incqfs, l.Sorted (· < ·)) (hne : ∃ l ∈ incqfs, l ≠ []) :
    ∃ e, twoPhaseBuild ops vecHash (ColoredDbg.init BV_BUF_LEN capacity incqfs.length) incqfs
        num_kmers reorder = some (.error e) ∧
      ((∃ s1, construct ops vecHash (ColoredDbg.init BV_BUF_LEN capacity incqfs.length) incqfs
        num_kmers = some (.ok s1)) → e.1 = Fatal.kmerPresent) := by
  obtain ⟨q1, q2, _⟩ := seedHeap_spec ops IsHeap laws incqfs incqfs.length hsorted
  obtain ⟨_, _, _, q4⟩ := seedHeap_inv ops IsHeap laws incqfs incqfs.length
  obtain ⟨l, hl, hlne⟩ := hne
  obtain ⟨i, hi⟩ := List.mem_iff_getElem?.mp hl
  have hil : i < incqfs.length := by
    by_contra hc
    rw [List.getElem?_eq_none (by omega)] at hi
    cases hi
  obtain ⟨it, hit, _⟩ := q4 i hil (by
    rw [List.getD_eq_getElem?_getD, hi]
    exact hlne)
  cases hc : seedHeap ops incqfs.length incqfs with
  | nil => rw [hc] at hit; cases hit
  | cons t tl =>
    rw [hc] at q1 q2
    have hr := filterInRange_init BV_BUF_LEN capacity incqfs.length
    have hns : (ColoredDbg.init BV_BUF_LEN capacity incqfs.length).num_samples =
        incqfs.length := rfl
    obtain ⟨r, hr1⟩ := constructLoop_total ops IsHeap laws vecHash num_kmers incqfs.length
      (heapKeys (t :: tl)) (t :: tl) (ColoredDbg.init BV_BUF_LEN capacity incqfs.length) 0
      q1 q2 (le_refl _) hns hr
    have hcon : construct ops vecHash (ColoredDbg.init BV_BUF_LEN capacity incqfs.length)
        incqfs num_kmers = some r := by
      unfold construct
      rw [hns, hc]
      exact hr1
    unfold twoPhaseBuild
    rw [hcon]
    cases r with
    | error e =>
      refine ⟨e, rfl, ?_⟩
      intro h
      obtain ⟨s1, h⟩ := h
      cases h
    | ok s1 =>
      obtain ⟨p1, p2⟩ := constructLoop_first_key ops IsHeap laws vecHash num_kmers
        incqfs.length _ t tl _ s1 0 q1 q2 hns hr hr1
      have hns2 : (reinit s1 (reorder s1.eqclass_map)).num_samples = incqfs.length := p1
      obtain ⟨k, hk⟩ : ∃ k, heapKeys (t :: tl) = k + 1 :=
        ⟨heapKeys (t :: tl) - 1, by have := heapKeys_pos t tl; omega⟩
      obtain ⟨st, hst⟩ := constructLoop_present ops IsHeap laws vecHash invalid incqfs.length
        k t tl (reinit s1 (reorder s1.eqclass_map)) 0 q1 q2 hns2 p2
      have hcon2 : construct ops vecHash (reinit s1 (reorder s1.eqclass_map)) incqfs invalid =
          some (.error (Fatal.kmerPresent, st)) := by
        unfold construct
        rw [hns2, hc, hk]
        exact hst
      simp only
      rw [hcon2]
      exact ⟨_, rfl, fun _ => rfl⟩

/-- The failing input of C12: two samples sharing the k-mer 5, a buffer of two bitmaps.  The
sampling phase stops with two color-classes in the buffer; the full phase exits at the
k-mer 3. -/
theorem twoPhaseBuild_fatal_witness :
    ∃ e, twoPhaseBuild exampleHeap exampleHash (ColoredDbg.init 4 8 2) [[3, 5], [5, 9]] 10
        (fun m => m) = some (.error e) ∧
      ((∃ s1, construct exampleHeap exampleHash (ColoredDbg.init 4 8 2) [[3, 5], [5, 9]] 10 =
        some (.ok s1)) → e.1 = Fatal.kmerPresent) :=
  twoPhaseBuild_fatal exampleHeap _ exampleHeap_laws exampleHash 4 8 10 [[3, 5], [5, 9]]
    (fun m => m) (by decide) ⟨[3, 5], by decide, by decide⟩

/-- The failing input of C12 evaluated: the sampling phase returns `sampledIndex`, and the
two-phase build then exits.  With the filter emptied by hand between the phases the build
would return, but `reinit` has not flushed the full buffer: the third color-class overwrites
the slot of the first, and `serialize` writes the single file 0 with that one bitmap, so the
bitmaps of the ids 1 and 2 are in no file and that of id 3 is not in file 1. -/
theorem reinit_keeps_full_buffer :
    construct exampleHeap exampleHash (ColoredDbg.init 4 8 2) [[3, 5], [5, 9]] 10 =
      some (.ok sampledIndex) ∧
    twoPhaseBuild exampleHeap exampleHash (ColoredDbg.init 4 8 2) [[3, 5], [5, 9]] 10
      (fun m => m) = some (.error (Fatal.kmerPresent,
        { sampledIndex with eqclass_map := [(1, (1, 2)), (3, (2, 1))] })) ∧
    (construct exampleHeap exampleHash
      { reinit sampledIndex sampledIndex.eqclass_map with
          dbg := { slots := [], capacity := 8 } } [[3, 5], [5, 9]] invalid).map
        (fun r => r.toOption.map (fun s => ((serialize s).files, s.get_num_eqclasses))) =
      some (some ([(0, [false, true])], 3)) := by
  refine ⟨rfl, rfl, rfl⟩

/-- A second effect of the missing reshuffle, again with the filter emptied by hand: with a
buffer of four bitmaps the sampling phase (stopped after two k-mers) leaves `{0}` as id 1 and
`{0, 1}` as id 2; the caller swaps the two ids; after the full phase and `serialize` the
k-mer 5 of both samples has the id 1, whose slot still holds the bitmap `{0}`. -/
theorem reinit_keeps_old_slots :
    construct exampleHeap exampleHash (ColoredDbg.init 8 8 2) [[3, 5], [5, 9]] 1 =
      some (.ok { sampledIndex with
        bv_buffer := [true, false, true, true, false, false, false, false]
        colorClassPerBuffer := 4 }) ∧
    (construct exampleHeap exampleHash
      { reinit { sampledIndex with
            bv_buffer := [true, false, true, true, false, false, false, false]
            colorClassPerBuffer := 4 } [(1, (2, 0)), (3, (1, 0))] with
          dbg := { slots := [], capacity := 8 } } [[3, 5], [5, 9]] invalid).map
        (fun r => r.toOption.map (fun s =>
          ((reload 8 (serialize s)).dbg.query 5,
            samplesOfId (reload 8 (serialize s)) ((reload 8 (serialize s)).dbg.query 5)))) =
      some (some (1, [0])) := by
  refine ⟨rfl, rfl⟩

/-- The variant with a fresh index for the full phase fails in the same way: `reinit` seeds
the map with the ids 1 and 2 of `{0}` and `{0, 1}`, `add_colorClass` finds them and never
writes their bitmaps, and `serialize` leaves the single file 0 with the bitmap of id 3. -/
theorem reinit_fresh_index_no_bitmaps :
    (construct exampleHeap exampleHash
      (reinit (ColoredDbg.init 4 8 2) [(1, (1, 0)), (3, (2, 0))]) [[3, 5], [5, 9]]
      invalid).map (fun r => r.toOption.map
        (fun s => ((serialize s).files, s.get_num_eqclasses, s.dbg.slots))) =
      some (some ([(0, [false, true])], 3, [(3, 1), (5, 2), (9, 3)])) := by
  rfl

/-! ## The buffer files of a full-mode build -/

theorem length_resize (bv : List Bool) (n : Nat) : (resize bv n).length = n := by
  unfold resize zeros
  rw [List.length_append, List.length_take, List.length_replicate]
  omega

theorem length_flatten_uniform (L : List (List Bool)) (S : Nat) (h : ∀ b ∈ L, b.length = S) :
    L.flatten.length = L.length * S := by
  induction L with
  | nil => simp
  | cons a t ih =>
    rw [List.flatten_cons, List.length_append, List.length_cons,
      ih (fun b hb => h b (List.mem_cons_of_mem _ hb)), h a (List.mem_cons_self _ _)]
    ring

theorem getD_flatten_uniform (L : List (List Bool)) (S : Nat) (h : ∀ b ∈ L, b.length = S)
    (j i : Nat) (hi : i < S) :
    L.flatten.getD (j * S + i) false = (L.getD j []).getD i false := by
  induction L generalizing j with
  | nil => simp
  | cons a t ih =>
    have ha := h a (List.mem_cons_self _ _)
    rw [List.flatten_cons, List.getD_eq_getElem?_getD]
    cases j with
    | zero =>
      rw [Nat.zero_mul, Nat.zero_add, List.getElem?_append_left (by omega)]
      simp [List.getD_eq_getElem?_getD]
    | succ j =>
      have h1 : (j + 1) * S + i - a.length = j * S + i := by
        rw [ha, Nat.succ_mul]
        omega
      rw [List.getElem?_append_right (by rw [ha, Nat.succ_mul]; omega), h1,
        ← List.getD_eq_getElem?_getD, ih (fun b hb => h b (List.mem_cons_of_mem _ hb))]
      simp [List.getD_eq_getElem?_getD]

theorem ceil_div_eq (n B : Nat) (hB : 0 < B) :
    (n + B - 1) / B = n / B + (if n % B > 0 then 1 else 0) := by
  have h1 := Nat.div_add_mod n B
  have h2 := Nat.mod_lt n hB
  by_cases hr : n % B > 0
  · rw [if_pos hr]
    apply Nat.div_eq_of_lt_le
    · rw [Nat.add_mul, Nat.one_mul, Nat.mul_comm]
      omega
    · rw [Nat.succ_mul, Nat.add_mul, Nat.one_mul, Nat.mul_comm]
      omega
  · rw [if_neg hr, Nat.add_zero]
    apply Nat.div_eq_of_lt_le
    · rw [Nat.mul_comm]
      omega
    · rw [Nat.succ_mul, Nat.mul_comm]
      omega

theorem serialize_files_len (vecHash : List Bool → Nat) (S B cap : Nat) (s : ColoredDbg)
    (done : List (Nat × List Bool)) (bms : List (List Bool))
    (inv : BuildInv vecHash S B cap s done bms) (hB : 0 < B) :
    (serialize s).files.map Prod.fst = List.range ((bms.length + B - 1) / B) ∧
    ∀ q, q < (bms.length + B - 1) / B →
      ((serialize s).files.getD q (0, [])).2.length = min B (bms.length - q * B) * S := by
  have hmlen : s.eqclass_map.length = bms.length := by
    have := congrArg List.length inv.keys
    simpa using this
  have hfl : s.files.length = bms.length / B := by
    have := congrArg List.length inv.fnames
    simpa using this
  have hdm := Nat.div_add_mod bms.length B
  have hml := Nat.mod_lt bms.length hB
  have hfull : ∀ q, q < bms.length / B →
      (s.files.getD q (0, [])).2.length = min B (bms.length - q * B) * S := by
    intro q hq
    have h1 : (s.files.getD q (0, [])) ∈ s.files := by
      rw [List.getD_eq_getElem _ _ (by omega)]
      exact List.getElem_mem _
    rw [inv.flen _ h1]
    have h2 := Nat.mul_le_mul_right B (Nat.succ_le_of_lt hq)
    have h3 := Nat.div_mul_le_self bms.length B
    rw [Nat.succ_mul] at h2
    have : min B (bms.length - q * B) = B := by omega
    rw [this]
  rw [ceil_div_eq _ _ hB]
  unfold serialize ColoredDbg.get_num_eqclasses
  rw [hmlen, inv.cpb]
  by_cases hr : bms.length % B > 0
  · rw [if_pos hr, if_pos hr]
    have hF := bv_buffer_serialize_files s (bms.length / B) inv.fnames inv.nser
    unfold ColoredDbg.get_num_eqclasses at hF
    rw [hmlen, inv.cpb, if_pos hr, inv.ns] at hF
    rw [hF]
    refine ⟨?_, ?_⟩
    · rw [List.map_append, inv.fnames, List.range_succ]
      rfl
    · intro q hq
      rw [getD_files_append _ _ _ (by omega), hfl]
      by_cases hq2 : q < bms.length / B
      · rw [if_pos hq2]
        exact hfull q hq2
      · rw [if_neg hq2]
        have hqe : q = bms.length / B := by omega
        show (resize _ _).length = _
        rw [length_resize, hqe]
        have : min B (bms.length - bms.length / B * B) = bms.length % B := by
          rw [Nat.mul_comm]
          omega
        rw [this]
  · rw [if_neg hr, if_neg hr, Nat.add_zero]
    exact ⟨inv.fnames, hfull⟩

theorem getD_take_drop (bms : List (List Bool)) (a B j : Nat) (hj : j < B) :
    ((bms.drop a).take B).getD j [] = bms.getD (a + j) [] := by
  rw [List.getD_eq_getElem?_getD, List.getD_eq_getElem?_getD, List.getElem?_take,
    if_pos hj, List.getElem?_drop]

theorem serialize_files_eq (vecHash : List Bool → Nat) (S B cap : Nat) (s : ColoredDbg)
    (done : List (Nat × List Bool)) (bms : List (List Bool))
    (inv : BuildInv vecHash S B cap s done bms) (hB : 0 < B) (hS : 0 < S)
    (hlen : ∀ b ∈ bms, b.length = S) :
    (serialize s).files = (List.range ((bms.length + B - 1) / B)).map
      (fun n => (n, ((bms.drop (n * B)).take B).flatten)) := by
  obtain ⟨h1, h2⟩ := serialize_files_len vecHash S B cap s done bms inv hB
  obtain ⟨_, _, _, h4⟩ := serialize_files vecHash S B cap s done bms inv hB
  have hlenF : (serialize s).files.length = (bms.length + B - 1) / B := by
    have := congrArg List.length h1
    simpa using this
  have hchunk : ∀ q, ∀ b ∈ (bms.drop (q * B)).take B, b.length = S := fun q b hb =>
    hlen b (List.mem_of_mem_drop (List.mem_of_mem_take hb))
  have hclen : ∀ q, (((bms.drop (q * B)).take B).flatten).length =
      min B (bms.length - q * B) * S := by
    intro q
    rw [length_flatten_uniform _ S (hchunk q), List.length_take, List.length_drop]
  apply List.ext_getElem
  · rw [hlenF, List.length_map, List.length_range]
  · intro q hq1 hq2
    rw [hlenF] at hq1
    rw [List.getElem_map, List.getElem_range]
    have hfst : ((serialize s).files[q]).1 = q := by
      have := congrArg (fun l => l[q]?) h1
      simp only [List.getElem?_map, List.getElem?_range hq1] at this
      rw [List.getElem?_eq_getElem (by omega)] at this
      simpa using this
    have hget : (serialize s).files[q] = (serialize s).files.getD q (0, []) := by
      rw [List.getD_eq_getElem _ _ (by omega)]
    apply Prod.ext hfst
    show ((serialize s).files[q]).2 = ((bms.drop (q * B)).take B).flatten
    rw [hget]
    apply bool_list_ext
    · rw [h2 q hq1, hclen]
    · intro pos hpos
      rw [h2 q hq1] at hpos
      have hj : pos / S < min B (bms.length - q * B) := (Nat.div_lt_iff_lt_mul hS).mpr hpos
      have hi : pos % S < S := Nat.mod_lt _ hS
      have hp : pos = pos / S * S + pos % S := by
        have := Nat.div_add_mod pos S
        rw [Nat.mul_comm] at this
        omega
      generalize pos / S = j at hj hp
      generalize pos % S = i at hi hp
      have hjB : j < B := by omega
      have hjn : q * B + j < bms.length := by omega
      have hd : (q * B + j) / B = q := by
        rw [Nat.add_comm, Nat.add_mul_div_right _ _ hB, Nat.div_eq_of_lt hjB, Nat.zero_add]
      have hm : (q * B + j) % B = j := by
        rw [Nat.add_comm, Nat.add_mul_mod_self_right, Nat.mod_eq_of_lt hjB]
      have h5 := h4 (q * B + j) i hjn hi
      rw [hd, hm, ← hp] at h5
      rw [h5]
      have h6 := getD_flatten_uniform ((bms.drop (q * B)).take B) S (hchunk q) j i hi
      rw [← hp, getD_take_drop bms (q * B) B j hjB] at h6
      rw [h6]

/-- C13: a full-mode build over `S` samples with buffers of `B = BV_BUF_LEN / S` bitmaps
returns; with `bms` the list of the `C` bitmaps in id order (`bms[j]` is the bitmap of the
k-mers whose color id is `j + 1`, and every id has such a k-mer), `serialize` leaves exactly
the files numbered `0 .. ceil(C / B) - 1`, file `n` being the concatenation of the bitmaps
of the ids `n * B + 1 .. min((n + 1) * B, C)` in id order, hence
`(min((n + 1) * B, C) - n * B) * S` bits long. -/
theorem construct_serialize_file_contents (ops : HeapOps) (IsHeap : List Iterator → Prop)
    (laws : HeapLaws ops IsHeap) (vecHash : List Bool → Nat)
    (BV_BUF_LEN capacity : Nat) (incqfs : List (List Nat))
    (hsorted : ∀ l ∈ incqfs, l.Sorted (· < ·))
    (hinj : ∀ a b : List Bool, a.length = incqfs.length → b.length = incqfs.length →
      vecHash a = vecHash b → a = b)
    (hbuf : incqfs.length ≤ BV_BUF_LEN)
    (hcap : incqfs.flatten.toFinset.card ≤ capacity) :
    ∃ (s : ColoredDbg) (bms : List (List Bool)), construct ops vecHash (ColoredDbg.init BV_BUF_LEN capacity incqfs.length) incqfs
        invalid = some (.ok s) ∧
      bms.length = s.get_num_eqclasses ∧
      (∀ j, j < bms.length → ∃ k, (∃ l ∈ incqfs, k ∈ l) ∧ s.dbg.query k = j + 1 ∧
        bms.getD j [] = incqfs.map (fun l => decide (k ∈ l))) ∧
      (∀ k, (∃ l ∈ incqfs, k ∈ l) → ∃ j, j < bms.length ∧ s.dbg.query k = j + 1 ∧
        bms.getD j [] = incqfs.map (fun l => decide (k ∈ l))) ∧
      (serialize s).files =
        (List.range ((bms.length + BV_BUF_LEN / incqfs.length - 1) /
            (BV_BUF_LEN / incqfs.length))).map
          (fun n => (n, ((bms.drop (n * (BV_BUF_LEN / incqfs.length))).take
            (BV_BUF_LEN / incqfs.length)).flatten)) ∧
      ∀ n, (((bms.drop (n * (BV_BUF_LEN / incqfs.length))).take
          (BV_BUF_LEN / incqfs.length)).flatten).length =
        (min ((n + 1) * (BV_BUF_LEN / incqfs.length)) bms.length -
          n * (BV_BUF_LEN / incqfs.length)) * incqfs.length := by
  obtain ⟨q1, q2, _⟩ := seedHeap_spec ops IsHeap laws incqfs incqfs.length hsorted
  have hc : construct ops vecHash (ColoredDbg.init BV_BUF_LEN capacity incqfs.length) incqfs
      invalid = some (runCalls vecHash (ColoredDbg.init BV_BUF_LEN capacity incqfs.length) 0
        (expectedCalls incqfs)) := by
    unfold construct
    show constructLoop ops vecHash invalid
      (heapKeys (seedHeap ops incqfs.length incqfs)) (seedHeap ops incqfs.length incqfs) _ 0 = _
    rw [constructLoop_full ops IsHeap laws vecHash incqfs.length _ _ _ 0 q1 q2 (le_refl _) rfl,
      mergeCalls_eq_expected ops IsHeap laws incqfs hsorted]
  rw [hc]
  by_cases hS : incqfs = []
  · subst hS
    have he : expectedCalls [] = [] := by
      unfold expectedCalls
      simp
    rw [he, runCalls]
    refine ⟨_, [], rfl, rfl, ?_, ?_, ?_, ?_⟩
    · intro j hj
      exact absurd hj (Nat.not_lt_zero _)
    · intro k hk
      obtain ⟨l, hl, _⟩ := hk
      cases hl
    · unfold serialize
      simp [ColoredDbg.get_num_eqclasses, ColoredDbg.init]
    · intro n
      simp
  have hSpos : 0 < incqfs.length := List.length_pos.mpr hS
  have hB : 0 < BV_BUF_LEN / incqfs.length := Nat.div_pos hbuf hSpos
  have hp2 : ∀ p ∈ expectedCalls incqfs, p.2 = incqfs.map (fun l => decide (p.1 ∈ l)) := by
    intro p hp
    unfold expectedCalls at hp
    obtain ⟨k, _, hk⟩ := List.mem_map.mp hp
    rw [← hk]
  have hp1 : ∀ p ∈ expectedCalls incqfs, ∃ l ∈ incqfs, p.1 ∈ l := by
    intro p hp
    have : p.1 ∈ (expectedCalls incqfs).map Prod.fst := List.mem_map_of_mem _ hp
    rw [expectedCalls_keys, Finset.mem_sort, List.mem_toFinset, List.mem_flatten] at this
    exact this
  obtain ⟨s, bms, hrun, inv⟩ := buildInv_runCalls vecHash incqfs.length
    (BV_BUF_LEN / incqfs.length) capacity hB (expectedCalls incqfs)
    (ColoredDbg.init BV_BUF_LEN capacity incqfs.length) 0 [] []
    (buildInv_init vecHash BV_BUF_LEN capacity incqfs.length)
    (by rw [List.nil_append, expectedCalls_keys]; exact Finset.sort_nodup _ _)
    (by
      rw [List.nil_append]
      have := congrArg List.length (expectedCalls_keys incqfs)
      rw [List.length_map, Finset.length_sort] at this
      omega)
    (by
      rw [List.nil_append]
      intro p hp q hq h
      refine hinj p.2 q.2 ?_ ?_ h
      · rw [hp2 p hp, List.length_map]
      · rw [hp2 q hq, List.length_map])
  rw [List.nil_append] at inv
  have hmlen : s.eqclass_map.length = bms.length := by
    have := congrArg List.length inv.keys
    simpa using this
  have hlen : ∀ b ∈ bms, b.length = incqfs.length := by
    intro b hb
    obtain ⟨p, hp, hpb⟩ := inv.sub b hb
    rw [← hpb, hp2 p hp, List.length_map]
  refine ⟨s, bms, by rw [hrun], hmlen.symm, ?_, ?_, ?_, ?_⟩
  · intro j hj
    obtain ⟨p, hp, h1, h2⟩ := inv.surj j hj
    exact ⟨p.1, hp1 p hp, h2, by rw [← h1, hp2 p hp]⟩
  · intro k hk
    have hmem : (k, incqfs.map (fun l => decide (k ∈ l))) ∈ expectedCalls incqfs := by
      unfold expectedCalls
      refine List.mem_map.mpr ⟨k, ?_, rfl⟩
      rw [Finset.mem_sort, List.mem_toFinset, List.mem_flatten]
      exact hk
    obtain ⟨j, h1, h2⟩ := inv.look _ hmem
    have hjl : j < bms.length := by
      by_contra hc2
      rw [List.getElem?_eq_none (by omega)] at h1
      cases h1
    refine ⟨j, hjl, h2, ?_⟩
    rw [List.getD_eq_getElem?_getD, h1]
    rfl
  · exact serialize_files_eq vecHash incqfs.length _ capacity s _ bms inv hB hSpos hlen
  · intro n
    have hchunk : ∀ b ∈ (bms.drop (n * (BV_BUF_LEN / incqfs.length))).take
        (BV_BUF_LEN / incqfs.length), b.length = incqfs.length := fun b hb =>
      hlen b (List.mem_of_mem_drop (List.mem_of_mem_take hb))
    rw [length_flatten_uniform _ _ hchunk, List.length_take, List.length_drop, Nat.succ_mul]
    congr 1
    omega

/-- Witness of C13, the example of the specification: three samples and five k-mers with
five different sample sets, buffers of `B = 6 / 3 = 2` bitmaps: three files of 2, 2 and 1
bitmaps (6, 6 and 3 bits). -/
theorem construct_serialize_file_contents_witness :
    (∃ (s : ColoredDbg) (bms : List (List Bool)), construct exampleHeap exampleHash (ColoredDbg.init 6 8 3)
        [[1, 4, 5], [2, 4], [3, 5]] invalid = some (.ok s) ∧
      bms.length = s.get_num_eqclasses ∧
      (∀ j, j < bms.length → ∃ k, (∃ l ∈ [[1, 4, 5], [2, 4], [3, 5]], k ∈ l) ∧
        s.dbg.query k = j + 1 ∧
        bms.getD j [] = [[1, 4, 5], [2, 4], [3, 5]].map (fun l => decide (k ∈ l))) ∧
      (∀ k, (∃ l ∈ [[1, 4, 5], [2, 4], [3, 5]], k ∈ l) → ∃ j, j < bms.length ∧
        s.dbg.query k = j + 1 ∧
        bms.getD j [] = [[1, 4, 5], [2, 4], [3, 5]].map (fun l => decide (k ∈ l))) ∧
      (serialize s).files =
        (List.range ((bms.length + 6 / 3 - 1) / (6 / 3))).map
          (fun n => (n, ((bms.drop (n * (6 / 3))).take (6 / 3)).flatten)) ∧
      ∀ n, (((bms.drop (n * (6 / 3))).take (6 / 3)).flatten).length =
        (min ((n + 1) * (6 / 3)) bms.length - n * (6 / 3)) * 3) ∧
    (construct exampleHeap exampleHash (ColoredDbg.init 6 8 3) [[1, 4, 5], [2, 4], [3, 5]]
      invalid).map (fun r => r.toOption.map
        (fun s => (s.get_num_eqclasses, (serialize s).files))) =
      some (some (5,
        [(0, [true, false, false, false, true, false]),
         (1, [false, false, true, true, true, false]),
         (2, [true, false, true])])) :=
  ⟨construct_serialize_file_contents exampleHeap _ exampleHeap_laws exampleHash 6 8
    [[1, 4, 5], [2, 4], [3, 5]] (by decide)
    (fun a b ha hb h => exampleHash_injective a b (ha.trans hb.symm) h) (by decide) (by decide),
   rfl⟩

/-! ## The slot written by add_bitvector -/

/-- C14: for every number of samples `S` (the word loop has a 32-bit counter, so
`S < 2 ^ 32`; `S` need not be a multiple of 64) and every id, `add_bitvector(v, id - 1)` on a
buffer of `B` slots writes bit `i` of `v` to the buffer bit `((id - 1) mod B) * S + i` for
all `i < S`, changes no bit outside the positions
`((id - 1) mod B) * S .. ((id - 1) mod B) * S + S - 1`, and keeps the size of the buffer. -/
theorem add_bitvector_writes_slot (S B : Nat) (buf v : List Bool) (id : Nat) (hB : 0 < B)
    (hbuf : buf.length = B * S) (_hS : S < 2 ^ 32) :
    (add_bitvector S B buf v (id - 1)).length = buf.length ∧
    (∀ i, i < S →
      (add_bitvector S B buf v (id - 1)).getD ((id - 1) % B * S + i) false =
        v.getD i false) ∧
    (∀ j, (j < (id - 1) % B * S ∨ (id - 1) % B * S + S ≤ j) →
      (add_bitvector S B buf v (id - 1)).getD j false = buf.getD j false) := by
  refine ⟨length_add_bitvector S B buf v (id - 1), ?_, ?_⟩
  · intro i hi
    have h1 := slot_lt ((id - 1) % B) B S i (Nat.mod_lt _ hB) hi
    rw [getD_add_bitvector, if_pos ⟨by omega, by omega, by omega⟩]
    congr 1
    omega
  · intro j hj
    rw [getD_add_bitvector, if_neg (by omega)]

/-- Witness of C14: 70 samples (one whole word and 6 more bits), a buffer of two slots, the
bitmap with the samples 0, 64 and 69, written for the id 4 (slot 1). -/
theorem add_bitvector_writes_slot_witness :
    (add_bitvector 70 2 (zeros 140)
      ((zeros 70).set 0 true |>.set 64 true |>.set 69 true) (4 - 1)).length =
        (zeros 140).length ∧
    (∀ i, i < 70 →
      (add_bitvector 70 2 (zeros 140)
        ((zeros 70).set 0 true |>.set 64 true |>.set 69 true) (4 - 1)).getD
          ((4 - 1) % 2 * 70 + i) false =
        ((zeros 70).set 0 true |>.set 64 true |>.set 69 true).getD i false) ∧
    (∀ j, (j < (4 - 1) % 2 * 70 ∨ (4 - 1) % 2 * 70 + 70 ≤ j) →
      (add_bitvector 70 2 (zeros 140)
        ((zeros 70).set 0 true |>.set 64 true |>.set 69 true) (4 - 1)).getD j false =
        (zeros 140).getD j false) :=
  add_bitvector_writes_slot 70 2 (zeros 140)
    ((zeros 70).set 0 true |>.set 64 true |>.set 69 true) 4 (by decide)
    (List.length_replicate 140 false) (by norm_num)

/-! ## Per-sample hit counts of find_samples -/

theorem wordCounts_eq (wrd sCntr count k : Nat) :
    ∀ (i : Nat) (sm : List Nat), wordCounts wrd sCntr count k i sm =
      (wordSamples wrd sCntr k i).foldl (fun m x => m.set x (m.getD x 0 + count)) sm := by
  induction k with
  | zero => intro i sm; rfl
  | succ k ih =>
    intro i sm
    rw [wordCounts, wordSamples, ih]
    by_cases h : wrd.testBit i = true
    · rw [if_pos h, if_pos h, List.foldl_cons]
    · rw [if_neg h, if_neg h]

theorem wordLoop_append (bits : List Bool) (S k : Nat) :
    ∀ (w off : Nat) (vec : List Nat),
      wordLoop bits S k w off vec = vec ++ wordLoop bits S k w off [] := by
  induction k with
  | zero => intro w off vec; simp [wordLoop]
  | succ k ih =>
    intro w off vec
    rw [wordLoop, ih, wordLoop, ih _ _ ([] ++ _), List.nil_append, List.append_assoc]

theorem countLoop_eq (bits : List Bool) (S count k : Nat) :
    ∀ (w off : Nat) (sm : List Nat), countLoop bits S count k w off sm =
      (wordLoop bits S k w off []).foldl (fun m x => m.set x (m.getD x 0 + count)) sm := by
  induction k with
  | zero => intro w off sm; rfl
  | succ k ih =>
    intro w off sm
    rw [countLoop, ih, wordCounts_eq, wordLoop,
      wordLoop_append bits S k (w + 1) _ ([] ++ _), List.nil_append, List.foldl_append]

theorem samplesOfId_eq_colorBit (d : LoadedDbg) (c : Nat) :
    samplesOfId d c = (List.range d.num_samples).filter (fun s => colorBit d c s) := by
  rw [samplesOfId_eq]
  rfl

theorem addSamplesOfId_eq (d : LoadedDbg) (sm : List Nat) (e : Nat × Nat) :
    addSamplesOfId d sm e =
      ((List.range d.num_samples).filter (fun s => colorBit d e.1 s)).foldl
        (fun m x => m.set x (m.getD x 0 + e.2)) sm := by
  unfold addSamplesOfId
  rw [countLoop_eq, ← samplesOfId_eq_colorBit]
  rfl

theorem foldl_bump (count : Nat) (l : List Nat) :
    ∀ sm : List Nat, (∀ x ∈ l, x < sm.length) →
      (l.foldl (fun m x => m.set x (m.getD x 0 + count)) sm).length = sm.length ∧
      ∀ s, (l.foldl (fun m x => m.set x (m.getD x 0 + count)) sm).getD s 0 =
        sm.getD s 0 + count * l.count s := by
  induction l with
  | nil => intro sm _; simp
  | cons x t ih =>
    intro sm h
    have hx := h x (List.mem_cons_self _ _)
    obtain ⟨i1, i2⟩ := ih (sm.set x (sm.getD x 0 + count)) (fun y hy => by
      rw [List.length_set]
      exact h y (List.mem_cons_of_mem _ hy))
    rw [List.foldl_cons]
    refine ⟨by rw [i1, List.length_set], ?_⟩
    intro s
    rw [i2 s, List.count_cons]
    by_cases hsx : x = s
    · subst hsx
      have : (sm.set x (sm.getD x 0 + count)).getD x 0 = sm.getD x 0 + count := by
        simp [List.getD_eq_getElem?_getD, List.getElem?_set, hx]
      rw [this]
      simp only [beq_self_eq_true, if_true]
      ring
    · have : (sm.set x (sm.getD x 0 + count)).getD s 0 = sm.getD s 0 := by
        simp [List.getD_eq_getElem?_getD, List.getElem?_set, hsx]
      rw [this]
      have h2 : (x == s) = false := by simpa using hsx
      rw [h2]
      simp

theorem count_filter_range (S : Nat) (p : Nat → Bool) (s : Nat) :
    ((List.range S).filter p).count s = if s < S ∧ p s = true then 1 else 0 := by
  by_cases h : s < S ∧ p s = true
  · rw [if_pos h]
    apply List.count_eq_one_of_mem ((List.nodup_range S).filter _)
    rw [List.mem_filter, List.mem_range]
    exact h
  · rw [if_neg h]
    apply List.count_eq_zero_of_not_mem
    rw [List.mem_filter, List.mem_range]
    exact h

theorem addSamplesOfId_getD (d : LoadedDbg) (sm : List Nat) (e : Nat × Nat)
    (hsm : sm.length = d.num_samples) :
    (addSamplesOfId d sm e).length = d.num_samples ∧
    ∀ s, (addSamplesOfId d sm e).getD s 0 =
      sm.getD s 0 + (if s < d.num_samples ∧ colorBit d e.1 s = true then e.2 else 0) := by
  rw [addSamplesOfId_eq]
  obtain ⟨h1, h2⟩ := foldl_bump e.2
    ((List.range d.num_samples).filter (fun s => colorBit d e.1 s)) sm (by
      intro x hx
      rw [List.mem_filter, List.mem_range] at hx
      omega)
  refine ⟨h1.trans hsm, ?_⟩
  intro s
  rw [h2 s, count_filter_range]
  by_cases h : s < d.num_samples ∧ colorBit d e.1 s = true
  · rw [if_pos h, if_pos h, Nat.mul_one]
  · rw [if_neg h, if_neg h, Nat.mul_zero]

theorem foldl_addSamplesOfId (d : LoadedDbg) (entries : List (Nat × Nat)) :
    ∀ sm : List Nat, sm.length = d.num_samples →
      (entries.foldl (addSamplesOfId d) sm).length = d.num_samples ∧
      ∀ s, (entries.foldl (addSamplesOfId d) sm).getD s 0 =
        sm.getD s 0 + (entries.map (fun e : Nat × Nat =>
          if s < d.num_samples ∧ colorBit d e.1 s = true then e.2 else 0)).sum := by
  induction entries with
  | nil => intro sm hsm; exact ⟨hsm, fun s => by simp⟩
  | cons e t ih =>
    intro sm hsm
    obtain ⟨a1, a2⟩ := addSamplesOfId_getD d sm e hsm
    obtain ⟨i1, i2⟩ := ih (addSamplesOfId d sm e) a1
    rw [List.foldl_cons]
    refine ⟨i1, ?_⟩
    intro s
    rw [i2 s, a2 s, List.map_cons, List.sum_cons]
    omega

theorem sum_eqclassIncr (p : Nat → Prop) [DecidablePred p] (m : List (Nat × Nat)) (c : Nat) :
    ((eqclassIncr m c).map (fun e : Nat × Nat => if p e.1 then e.2 else 0)).sum =
      (m.map (fun e : Nat × Nat => if p e.1 then e.2 else 0)).sum + (if p c then 1 else 0) := by
  induction m with
  | nil => simp [eqclassIncr]
  | cons e t ih =>
    rw [eqclassIncr]
    by_cases h : e.1 = c
    · rw [if_pos h, List.map_cons, List.map_cons, List.sum_cons, List.sum_cons]
      simp only
      rw [h]
      by_cases hp : p c
      · simp only [hp, if_true]
        omega
      · simp only [hp, if_false]
        omega
    · rw [if_neg h, List.map_cons, List.map_cons, List.sum_cons, List.sum_cons, ih]
      omega

theorem sum_queryEqclassMap (p : Nat → Prop) [DecidablePred p] (q : Nat → Nat)
    (kmers : List Nat) :
    ∀ m : List (Nat × Nat),
      ((kmers.foldl (fun m k => if q k ≠ 0 then eqclassIncr m (q k) else m) m).map
        (fun e : Nat × Nat => if p e.1 then e.2 else 0)).sum =
      (m.map (fun e : Nat × Nat => if p e.1 then e.2 else 0)).sum +
        (kmers.filter (fun k => decide (q k ≠ 0) && decide (p (q k)))).length := by
  induction kmers with
  | nil => intro m; simp
  | cons k t ih =>
    intro m
    rw [List.foldl_cons, ih, List.filter_cons]
    by_cases hq : q k ≠ 0
    · rw [if_pos hq, sum_eqclassIncr]
      by_cases hp : p (q k)
      · simp only [hq, hp, if_true, decide_True, Bool.and_self, List.length_cons, ne_eq,
          not_false_eq_true]
        omega
      · simp only [hq, hp, if_false, decide_True, decide_False, Bool.and_false, ne_eq,
          not_false_eq_true, Bool.false_eq_true]
        omega
    · rw [if_neg hq]
      simp only [hq, decide_False, Bool.false_and, Bool.false_eq_true, if_false]

/-- C15: `find_samples(kmers)` returns a vector of length `num_samples` whose entry `s` is
the number of k-mers of the query for which the filter returns a non-zero color id whose
bitmap (as stored in the loaded buffer files) has bit `s` set, whatever the order in which
the `std::unordered_map` yields its entries; a k-mer for which the filter returns 0 is not
counted in any entry.  The method writes no field of the index: the embedding returns the
vector only. -/
theorem find_samples_QuerySet_counts (kmerHash : Nat → Nat) (d : LoadedDbg)
    (kmers : List Nat) (entries : List (Nat × Nat))
    (hperm : entries.Perm (queryEqclassMap kmerHash d kmers)) :
    sampleLoop d entries =
      (List.range d.num_samples).map (fun s =>
        (kmers.filter (fun k => decide (d.dbg.query (kmerHash k) ≠ 0) &&
          colorBit d (d.dbg.query (kmerHash k)) s)).length) := by
  unfold sampleLoop
  obtain ⟨h1, h2⟩ := foldl_addSamplesOfId d entries (List.replicate d.num_samples 0)
    (List.length_replicate _ _)
  apply List.ext_getElem
  · rw [h1, List.length_map, List.length_range]
  · intro s hs1 hs2
    rw [h1] at hs1
    have hg := h2 s
    rw [List.getD_eq_getElem _ _ (by rw [h1]; exact hs1)] at hg
    rw [hg, List.getElem_map, List.getElem_range]
    have hz : (List.replicate d.num_samples 0).getD s 0 = 0 := by
      simp [List.getD_eq_getElem?_getD, List.getElem?_replicate, hs1]
    have hp := (hperm.map (fun e : Nat × Nat =>
      if s < d.num_samples ∧ colorBit d e.1 s = true then e.2 else 0)).sum_eq
    rw [hz, Nat.zero_add, hp]
    unfold queryEqclassMap
    rw [sum_queryEqclassMap (fun c => s < d.num_samples ∧ colorBit d c s = true)
      (fun k => d.dbg.query (kmerHash k)) kmers []]
    simp only [List.map_nil, List.sum_nil, Nat.zero_add]
    congr 1
    apply List.filter_congr
    intro k _
    simp [hs1]

/-- Witness of C15: the query `{3, 5, 9, 7}` on `exampleLoaded`, the entries of the map taken
in reverse order: the samples 0 and 1 are hit by two k-mers each, the absent k-mer 7 by
none. -/
theorem find_samples_QuerySet_counts_witness :
    [(3, 1), (2, 1), (1, 1)].Perm (queryEqclassMap (fun k => k) exampleLoaded [3, 5, 9, 7]) ∧
    sampleLoop exampleLoaded [(3, 1), (2, 1), (1, 1)] =
      (List.range exampleLoaded.num_samples).map (fun s =>
        ([3, 5, 9, 7].filter (fun k => decide (exampleLoaded.dbg.query k ≠ 0) &&
          colorBit exampleLoaded (exampleLoaded.dbg.query k) s)).length) ∧
    find_samples_QuerySet (fun k => k) exampleLoaded [3, 5, 9, 7] = [2, 2] :=
  ⟨by decide, find_samples_QuerySet_counts (fun k => k) exampleLoaded [3, 5, 9, 7]
    [(3, 1), (2, 1), (1, 1)] (by decide), by decide⟩

/-! ## The color-graph edges of a k-mer -/

theorem mem_setInsert (ops : KmerOps) (l : List workItem) (x : workItem)
    (heq : ∀ z ∈ l, ops.lt x.node z.node = false → ops.lt z.node x.node = false → z = x)
    (y : workItem) : y ∈ setInsert ops l x ↔ y ∈ l ∨ y = x := by
  induction l with
  | nil => simp [setInsert]
  | cons a t ih =>
    rw [setInsert]
    by_cases h1 : ops.lt x.node a.node = true
    · rw [if_pos h1]
      simp only [List.mem_cons]
      tauto
    · rw [if_neg h1]
      by_cases h2 : ops.lt a.node x.node = true
      · rw [if_pos h2, List.mem_cons, ih (fun z hz => heq z (List.mem_cons_of_mem _ hz)),
          List.mem_cons]
        tauto
      · rw [if_neg h2]
        have hax : a = x := heq a (List.mem_cons_self _ _) (by simpa using h1)
          (by simpa using h2)
        rw [List.mem_cons]
        constructor
        · intro h; exact Or.inl h
        · intro h
          rcases h with h | h
          · exact h
          · exact Or.inl (h.trans hax.symm)

theorem neighborStep_mem (ops : KmerOps) (kmerHash : Nat → Nat) (cqf : CQF) (n : workItem)
    (htri : ∀ a b, ops.lt a b = false → ops.lt b a = false → a = b)
    (done : List Nat) (result : List workItem) (e : Nat)
    (inv : ∀ x, x ∈ result ↔ ∃ v ∈ done, cqf.query (kmerHash v) ≠ 0 ∧
      cqf.query (kmerHash v) - 1 ≠ n.colorId ∧
      x = { node := v, colorId := (cqf.query (kmerHash v) - 1) % 2 ^ 32 }) :
    ∀ x, x ∈ neighborStep ops kmerHash cqf n result e ↔
      ∃ v ∈ done ++ [e], cqf.query (kmerHash v) ≠ 0 ∧
        cqf.query (kmerHash v) - 1 ≠ n.colorId ∧
        x = { node := v, colorId := (cqf.query (kmerHash v) - 1) % 2 ^ 32 } := by
  intro x
  have hsplit : (∃ v ∈ done ++ [e], cqf.query (kmerHash v) ≠ 0 ∧
        cqf.query (kmerHash v) - 1 ≠ n.colorId ∧
        x = { node := v, colorId := (cqf.query (kmerHash v) - 1) % 2 ^ 32 }) ↔
      x ∈ result ∨ (cqf.query (kmerHash e) ≠ 0 ∧ cqf.query (kmerHash e) - 1 ≠ n.colorId ∧
        x = { node := e, colorId := (cqf.query (kmerHash e) - 1) % 2 ^ 32 }) := by
    rw [inv x]
    constructor
    · rintro ⟨v, hv, h⟩
      rcases List.mem_append.mp hv with hv | hv
      · exact Or.inl ⟨v, hv, h⟩
      · rw [List.mem_singleton] at hv
        subst hv
        exact Or.inr h
    · rintro (⟨v, hv, h⟩ | h)
      · exact ⟨v, List.mem_append_left _ hv, h⟩
      · exact ⟨e, List.mem_append_right _ (List.mem_singleton.mpr rfl), h⟩
  rw [hsplit]
  unfold neighborStep MST.exists
  by_cases hq : cqf.query (kmerHash e) ≠ 0
  · rw [if_pos hq]
    simp only
    by_cases hc : cqf.query (kmerHash e) - 1 ≠ n.colorId
    · rw [if_pos hc, mem_setInsert]
      · constructor
        · rintro (h | h)
          · exact Or.inl h
          · exact Or.inr ⟨hq, hc, h⟩
        · rintro (h | h)
          · exact Or.inl h
          · exact Or.inr h.2.2
      · intro z hz h1 h2
        obtain ⟨v, _, _, _, hzv⟩ := (inv z).mp hz
        have hn : z.node = e := (htri _ _ h1 h2).symm
        rw [hzv] at hn ⊢
        simp only at hn
        rw [hn]
    · rw [if_neg hc]
      constructor
      · intro h; exact Or.inl h
      · rintro (h | h)
        · exact h
        · exact absurd h.2.1 hc
  · rw [if_neg hq]
    simp only
    constructor
    · intro h; exact Or.inl h
    · rintro (h | h)
      · exact h
      · exact absurd h.1 hq

theorem neighbors_mem (ops : KmerOps) (kmerHash : Nat → Nat) (cqf : CQF) (n : workItem)
    (htri : ∀ a b, ops.lt a b = false → ops.lt b a = false → a = b) (x : workItem) :
    x ∈ MST.neighbors ops kmerHash cqf n ↔
      ∃ v ∈ neighborKmers ops n.node, cqf.query (kmerHash v) ≠ 0 ∧
        cqf.query (kmerHash v) - 1 ≠ n.colorId ∧
        x = { node := v, colorId := (cqf.query (kmerHash v) - 1) % 2 ^ 32 } := by
  unfold MST.neighbors neighborKmers
  have key : ∀ (bs : List Nat) (done : List Nat) (result : List workItem),
      (∀ x, x ∈ result ↔ ∃ v ∈ done, cqf.query (kmerHash v) ≠ 0 ∧
        cqf.query (kmerHash v) - 1 ≠ n.colorId ∧
        x = { node := v, colorId := (cqf.query (kmerHash v) - 1) % 2 ^ 32 }) →
      ∀ x, x ∈ bs.foldl (fun result b =>
          neighborStep ops kmerHash cqf n
            (neighborStep ops kmerHash cqf n result (ops.shl n.node b)) (ops.shr b n.node))
          result ↔
        ∃ v ∈ done ++ bs.flatMap (fun b => [ops.shl n.node b, ops.shr b n.node]),
          cqf.query (kmerHash v) ≠ 0 ∧ cqf.query (kmerHash v) - 1 ≠ n.colorId ∧
          x = { node := v, colorId := (cqf.query (kmerHash v) - 1) % 2 ^ 32 } := by
    intro bs
    induction bs with
    | nil =>
      intro done result inv x
      simp only [List.foldl_nil, List.flatMap_nil, List.append_nil]
      exact inv x
    | cons b t ih =>
      intro done result inv x
      have i1 := neighborStep_mem ops kmerHash cqf n htri done result (ops.shl n.node b) inv
      have i2 := neighborStep_mem ops kmerHash cqf n htri _ _ (ops.shr b n.node) i1
      have i3 := ih _ _ i2 x
      rw [List.foldl_cons, i3, List.flatMap_cons]
      simp only [List.append_assoc, List.singleton_append, List.cons_append, List.nil_append]
  have := key ops.bases [] [] (by intro x; simp) x
  rw [List.nil_append] at this
  exact this

theorem findNeighborEdges_eq_append (ops : KmerOps) (kmerHash : Nat → Nat) (k : Nat)
    (cqf : CQF) (keyobj : Nat × Nat) (edgeList : List Edge) :
    MST.findNeighborEdges ops kmerHash k cqf keyobj edgeList =
      edgeList ++ ((MST.neighbors ops kmerHash cqf
        { node := ops.ofKey k keyobj.1
          colorId := (keyobj.2 + (2 ^ 64 - 1)) % 2 ^ 64 % 2 ^ 32 }).filter
        (fun nei => decide ((keyobj.2 + (2 ^ 64 - 1)) % 2 ^ 64 % 2 ^ 32 < nei.colorId))).map
        (fun nei => { n1 := (keyobj.2 + (2 ^ 64 - 1)) % 2 ^ 64 % 2 ^ 32, n2 := nei.colorId }) := by
  unfold MST.findNeighborEdges
  generalize (keyobj.2 + (2 ^ 64 - 1)) % 2 ^ 64 % 2 ^ 32 = cu
  generalize MST.neighbors ops kmerHash cqf _ = nbrs
  induction nbrs generalizing edgeList with
  | nil => simp
  | cons a t ih =>
    rw [List.foldl_cons, ih, List.filter_cons]
    by_cases h : cu < a.colorId
    · simp [h]
    · simp [h]

/-- C16 as stated fails: the k-mer 5 (color id 2) has the neighbour 20, present in the filter
with the different color id 0, but `findNeighborEdges` called on the k-mer 5 appends nothing,
because it keeps a neighbour only when `cur.colorId < nei.colorId`; the edge `(0, 2)` is
appended by the call on the k-mer 20. -/
theorem findNeighborEdges_skips_smaller_id :
    20 ∈ neighborKmers exampleKmers 5 ∧ twoKmerFilter.query 20 = 1 ∧
    twoKmerFilter.query 5 = 3 ∧
    MST.findNeighborEdges exampleKmers (fun k => k) 3 twoKmerFilter (5, 3) [] = [] ∧
    MST.findNeighborEdges exampleKmers (fun k => k) 3 twoKmerFilter (20, 1) [] =
      [{ n1 := 0, n2 := 2 }] := by
  decide

/-- C16, amended: `findNeighborEdges` called on the filter entry `(key, count)` of a k-mer
`u` with color id `c_u = count - 1` appends to the edge list exactly the edges `(c_u, c_v)`
for the neighbours `v` (`u << b` or `b >> u`) that the filter knows with a color id
`c_v > c_u` (ids narrowed to 32 bits); it appends nothing for a neighbour that is absent or
whose color id is equal to or smaller than `c_u`.  `operator<` of the k-mers is assumed to
separate different k-mers. -/
theorem findNeighborEdges_appends (ops : KmerOps) (kmerHash : Nat → Nat) (k : Nat) (cqf : CQF)
    (keyobj : Nat × Nat) (edgeList : List Edge)
    (htri : ∀ a b, ops.lt a b = false → ops.lt b a = false → a = b) :
    ∃ added, MST.findNeighborEdges ops kmerHash k cqf keyobj edgeList = edgeList ++ added ∧
      ∀ e, e ∈ added ↔
        ∃ v ∈ neighborKmers ops (ops.ofKey k keyobj.1), cqf.query (kmerHash v) ≠ 0 ∧
          (keyobj.2 + (2 ^ 64 - 1)) % 2 ^ 64 % 2 ^ 32 < (cqf.query (kmerHash v) - 1) % 2 ^ 32 ∧
          e = { n1 := (keyobj.2 + (2 ^ 64 - 1)) % 2 ^ 64 % 2 ^ 32
                n2 := (cqf.query (kmerHash v) - 1) % 2 ^ 32 } := by
  refine ⟨_, findNeighborEdges_eq_append ops kmerHash k cqf keyobj edgeList, ?_⟩
  have hcu : (keyobj.2 + (2 ^ 64 - 1)) % 2 ^ 64 % 2 ^ 32 < 2 ^ 32 :=
    Nat.mod_lt _ (by norm_num)
  generalize (keyobj.2 + (2 ^ 64 - 1)) % 2 ^ 64 % 2 ^ 32 = cu at hcu ⊢
  intro e
  rw [List.mem_map]
  constructor
  · rintro ⟨nei, hnei, he⟩
    rw [List.mem_filter, neighbors_mem ops kmerHash cqf _ htri] at hnei
    obtain ⟨⟨v, hv, h1, _, h3⟩, h4⟩ := hnei
    rw [h3] at h4 he
    exact ⟨v, hv, h1, by simpa using h4, he.symm⟩
  · rintro ⟨v, hv, h1, h2, he⟩
    refine ⟨{ node := v, colorId := (cqf.query (kmerHash v) - 1) % 2 ^ 32 }, ?_, he.symm⟩
    rw [List.mem_filter, neighbors_mem ops kmerHash cqf _ htri]
    refine ⟨⟨v, hv, h1, ?_, rfl⟩, by simpa using h2⟩
    intro hc
    simp only at hc
    rw [hc, Nat.mod_eq_of_lt hcu] at h2
    exact Nat.lt_irrefl _ h2

/-- Witness of C16 (amended): the call on the k-mer 20 of `twoKmerFilter`. -/
theorem findNeighborEdges_appends_witness :
    ∃ added, MST.findNeighborEdges exampleKmers (fun k => k) 3 twoKmerFilter (20, 1) [] =
        [] ++ added ∧
      ∀ e, e ∈ added ↔
        ∃ v ∈ neighborKmers exampleKmers (exampleKmers.ofKey 3 20),
          twoKmerFilter.query v ≠ 0 ∧
          (1 + (2 ^ 64 - 1)) % 2 ^ 64 % 2 ^ 32 < (twoKmerFilter.query v - 1) % 2 ^ 32 ∧
          e = { n1 := (1 + (2 ^ 64 - 1)) % 2 ^ 64 % 2 ^ 32
                n2 := (twoKmerFilter.query v - 1) % 2 ^ 32 } :=
  findNeighborEdges_appends exampleKmers (fun k => k) 3 twoKmerFilter (20, 1) []
    (fun a b h1 h2 => by
      have h3 : ¬ a < b := by simpa [exampleKmers] using h1
      have h4 : ¬ b < a := by simpa [exampleKmers] using h2
      omega)

/-! ## The boundary vector -/

theorem length_fillBbv (wv : List Nat) (k : Nat) :
    ∀ (i off : Nat) (bbv : List Bool), (fillBbv wv k i off bbv).length = bbv.length := by
  induction k with
  | zero => intro i off bbv; rfl
  | succ k ih =>
    intro i off bbv
    rw [fillBbv, ih, List.length_set]

theorem sum_take_le (wv : List Nat) (j : Nat) : (wv.take j).sum ≤ wv.sum := by
  have := List.sum_take_add_sum_drop wv j
  omega

theorem sum_take_succ_getD (wv : List Nat) (i : Nat) (hi : i < wv.length) :
    (wv.take (i + 1)).sum = (wv.take i).sum + wv.getD i 0 := by
  rw [List.sum_take_succ wv i hi, List.getD_eq_getElem _ _ hi]

theorem getD_set_true_iff (bbv : List Bool) (q p : Nat) (hq : q < bbv.length) :
    (bbv.set q true).getD p false = true ↔ (bbv.getD p false = true ∨ q = p) := by
  by_cases h : q = p
  · subst h
    simp [List.getD_eq_getElem?_getD, List.getElem?_set, hq]
  · simp [List.getD_eq_getElem?_getD, List.getElem?_set, h]

theorem getD_fillBbv (wv : List Nat) (L : Nat) (hL : L < 2 ^ 64) (hsum : wv.sum ≤ L)
    (h0 : ∀ i, i < wv.length → 1 ≤ (wv.take (i + 1)).sum) (k : Nat) :
    ∀ (i : Nat) (bbv : List Bool), i + k = wv.length → bbv.length = L →
      ∀ p, ((fillBbv wv k i (wv.take i).sum bbv).getD p false = true ↔
        (bbv.getD p false = true ∨
          ∃ j, i ≤ j ∧ j < wv.length ∧ (wv.take (j + 1)).sum = p + 1)) := by
  induction k with
  | zero =>
    intro i bbv hi _ p
    rw [fillBbv]
    constructor
    · intro h; exact Or.inl h
    · rintro (h | ⟨j, h1, h2, _⟩)
      · exact h
      · omega
  | succ k ih =>
    intro i bbv hi hlen p
    have hil : i < wv.length := by omega
    have h1 := sum_take_succ_getD wv i hil
    have h2 := sum_take_le wv (i + 1)
    have h3 := h0 i hil
    have hlt : (wv.take (i + 1)).sum < 2 ^ 64 := Nat.lt_of_le_of_lt (Nat.le_trans h2 hsum) hL
    have hoff : ((wv.take i).sum + wv.getD i 0) % 2 ^ 64 = (wv.take (i + 1)).sum := by
      rw [← h1]
      exact Nat.mod_eq_of_lt hlt
    have hpos : ((wv.take (i + 1)).sum + (2 ^ 64 - 1)) % 2 ^ 64 =
        (wv.take (i + 1)).sum - 1 := by
      generalize (wv.take (i + 1)).sum = x at h3 hlt
      omega
    have hq : (wv.take (i + 1)).sum - 1 < bbv.length := by
      rw [hlen]
      omega
    rw [fillBbv, hoff, hpos, ih (i + 1) _ (by omega) (by rw [List.length_set]; exact hlen) p,
      getD_set_true_iff _ _ _ hq]
    constructor
    · rintro ((h | h) | ⟨j, hj1, hj2, hj3⟩)
      · exact Or.inl h
      · exact Or.inr ⟨i, le_refl _, hil, by omega⟩
      · exact Or.inr ⟨j, by omega, hj2, hj3⟩
    · rintro (h | ⟨j, hj1, hj2, hj3⟩)
      · exact Or.inl (Or.inl h)
      · by_cases hji : j = i
        · subst hji
          exact Or.inl (Or.inr (by omega))
        · exact Or.inr ⟨j, by omega, hj2, hj3⟩

/-- The loop that fills `bbv` meets the specification for the weights that `weightbv`
holds: when the first weight is not 0 and the weights sum up to the size of `bbv`, the
vector has a 1 exactly at `sum - 1` for every prefix sum. -/
theorem fillBbv_spec (wv : List Nat) (hL : wv.sum < 2 ^ 64)
    (h0 : ∀ i, i < wv.length → 1 ≤ (wv.take (i + 1)).sum) :
    fillBbv wv wv.length 0 0 (List.replicate wv.sum false) = specBoundary wv := by
  unfold specBoundary
  apply bool_list_ext
  · rw [length_fillBbv, List.length_replicate, List.length_map, List.length_range]
  · intro p hp1
    rw [length_fillBbv, List.length_replicate] at hp1
    have h := getD_fillBbv wv wv.sum hL (le_refl _) h0 wv.length 0
      (List.replicate wv.sum false) (by omega) (List.length_replicate _ _) p
    rw [List.take_zero, List.sum_nil] at h
    rw [h]
    have hz : (List.replicate wv.sum false).getD p false = false := by
      simp [List.getD_eq_getElem?_getD, List.getElem?_replicate, hp1]
    rw [hz]
    simp only [Bool.false_eq_true, false_or, Nat.zero_le, true_and]
    rw [List.getD_eq_getElem?_getD, List.getElem?_map, List.getElem?_range hp1]
    simp

/-- C17 fails on the code, on the example of the specification: two samples, the colors
`0 = {0}`, `1 = {1}`, `2 = {0, 1}` and the root `zero = 3`, joined to the root by edges of
weights 1, 1 and 2.  `kruskalMSF` selects the three edges (total weight 4 + 1 = 5), but the
weight 2 of the color 2 does not fit the one-bit cells of `weightbv` and is stored as 0, so
the boundary vector is `11100`, three ones and the last bit clear, instead of `11011`.  This
holds whatever the decoders of the merged indices are. -/
theorem encode_boundary_truncated (m : MergeInput) :
    (kruskalMSF 4 2 4 [[⟨0, 3⟩, ⟨1, 3⟩], [⟨2, 3⟩]]).map
        (fun st => (st.mst, st.mstTotalWeight)) =
      some ([[(3, 1)], [(3, 1)], [(3, 2)], [(0, 1), (1, 1), (2, 2)]], 5) ∧
    (encodeColorClassUsingMST m 4 2 4 3 1 [[⟨0, 3⟩, ⟨1, 3⟩], [⟨2, 3⟩]]).map
        (fun e => e.bbv) = some [true, true, true, false, false] ∧
    specBoundary [1, 1, 2, 1] = [true, true, false, true, true] := by
  refine ⟨by decide, rfl, by decide⟩

/-- The same tree over three samples (two-bit cells): the boundary vector is the one of the
specification. -/
theorem encode_boundary_three_samples (m : MergeInput) :
    (encodeColorClassUsingMST m 4 3 4 3 1 [[⟨0, 3⟩, ⟨1, 3⟩], [⟨2, 3⟩], []]).map
        (fun e => e.bbv) = some (specBoundary [1, 1, 2, 1]) := by
  rfl

/-- The length part of C17 holds: the boundary vector has `mstTotalWeight` bits, the sum
of the selected edge weights plus one. -/
theorem encode_bbv_length (m : MergeInput) (fuel numSamples num_colorClasses zero nThreads : Nat)
    (weightBuckets : List (List Edge)) (e : Encoding)
    (h : encodeColorClassUsingMST m fuel numSamples num_colorClasses zero nThreads
      weightBuckets = some e) :
    ∃ st, kruskalMSF fuel numSamples num_colorClasses weightBuckets = some st ∧
      e.bbv.length = st.mstTotalWeight := by
  unfold encodeColorClassUsingMST at h
  cases hk : kruskalMSF fuel numSamples num_colorClasses weightBuckets with
  | none => rw [hk] at h; cases h
  | some st =>
    rw [hk] at h
    simp only at h
    split at h
    · cases h
    · injection h with h
      subst h
      exact ⟨st, rfl, by simp only [length_fillBbv, List.length_replicate]⟩

/-! ## Edge weights and delta lists of the merger -/

theorem hammingLoop_eq_length (fuel : Nat) :
    ∀ l1 l2 : List Nat, hammingLoop fuel l1 l2 = (deltaMergeLoop fuel l1 l2).length := by
  induction fuel with
  | zero => intro l1 l2; rfl
  | succ fuel ih =>
    intro l1 l2
    cases l1 with
    | nil => rw [hammingLoop, deltaMergeLoop]
    | cons a t1 =>
      cases l2 with
      | nil => rw [hammingLoop, deltaMergeLoop]
      | cons b t2 =>
        rw [hammingLoop, deltaMergeLoop]
        by_cases hab : a = b
        · rw [if_pos hab, if_pos hab, ih]
        · rw [if_neg hab, if_neg hab]
          by_cases hlt : a < b
          · rw [if_pos hlt, if_pos hlt, ih, List.length_cons]
          · rw [if_neg hlt, if_neg hlt, ih, List.length_cons]

theorem deltaMergeLoop_spec (fuel : Nat) :
    ∀ l1 l2 : List Nat, l1.length + l2.length < fuel → l1.Sorted (· < ·) →
      l2.Sorted (· < ·) →
      (deltaMergeLoop fuel l1 l2).Sorted (· < ·) ∧
      ∀ x, x ∈ deltaMergeLoop fuel l1 l2 ↔ ((x ∈ l1 ∧ x ∉ l2) ∨ (x ∈ l2 ∧ x ∉ l1)) := by
  induction fuel with
  | zero => intro l1 l2 h; omega
  | succ fuel ih =>
    intro l1 l2 hlen h1 h2
    cases l1 with
    | nil =>
      rw [deltaMergeLoop]
      exact ⟨h2, fun x => by simp⟩
    | cons a t1 =>
      cases l2 with
      | nil =>
        rw [deltaMergeLoop]
        exact ⟨h1, fun x => by simp⟩
      | cons b t2 =>
        have ha := List.rel_of_sorted_cons h1
        have hb := List.rel_of_sorted_cons h2
        have ht1 := List.Sorted.of_cons h1
        have ht2 := List.Sorted.of_cons h2
        simp only [List.length_cons] at hlen
        rw [deltaMergeLoop]
        by_cases hab : a = b
        · subst hab
          rw [if_pos rfl]
          obtain ⟨i1, i2⟩ := ih t1 t2 (by omega) ht1 ht2
          refine ⟨i1, ?_⟩
          intro x
          rw [i2 x]
          simp only [List.mem_cons]
          constructor
          · rintro (⟨h3, h4⟩ | ⟨h3, h4⟩)
            · have := ha x h3
              exact Or.inl ⟨Or.inr h3, by rintro (h5 | h5); omega; exact h4 h5⟩
            · have := hb x h3
              exact Or.inr ⟨Or.inr h3, by rintro (h5 | h5); omega; exact h4 h5⟩
          · rintro (⟨h3 | h3, h4⟩ | ⟨h3 | h3, h4⟩)
            · exact absurd (Or.inl h3) h4
            · exact Or.inl ⟨h3, fun h5 => h4 (Or.inr h5)⟩
            · exact absurd (Or.inl h3) h4
            · exact Or.inr ⟨h3, fun h5 => h4 (Or.inr h5)⟩
        · rw [if_neg hab]
          by_cases hlt : a < b
          · rw [if_pos hlt]
            obtain ⟨i1, i2⟩ := ih t1 (b :: t2) (by simp only [List.length_cons]; omega) ht1 h2
            refine ⟨?_, ?_⟩
            · refine List.sorted_cons.mpr ⟨?_, i1⟩
              intro x hx
              rcases (i2 x).mp hx with ⟨h3, _⟩ | ⟨h3, _⟩
              · exact ha x h3
              · rcases List.mem_cons.mp h3 with h4 | h4
                · omega
                · have := hb x h4
                  omega
            · intro x
              rw [List.mem_cons, i2 x]
              simp only [List.mem_cons]
              constructor
              · rintro (h3 | ⟨h3, h4⟩ | ⟨h3, h4⟩)
                · subst h3
                  refine Or.inl ⟨Or.inl rfl, ?_⟩
                  rintro (h5 | h5)
                  · exact hab h5
                  · have := hb x h5
                    omega
                · exact Or.inl ⟨Or.inr h3, h4⟩
                · refine Or.inr ⟨h3, ?_⟩
                  rintro (h5 | h5)
                  · subst h5
                    rcases h3 with h6 | h6
                    · exact hab h6
                    · have := hb x h6
                      omega
                  · exact h4 h5
              · rintro (⟨h3 | h3, h4⟩ | ⟨h3, h4⟩)
                · exact Or.inl h3
                · exact Or.inr (Or.inl ⟨h3, h4⟩)
                · exact Or.inr (Or.inr ⟨h3, fun h5 => h4 (Or.inr h5)⟩)
          · rw [if_neg hlt]
            have hba : b < a := by omega
            obtain ⟨i1, i2⟩ := ih (a :: t1) t2 (by simp only [List.length_cons]; omega) h1 ht2
            refine ⟨?_, ?_⟩
            · refine List.sorted_cons.mpr ⟨?_, i1⟩
              intro x hx
              rcases (i2 x).mp hx with ⟨h3, _⟩ | ⟨h3, _⟩
              · rcases List.mem_cons.mp h3 with h4 | h4
                · omega
                · have := ha x h4
                  omega
              · exact hb x h3
            · intro x
              rw [List.mem_cons, i2 x]
              simp only [List.mem_cons]
              constructor
              · rintro (h3 | ⟨h3, h4⟩ | ⟨h3, h4⟩)
                · subst h3
                  refine Or.inr ⟨Or.inl rfl, ?_⟩
                  rintro (h5 | h5)
                  · omega
                  · have := ha x h5
                    omega
                · refine Or.inl ⟨h3, ?_⟩
                  rintro (h5 | h5)
                  · subst h5
                    rcases h3 with h6 | h6
                    · omega
                    · have := ha x h6
                      omega
                  · exact h4 h5
                · exact Or.inr ⟨Or.inr h3, h4⟩
              · rintro (⟨h3, h4⟩ | ⟨h3 | h3, h4⟩)
                · exact Or.inr (Or.inl ⟨h3, fun h5 => h4 (Or.inr h5)⟩)
                · exact Or.inl h3
                · exact Or.inr (Or.inr ⟨h3, h4⟩)

theorem deltaMerge_spec (l1 l2 : List Nat) (h1 : l1.Sorted (· < ·))
    (h2 : l2.Sorted (· < ·)) :
    (deltaMerge l1 l2).Sorted (· < ·) ∧
    ∀ x, x ∈ deltaMerge l1 l2 ↔ ((x ∈ l1 ∧ x ∉ l2) ∨ (x ∈ l2 ∧ x ∉ l1)) :=
  deltaMergeLoop_spec _ l1 l2 (Nat.lt_succ_self _) h1 h2

theorem sorted_lt_ext (a b : List Nat) (ha : a.Sorted (· < ·)) (hb : b.Sorted (· < ·))
    (h : ∀ x, x ∈ a ↔ x ∈ b) : a = b :=
  List.eq_of_perm_of_sorted ((List.perm_ext_iff_of_nodup ha.nodup hb.nodup).mpr h) ha hb

theorem sorted_filter_range (N : Nat) (p : Nat → Bool) :
    ((List.range N).filter p).Sorted (· < ·) :=
  (List.sorted_lt_range N).filter p

theorem deltaMerge_eq_filter (l1 l2 : List Nat) (N : Nat) (h1 : l1.Sorted (· < ·))
    (h2 : l2.Sorted (· < ·)) (b1 : ∀ x ∈ l1, x < N) (b2 : ∀ x ∈ l2, x < N) :
    deltaMerge l1 l2 =
      (List.range N).filter (fun i => decide (i ∈ l1) != decide (i ∈ l2)) := by
  obtain ⟨s1, s2⟩ := deltaMerge_spec l1 l2 h1 h2
  apply sorted_lt_ext _ _ s1 (sorted_filter_range N _)
  intro x
  rw [s2 x, List.mem_filter, List.mem_range]
  by_cases hx1 : x ∈ l1 <;> by_cases hx2 : x ∈ l2
  · simp [hx1, hx2]
  · simp [hx1, hx2, b1 x hx1]
  · simp [hx1, hx2, b2 x hx2]
  · simp [hx1, hx2]

theorem getMSTBasedDeltaList_eq (decode : Nat → List Nat) (N : Nat)
    (hs : ∀ c, (decode c).Sorted (· < ·)) (hb : ∀ c, ∀ x ∈ decode c, x < N) (a b : Nat) :
    getMSTBasedDeltaList decode a b =
      (List.range N).filter (fun i => decide (i ∈ decode a) != decide (i ∈ decode b)) := by
  unfold getMSTBasedDeltaList
  by_cases hab : a = b
  · rw [if_pos hab, hab]
    symm
    rw [List.filter_eq_nil_iff]
    intro x _
    simp
  · rw [if_neg hab]
    exact deltaMerge_eq_filter _ _ N (hs a) (hs b) (hb a) (hb b)

theorem mstBasedHammingDist_eq (decode : Nat → List Nat) (N : Nat)
    (hs : ∀ c, (decode c).Sorted (· < ·)) (hb : ∀ c, ∀ x ∈ decode c, x < N) (a b : Nat) :
    mstBasedHammingDist decode a b =
      ((List.range N).filter
        (fun i => decide (i ∈ decode a) != decide (i ∈ decode b))).length := by
  unfold mstBasedHammingDist
  rw [hammingLoop_eq_length, ← deltaMerge_eq_filter _ _ N (hs a) (hs b) (hb a) (hb b)]
  rfl

theorem mstBasedHammingDist_symmDiff (decode : Nat → List Nat)
    (hs : ∀ c, (decode c).Sorted (· < ·)) (a b : Nat) :
    mstBasedHammingDist decode a b =
      (symmDiff (decode a).toFinset (decode b).toFinset).card := by
  unfold mstBasedHammingDist
  rw [hammingLoop_eq_length]
  obtain ⟨s1, s2⟩ := deltaMerge_spec (decode a) (decode b) (hs a) (hs b)
  have h3 : (deltaMerge (decode a) (decode b)).toFinset =
      symmDiff (decode a).toFinset (decode b).toFinset := by
    ext x
    rw [List.mem_toFinset, s2 x, Finset.mem_symmDiff, List.mem_toFinset, List.mem_toFinset]
  rw [← h3, List.toFinset_card_of_nodup s1.nodup]
  rfl

theorem mem_pairBitmap_lt (m : MergeInput) (zero p i : Nat)
    (hi : i < m.numOfFirstMantisSamples) :
    i ∈ pairBitmap m zero p ↔ i ∈ m.decode1 (m.pairOf zero p).1 := by
  unfold pairBitmap
  rw [List.mem_append, List.mem_map]
  constructor
  · rintro (h | ⟨v, _, hv⟩)
    · exact h
    · omega
  · intro h; exact Or.inl h

theorem mem_pairBitmap_add (m : MergeInput) (zero p j : Nat)
    (hb1 : ∀ c, ∀ x ∈ m.decode1 c, x < m.numOfFirstMantisSamples) :
    m.numOfFirstMantisSamples + j ∈ pairBitmap m zero p ↔
      j ∈ m.decode2 (m.pairOf zero p).2 := by
  unfold pairBitmap
  rw [List.mem_append, List.mem_map]
  constructor
  · rintro (h | ⟨v, hv, hvj⟩)
    · have := hb1 _ _ h
      omega
    · have : v = j := by omega
      rw [← this]
      exact hv
  · intro h
    exact Or.inr ⟨j, h, Nat.add_comm _ _⟩

theorem deltaVals_eq_filter (m : MergeInput) (zero S2 p q : Nat)
    (hs1 : ∀ c, (m.decode1 c).Sorted (· < ·)) (hs2 : ∀ c, (m.decode2 c).Sorted (· < ·))
    (hb1 : ∀ c, ∀ x ∈ m.decode1 c, x < m.numOfFirstMantisSamples)
    (hb2 : ∀ c, ∀ x ∈ m.decode2 c, x < S2) :
    deltaVals m zero p q =
      (List.range (m.numOfFirstMantisSamples + S2)).filter
        (fun i => decide (i ∈ pairBitmap m zero p) != decide (i ∈ pairBitmap m zero q)) := by
  unfold deltaVals
  rw [getMSTBasedDeltaList_eq m.decode1 m.numOfFirstMantisSamples hs1 hb1,
    getMSTBasedDeltaList_eq m.decode2 S2 hs2 hb2, List.range_add, List.filter_append,
    List.filter_map]
  congr 1
  · apply List.filter_congr
    intro i hi
    rw [List.mem_range] at hi
    rw [decide_eq_decide.mpr (mem_pairBitmap_lt m zero p i hi),
      decide_eq_decide.mpr (mem_pairBitmap_lt m zero q i hi)]
  · have hf : (fun v => v + m.numOfFirstMantisSamples) =
        (fun x => m.numOfFirstMantisSamples + x) := by
      funext v
      exact Nat.add_comm _ _
    rw [hf]
    congr 1
    apply List.filter_congr
    intro j _
    simp only [Function.comp]
    rw [decide_eq_decide.mpr (mem_pairBitmap_add m zero p j hb1),
      decide_eq_decide.mpr (mem_pairBitmap_add m zero q j hb1)]

theorem length_deltaVals (m : MergeInput) (zero p q : Nat)
    (hs1 : ∀ c, (m.decode1 c).Sorted (· < ·)) (hs2 : ∀ c, (m.decode2 c).Sorted (· < ·)) :
    (deltaVals m zero p q).length = mstEdgeWeight m zero { n1 := p, n2 := q } := by
  have key : ∀ (decode : Nat → List Nat), (∀ c, (decode c).Sorted (· < ·)) → ∀ a b,
      (getMSTBasedDeltaList decode a b).length = mstBasedHammingDist decode a b := by
    intro decode hs a b
    unfold getMSTBasedDeltaList mstBasedHammingDist
    rw [hammingLoop_eq_length]
    by_cases hab : a = b
    · rw [if_pos hab, hab]
      obtain ⟨_, s2⟩ := deltaMerge_spec (decode b) (decode b) (hs b) (hs b)
      have : deltaMerge (decode b) (decode b) = [] := by
        rw [List.eq_nil_iff_forall_not_mem]
        intro x hx
        rcases (s2 x).mp hx with ⟨h3, h4⟩ | ⟨h3, h4⟩ <;> exact h4 h3
      unfold deltaMerge at this
      rw [this]
    · rw [if_neg hab]
      rfl
  unfold deltaVals mstEdgeWeight
  rw [List.length_append, List.length_map, key _ hs1, key _ hs2]

theorem exampleMerge_ok :
    (∀ c, (exampleMerge.decode1 c).Sorted (· < ·)) ∧
    (∀ c, (exampleMerge.decode2 c).Sorted (· < ·)) ∧
    (∀ c, ∀ x ∈ exampleMerge.decode1 c, x < exampleMerge.numOfFirstMantisSamples) ∧
    (∀ c, ∀ x ∈ exampleMerge.decode2 c, x < 1) := by
  refine ⟨?_, ?_, ?_, ?_⟩
  · intro c
    show (if c = 0 then [0, 1] else if c = 1 then [0] else []).Sorted (· < ·)
    split
    · decide
    · split <;> decide
  · intro c
    show (if c = 0 then [0] else []).Sorted (· < ·)
    split <;> decide
  · intro c x
    show x ∈ (if c = 0 then [0, 1] else if c = 1 then [0] else []) → x < 2
    split
    · intro h; simp at h; omega
    · split
      · intro h; simp at h; omega
      · intro h; cases h
  · intro c x
    show x ∈ (if c = 0 then [0] else []) → x < 1
    split
    · intro h; simp at h; omega
    · intro h; cases h

/-- C18: for decoded colors that are strictly increasing lists of sample indices,
`mstBasedHammingDist` returns the size of their symmetric difference; the weight that the
merger computes for an edge between the pair colors `(a1, a2)` and `(b1, b2)` is
`hamming(decode_I1(a1), decode_I1(b1)) + hamming(decode_I2(a2), decode_I2(b2))`, which is
the number of positions at which the concatenated `(S1 + S2)`-bit bitmaps of the two pair
colors differ; the edge is filed under that weight (bucket `w - 1`, a weight 0 being
fatal). -/
theorem mstEdgeWeight_eq_hamming (m : MergeInput) (zero S2 : Nat) (edge : Edge)
    (hs1 : ∀ c, (m.decode1 c).Sorted (· < ·)) (hs2 : ∀ c, (m.decode2 c).Sorted (· < ·))
    (hb1 : ∀ c, ∀ x ∈ m.decode1 c, x < m.numOfFirstMantisSamples)
    (hb2 : ∀ c, ∀ x ∈ m.decode2 c, x < S2) :
    (∀ a b, mstBasedHammingDist m.decode1 a b =
      (symmDiff (m.decode1 a).toFinset (m.decode1 b).toFinset).card) ∧
    (∀ a b, mstBasedHammingDist m.decode2 a b =
      (symmDiff (m.decode2 a).toFinset (m.decode2 b).toFinset).card) ∧
    mstEdgeWeight m zero edge =
      (symmDiff (m.decode1 (m.pairOf zero edge.n1).1).toFinset
        (m.decode1 (m.pairOf zero edge.n2).1).toFinset).card +
      (symmDiff (m.decode2 (m.pairOf zero edge.n1).2).toFinset
        (m.decode2 (m.pairOf zero edge.n2).2).toFinset).card ∧
    mstEdgeWeight m zero edge =
      ((List.range (m.numOfFirstMantisSamples + S2)).filter
        (fun i => decide (i ∈ pairBitmap m zero edge.n1) !=
          decide (i ∈ pairBitmap m zero edge.n2))).length ∧
    (∀ localWeightBucket, hammingEdges m zero localWeightBucket [edge] =
      if mstEdgeWeight m zero edge = 0 then none
      else some (bucketPush localWeightBucket (mstEdgeWeight m zero edge - 1) edge)) := by
  refine ⟨mstBasedHammingDist_symmDiff m.decode1 hs1,
    mstBasedHammingDist_symmDiff m.decode2 hs2, ?_, ?_, ?_⟩
  · unfold mstEdgeWeight
    rw [mstBasedHammingDist_symmDiff m.decode1 hs1, mstBasedHammingDist_symmDiff m.decode2 hs2]
  · rw [← deltaVals_eq_filter m zero S2 edge.n1 edge.n2 hs1 hs2 hb1 hb2,
      length_deltaVals m zero edge.n1 edge.n2 hs1 hs2]
  · intro lwb
    rw [hammingEdges]
    by_cases h : mstEdgeWeight m zero edge = 0
    · rw [if_pos h, if_pos h]
    · rw [if_neg h, if_neg h, hammingEdges]

/-- Witness of C18: in `exampleMerge` the edge between the new colors `0 = {A, B, C}` and
`1 = {A}` has the weight `1 + 1 = 2` and goes to the bucket 1. -/
theorem mstEdgeWeight_eq_hamming_witness :
    mstEdgeWeight exampleMerge 2 { n1 := 0, n2 := 1 } = 2 ∧
    ((∀ a b, mstBasedHammingDist exampleMerge.decode1 a b =
      (symmDiff (exampleMerge.decode1 a).toFinset (exampleMerge.decode1 b).toFinset).card) ∧
    (∀ a b, mstBasedHammingDist exampleMerge.decode2 a b =
      (symmDiff (exampleMerge.decode2 a).toFinset (exampleMerge.decode2 b).toFinset).card) ∧
    mstEdgeWeight exampleMerge 2 { n1 := 0, n2 := 1 } =
      (symmDiff (exampleMerge.decode1 (exampleMerge.pairOf 2 0).1).toFinset
        (exampleMerge.decode1 (exampleMerge.pairOf 2 1).1).toFinset).card +
      (symmDiff (exampleMerge.decode2 (exampleMerge.pairOf 2 0).2).toFinset
        (exampleMerge.decode2 (exampleMerge.pairOf 2 1).2).toFinset).card ∧
    mstEdgeWeight exampleMerge 2 { n1 := 0, n2 := 1 } =
      ((List.range (exampleMerge.numOfFirstMantisSamples + 1)).filter
        (fun i => decide (i ∈ pairBitmap exampleMerge 2 0) !=
          decide (i ∈ pairBitmap exampleMerge 2 1))).length ∧
    (∀ localWeightBucket,
      hammingEdges exampleMerge 2 localWeightBucket [{ n1 := 0, n2 := 1 }] =
        if mstEdgeWeight exampleMerge 2 { n1 := 0, n2 := 1 } = 0 then none
        else some (bucketPush localWeightBucket
          (mstEdgeWeight exampleMerge 2 { n1 := 0, n2 := 1 } - 1) { n1 := 0, n2 := 1 }))) :=
  ⟨by decide, mstEdgeWeight_eq_hamming exampleMerge 2 1 { n1 := 0, n2 := 1 }
    exampleMerge_ok.1 exampleMerge_ok.2.1 exampleMerge_ok.2.2.1 exampleMerge_ok.2.2.2⟩

/-- C19: for a pair color `p` with tree parent `q`, the delta list that the MST-based branch
of `calcDeltasInParallel` computes is the symmetric difference in `I1` followed by the
symmetric difference in `I2` with every index shifted by the number of samples of `I1`; it
is strictly increasing, it lists exactly the positions at which the concatenated bitmaps of
`p` and `q` differ, and its length is the edge weight `w1 + w2`. -/
theorem deltaVals_spec (m : MergeInput) (zero S2 p q : Nat)
    (hs1 : ∀ c, (m.decode1 c).Sorted (· < ·)) (hs2 : ∀ c, (m.decode2 c).Sorted (· < ·))
    (hb1 : ∀ c, ∀ x ∈ m.decode1 c, x < m.numOfFirstMantisSamples)
    (hb2 : ∀ c, ∀ x ∈ m.decode2 c, x < S2) :
    deltaVals m zero p q =
      (List.range m.numOfFirstMantisSamples).filter
          (fun i => decide (i ∈ m.decode1 (m.pairOf zero p).1) !=
            decide (i ∈ m.decode1 (m.pairOf zero q).1)) ++
        ((List.range S2).filter
          (fun i => decide (i ∈ m.decode2 (m.pairOf zero p).2) !=
            decide (i ∈ m.decode2 (m.pairOf zero q).2))).map
          (fun v => v + m.numOfFirstMantisSamples) ∧
    (deltaVals m zero p q).Sorted (· < ·) ∧
    (∀ i, i ∈ deltaVals m zero p q ↔
      (i < m.numOfFirstMantisSamples + S2 ∧
        ¬ (i ∈ pairBitmap m zero p ↔ i ∈ pairBitmap m zero q))) ∧
    (deltaVals m zero p q).length = mstEdgeWeight m zero { n1 := p, n2 := q } := by
  refine ⟨?_, ?_, ?_, length_deltaVals m zero p q hs1 hs2⟩
  · unfold deltaVals
    rw [getMSTBasedDeltaList_eq m.decode1 m.numOfFirstMantisSamples hs1 hb1,
      getMSTBasedDeltaList_eq m.decode2 S2 hs2 hb2]
  · rw [deltaVals_eq_filter m zero S2 p q hs1 hs2 hb1 hb2]
    exact sorted_filter_range _ _
  · intro i
    rw [deltaVals_eq_filter m zero S2 p q hs1 hs2 hb1 hb2, List.mem_filter, List.mem_range]
    by_cases h1 : i ∈ pairBitmap m zero p <;> by_cases h2 : i ∈ pairBitmap m zero q <;>
      simp [h1, h2]

/-- Witness of C19, the example of the specification: in `exampleMerge` the pair color
`(AB, C)` against the root gives the delta list `{0, 1, 2}`. -/
theorem deltaVals_spec_witness :
    deltaVals exampleMerge 2 0 2 = [0, 1, 2] ∧
    (deltaVals exampleMerge 2 0 2 =
      (List.range exampleMerge.numOfFirstMantisSamples).filter
          (fun i => decide (i ∈ exampleMerge.decode1 (exampleMerge.pairOf 2 0).1) !=
            decide (i ∈ exampleMerge.decode1 (exampleMerge.pairOf 2 2).1)) ++
        ((List.range 1).filter
          (fun i => decide (i ∈ exampleMerge.decode2 (exampleMerge.pairOf 2 0).2) !=
            decide (i ∈ exampleMerge.decode2 (exampleMerge.pairOf 2 2).2))).map
          (fun v => v + exampleMerge.numOfFirstMantisSamples) ∧
    (deltaVals exampleMerge 2 0 2).Sorted (· < ·) ∧
    (∀ i, i ∈ deltaVals exampleMerge 2 0 2 ↔
      (i < exampleMerge.numOfFirstMantisSamples + 1 ∧
        ¬ (i ∈ pairBitmap exampleMerge 2 0 ↔ i ∈ pairBitmap exampleMerge 2 2))) ∧
    (deltaVals exampleMerge 2 0 2).length =
      mstEdgeWeight exampleMerge 2 { n1 := 0, n2 := 2 }) :=
  ⟨by decide, deltaVals_spec exampleMerge 2 1 0 2
    exampleMerge_ok.1 exampleMerge_ok.2.1 exampleMerge_ok.2.2.1 exampleMerge_ok.2.2.2⟩

/-- The commit of one delta list: `writeDelta` stores its values, masked to the cell width,
at consecutive cells from `startingOffset`. -/
theorem getD_writeDelta (wd : Nat) (vals : List Nat) :
    ∀ (deltabv : List Nat) (startingOffset j : Nat), j < vals.length →
      startingOffset + vals.length ≤ deltabv.length →
      (writeDelta wd deltabv startingOffset vals).getD (startingOffset + j) 0 =
        vals.getD j 0 % 2 ^ wd := by
  have frame : ∀ (vals : List Nat) (deltabv : List Nat) (off i : Nat), i < off →
      (writeDelta wd deltabv off vals).getD i 0 = deltabv.getD i 0 := by
    intro vals
    induction vals with
    | nil => intro deltabv off i _; rfl
    | cons v t ih =>
      intro deltabv off i hi
      rw [writeDelta, ih _ _ _ (by omega)]
      unfold ivSet
      have : ¬ off = i := by omega
      simp [List.getD_eq_getElem?_getD, List.getElem?_set, this]
  induction vals with
  | nil => intro deltabv off j hj; cases hj
  | cons v t ih =>
    intro deltabv off j hj hlen
    simp only [List.length_cons] at hj hlen
    rw [writeDelta]
    cases j with
    | zero =>
      show (writeDelta wd (ivSet wd deltabv off v) (off + 1) t).getD off 0 = _
      rw [frame t _ (off + 1) off (by omega)]
      unfold ivSet
      have : off < deltabv.length := by omega
      simp [List.getD_eq_getElem?_getD, List.getElem?_set, this]
    | succ j =>
      have e : off + (j + 1) = off + 1 + j := by omega
      rw [e, ih _ (off + 1) j (by omega) (by
        unfold ivSet
        rw [List.length_set]
        omega)]
      simp [List.getD_eq_getElem?_getD]

/-! ## The buffer slot read by the MST builder -/

theorem getD_buildColorLoop (bv : List Bool) (S offset fuel : Nat) :
    ∀ (i wrdcnt : Nat) (eq : List Nat), (i < S → i = 64 * wrdcnt) → S ≤ i + fuel →
      (∀ w, 64 * w < S → w < eq.length) →
      ∀ w, (buildColorLoop bv S offset fuel i wrdcnt eq).getD w 0 =
        if wrdcnt ≤ w ∧ 64 * w < S ∧ i < S then
          get_int bv (offset * S + 64 * w) (min (S - 64 * w) 64)
        else eq.getD w 0 := by
  induction fuel with
  | zero =>
    intro i wrdcnt eq _ hf _ w
    rw [buildColorLoop, if_neg (by omega)]
  | succ fuel ih =>
    intro i wrdcnt eq hi hf hlen w
    rw [buildColorLoop]
    by_cases h : i < S
    · have hiw := hi h
      rw [if_pos h, ih _ _ _ (by intro h2; omega) (by omega)
        (by intro w2 hw2; rw [List.length_set]; exact hlen w2 hw2)]
      have hwl : wrdcnt < eq.length := hlen wrdcnt (by omega)
      by_cases hw : wrdcnt + 1 ≤ w ∧ 64 * w < S ∧ i + min (S - i) 64 < S
      · rw [if_pos hw, if_pos ⟨by omega, hw.2.1, h⟩]
      · rw [if_neg hw]
        by_cases hw2 : w = wrdcnt
        · subst hw2
          rw [if_pos ⟨le_refl _, by omega, h⟩]
          simp only [List.getD_eq_getElem?_getD, List.getElem?_set, hwl, if_true,
            Option.getD_some]
          rw [← hiw]
        · have hne : ¬ wrdcnt = w := fun hc => hw2 hc.symm
          have : ¬ (wrdcnt ≤ w ∧ 64 * w < S ∧ i < S) := by omega
          rw [if_neg this]
          simp [List.getD_eq_getElem?_getD, List.getElem?_set, hne]
    · rw [if_neg h, if_neg (by omega)]

/-- What `buildColor` delivers for a color other than the root: bit `s` of the bitmap is the
bit `(eqid % NUM_BV_BUFFER) * numSamples + s` of the buffer it is given. -/
theorem buildColor_bit (numSamples zero eqid : Nat) (eq : List Nat) (bv : List Bool)
    (hz : eqid ≠ zero) (hlen : eq.length = (numSamples - 1) / 64 + 1) (s : Nat)
    (hs : s < numSamples) :
    ((MST.buildColor numSamples zero eq eqid bv).getD (s / 64) 0).testBit (s % 64) =
      bv.getD (eqid % NUM_BV_BUFFER * numSamples + s) false := by
  unfold MST.buildColor
  rw [if_neg hz, getD_buildColorLoop bv numSamples _ numSamples 0 0 eq (fun _ => rfl)
    (by omega) (by intro w hw; omega), if_pos ⟨Nat.zero_le _, by omega, by omega⟩,
    testBit_get_int]
  have h1 : s % 64 < min (numSamples - 64 * (s / 64)) 64 := by omega
  have h2 : eqid % NUM_BV_BUFFER * numSamples + 64 * (s / 64) + s % 64 =
      eqid % NUM_BV_BUFFER * numSamples + s := by omega
  simp [h1, h2]

/-- The bucket of the root edge of a color `c`: both buffers are `c / NUM_BV_BUFFER`. -/
theorem getBucketId_root (zero num_of_ccBuffers c : Nat) (hc : c < zero) :
    MST.getBucketId zero num_of_ccBuffers c zero =
      c / NUM_BV_BUFFER * num_of_ccBuffers + c / NUM_BV_BUFFER := by
  unfold MST.getBucketId
  have h : ¬ (c = zero ∨ c > zero) := by omega
  simp only [h, if_false, if_true]

/-- The bucket of an edge between two colors `c1 < c2` other than the root. -/
theorem getBucketId_edge (zero num_of_ccBuffers c1 c2 : Nat) (h12 : c1 < c2) (h1 : c1 ≠ zero)
    (h2 : c2 ≠ zero) :
    MST.getBucketId zero num_of_ccBuffers c1 c2 =
      c1 / NUM_BV_BUFFER * num_of_ccBuffers + c2 / NUM_BV_BUFFER := by
  unfold MST.getBucketId
  have h : ¬ (c1 = zero ∨ c1 > c2) := by omega
  simp only [h, if_false, h2]

/-- C20 fails on the code: `getBucketId` and `buildColor` use the constant
`NUM_BV_BUFFER = 20000000` as the number of bitmaps per buffer, the builder uses
`B = BV_BUF_LEN / S`.  Whenever `B ≠ NUM_BV_BUFFER`, the color `c = min(B, NUM_BV_BUFFER)`
(id `c + 1`) is looked up in the buffer `c / NUM_BV_BUFFER`, which is not the file `c / B`
into which the builder put it; the slots agree for all colors only if
`B = NUM_BV_BUFFER`. -/
theorem buildColor_other_buffer (S BV_BUF_LEN zero num_of_ccBuffers : Nat)
    (hB : 0 < BV_BUF_LEN / S) (hne : BV_BUF_LEN / S ≠ NUM_BV_BUFFER)
    (hz : min (BV_BUF_LEN / S) NUM_BV_BUFFER < zero) :
    MST.getBucketId zero num_of_ccBuffers (min (BV_BUF_LEN / S) NUM_BV_BUFFER) zero =
      min (BV_BUF_LEN / S) NUM_BV_BUFFER / NUM_BV_BUFFER * num_of_ccBuffers +
        min (BV_BUF_LEN / S) NUM_BV_BUFFER / NUM_BV_BUFFER ∧
    min (BV_BUF_LEN / S) NUM_BV_BUFFER / NUM_BV_BUFFER ≠
      min (BV_BUF_LEN / S) NUM_BV_BUFFER / (BV_BUF_LEN / S) ∧
    ((∀ c, c / NUM_BV_BUFFER = c / (BV_BUF_LEN / S) ∧
        c % NUM_BV_BUFFER = c % (BV_BUF_LEN / S)) → False) := by
  refine ⟨getBucketId_root zero num_of_ccBuffers _ hz, ?_, ?_⟩
  · generalize BV_BUF_LEN / S = B at hB hne
    have hN : 0 < NUM_BV_BUFFER := by unfold NUM_BV_BUFFER; omega
    by_cases hlt : B < NUM_BV_BUFFER
    · have e : min B NUM_BV_BUFFER = B := by omega
      rw [e, Nat.div_eq_of_lt hlt, Nat.div_self hB]
      omega
    · have e : min B NUM_BV_BUFFER = NUM_BV_BUFFER := by omega
      rw [e, Nat.div_self hN, Nat.div_eq_of_lt (by omega)]
      omega
  · intro h
    generalize BV_BUF_LEN / S = B at hB hne h
    have hN : 0 < NUM_BV_BUFFER := by unfold NUM_BV_BUFFER; omega
    by_cases hlt : B < NUM_BV_BUFFER
    · have := (h B).1
      rw [Nat.div_eq_of_lt hlt, Nat.div_self hB] at this
      omega
    · have := (h NUM_BV_BUFFER).1
      rw [Nat.div_self hN, Nat.div_eq_of_lt (by omega)] at this
      omega

/-- The failing input of C20 with the bit budget of the specification: two samples and
`BV_BUF_LEN = 20000000`, so `B = 10000000`; the color `10000000` (id `10000001`) is in the
builder's file 1, slot 0, and is looked up in the buffer 0. -/
theorem buildColor_other_buffer_witness :
    MST.getBucketId 10000001 2 (min (20000000 / 2) NUM_BV_BUFFER) 10000001 =
      min (20000000 / 2) NUM_BV_BUFFER / NUM_BV_BUFFER * 2 +
        min (20000000 / 2) NUM_BV_BUFFER / NUM_BV_BUFFER ∧
    min (20000000 / 2) NUM_BV_BUFFER / NUM_BV_BUFFER ≠
      min (20000000 / 2) NUM_BV_BUFFER / (20000000 / 2) ∧
    ((∀ c, c / NUM_BV_BUFFER = c / (20000000 / 2) ∧
        c % NUM_BV_BUFFER = c % (20000000 / 2)) → False) :=
  buildColor_other_buffer 2 20000000 10000001 2 (by decide) (by decide) (by decide)

/-- The same defect on a small build (three samples, `BV_BUF_LEN = 6`, so `B = 2`, five
color-classes in the files 0, 1 and 2): the k-mer 3 of sample set `{2}` has the filter value
3, color 2; the bucket of its root edge is the buffer pair `(0, 0)`, and `buildColor` reads
at the bit `(2 % NUM_BV_BUFFER) * 3 = 6`, past the 6 bits of file 0, while the bitmap `{2}`
(the word 4) is the slot 0 of file 1. -/
theorem buildColor_reads_past_file :
    (construct exampleHeap exampleHash (ColoredDbg.init 6 8 3) [[1, 4, 5], [2, 4], [3, 5]]
      invalid).map (fun r => r.toOption.map
        (fun s => (s.dbg.query 3, (serialize s).files))) =
      some (some (3,
        [(0, [true, false, false, false, true, false]),
         (1, [false, false, true, true, true, false]),
         (2, [true, false, true])])) ∧
    MST.getBucketId 5 3 2 5 = 0 * 3 + 0 ∧
    2 % NUM_BV_BUFFER * 3 = [true, false, false, false, true, false].length ∧
    MST.buildColor 3 5 [0] 2 [true, false, false, false, true, false] = [0] ∧
    MST.buildColor 3 5 [0] 0 [false, false, true, true, true, false] = [4] := by
  refine ⟨rfl, by decide, by decide, by decide, by decide⟩

/-! ## The sample-id map of a merged index -/

theorem sampleAssign_new (m : List (Nat × String)) (id : Nat) (name : String)
    (h : id ∉ m.map Prod.fst) : sampleAssign m id name = m ++ [(id, name)] := by
  induction m with
  | nil => rfl
  | cons e rest ih =>
    rw [List.map_cons, List.mem_cons, not_or] at h
    rw [sampleAssign, if_neg (fun hh => h.1 hh.symm), ih h.2, List.cons_append]

theorem foldl_sampleAssign (f : Nat → Nat) :
    ∀ (L m : List (Nat × String)), (L.map Prod.fst).Nodup →
      (∀ a ∈ L.map Prod.fst, ∀ b ∈ L.map Prod.fst, f a = f b → a = b) →
      (∀ e ∈ L, f e.1 ∉ m.map Prod.fst) →
      L.foldl (fun m idSample => sampleAssign m (f idSample.1) idSample.2) m =
        m ++ L.map (fun e => (f e.1, e.2)) := by
  intro L
  induction L with
  | nil => intro m _ _ _; simp
  | cons e rest ih =>
    intro m hnd hf hdis
    rw [List.map_cons, List.nodup_cons] at hnd
    rw [List.foldl_cons, sampleAssign_new m _ _ (hdis e (List.mem_cons_self _ _)),
      ih _ hnd.2, List.map_cons, List.append_assoc, List.singleton_append]
    · intro a ha b hb hab
      exact hf a (List.mem_cons_of_mem _ ha) b (List.mem_cons_of_mem _ hb) hab
    · intro x hx
      rw [List.map_append, List.mem_append, not_or]
      refine ⟨hdis x (List.mem_cons_of_mem _ hx), ?_⟩
      simp only [List.map_cons, List.map_nil, List.mem_singleton]
      intro hfx
      apply hnd.1
      rw [← hf x.1 (List.mem_cons_of_mem _ (List.mem_map_of_mem Prod.fst hx)) e.1
        (List.mem_cons_self _ _) hfx]
      exact List.mem_map_of_mem Prod.fst hx

theorem get_sample_append_left (m1 m2 : List (Nat × String)) (i : Nat)
    (h : i % 2 ^ 32 ∈ m1.map Prod.fst) : get_sample (m1 ++ m2) i = get_sample m1 i := by
  unfold get_sample
  rw [List.find?_append]
  cases hf : m1.find? (fun e => e.1 == i % 2 ^ 32) with
  | some e => rfl
  | none =>
    exfalso
    rw [List.find?_eq_none] at hf
    obtain ⟨e, he, he1⟩ := List.mem_map.mp h
    exact hf e he (by simp [he1])

theorem get_sample_append_right (m1 m2 : List (Nat × String)) (i : Nat)
    (h : i % 2 ^ 32 ∉ m1.map Prod.fst) : get_sample (m1 ++ m2) i = get_sample m2 i := by
  unfold get_sample
  rw [List.find?_append]
  have hf : m1.find? (fun e => e.1 == i % 2 ^ 32) = none := by
    rw [List.find?_eq_none]
    intro e he hh
    apply h
    rw [beq_iff_eq] at hh
    rw [← hh]
    exact List.mem_map_of_mem Prod.fst he
  rw [hf]
  rfl

theorem get_sample_shift (m : List (Nat × String)) (n i : Nat) (hi : n ≤ i)
    (h32 : i < 2 ^ 32) :
    get_sample (m.map (fun e => (n + e.1, e.2))) i = get_sample m (i - n) := by
  unfold get_sample
  have e1 : i % 2 ^ 32 = i := Nat.mod_eq_of_lt h32
  have e2 : (i - n) % 2 ^ 32 = i - n := Nat.mod_eq_of_lt (by omega)
  rw [e1, e2]
  induction m with
  | nil => rfl
  | cons a rest ih =>
    rw [List.map_cons, List.find?_cons, List.find?_cons]
    by_cases ha : a.1 = i - n
    · have h1 : ((n + a.1 == i) = true) := by rw [beq_iff_eq]; omega
      have h2 : ((a.1 == i - n) = true) := by rw [beq_iff_eq]; exact ha
      simp only [h1, h2]
    · have h1 : ((n + a.1 == i) = false) := by rw [beq_eq_false_iff_ne]; omega
      have h2 : ((a.1 == i - n) = false) := by rw [beq_eq_false_iff_ne]; exact ha
      simp only [h1, h2]
      exact ih

/-- The sample-id map that the constructor for a merge builds: the entries of `cdbg1`, then
those of `cdbg2` with shifted ids. -/
theorem concat_sample_id_maps_eq (cdbg1 cdbg2 : SampleDbg) (n1 n2 : Nat)
    (h1 : cdbg1.num_samples = n1)
    (hk1 : (cdbg1.sampleid_map.map Prod.fst).Perm (List.range n1))
    (hk2 : (cdbg2.sampleid_map.map Prod.fst).Perm (List.range n2))
    (hn : n1 + n2 ≤ 2 ^ 32) :
    concat_sample_id_maps [] cdbg1 cdbg2 =
      cdbg1.sampleid_map ++ cdbg2.sampleid_map.map (fun e => (n1 + e.1, e.2)) := by
  unfold concat_sample_id_maps
  have a1 := foldl_sampleAssign (fun x => x) cdbg1.sampleid_map []
    (hk1.nodup_iff.mpr (List.nodup_range n1)) (fun _ _ _ _ h => h) (by simp)
  have e1 : (cdbg1.sampleid_map.map (fun e : Nat × String => (e.1, e.2))) =
      cdbg1.sampleid_map := by
    simp
  simp only [List.nil_append] at a1
  rw [e1] at a1
  rw [a1, h1]
  have hlt : ∀ a ∈ cdbg2.sampleid_map.map Prod.fst, a < n2 := by
    intro a ha
    exact List.mem_range.mp (hk2.mem_iff.mp ha)
  have hmod : ∀ a ∈ cdbg2.sampleid_map.map Prod.fst, (n1 + a) % 2 ^ 64 = n1 + a := by
    intro a ha
    have := hlt a ha
    exact Nat.mod_eq_of_lt (by omega)
  rw [foldl_sampleAssign (fun x => (n1 + x) % 2 ^ 64) cdbg2.sampleid_map cdbg1.sampleid_map
    (hk2.nodup_iff.mpr (List.nodup_range n2))]
  · congr 1
    apply List.map_congr_left
    intro e he
    rw [hmod e.1 (List.mem_map_of_mem Prod.fst he)]
  · intro a ha b hb hab
    simp only at hab
    rw [hmod a ha, hmod b hb] at hab
    omega
  · intro e he hmem
    rw [hmod e.1 (List.mem_map_of_mem Prod.fst he)] at hmem
    have := List.mem_range.mp (hk1.mem_iff.mp hmem)
    omega

/-- The constructor for a merge of two indices without samples divides by zero: there is no
merged index. -/
theorem merged_no_samples (BV_BUF_LEN : Nat) (cdbg1 cdbg2 : SampleDbg)
    (h : (cdbg1.num_samples + cdbg2.num_samples) % 2 ^ 64 = 0) :
    ColoredDbg.merged BV_BUF_LEN cdbg1 cdbg2 = none := by
  unfold ColoredDbg.merged
  rw [if_pos h]

theorem merged_no_samples_example (BV_BUF_LEN : Nat) :
    ColoredDbg.merged BV_BUF_LEN exampleNoSamples exampleNoSamples = none :=
  merged_no_samples BV_BUF_LEN exampleNoSamples exampleNoSamples (by decide)

/-- C21: when the sample ids of `cdbg1` are `0 .. n1 - 1` and those of `cdbg2` are
`0 .. n2 - 1` (`n1`, `n2` their sample counts, in whatever order the maps yield their entries)
and there is at least one sample (`0 < n1 + n2`, otherwise the constructor divides by zero),
the constructor for a merge returns an index that has `num_samples = n1 + n2` and a sample-id
map with exactly `n1 + n2` entries, the ids `0 .. n1 + n2 - 1`, in which `get_sample(i)` is
the sample `i` of `cdbg1` for `i < n1` and the sample `i - n1` of `cdbg2` for
`n1 ≤ i < n1 + n2`. -/
theorem merged_sample_id_map (BV_BUF_LEN n1 n2 : Nat) (cdbg1 cdbg2 : SampleDbg)
    (h1 : cdbg1.num_samples = n1) (h2 : cdbg2.num_samples = n2)
    (hk1 : (cdbg1.sampleid_map.map Prod.fst).Perm (List.range n1))
    (hk2 : (cdbg2.sampleid_map.map Prod.fst).Perm (List.range n2))
    (hpos : 0 < n1 + n2) (hn : n1 + n2 ≤ 2 ^ 32) :
    ∃ m, ColoredDbg.merged BV_BUF_LEN cdbg1 cdbg2 = some m ∧
      m.num_samples = n1 + n2 ∧
      m.colorClassPerBuffer = BV_BUF_LEN / (n1 + n2) ∧
      m.sampleid_map.length = n1 + n2 ∧
      (m.sampleid_map.map Prod.fst).Perm (List.range (n1 + n2)) ∧
      (∀ i, i < n1 → get_sample m.sampleid_map i = get_sample cdbg1.sampleid_map i) ∧
      (∀ i, n1 ≤ i → i < n1 + n2 →
        get_sample m.sampleid_map i = get_sample cdbg2.sampleid_map (i - n1)) := by
  have hmap : concat_sample_id_maps [] cdbg1 cdbg2 =
      cdbg1.sampleid_map ++ cdbg2.sampleid_map.map (fun e => (n1 + e.1, e.2)) :=
    concat_sample_id_maps_eq cdbg1 cdbg2 n1 n2 h1 hk1 hk2 hn
  have hl1 : cdbg1.sampleid_map.length = n1 := by
    have := hk1.length_eq
    rwa [List.length_map, List.length_range] at this
  have hl2 : cdbg2.sampleid_map.length = n2 := by
    have := hk2.length_eq
    rwa [List.length_map, List.length_range] at this
  have hkeys2 : (cdbg2.sampleid_map.map (fun e : Nat × String => (n1 + e.1, e.2))).map
      Prod.fst = (cdbg2.sampleid_map.map Prod.fst).map (fun a => n1 + a) := by
    rw [List.map_map, List.map_map]
    rfl
  have hsum : (cdbg1.num_samples + cdbg2.num_samples) % 2 ^ 64 = n1 + n2 := by
    rw [h1, h2]
    exact Nat.mod_eq_of_lt (by omega)
  unfold ColoredDbg.merged
  rw [hsum, if_neg (by omega), hmap]
  refine ⟨_, rfl, rfl, rfl, ?_, ?_, ?_, ?_⟩
  · show (cdbg1.sampleid_map ++ _).length = _
    rw [List.length_append, List.length_map, hl1, hl2]
  · show ((cdbg1.sampleid_map ++ _).map Prod.fst).Perm _
    rw [List.map_append, hkeys2]
    have hr : List.range (n1 + n2) = List.range n1 ++ (List.range n2).map (fun a => n1 + a) :=
      List.range_add n1 n2
    rw [hr]
    exact hk1.append (hk2.map _)
  · intro i hi
    show get_sample (cdbg1.sampleid_map ++ _) i = _
    apply get_sample_append_left
    rw [Nat.mod_eq_of_lt (by omega)]
    exact hk1.mem_iff.mpr (List.mem_range.mpr hi)
  · intro i hi1 hi2
    show get_sample (cdbg1.sampleid_map ++ _) i = _
    rw [get_sample_append_right, get_sample_shift _ _ _ hi1 (by omega)]
    rw [Nat.mod_eq_of_lt (by omega)]
    intro hmem
    have := List.mem_range.mp (hk1.mem_iff.mp hmem)
    omega

/-- Witness of C21 on `exampleSamples1` (samples `a`, `b`) and `exampleSamples2` (sample
`c`): three samples, `get_sample` yields `a`, `b`, `c` for the ids 0, 1, 2. -/
theorem merged_sample_id_map_witness :
    (∃ m, ColoredDbg.merged 16 exampleSamples1 exampleSamples2 = some m ∧
      m.num_samples = 2 + 1 ∧
      m.colorClassPerBuffer = 16 / (2 + 1) ∧
      m.sampleid_map.length = 2 + 1 ∧
      (m.sampleid_map.map Prod.fst).Perm (List.range (2 + 1)) ∧
      (∀ i, i < 2 → get_sample m.sampleid_map i = get_sample exampleSamples1.sampleid_map i) ∧
      (∀ i, 2 ≤ i → i < 2 + 1 →
        get_sample m.sampleid_map i = get_sample exampleSamples2.sampleid_map (i - 2))) ∧
    (ColoredDbg.merged 16 exampleSamples1 exampleSamples2).map
      (fun m => (List.range 3).map (get_sample m.sampleid_map)) = some ["a", "b", "c"] :=
  ⟨merged_sample_id_map 16 2 1 exampleSamples1 exampleSamples2 rfl rfl
      (by decide) (by decide) (by norm_num) (by norm_num),
    by decide⟩

/-! ## reinit does not reshuffle -/

/-- C22 fails on the code: `reinit(map)` replaces `eqclass_map` by the caller's map and leaves
the buffer as it is, for every state and map.  On `sampledIndex` (two samples, the bitmap
`{0}` of the hash 1 in the slot of id 1, the bitmap `{0, 1}` of the hash 3 in the slot of
id 2) with a map that swaps the two ids, the slot of the new id 2 of the hash 1 still holds
`{0, 1}` after `reinit`; `reshuffle_bit_vectors`, which `reinit` does not call, would have
put `{0}` there. -/
theorem reinit_does_not_reshuffle :
    (∀ (s : ColoredDbg) (map : List (Nat × (Nat × Nat))),
      (reinit s map).eqclass_map = map ∧ (reinit s map).bv_buffer = s.bv_buffer) ∧
    mapFind sampledIndex.eqclass_map 1 = some (1, 1) ∧
    slotBits sampledIndex.bv_buffer 2 (1 - 1) = [true, false] ∧
    mapFind (reinit sampledIndex [(1, (2, 1)), (3, (1, 1))]).eqclass_map 1 = some (2, 1) ∧
    slotBits (reinit sampledIndex [(1, (2, 1)), (3, (1, 1))]).bv_buffer 2 (2 - 1) =
      [true, true] ∧
    (reshuffle_bit_vectors sampledIndex [(1, (2, 1)), (3, (1, 1))]).toOption.map
      (fun s => s.bv_buffer) = some [true, true, true, false] := by
  refine ⟨fun s map => ⟨rfl, rfl⟩, by decide, by decide, by decide, by decide, by decide⟩

/-! ## The reshuffle is a permutation of the slots -/

theorem length_copyBits (buf : List Bool) (S src dst : Nat) (nb : List Bool) :
    (copyBits buf S src dst nb).length = nb.length := by
  unfold copyBits
  induction S with
  | zero => rfl
  | succ k ih =>
    rw [List.range_succ, List.foldl_append, List.foldl_cons, List.foldl_nil]
    split
    · rw [List.length_set, ih]
    · exact ih

theorem getD_copyBits (buf : List Bool) (S src dst : Nat) (nb : List Bool) (p : Nat) :
    (copyBits buf S src dst nb).getD p false = true ↔
      nb.getD p false = true ∨
        (dst ≤ p ∧ p < dst + S ∧ p < nb.length ∧ buf.getD (src + (p - dst)) false = true) := by
  induction S with
  | zero =>
    unfold copyBits
    simp only [List.range_zero, List.foldl_nil]
    constructor
    · intro h
      exact Or.inl h
    · rintro (h | ⟨h1, h2, _, _⟩)
      · exact h
      · omega
  | succ k ih =>
    have hl := length_copyBits buf k src dst nb
    unfold copyBits at ih hl ⊢
    rw [List.range_succ, List.foldl_append, List.foldl_cons, List.foldl_nil]
    by_cases hb : buf.getD (src + k) false = true
    · rw [if_pos hb, getD_set_true, ih, hl]
      constructor
      · rintro (h | h)
        · rcases h with h | ⟨h1, h2, h3, h4⟩
          · exact Or.inl h
          · exact Or.inr ⟨h1, by omega, h3, h4⟩
        · refine Or.inr ⟨by omega, by omega, h.2, ?_⟩
          have : p - dst = k := by omega
          rw [this]
          exact hb
      · rintro (h | ⟨h1, h2, h3, h4⟩)
        · exact Or.inl (Or.inl h)
        · by_cases hk : p = dst + k
          · exact Or.inr ⟨hk, h3⟩
          · exact Or.inl (Or.inr ⟨h1, by omega, h3, h4⟩)
    · rw [if_neg hb, ih]
      constructor
      · rintro (h | ⟨h1, h2, h3, h4⟩)
        · exact Or.inl h
        · exact Or.inr ⟨h1, by omega, h3, h4⟩
      · rintro (h | ⟨h1, h2, h3, h4⟩)
        · exact Or.inl h
        · by_cases hk : p = dst + k
          · exfalso
            apply hb
            have : p - dst = k := by omega
            rw [← this]
            exact h4
          · exact Or.inr ⟨h1, by omega, h3, h4⟩

/-- The loop of `reshuffle_bit_vectors` runs through when every entry is found and passes the
`assert`; the new buffer holds the union of the copied slots. -/
theorem reshuffleLoop_ok (s : ColoredDbg) :
    ∀ (L : List (Nat × (Nat × Nat))) (nb : List Bool),
      (∀ e ∈ L, ∃ o, mapFind s.eqclass_map e.1 = some o ∧ o.1 ≤ s.colorClassPerBuffer ∧
        e.2.1 ≤ s.colorClassPerBuffer) →
      ∃ nb1, reshuffleLoop s L nb = .ok nb1 ∧ nb1.length = nb.length ∧
        ∀ p, (nb1.getD p false = true ↔ nb.getD p false = true ∨
          ∃ e ∈ L, ∃ o, mapFind s.eqclass_map e.1 = some o ∧
            slotStart e.2.1 s.num_samples ≤ p ∧
            p < slotStart e.2.1 s.num_samples + s.num_samples ∧ p < nb.length ∧
            s.bv_buffer.getD (slotStart o.1 s.num_samples +
              (p - slotStart e.2.1 s.num_samples)) false = true) := by
  intro L
  induction L with
  | nil =>
    intro nb _
    exact ⟨nb, rfl, rfl, fun p => by simp⟩
  | cons a rest ih =>
    intro nb h
    obtain ⟨o, ho, ho1, ho2⟩ := h a (List.mem_cons_self _ _)
    obtain ⟨nb1, h1, h2, h3⟩ := ih
      (copyBits s.bv_buffer s.num_samples (slotStart o.1 s.num_samples)
        (slotStart a.2.1 s.num_samples) nb)
      (fun e he => h e (List.mem_cons_of_mem _ he))
    refine ⟨nb1, ?_, ?_, ?_⟩
    · rw [reshuffleLoop, ho]
      simp only
      rw [if_pos ⟨ho1, ho2⟩, h1]
    · rw [h2, length_copyBits]
    · intro p
      rw [h3 p, getD_copyBits, length_copyBits]
      constructor
      · rintro (h | ⟨e, he, o1, q⟩)
        · rcases h with h | ⟨q1, q2, q3, q4⟩
          · exact Or.inl h
          · exact Or.inr ⟨a, List.mem_cons_self _ _, o, ho, q1, q2, q3, q4⟩
        · exact Or.inr ⟨e, List.mem_cons_of_mem _ he, o1, q⟩
      · rintro (h | ⟨e, he, o1, q0, q1, q2, q3, q4⟩)
        · exact Or.inl (Or.inl h)
        · rcases List.mem_cons.mp he with hea | hea
          · subst hea
            rw [ho] at q0
            injection q0 with q0
            subst q0
            exact Or.inl (Or.inr ⟨q1, q2, q3, q4⟩)
          · exact Or.inr ⟨e, hea, o1, q0, q1, q2, q3, q4⟩

/-- The loop of `reshuffle_bit_vectors` ends the process when an entry of the caller's map
has a hash that `eqclass_map` does not hold (or earlier, at a failing `assert`). -/
theorem reshuffleLoop_missing (s : ColoredDbg) :
    ∀ (L : List (Nat × (Nat × Nat))) (nb : List Bool),
      (∃ e ∈ L, mapFind s.eqclass_map e.1 = none) →
      ∃ x, reshuffleLoop s L nb = .error x := by
  intro L
  induction L with
  | nil =>
    intro nb h
    obtain ⟨e, he, _⟩ := h
    cases he
  | cons a rest ih =>
    intro nb h
    rw [reshuffleLoop]
    cases ho : mapFind s.eqclass_map a.1 with
    | none => exact ⟨_, rfl⟩
    | some o =>
      simp only
      by_cases hc : o.1 ≤ s.colorClassPerBuffer ∧ a.2.1 ≤ s.colorClassPerBuffer
      · rw [if_pos hc]
        apply ih
        obtain ⟨e, he, hn⟩ := h
        rcases List.mem_cons.mp he with hea | hea
        · subst hea
          rw [ho] at hn
          cases hn
        · exact ⟨e, hea, hn⟩
      · rw [if_neg hc]
        exact ⟨_, rfl⟩

theorem slotStart_eq (id S B : Nat) (h1 : 1 ≤ id) (h2 : id ≤ B) (hfit : B * S < 2 ^ 64) :
    slotStart id S = (id - 1) * S := by
  unfold slotStart
  by_cases hS : S = 0
  · subst hS
    simp
  · have hB : B ≤ B * S := Nat.le_mul_of_pos_right B (Nat.pos_of_ne_zero hS)
    have e1 : (id + (2 ^ 64 - 1)) % 2 ^ 64 = id - 1 := by omega
    rw [e1]
    apply Nat.mod_eq_of_lt
    have : (id - 1) * S ≤ B * S := Nat.mul_le_mul_right S (by omega)
    omega

theorem slot_index_eq (a b i j S : Nat) (hi : i < S) (hj : j < S) (h : a * S + i = b * S + j) :
    a = b ∧ i = j := by
  have hS : 0 < S := by omega
  have ha : (a * S + i) / S = a := by
    rw [Nat.add_comm, Nat.add_mul_div_right _ _ hS, Nat.div_eq_of_lt hi, Nat.zero_add]
  have hb : (b * S + j) / S = b := by
    rw [Nat.add_comm, Nat.add_mul_div_right _ _ hS, Nat.div_eq_of_lt hj, Nat.zero_add]
  have hab : a = b := by rw [← ha, ← hb, h]
  subst hab
  exact ⟨rfl, by omega⟩

theorem range_succ_pred (n : Nat) : (List.range' 1 n).map (fun x => x - 1) = List.range n := by
  rw [List.range_eq_range']
  apply List.ext_getElem
  · simp
  · intro i h1 h2
    simp

/-- The id that `eqclass_map` holds for a hash, 0 when there is none. -/
theorem idOf_map_self (m : List (Nat × (Nat × Nat))) (hnd : (m.map Prod.fst).Nodup) :
    m.map (fun e => ((mapFind m e.1).map (fun o => o.1)).getD 0) = m.map (fun e => e.2.1) := by
  apply List.map_congr_left
  intro e he
  have : mapFind m e.1 = some e.2 := by
    induction m with
    | nil => cases he
    | cons a t ih =>
      rw [List.map_cons, List.nodup_cons] at hnd
      rw [mapFind_cons]
      rcases List.mem_cons.mp he with h | h
      · subst h
        rw [if_pos rfl]
      · have hne : a.1 ≠ e.1 := by
          intro hc
          apply hnd.1
          rw [hc]
          exact List.mem_map_of_mem Prod.fst h
        rw [if_neg hne]
        exact ih hnd.2 h
  rw [this]
  rfl

/-- C23: `reshuffle_bit_vectors(map)` on a state with `S` samples and a buffer of `B` slots.
When the caller's map has the keys of `eqclass_map`, the ids of both maps are permutations
of `1 .. |map|` and `|map| ≤ B`, the call returns, changes the buffer only, puts the bitmap
of every key into the slot `new id - 1` (it was in the slot `old id - 1`), and the bitmaps
held in the first `|map|` slots are the same multiset as before.  When some key of the
caller's map is missing from `eqclass_map`, the call ends the process. -/
theorem reshuffle_bit_vectors_spec (s : ColoredDbg) (map : List (Nat × (Nat × Nat)))
    (S B : Nat) (hS : s.num_samples = S) (hB : s.colorClassPerBuffer = B)
    (hfit : B * S < 2 ^ 64) (_hS32 : S < 2 ^ 32) :
    ((map.map Prod.fst).Perm (s.eqclass_map.map Prod.fst) →
      (s.eqclass_map.map Prod.fst).Nodup →
      (s.eqclass_map.map (fun e => e.2.1)).Perm (List.range' 1 map.length) →
      (map.map (fun e => e.2.1)).Perm (List.range' 1 map.length) →
      map.length ≤ B →
      ∃ s1, reshuffle_bit_vectors s map = .ok s1 ∧
        s1 = { s with bv_buffer := s1.bv_buffer } ∧
        s1.bv_buffer.length = B * S ∧
        (∀ e ∈ map, ∀ o, mapFind s.eqclass_map e.1 = some o →
          slotBits s1.bv_buffer S (e.2.1 - 1) = slotBits s.bv_buffer S (o.1 - 1)) ∧
        ((List.range map.length).map (slotBits s1.bv_buffer S)).Perm
          ((List.range map.length).map (slotBits s.bv_buffer S))) ∧
    ((∃ e ∈ map, mapFind s.eqclass_map e.1 = none) →
      ∃ x, reshuffle_bit_vectors s map = .error x) := by
  constructor
  · intro hkeys hnd hold hnew hn
    -- every entry is found, with ids in range
    have hnewr : ∀ e ∈ map, 1 ≤ e.2.1 ∧ e.2.1 ≤ map.length := by
      intro e he
      have := hnew.mem_iff.mp (List.mem_map_of_mem (fun e => e.2.1) he)
      rw [List.mem_range'_1] at this
      omega
    have holdr : ∀ e ∈ s.eqclass_map, 1 ≤ e.2.1 ∧ e.2.1 ≤ map.length := by
      intro e he
      have := hold.mem_iff.mp (List.mem_map_of_mem (fun e => e.2.1) he)
      rw [List.mem_range'_1] at this
      omega
    have hfound : ∀ e ∈ map, ∃ o, mapFind s.eqclass_map e.1 = some o ∧
        1 ≤ o.1 ∧ o.1 ≤ map.length := by
      intro e he
      have hk := hkeys.mem_iff.mp (List.mem_map_of_mem Prod.fst he)
      cases ho : mapFind s.eqclass_map e.1 with
      | none => exact absurd hk ((mapFind_eq_none_iff _ _).mp ho)
      | some o => exact ⟨o, rfl, holdr _ (mapFind_mem _ _ _ ho)⟩
    obtain ⟨nb1, h1, h2, h3⟩ := reshuffleLoop_ok s map (zeros (B * S)) (by
      intro e he
      obtain ⟨o, ho, ho1, ho2⟩ := hfound e he
      have := hnewr e he
      exact ⟨o, ho, by omega, by omega⟩)
    have hlen : nb1.length = B * S := by
      rw [h2]
      unfold zeros
      rw [List.length_replicate]
    -- the bits of the new slot of an entry
    have hslot : ∀ e ∈ map, ∀ o, mapFind s.eqclass_map e.1 = some o → ∀ i, i < S →
        nb1.getD ((e.2.1 - 1) * S + i) false = s.bv_buffer.getD ((o.1 - 1) * S + i) false := by
      intro e he o ho i hi
      rw [Bool.eq_iff_iff, h3, getD_zeros]
      have hz : zeros (B * S) = List.replicate (B * S) false := rfl
      rw [hz, List.length_replicate, hS]
      have hne := hnewr e he
      obtain ⟨o0, ho0, ho01, ho02⟩ := hfound e he
      rw [ho] at ho0
      injection ho0 with ho0
      subst ho0
      have hbound : (e.2.1 - 1) * S + i < B * S := by
        have : (e.2.1 - 1) * S + S ≤ B * S := by
          have : (e.2.1 - 1 + 1) * S ≤ B * S := Nat.mul_le_mul_right S (by omega)
          rw [Nat.add_mul, Nat.one_mul] at this
          exact this
        omega
      constructor
      · rintro (h | ⟨e1, he1, o1, q0, q1, q2, q3, q4⟩)
        · cases h
        · have hne1 := hnewr e1 he1
          obtain ⟨o2, ho2, ho21, ho22⟩ := hfound e1 he1
          rw [q0] at ho2
          injection ho2 with ho2
          subst ho2
          rw [slotStart_eq e1.2.1 S B hne1.1 (by omega) hfit] at q1 q2 q4
          rw [slotStart_eq o1.1 S B ho21 (by omega) hfit] at q4
          obtain ⟨j, hj⟩ : ∃ j, (e.2.1 - 1) * S + i = (e1.2.1 - 1) * S + j :=
            ⟨(e.2.1 - 1) * S + i - (e1.2.1 - 1) * S, by omega⟩
          have hjS : j < S := by omega
          obtain ⟨ha, hb⟩ := slot_index_eq _ _ _ _ S hi hjS hj
          have hid : e.2.1 = e1.2.1 := by omega
          have hee : e = e1 :=
            List.inj_on_of_nodup_map (hnew.nodup_iff.mpr (List.nodup_range' 1 map.length))
              he he1 hid
          subst hee
          rw [ho] at q0
          injection q0 with q0
          subst q0
          have hsub : (e.2.1 - 1) * S + i - (e.2.1 - 1) * S = i := by omega
          rw [hsub] at q4
          exact q4
      · intro hbit
        refine Or.inr ⟨e, he, o, ho, ?_⟩
        rw [slotStart_eq e.2.1 S B hne.1 (by omega) hfit,
          slotStart_eq o.1 S B ho01 (by omega) hfit]
        have hsub : (e.2.1 - 1) * S + i - (e.2.1 - 1) * S = i := by omega
        rw [hsub]
        exact ⟨by omega, by omega, hbound, hbit⟩
    have hslots : ∀ e ∈ map, ∀ o, mapFind s.eqclass_map e.1 = some o →
        slotBits nb1 S (e.2.1 - 1) = slotBits s.bv_buffer S (o.1 - 1) := by
      intro e he o ho
      unfold slotBits
      apply List.map_congr_left
      intro i hi
      exact hslot e he o ho i (List.mem_range.mp hi)
    refine ⟨{ s with bv_buffer := nb1 }, ?_, rfl, hlen, hslots, ?_⟩
    · unfold reshuffle_bit_vectors
      rw [hB, hS, h1]
    · -- the multiset of the bitmaps
      have p1 : (map.map (fun e : Nat × (Nat × Nat) => e.2.1 - 1)).Perm
          (List.range map.length) := by
        have := hnew.map (fun x => x - 1)
        rw [List.map_map, range_succ_pred] at this
        exact this
      have p2 : (map.map (fun e : Nat × (Nat × Nat) =>
          ((mapFind s.eqclass_map e.1).map (fun o => o.1)).getD 0 - 1)).Perm
          (List.range map.length) := by
        have a1 := hkeys.map (fun k => ((mapFind s.eqclass_map k).map (fun o => o.1)).getD 0)
        rw [List.map_map, List.map_map] at a1
        have a2 := idOf_map_self s.eqclass_map hnd
        have a3 : (List.map ((fun k => ((mapFind s.eqclass_map k).map
            (fun o => o.1)).getD 0) ∘ Prod.fst) s.eqclass_map) =
            s.eqclass_map.map (fun e => e.2.1) := a2
        rw [a3] at a1
        have a4 := (a1.trans hold).map (fun x => x - 1)
        rw [List.map_map, range_succ_pred] at a4
        exact a4
      have q1 := (p1.map (slotBits nb1 S)).symm
      have q2 := p2.map (slotBits s.bv_buffer S)
      rw [List.map_map] at q1 q2
      have heq : List.map (slotBits nb1 S ∘ fun e : Nat × (Nat × Nat) => e.2.1 - 1) map =
          List.map (slotBits s.bv_buffer S ∘ fun e : Nat × (Nat × Nat) =>
            ((mapFind s.eqclass_map e.1).map (fun o => o.1)).getD 0 - 1) map := by
        apply List.map_congr_left
        intro e he
        obtain ⟨o, ho, _, _⟩ := hfound e he
        simp only [Function.comp]
        rw [ho]
        exact hslots e he o ho
      rw [heq] at q1
      exact q1.trans q2
  · intro h
    obtain ⟨x, hx⟩ := reshuffleLoop_missing s map (zeros (B * S)) h
    refine ⟨x, ?_⟩
    unfold reshuffle_bit_vectors
    rw [hB, hS, hx]

/-- Witness of C23 on `sampledIndex` (two samples, two slots): with the map that swaps the
ids of the hashes 1 and 3 the bitmap of the hash 1 goes from slot 0 to slot 1; a map with
the unknown hash 7 ends the process. -/
theorem reshuffle_bit_vectors_spec_witness :
    (∃ s1, reshuffle_bit_vectors sampledIndex [(1, (2, 1)), (3, (1, 1))] = .ok s1 ∧
      slotBits s1.bv_buffer 2 (2 - 1) = slotBits sampledIndex.bv_buffer 2 (1 - 1) ∧
      ((List.range 2).map (slotBits s1.bv_buffer 2)).Perm
        ((List.range 2).map (slotBits sampledIndex.bv_buffer 2))) ∧
    (∃ x, reshuffle_bit_vectors sampledIndex [(7, (1, 1))] = .error x) :=
  ⟨by
    obtain ⟨s1, h1, _, _, h4, h5⟩ :=
      (reshuffle_bit_vectors_spec sampledIndex [(1, (2, 1)), (3, (1, 1))] 2 2 rfl rfl
        (by norm_num) (by norm_num)).1 (by decide) (by decide) (by decide) (by decide)
        (by decide)
    exact ⟨s1, h1, h4 (1, (2, 1)) (by decide) (1, 1) (by decide), h5⟩,
  (reshuffle_bit_vectors_spec sampledIndex [(7, (1, 1))] 2 2 rfl rfl
    (by norm_num) (by norm_num)).2 ⟨(7, (1, 1)), by decide, by decide⟩⟩

/-! ## The flush of the buffer: bv_buffer_serialize -/

/-- C24: `bv_buffer_serialize` on a state with `S` samples and a buffer of `B > 0` slots
(`B * S` bits) stores under the file index `num_serializations` the first
`(|colors| mod B) * S` bits of the buffer, the whole buffer when `|colors| mod B = 0`, and
touches no file of another index; it increases `num_serializations` by one and leaves a buffer
of the same length with every bit zero; `eqclass_map` and the filter are unchanged. -/
theorem bv_buffer_serialize_spec (s : ColoredDbg) (S B : Nat) (hS : s.num_samples = S)
    (hB : s.colorClassPerBuffer = B) (hBpos : 0 < B) (hbuf : s.bv_buffer.length = B * S) :
    (bv_buffer_serialize s).files.find? (fun f => f.1 == s.num_serializations) =
      some (s.num_serializations,
        if s.eqclass_map.length % B = 0 then s.bv_buffer
        else s.bv_buffer.take (s.eqclass_map.length % B * S)) ∧
    (bv_buffer_serialize s).files.filter (fun f => f.1 != s.num_serializations) =
      s.files.filter (fun f => f.1 != s.num_serializations) ∧
    (bv_buffer_serialize s).num_serializations = s.num_serializations + 1 ∧
    (bv_buffer_serialize s).bv_buffer.length = s.bv_buffer.length ∧
    (∀ i, (bv_buffer_serialize s).bv_buffer.getD i false = false) ∧
    (bv_buffer_serialize s).bv_buffer = zeros (B * S) ∧
    (bv_buffer_serialize s).eqclass_map = s.eqclass_map ∧
    (bv_buffer_serialize s).dbg = s.dbg := by
  have hcontent : (if s.get_num_eqclasses % s.colorClassPerBuffer > 0 then
        resize s.bv_buffer (s.get_num_eqclasses % s.colorClassPerBuffer * s.num_samples)
      else s.bv_buffer) =
      (if s.eqclass_map.length % B = 0 then s.bv_buffer
        else s.bv_buffer.take (s.eqclass_map.length % B * S)) := by
    rw [hS, hB]
    unfold ColoredDbg.get_num_eqclasses
    by_cases h0 : s.eqclass_map.length % B = 0
    · rw [if_neg (by omega), if_pos h0]
    · rw [if_pos (by omega), if_neg h0]
      unfold resize
      have hlt : s.eqclass_map.length % B < B := Nat.mod_lt _ hBpos
      have hle : s.eqclass_map.length % B * S ≤ B * S := Nat.mul_le_mul_right S (by omega)
      have : s.eqclass_map.length % B * S - s.bv_buffer.length = 0 := by omega
      rw [this]
      unfold zeros
      simp
  have hfiles : (bv_buffer_serialize s).files =
      s.files.filter (fun f => f.1 != s.num_serializations) ++
        [(s.num_serializations,
          if s.eqclass_map.length % B = 0 then s.bv_buffer
          else s.bv_buffer.take (s.eqclass_map.length % B * S))] := by
    rw [← hcontent]
    rfl
  refine ⟨?_, ?_, rfl, ?_, ?_, ?_, rfl, rfl⟩
  · rw [hfiles, List.find?_append]
    have hnone : (s.files.filter (fun f => f.1 != s.num_serializations)).find?
        (fun f => f.1 == s.num_serializations) = none := by
      rw [List.find?_eq_none]
      intro f hf
      have := (List.mem_filter.mp hf).2
      simp only [bne_iff_ne, ne_eq] at this
      simp [this]
    rw [hnone]
    simp
  · rw [hfiles, List.filter_append, List.filter_filter]
    simp
  · show (zeros s.bv_buffer.length).length = s.bv_buffer.length
    unfold zeros
    rw [List.length_replicate]
  · intro i
    show (zeros s.bv_buffer.length).getD i false = false
    exact getD_zeros _ _
  · show zeros s.bv_buffer.length = zeros (B * S)
    rw [hbuf]

/-- Witness of C24 on `oneKmerIndex` (one color-class, two samples, two slots): the file 0
holds the two bits of the first slot. -/
theorem bv_buffer_serialize_spec_witness :
    (bv_buffer_serialize oneKmerIndex).files.find? (fun f => f.1 == 0) =
      some (0, [true, false]) ∧
    (bv_buffer_serialize oneKmerIndex).num_serializations = 0 + 1 ∧
    (bv_buffer_serialize oneKmerIndex).bv_buffer = zeros (2 * 2) :=
  ⟨(bv_buffer_serialize_spec oneKmerIndex 2 2 rfl rfl (by decide) (by decide)).1,
    (bv_buffer_serialize_spec oneKmerIndex 2 2 rfl rfl (by decide) (by decide)).2.2.1,
    (bv_buffer_serialize_spec oneKmerIndex 2 2 rfl rfl (by decide) (by decide)).2.2.2.2.2.1⟩

/-! ## A sampling construct never flushes -/

theorem add_kmer_files (vecHash : List Bool → Nat) (s : ColoredDbg) (key : Nat)
    (v : List Bool) :
    (∀ s1 b, add_kmer vecHash s key v = .ok (s1, b) →
      s1.files = s.files ∧ s1.num_serializations = s.num_serializations) ∧
    (∀ f s1, add_kmer vecHash s key v = .error (f, s1) →
      s1.files = s.files ∧ s1.num_serializations = s.num_serializations) := by
  obtain ⟨c1, c2, _, _⟩ := add_colorClass_files vecHash s v
  unfold add_kmer
  simp only
  constructor
  · intro s1 b h
    split at h
    · cases h
    · split at h
      · cases h
      · injection h with h
        injection h with h1 _
        rw [← h1]
        exact ⟨c1, c2⟩
  · intro f s1 h
    split at h
    · injection h with h
      injection h with _ h1
      rw [← h1]
      exact ⟨c1, c2⟩
    · split at h
      · injection h with h
        injection h with _ h1
        rw [← h1]
        exact ⟨c1, c2⟩
      · cases h

/-- A pass of a sampling `construct` writes no file and leaves `num_serializations`. -/
theorem afterGroup_sampling_files (vecHash : List Bool → Nat) (num_kmers : Nat)
    (hsamp : num_kmers < invalid) (s : ColoredDbg) (counter key : Nat) (v : List Bool) :
    (∀ s1 c b, afterGroup vecHash num_kmers s counter key v = .ok (s1, c, b) →
      s1.files = s.files ∧ s1.num_serializations = s.num_serializations) ∧
    (∀ f s1, afterGroup vecHash num_kmers s counter key v = .error (f, s1) →
      s1.files = s.files ∧ s1.num_serializations = s.num_serializations) := by
  obtain ⟨k1, k2⟩ := add_kmer_files vecHash s key v
  unfold afterGroup
  cases hk : add_kmer vecHash s key v with
  | error e =>
    obtain ⟨f, s1⟩ := e
    refine ⟨fun s1 c b hc => (by cases hc), ?_⟩
    intro f2 s2 hs
    injection hs with hs
    injection hs with _ hs2
    rw [← hs2]
    exact k2 f s1 hk
  | ok r =>
    obtain ⟨s1, added⟩ := r
    have k := k1 s1 added hk
    have hform : ∃ b, (if added = true ∧ s1.get_num_eqclasses % s1.colorClassPerBuffer = 0 then
          if num_kmers < invalid then
            (Except.ok (s1, (counter + 1) % 2 ^ 64, false) :
              Except (Fatal × ColoredDbg) (ColoredDbg × Nat × Bool))
          else .ok (bv_buffer_serialize s1, (counter + 1) % 2 ^ 64, true)
        else if (counter + 1) % 2 ^ 64 > num_kmers then .ok (s1, (counter + 1) % 2 ^ 64, false)
        else .ok (s1, (counter + 1) % 2 ^ 64, true)) = .ok (s1, (counter + 1) % 2 ^ 64, b) := by
      by_cases hf : added = true ∧ s1.get_num_eqclasses % s1.colorClassPerBuffer = 0
      · rw [if_pos hf, if_pos hsamp]
        exact ⟨false, rfl⟩
      · rw [if_neg hf]
        by_cases hc : (counter + 1) % 2 ^ 64 > num_kmers
        · rw [if_pos hc]
          exact ⟨false, rfl⟩
        · rw [if_neg hc]
          exact ⟨true, rfl⟩
    obtain ⟨b0, hb0⟩ := hform
    simp only
    rw [hb0]
    refine ⟨?_, fun f s2 hc => (by cases hc)⟩
    intro s2 c b hs
    injection hs with hs
    injection hs with hs1 _
    rw [← hs1]
    exact k

theorem constructAfter_sampling_files (ops : HeapOps) (vecHash : List Bool → Nat)
    (num_kmers : Nat) (hsamp : num_kmers < invalid) (n : Nat) :
    ∀ (c : List Iterator) (s : ColoredDbg) (counter : Nat),
      (constructAfter ops vecHash num_kmers n c s counter).files = s.files ∧
      (constructAfter ops vecHash num_kmers n c s counter).num_serializations =
        s.num_serializations := by
  induction n with
  | zero =>
    intro c s counter
    rw [constructAfter]
    exact ⟨rfl, rfl⟩
  | succ n ih =>
    intro c s counter
    cases c with
    | nil => rw [constructAfter]; exact ⟨rfl, rfl⟩
    | cons t tl =>
      rw [constructAfter]
      obtain ⟨a1, a2⟩ := afterGroup_sampling_files vecHash num_kmers hsamp s counter
        (groupLoop ops (heapKeys (t :: tl)) (t :: tl) (zeros s.num_samples)).2.2
        (groupLoop ops (heapKeys (t :: tl)) (t :: tl) (zeros s.num_samples)).2.1
      cases ha : afterGroup vecHash num_kmers s counter
          (groupLoop ops (heapKeys (t :: tl)) (t :: tl) (zeros s.num_samples)).2.2
          (groupLoop ops (heapKeys (t :: tl)) (t :: tl) (zeros s.num_samples)).2.1 with
      | error e =>
        obtain ⟨f, s1⟩ := e
        exact a2 f s1 ha
      | ok q =>
        obtain ⟨s1, counter1, b⟩ := q
        have k := a1 s1 counter1 b ha
        cases b with
        | true =>
          obtain ⟨i1, i2⟩ := ih
            (groupLoop ops (heapKeys (t :: tl)) (t :: tl) (zeros s.num_samples)).1 s1 counter1
          exact ⟨i1.trans k.1, i2.trans k.2⟩
        | false => exact k

/-- C25: a `construct` in sampling mode (`num_kmers < 2^64 - 1`), for every heap, bitmap
hash, state and input.  (1) After any number of passes through the loop the written buffer
files and `num_serializations` are those of the start.  (2) They are those of the start in
the state that the call returns, or in which it exits.  (3) The call returns at the end of
the pass in which `add_kmer` added a color-class that makes `|colors|` a multiple of `B`,
with the state that `add_kmer` left.  (4) The call returns or exits (the bound of the model
is not hit) for strictly increasing inputs and a state in which the filter holds each key
once. -/
theorem construct_sampling_no_flush (ops : HeapOps) (vecHash : List Bool → Nat)
    (num_kmers : Nat) (hsamp : num_kmers < invalid) :
    (∀ (n : Nat) (c : List Iterator) (s : ColoredDbg) (counter : Nat),
      (constructAfter ops vecHash num_kmers n c s counter).files = s.files ∧
      (constructAfter ops vecHash num_kmers n c s counter).num_serializations =
        s.num_serializations) ∧
    (∀ (s : ColoredDbg) (incqfs : List (List Nat)) (r : Except (Fatal × ColoredDbg) ColoredDbg),
      construct ops vecHash s incqfs num_kmers = some r →
      (match r with
        | .ok s1 => s1
        | .error e => e.2).files = s.files ∧
      (match r with
        | .ok s1 => s1
        | .error e => e.2).num_serializations = s.num_serializations) ∧
    (∀ (fuel : Nat) (t : Iterator) (tl : List Iterator) (s s1 : ColoredDbg) (counter : Nat),
      add_kmer vecHash s
        (groupLoop ops (heapKeys (t :: tl)) (t :: tl) (zeros s.num_samples)).2.2
        (groupLoop ops (heapKeys (t :: tl)) (t :: tl) (zeros s.num_samples)).2.1 =
          .ok (s1, true) →
      s1.get_num_eqclasses % s1.colorClassPerBuffer = 0 →
      constructLoop ops vecHash num_kmers (fuel + 1) (t :: tl) s counter = some (.ok s1)) ∧
    (∀ (IsHeap : List Iterator → Prop), HeapLaws ops IsHeap →
      ∀ (s : ColoredDbg) (incqfs : List (List Nat)),
        (∀ l ∈ incqfs, l.Sorted (· < ·)) → FilterInRange s →
        ∃ r, construct ops vecHash s incqfs num_kmers = some r) := by
  refine ⟨constructAfter_sampling_files ops vecHash num_kmers hsamp, ?_, ?_, ?_⟩
  · intro s incqfs r h
    unfold construct at h
    have hst := constructLoop_state ops vecHash num_kmers _ _ s 0 r h
    have hk := constructAfter_sampling_files ops vecHash num_kmers hsamp
      (heapKeys (seedHeap ops s.num_samples incqfs)) (seedHeap ops s.num_samples incqfs) s 0
    cases r with
    | ok s1 =>
      simp only at hst ⊢
      rw [hst]
      exact hk
    | error e =>
      simp only at hst ⊢
      rw [hst]
      exact hk
  · intro fuel t tl s s1 counter hadd hmod
    rw [constructLoop]
    have ha : afterGroup vecHash num_kmers s counter
        (groupLoop ops (heapKeys (t :: tl)) (t :: tl) (zeros s.num_samples)).2.2
        (groupLoop ops (heapKeys (t :: tl)) (t :: tl) (zeros s.num_samples)).2.1 =
        .ok (s1, (counter + 1) % 2 ^ 64, false) := by
      unfold afterGroup
      rw [hadd]
      simp only
      rw [if_pos ⟨trivial, hmod⟩, if_pos hsamp]
    rw [ha]
  · intro IsHeap laws s incqfs hsorted hr
    obtain ⟨q1, q2, _⟩ := seedHeap_spec ops IsHeap laws incqfs s.num_samples hsorted
    exact constructLoop_total ops IsHeap laws vecHash num_kmers s.num_samples _ _ s 0 q1 q2
      (le_refl _) rfl hr

/-- Witness of C25: the sampling build of two samples with the k-mers `[3, 5]` and `[5, 9]`
and a buffer of two bitmaps stops after the second k-mer, whose color-class fills the
buffer; no file is written although the buffer is full. -/
theorem construct_sampling_no_flush_witness :
    (10 < invalid) ∧
    construct exampleHeap exampleHash (ColoredDbg.init 4 8 2) [[3, 5], [5, 9]] 10 =
      some (.ok sampledIndex) ∧
    sampledIndex.get_num_eqclasses % sampledIndex.colorClassPerBuffer = 0 ∧
    sampledIndex.files = (ColoredDbg.init 4 8 2).files ∧
    sampledIndex.num_serializations = (ColoredDbg.init 4 8 2).num_serializations :=
  ⟨by decide, rfl, by decide,
    ((construct_sampling_no_flush exampleHeap exampleHash 10 (by decide)).2.1
      (ColoredDbg.init 4 8 2) [[3, 5], [5, 9]] (.ok sampledIndex) rfl).1,
    ((construct_sampling_no_flush exampleHeap exampleHash 10 (by decide)).2.1
      (ColoredDbg.init 4 8 2) [[3, 5], [5, 9]] (.ok sampledIndex) rfl).2⟩

/-! ## The reduction step of buildEdgeSets -/

theorem edgeLt_iff (a b : Edge) :
    edgeLt a b = true ↔ a.n1 < b.n1 ∨ (a.n1 = b.n1 ∧ a.n2 < b.n2) := by
  unfold edgeLt
  by_cases h : a.n1 = b.n1
  · rw [if_pos h, decide_eq_true_iff]
    constructor
    · intro h2; exact Or.inr ⟨h, h2⟩
    · rintro (h2 | h2)
      · omega
      · exact h2.2
  · rw [if_neg h, decide_eq_true_iff]
    constructor
    · intro h2; exact Or.inl h2
    · rintro (h2 | h2)
      · exact h2
      · exact absurd h2.1 h

theorem edgeLt_false_iff (a b : Edge) :
    edgeLt b a = false ↔ a.n1 < b.n1 ∨ (a.n1 = b.n1 ∧ a.n2 ≤ b.n2) := by
  rw [← Bool.not_eq_true, edgeLt_iff]
  omega

theorem edge_ext (a b : Edge) (h1 : a.n1 = b.n1) (h2 : a.n2 = b.n2) : a = b := by
  cases a
  cases b
  simp only at h1 h2
  rw [h1, h2]

theorem sortEdges_perm (l : List Edge) : (sortEdges l).Perm l :=
  List.perm_insertionSort _ l

theorem sortEdges_sorted (l : List Edge) :
    (sortEdges l).Sorted (fun a b => edgeLt b a = false) := by
  haveI : IsTotal Edge (fun a b => edgeLt b a = false) := ⟨by
    intro a b
    rw [edgeLt_false_iff, edgeLt_false_iff]
    omega⟩
  haveI : IsTrans Edge (fun a b => edgeLt b a = false) := ⟨by
    intro a b c
    rw [edgeLt_false_iff, edgeLt_false_iff, edgeLt_false_iff]
    omega⟩
  exact List.sorted_insertionSort _ l

theorem mem_uniqueFrom (last : Edge) (l : List Edge) (x : Edge) :
    (x ∈ uniqueFrom last l → x ∈ l) ∧ (x ∈ l → x = last ∨ x ∈ uniqueFrom last l) := by
  induction l generalizing last with
  | nil => simp [uniqueFrom]
  | cons b rest ih =>
    rw [uniqueFrom]
    by_cases h : last.n1 = b.n1 ∧ last.n2 = b.n2
    · rw [if_pos h]
      have hb : last = b := edge_ext _ _ h.1 h.2
      constructor
      · intro hx
        exact List.mem_cons_of_mem _ ((ih last).1 hx)
      · intro hx
        rcases List.mem_cons.mp hx with h1 | h1
        · exact Or.inl (h1.trans hb.symm)
        · exact (ih last).2 h1
    · rw [if_neg h]
      constructor
      · intro hx
        rcases List.mem_cons.mp hx with h1 | h1
        · rw [h1]; exact List.mem_cons_self _ _
        · exact List.mem_cons_of_mem _ ((ih b).1 h1)
      · intro hx
        rcases List.mem_cons.mp hx with h1 | h1
        · rw [h1]; exact Or.inr (List.mem_cons_self _ _)
        · rcases (ih b).2 h1 with h2 | h2
          · rw [h2]; exact Or.inr (List.mem_cons_self _ _)
          · exact Or.inr (List.mem_cons_of_mem _ h2)

theorem mem_uniqueEdges (l : List Edge) (x : Edge) : x ∈ uniqueEdges l ↔ x ∈ l := by
  cases l with
  | nil => simp [uniqueEdges]
  | cons a rest =>
    rw [uniqueEdges, List.mem_cons, List.mem_cons]
    constructor
    · rintro (h | h)
      · exact Or.inl h
      · exact Or.inr ((mem_uniqueFrom a rest x).1 h)
    · rintro (h | h)
      · exact Or.inl h
      · exact (mem_uniqueFrom a rest x).2 h

theorem sorted_uniqueFrom (l : List Edge) :
    ∀ last : Edge, (last :: l).Sorted (fun a b => edgeLt b a = false) →
      (∀ x ∈ uniqueFrom last l, edgeLt last x = true) ∧
      (uniqueFrom last l).Sorted (fun a b => edgeLt a b = true) := by
  induction l with
  | nil =>
    intro last _
    exact ⟨fun x hx => (by cases hx), List.sorted_nil⟩
  | cons b rest ih =>
    intro last hs
    have hs' := List.sorted_cons.mp hs
    have hsb := List.sorted_cons.mp hs'.2
    rw [uniqueFrom]
    by_cases h : last.n1 = b.n1 ∧ last.n2 = b.n2
    · rw [if_pos h]
      exact ih last (List.sorted_cons.mpr ⟨fun x hx => hs'.1 x (List.mem_cons_of_mem _ hx),
        hsb.2⟩)
    · rw [if_neg h]
      obtain ⟨i1, i2⟩ := ih b hs'.2
      have hlb : edgeLt last b = true := by
        have := hs'.1 b (List.mem_cons_self _ _)
        rw [edgeLt_false_iff] at this
        rw [edgeLt_iff]
        omega
      constructor
      · intro x hx
        rcases List.mem_cons.mp hx with h1 | h1
        · rw [h1]; exact hlb
        · have := i1 x h1
          rw [edgeLt_iff] at this hlb ⊢
          omega
      · exact List.sorted_cons.mpr ⟨i1, i2⟩

theorem sorted_uniqueEdges (l : List Edge) (hs : l.Sorted (fun a b => edgeLt b a = false)) :
    (uniqueEdges l).Sorted (fun a b => edgeLt a b = true) := by
  cases l with
  | nil => exact List.sorted_nil
  | cons a rest =>
    rw [uniqueEdges]
    obtain ⟨i1, i2⟩ := sorted_uniqueFrom rest a hs
    exact List.sorted_cons.mpr ⟨i1, i2⟩

theorem length_bucketPush (bl : List (List Edge)) (j : Nat) (e : Edge) :
    (bucketPush bl j e).length = bl.length := by
  unfold bucketPush
  rw [List.length_set]

theorem getD_bucketPush (bl : List (List Edge)) (j b : Nat) (e : Edge) :
    (bucketPush bl j e).getD b [] =
      if b = j ∧ j < bl.length then bl.getD j [] ++ [e] else bl.getD b [] := by
  unfold bucketPush
  rw [List.getD_eq_getElem?_getD, List.getElem?_set]
  by_cases hj : j = b
  · subst hj
    by_cases hl : j < bl.length
    · simp [hl]
    · have : bl.length ≤ j := by omega
      simp [hl, List.getElem?_eq_none this]
  · have : ¬ b = j := fun hc => hj hc.symm
    simp [hj, this]

/-- The buckets after a sequence of `push_back` calls: bucket `b` gains the pushed edges whose
bucket id is `b`, in the order of the pushes. -/
theorem getD_foldl_bucketPush (f : Edge → Nat) (L : List Edge) :
    ∀ (bl : List (List Edge)) (b : Nat),
      (L.foldl (fun bl edge => bucketPush bl (f edge) edge) bl).length = bl.length ∧
      (L.foldl (fun bl edge => bucketPush bl (f edge) edge) bl).getD b [] =
        bl.getD b [] ++ (if b < bl.length then L.filter (fun e => decide (f e = b)) else []) := by
  induction L with
  | nil =>
    intro bl b
    simp
  | cons a rest ih =>
    intro bl b
    rw [List.foldl_cons]
    obtain ⟨i1, i2⟩ := ih (bucketPush bl (f a) a) b
    rw [i1, i2, length_bucketPush, getD_bucketPush]
    refine ⟨rfl, ?_⟩
    by_cases hb : b < bl.length
    · rw [if_pos hb, if_pos hb, List.filter_cons]
      by_cases hfa : f a = b
      · have h1 : b = f a ∧ f a < bl.length := ⟨hfa.symm, by omega⟩
        rw [if_pos h1, hfa]
        simp
      · have h1 : ¬ (b = f a ∧ f a < bl.length) := fun hc => hfa hc.1.symm
        rw [if_neg h1]
        simp [hfa]
    · rw [if_neg hb, if_neg hb]
      have h1 : ¬ (b = f a ∧ f a < bl.length) := by omega
      rw [if_neg h1]

theorem getD_reduceFile (zero nb : Nat) (file : List Edge) (bl : List (List Edge)) (b : Nat) :
    (reduceFile zero nb bl file).length = bl.length ∧
    ∀ x, x ∈ (reduceFile zero nb bl file).getD b [] ↔
      x ∈ bl.getD b [] ∨ (x ∈ file ∧ MST.getBucketId zero nb x.n1 x.n2 = b ∧ b < bl.length) := by
  unfold reduceFile
  obtain ⟨i1, i2⟩ := getD_foldl_bucketPush (fun e => MST.getBucketId zero nb e.n1 e.n2)
    (uniqueEdges (sortEdges file)) bl b
  refine ⟨i1, ?_⟩
  intro x
  rw [i2, List.mem_append]
  by_cases hb : b < bl.length
  · rw [if_pos hb, List.mem_filter, mem_uniqueEdges, (sortEdges_perm file).mem_iff,
      decide_eq_true_iff]
    tauto
  · rw [if_neg hb]
    simp only [List.not_mem_nil, or_false]
    tauto

theorem getD_foldl_reduceFile (zero nb : Nat) (scratch : List (List Edge)) :
    ∀ (bl : List (List Edge)) (b : Nat),
      (scratch.foldl (reduceFile zero nb) bl).length = bl.length ∧
      ∀ x, x ∈ (scratch.foldl (reduceFile zero nb) bl).getD b [] ↔
        x ∈ bl.getD b [] ∨
          ((∃ file ∈ scratch, x ∈ file) ∧ MST.getBucketId zero nb x.n1 x.n2 = b ∧
            b < bl.length) := by
  induction scratch with
  | nil =>
    intro bl b
    simp
  | cons file rest ih =>
    intro bl b
    rw [List.foldl_cons]
    obtain ⟨i1, i2⟩ := ih (reduceFile zero nb bl file) b
    obtain ⟨j1, j2⟩ := getD_reduceFile zero nb file bl b
    refine ⟨i1.trans j1, ?_⟩
    intro x
    rw [i2 x, j2 x, j1]
    constructor
    · rintro (h | ⟨⟨f, hf, hx⟩, h2, h3⟩)
      · rcases h with h | ⟨h1, h2, h3⟩
        · exact Or.inl h
        · exact Or.inr ⟨⟨file, List.mem_cons_self _ _, h1⟩, h2, h3⟩
      · exact Or.inr ⟨⟨f, List.mem_cons_of_mem _ hf, hx⟩, h2, h3⟩
    · rintro (h | ⟨⟨f, hf, hx⟩, h2, h3⟩)
      · exact Or.inl (Or.inl h)
      · rcases List.mem_cons.mp hf with h4 | h4
        · subst h4
          exact Or.inl (Or.inr ⟨hx, h2, h3⟩)
        · exact Or.inr ⟨⟨f, h4, hx⟩, h2, h3⟩

theorem getD_map_nil (g : List Edge → List Edge) (hg : g [] = []) (l : List (List Edge))
    (b : Nat) : (l.map g).getD b [] = g (l.getD b []) := by
  rw [List.getD_eq_getElem?_getD, List.getD_eq_getElem?_getD, List.getElem?_map]
  cases l[b]? with
  | none => simp [hg]
  | some v => rfl

/-- The buckets that the reduction step leaves: bucket `b` holds, strictly increasing, the
edges of the scratch files whose bucket id is `b`. -/
theorem getD_reduceEdges (zero nb : Nat) (scratch : List (List Edge)) (b : Nat) :
    (reduceEdges zero nb scratch).length = nb * nb ∧
    ((reduceEdges zero nb scratch).getD b []).Sorted (fun a b => edgeLt a b = true) ∧
    ∀ x, x ∈ (reduceEdges zero nb scratch).getD b [] ↔
      (∃ file ∈ scratch, x ∈ file) ∧ MST.getBucketId zero nb x.n1 x.n2 = b ∧ b < nb * nb := by
  unfold reduceEdges
  obtain ⟨i1, i2⟩ := getD_foldl_reduceFile zero nb scratch (List.replicate (nb * nb) []) b
  rw [List.length_replicate] at i1 i2
  rw [List.length_map, getD_map_nil _ rfl]
  refine ⟨i1, sorted_uniqueEdges _ (sortEdges_sorted _), ?_⟩
  intro x
  rw [mem_uniqueEdges, (sortEdges_perm _).mem_iff, i2 x]
  have : (List.replicate (nb * nb) ([] : List Edge)).getD b [] = [] := by
    rw [List.getD_eq_getElem?_getD]
    by_cases h : b < nb * nb
    · simp [List.getElem?_replicate, h]
    · simp [List.getElem?_replicate, h]
  rw [this]
  simp

/-- C26: after the reduction step of `buildEdgeSets` over the scratch files `scratch`
(`zero` being the value of the field at that point, `nb` the number of buffers), there are
`nb * nb` buckets, every bucket is strictly increasing in the lexicographic order of
`(n1, n2)`, every edge read from a scratch file is in the bucket `getBucketId(n1, n2)` when
that bucket exists, and an edge of a bucket `b` was read from a scratch file and has the
bucket id `b`. -/
theorem reduceEdges_spec (zero nb : Nat) (scratch : List (List Edge)) :
    (reduceEdges zero nb scratch).length = nb * nb ∧
    (∀ b, ((reduceEdges zero nb scratch).getD b []).Sorted
      (fun e1 e2 => e1.n1 < e2.n1 ∨ (e1.n1 = e2.n1 ∧ e1.n2 < e2.n2))) ∧
    (∀ file ∈ scratch, ∀ e ∈ file, MST.getBucketId zero nb e.n1 e.n2 < nb * nb →
      e ∈ (reduceEdges zero nb scratch).getD (MST.getBucketId zero nb e.n1 e.n2) []) ∧
    (∀ b, ∀ e ∈ (reduceEdges zero nb scratch).getD b [],
      (∃ file ∈ scratch, e ∈ file) ∧ MST.getBucketId zero nb e.n1 e.n2 = b) := by
  refine ⟨(getD_reduceEdges zero nb scratch 0).1, ?_, ?_, ?_⟩
  · intro b
    have := (getD_reduceEdges zero nb scratch b).2.1
    exact this.imp (fun h => (edgeLt_iff _ _).mp h)
  · intro file hf e he hb
    exact ((getD_reduceEdges zero nb scratch _).2.2 e).mpr ⟨⟨file, hf, he⟩, rfl, hb⟩
  · intro b e he
    obtain ⟨h1, h2, _⟩ := ((getD_reduceEdges zero nb scratch b).2.2 e).mp he
    exact ⟨h1, h2⟩

/-- Witness of C26: two scratch files with a repeated edge, one buffer (one bucket): the
bucket is `(0, 1), (0, 2), (1, 2)`. -/
theorem reduceEdges_spec_witness :
    MST.getBucketId (2 ^ 32 - 1) 1 0 2 < 1 * 1 ∧
    (⟨0, 2⟩ : Edge) ∈ (reduceEdges (2 ^ 32 - 1) 1
      [[⟨1, 2⟩, ⟨0, 2⟩, ⟨0, 2⟩], [⟨0, 2⟩, ⟨0, 1⟩]]).getD (MST.getBucketId (2 ^ 32 - 1) 1 0 2) [] ∧
    reduceEdges (2 ^ 32 - 1) 1 [[⟨1, 2⟩, ⟨0, 2⟩, ⟨0, 2⟩], [⟨0, 2⟩, ⟨0, 1⟩]] =
      [[⟨0, 1⟩, ⟨0, 2⟩, ⟨1, 2⟩]] :=
  ⟨by decide,
    (reduceEdges_spec (2 ^ 32 - 1) 1 [[⟨1, 2⟩, ⟨0, 2⟩, ⟨0, 2⟩], [⟨0, 2⟩, ⟨0, 1⟩]]).2.2.1
      [⟨1, 2⟩, ⟨0, 2⟩, ⟨0, 2⟩] (by decide) ⟨0, 2⟩ (by decide) (by decide),
    by decide⟩

/-! ## The root edges of buildEdgeSets -/

theorem setInsert_sub (ops : KmerOps) (l : List workItem) (x y : workItem)
    (h : y ∈ setInsert ops l x) : y ∈ l ∨ y = x := by
  induction l with
  | nil =>
    rw [setInsert, List.mem_singleton] at h
    exact Or.inr h
  | cons a t ih =>
    rw [setInsert] at h
    split at h
    · rcases List.mem_cons.mp h with h1 | h1
      · exact Or.inr h1
      · exact Or.inl h1
    · split at h
      · rcases List.mem_cons.mp h with h1 | h1
        · rw [h1]; exact Or.inl (List.mem_cons_self _ _)
        · rcases ih h1 with h2 | h2
          · exact Or.inl (List.mem_cons_of_mem _ h2)
          · exact Or.inr h2
      · exact Or.inl h

theorem neighborStep_colorId (ops : KmerOps) (kmerHash : Nat → Nat) (cqf : CQF) (n : workItem)
    (result : List workItem) (e : Nat) (x : workItem)
    (h : x ∈ neighborStep ops kmerHash cqf n result e) :
    x ∈ result ∨ ∃ v, cqf.query (kmerHash v) ≠ 0 ∧
      x.colorId = (cqf.query (kmerHash v) - 1) % 2 ^ 32 := by
  unfold neighborStep MST.exists at h
  by_cases hq : cqf.query (kmerHash e) ≠ 0
  · rw [if_pos hq] at h
    simp only at h
    split at h
    · rcases setInsert_sub ops result _ x h with h1 | h1
      · exact Or.inl h1
      · refine Or.inr ⟨e, hq, ?_⟩
        rw [h1]
    · exact Or.inl h
  · rw [if_neg hq] at h
    exact Or.inl h

theorem neighbors_colorId (ops : KmerOps) (kmerHash : Nat → Nat) (cqf : CQF) (n : workItem)
    (x : workItem) (h : x ∈ MST.neighbors ops kmerHash cqf n) :
    ∃ v, cqf.query (kmerHash v) ≠ 0 ∧ x.colorId = (cqf.query (kmerHash v) - 1) % 2 ^ 32 := by
  unfold MST.neighbors at h
  have key : ∀ (bs : List Nat) (result : List workItem),
      x ∈ bs.foldl (fun result b =>
          neighborStep ops kmerHash cqf n
            (neighborStep ops kmerHash cqf n result (ops.shl n.node b)) (ops.shr b n.node))
          result →
      x ∈ result ∨ ∃ v, cqf.query (kmerHash v) ≠ 0 ∧
        x.colorId = (cqf.query (kmerHash v) - 1) % 2 ^ 32 := by
    intro bs
    induction bs with
    | nil => intro result h; exact Or.inl h
    | cons b rest ih =>
      intro result h
      rw [List.foldl_cons] at h
      rcases ih _ h with h1 | h1
      · rcases neighborStep_colorId ops kmerHash cqf n _ _ x h1 with h2 | h2
        · rcases neighborStep_colorId ops kmerHash cqf n _ _ x h2 with h3 | h3
          · exact Or.inl h3
          · exact Or.inr h3
        · exact Or.inr h2
      · exact Or.inr h1
  rcases key ops.bases [] h with h1 | h1
  · cases h1
  · exact h1

theorem cqf_query_mem (f : CQF) (key : Nat) (h : f.query key ≠ 0) :
    ∃ e ∈ f.slots, e.2 = f.query key := by
  unfold CQF.query at h ⊢
  cases hf : f.slots.find? (fun e => e.1 == key) with
  | none => rw [hf] at h; exact absurd rfl h
  | some e => exact ⟨e, List.mem_of_find?_eq_some hf, rfl⟩

/-- The edges that `findNeighborEdges` appends for a filter entry start at the color id of
the entry and end at the color id of some k-mer of the filter. -/
theorem findNeighborEdges_ids (ops : KmerOps) (kmerHash : Nat → Nat) (k : Nat) (cqf : CQF)
    (keyobj : Nat × Nat) (edgeList : List Edge) (x : Edge)
    (h : x ∈ MST.findNeighborEdges ops kmerHash k cqf keyobj edgeList) :
    x ∈ edgeList ∨ (x.n1 = (keyobj.2 + (2 ^ 64 - 1)) % 2 ^ 64 % 2 ^ 32 ∧
      ∃ e ∈ cqf.slots, e.2 ≠ 0 ∧ x.n2 = (e.2 - 1) % 2 ^ 32) := by
  rw [findNeighborEdges_eq_append, List.mem_append] at h
  rcases h with h | h
  · exact Or.inl h
  · obtain ⟨nei, hnei, hx⟩ := List.mem_map.mp h
    obtain ⟨v, hv, hc⟩ := neighbors_colorId ops kmerHash cqf _ nei (List.mem_filter.mp hnei).1
    obtain ⟨e, he, he2⟩ := cqf_query_mem cqf _ hv
    refine Or.inr ⟨?_, e, he, ?_, ?_⟩
    · rw [← hx]
    · rw [he2]; exact hv
    · rw [← hx, he2]
      exact hc

/-- The state of a worker after the loop over its entries: the header count is the number of
edges written, every edge it holds comes from `findNeighborEdges` on one of its entries, and
`localMaxId` is the largest `count - 1` of its entries. -/
theorem foldl_pairedStep (ops : KmerOps) (kmerHash : Nat → Nat) (k : Nat) (cqf : CQF)
    (sz : Nat) (es : List (Nat × Nat)) :
    ∀ st : PairedState, st.cnt = st.tmpfile.length →
      (es.foldl (pairedStep ops kmerHash k cqf sz) st).cnt =
        (es.foldl (pairedStep ops kmerHash k cqf sz) st).tmpfile.length ∧
      (∀ x ∈ (es.foldl (pairedStep ops kmerHash k cqf sz) st).tmpfile ++
          (es.foldl (pairedStep ops kmerHash k cqf sz) st).edgeList,
        x ∈ st.tmpfile ++ st.edgeList ∨
          ((∃ e ∈ es, x.n1 = (e.2 + (2 ^ 64 - 1)) % 2 ^ 64 % 2 ^ 32) ∧
            ∃ e ∈ cqf.slots, e.2 ≠ 0 ∧ x.n2 = (e.2 - 1) % 2 ^ 32)) ∧
      (∀ e ∈ es, (e.2 + (2 ^ 64 - 1)) % 2 ^ 64 ≤
        (es.foldl (pairedStep ops kmerHash k cqf sz) st).localMaxId) ∧
      st.localMaxId ≤ (es.foldl (pairedStep ops kmerHash k cqf sz) st).localMaxId ∧
      ((es.foldl (pairedStep ops kmerHash k cqf sz) st).localMaxId = st.localMaxId ∨
        ∃ e ∈ es, (e.2 + (2 ^ 64 - 1)) % 2 ^ 64 =
          (es.foldl (pairedStep ops kmerHash k cqf sz) st).localMaxId) := by
  induction es with
  | nil =>
    intro st h
    refine ⟨h, fun x hx => Or.inl hx, fun e he => (by cases he), le_refl _, Or.inl rfl⟩
  | cons a rest ih =>
    intro st h
    rw [List.foldl_cons]
    have hall : (pairedStep ops kmerHash k cqf sz st a).tmpfile ++
        (pairedStep ops kmerHash k cqf sz st a).edgeList =
        st.tmpfile ++ MST.findNeighborEdges ops kmerHash k cqf a st.edgeList := by
      unfold pairedStep
      split
      · simp
      · rfl
    have hcnt : (pairedStep ops kmerHash k cqf sz st a).cnt =
        (pairedStep ops kmerHash k cqf sz st a).tmpfile.length := by
      unfold pairedStep
      split
      · simp only [List.length_append]
        rw [h]
      · exact h
    have hmax : (pairedStep ops kmerHash k cqf sz st a).localMaxId =
        if (a.2 + (2 ^ 64 - 1)) % 2 ^ 64 > st.localMaxId then (a.2 + (2 ^ 64 - 1)) % 2 ^ 64
        else st.localMaxId := by
      unfold pairedStep
      split
      · simp only
      · simp only
    obtain ⟨i1, i2, i3, i4, i5⟩ := ih (pairedStep ops kmerHash k cqf sz st a) hcnt
    generalize (List.foldl (pairedStep ops kmerHash k cqf sz)
      (pairedStep ops kmerHash k cqf sz st a) rest) = fin at i1 i2 i3 i4 i5 ⊢
    have hmax1 : st.localMaxId ≤ (pairedStep ops kmerHash k cqf sz st a).localMaxId ∧
        (a.2 + (2 ^ 64 - 1)) % 2 ^ 64 ≤ (pairedStep ops kmerHash k cqf sz st a).localMaxId ∧
        ((pairedStep ops kmerHash k cqf sz st a).localMaxId = st.localMaxId ∨
          (a.2 + (2 ^ 64 - 1)) % 2 ^ 64 =
            (pairedStep ops kmerHash k cqf sz st a).localMaxId) := by
      rw [hmax]
      split
      · exact ⟨by omega, le_refl _, Or.inr rfl⟩
      · exact ⟨le_refl _, by omega, Or.inl rfl⟩
    generalize (pairedStep ops kmerHash k cqf sz st a).localMaxId = m1 at hmax1 i4 i5
    obtain ⟨m1a, m1b, m1c⟩ := hmax1
    refine ⟨i1, ?_, ?_, ?_, ?_⟩
    · intro x hx
      rcases i2 x hx with h1 | ⟨⟨e, he, h1⟩, h2⟩
      · rw [hall, List.mem_append] at h1
        rcases h1 with h1 | h1
        · exact Or.inl (List.mem_append_left _ h1)
        · rcases findNeighborEdges_ids ops kmerHash k cqf a st.edgeList x h1 with h2 | ⟨h2, h3⟩
          · exact Or.inl (List.mem_append_right _ h2)
          · exact Or.inr ⟨⟨a, List.mem_cons_self _ _, h2⟩, h3⟩
      · exact Or.inr ⟨⟨e, List.mem_cons_of_mem _ he, h1⟩, h2⟩
    · intro e he
      rcases List.mem_cons.mp he with h1 | h1
      · subst h1
        exact le_trans m1b i4
      · exact i3 e h1
    · exact le_trans m1a i4
    · rcases i5 with h1 | ⟨e, he, h1⟩
      · rcases m1c with h2 | h2
        · exact Or.inl (h1.trans h2)
        · exact Or.inr ⟨a, List.mem_cons_self _ _, h2.trans h1.symm⟩
      · exact Or.inr ⟨e, List.mem_cons_of_mem _ he, h1⟩

theorem worker_spec (ops : KmerOps) (kmerHash : Nat → Nat) (k : Nat) (cqf : CQF)
    (nThreads : Nat) (es : List (Nat × Nat)) :
    (buildPairedColorIdEdgesInParallel ops kmerHash k cqf nThreads es).tmpfile.take
        (buildPairedColorIdEdgesInParallel ops kmerHash k cqf nThreads es).cnt =
      (buildPairedColorIdEdgesInParallel ops kmerHash k cqf nThreads es).tmpfile ∧
    (∀ x ∈ (buildPairedColorIdEdgesInParallel ops kmerHash k cqf nThreads es).tmpfile,
      (∃ e ∈ es, x.n1 = (e.2 + (2 ^ 64 - 1)) % 2 ^ 64 % 2 ^ 32) ∧
        ∃ e ∈ cqf.slots, e.2 ≠ 0 ∧ x.n2 = (e.2 - 1) % 2 ^ 32) ∧
    (∀ e ∈ es, (e.2 + (2 ^ 64 - 1)) % 2 ^ 64 ≤
      (buildPairedColorIdEdgesInParallel ops kmerHash k cqf nThreads es).localMaxId) ∧
    ((buildPairedColorIdEdgesInParallel ops kmerHash k cqf nThreads es).localMaxId = 0 ∨
      ∃ e ∈ es, (e.2 + (2 ^ 64 - 1)) % 2 ^ 64 =
        (buildPairedColorIdEdgesInParallel ops kmerHash k cqf nThreads es).localMaxId) := by
  obtain ⟨i1, i2, i3, _, i5⟩ := foldl_pairedStep ops kmerHash k cqf
    (MAX_ALLOWED_TMP_EDGES / nThreads) es
    { tmpfile := [], cnt := 0, edgeList := [], localMaxId := 0, kmerCntr := 0 } rfl
  unfold buildPairedColorIdEdgesInParallel
  generalize (List.foldl (pairedStep ops kmerHash k cqf (MAX_ALLOWED_TMP_EDGES / nThreads))
    { tmpfile := [], cnt := 0, edgeList := [], localMaxId := 0, kmerCntr := 0 } es) = fin
    at i1 i2 i3 i5 ⊢
  refine ⟨?_, ?_, i3, i5⟩
  · simp only
    rw [i1, ← List.length_append]
    exact List.take_length _
  · intro x hx
    rcases i2 x hx with h | h
    · simp at h
    · exact h

theorem commitMaxId_spec (W : List PairedState) :
    (∀ w ∈ W, w.localMaxId ≤ commitMaxId W) ∧
    (commitMaxId W = 0 ∨ ∃ w ∈ W, w.localMaxId = commitMaxId W) := by
  unfold commitMaxId
  have key : ∀ (W : List PairedState) (m : Nat),
      m ≤ W.foldl (fun maxId w => if w.localMaxId > maxId then w.localMaxId else maxId) m ∧
      (∀ w ∈ W, w.localMaxId ≤
        W.foldl (fun maxId w => if w.localMaxId > maxId then w.localMaxId else maxId) m) ∧
      (W.foldl (fun maxId w => if w.localMaxId > maxId then w.localMaxId else maxId) m = m ∨
        ∃ w ∈ W, w.localMaxId =
          W.foldl (fun maxId w => if w.localMaxId > maxId then w.localMaxId else maxId) m) := by
    intro W
    induction W with
    | nil =>
      intro m
      exact ⟨le_refl _, fun w hw => (by cases hw), Or.inl rfl⟩
    | cons a rest ih =>
      intro m
      rw [List.foldl_cons]
      obtain ⟨i1, i2, i3⟩ := ih (if a.localMaxId > m then a.localMaxId else m)
      generalize List.foldl (fun maxId w => if w.localMaxId > maxId then w.localMaxId else maxId)
        (if a.localMaxId > m then a.localMaxId else m) rest = fin at i1 i2 i3 ⊢
      have hm : m ≤ (if a.localMaxId > m then a.localMaxId else m) ∧
          a.localMaxId ≤ (if a.localMaxId > m then a.localMaxId else m) ∧
          ((if a.localMaxId > m then a.localMaxId else m) = m ∨
            (if a.localMaxId > m then a.localMaxId else m) = a.localMaxId) := by
        split
        · exact ⟨by omega, le_refl _, Or.inr rfl⟩
        · exact ⟨le_refl _, by omega, Or.inl rfl⟩
      generalize (if a.localMaxId > m then a.localMaxId else m) = m1 at hm i1 i3
      obtain ⟨m1a, m1b, m1c⟩ := hm
      refine ⟨by omega, ?_, ?_⟩
      · intro w hw
        rcases List.mem_cons.mp hw with h | h
        · subst h; omega
        · exact i2 w h
      · rcases i3 with h | ⟨w, hw, h⟩
        · rcases m1c with h2 | h2
          · exact Or.inl (h.trans h2)
          · exact Or.inr ⟨a, List.mem_cons_self _ _, (h.trans h2).symm⟩
        · exact Or.inr ⟨w, List.mem_cons_of_mem _ hw, h⟩
  obtain ⟨_, k2, k3⟩ := key W 0
  exact ⟨k2, k3⟩

theorem map_range_getD (l : List (List (Nat × Nat))) :
    (List.range l.length).map (fun i => l.getD i []) = l := by
  apply List.ext_getElem
  · simp
  · intro i h1 h2
    simp [List.getD_eq_getElem?_getD, List.getElem?_eq_getElem h2]

theorem bucketPush_cons_succ (a : List Edge) (t : List (List Edge)) (j : Nat) (e : Edge) :
    bucketPush (a :: t) (j + 1) e = a :: bucketPush t j e := by
  unfold bucketPush
  simp

theorem bucketPush_flatten_perm (bl : List (List Edge)) (j : Nat) (e : Edge)
    (hj : j < bl.length) : (bucketPush bl j e).flatten.Perm (e :: bl.flatten) := by
  induction bl generalizing j with
  | nil => simp at hj
  | cons a t ih =>
    cases j with
    | zero =>
      unfold bucketPush
      simp only [List.getD_cons_zero, List.set_cons_zero, List.flatten_cons, List.append_assoc,
        List.singleton_append]
      exact List.perm_middle
    | succ j =>
      rw [bucketPush_cons_succ, List.flatten_cons, List.flatten_cons]
      have := ih j (by simpa using hj)
      exact (List.Perm.append_left a this).trans List.perm_middle

theorem foldl_bucketPush_flatten_perm (f : Edge → Nat) (L : List Edge) :
    ∀ bl : List (List Edge), (∀ e ∈ L, f e < bl.length) →
      (L.foldl (fun bl edge => bucketPush bl (f edge) edge) bl).flatten.Perm
        (L ++ bl.flatten) := by
  induction L with
  | nil => intro bl _; simp
  | cons a rest ih =>
    intro bl h
    rw [List.foldl_cons]
    have h1 := ih (bucketPush bl (f a) a) (by
      intro e he
      rw [length_bucketPush]
      exact h e (List.mem_cons_of_mem _ he))
    have h2 := bucketPush_flatten_perm bl (f a) a (h a (List.mem_cons_self _ _))
    refine h1.trans ?_
    refine (List.Perm.append_left rest h2).trans ?_
    rw [List.cons_append]
    exact List.perm_middle

theorem mem_flatten_getD (l : List (List Edge)) (x : Edge) (h : x ∈ l.flatten) :
    ∃ b, x ∈ l.getD b [] := by
  obtain ⟨bucket, hb, hx⟩ := List.mem_flatten.mp h
  obtain ⟨i, hi⟩ := List.mem_iff_getElem?.mp hb
  refine ⟨i, ?_⟩
  rw [List.getD_eq_getElem?_getD, hi]
  exact hx

theorem bucket_in_range (a nb : Nat) (h : a < nb) : a * nb + a < nb * nb := by
  have h1 : (a + 1) * nb ≤ nb * nb := Nat.mul_le_mul_right nb h
  rw [Nat.add_mul, Nat.one_mul] at h1
  omega

theorem buildEdgeSets_eq (ops : KmerOps) (kmerHash : Nat → Nat) (k : Nat) (cqf : CQF)
    (nThreads nb zero0 : Nat) (parts : List (List (Nat × Nat))) (mx : Nat)
    (hmx : commitMaxId ((List.range nThreads).map (fun i =>
      buildPairedColorIdEdgesInParallel ops kmerHash k cqf nThreads (parts.getD i []))) = mx)
    (h32 : mx + 1 < 2 ^ 32) :
    MST.buildEdgeSets ops kmerHash k cqf nThreads nb zero0 parts =
      some
        { edgeBucketList :=
            (List.range (mx + 1)).foldl
              (fun bl colorId =>
                bucketPush bl (MST.getBucketId (mx + 1) nb colorId (mx + 1))
                  { n1 := colorId, n2 := mx + 1 })
              (reduceEdges zero0 nb (((List.range nThreads).map (fun i =>
                buildPairedColorIdEdgesInParallel ops kmerHash k cqf nThreads
                  (parts.getD i []))).map (fun w => w.tmpfile.take w.cnt)))
          num_colorClasses := mx + 1 + 1
          zero := mx + 1 } := by
  unfold MST.buildEdgeSets
  simp only []
  rw [hmx]
  have e1 : (mx + 1) % 2 ^ 64 = mx + 1 := Nat.mod_eq_of_lt (by omega)
  have e2 : (mx + 1) % 2 ^ 32 = mx + 1 := Nat.mod_eq_of_lt h32
  have e3 : (mx + 1 + 1) % 2 ^ 64 = mx + 1 + 1 := Nat.mod_eq_of_lt (by omega)
  rw [e1, e2, e3, if_pos h32]

/-- C27: `buildEdgeSets` on a fresh `MST` object, the workers running over parts of the
filter entries that together are the filter (non-empty, values in `1 .. 2^32 - 1`, every color
id in one of the `nb` buffers).  The call returns; it sets `zero` to the largest filter value,
that is the largest 0-based color id plus one, and `num_colorClasses` to `zero + 1`; the
buckets hold each edge `(c, zero)` with `c < zero` exactly once, in the bucket
`getBucketId(c, zero)`, and no other edge with the endpoint `zero`. -/
theorem buildEdgeSets_root_edges (ops : KmerOps) (kmerHash : Nat → Nat) (k : Nat) (cqf : CQF)
    (nThreads nb zero0 : Nat) (parts : List (List (Nat × Nat)))
    (hlen : parts.length = nThreads) (hparts : parts.flatten.Perm cqf.slots)
    (hne : cqf.slots ≠ []) (hval : ∀ e ∈ cqf.slots, 1 ≤ e.2 ∧ e.2 < 2 ^ 32)
    (hbuf : ∀ e ∈ cqf.slots, (e.2 - 1) / NUM_BV_BUFFER < nb) :
    ∃ r, MST.buildEdgeSets ops kmerHash k cqf nThreads nb zero0 parts = some r ∧
      (∀ e ∈ cqf.slots, e.2 - 1 < r.zero) ∧ (∃ e ∈ cqf.slots, e.2 = r.zero) ∧
      r.num_colorClasses = r.zero + 1 ∧
      (∀ c, c < r.zero →
        ({ n1 := c, n2 := r.zero } : Edge) ∈
          r.edgeBucketList.getD (MST.getBucketId r.zero nb c r.zero) [] ∧
        r.edgeBucketList.flatten.count { n1 := c, n2 := r.zero } = 1) ∧
      (∀ e ∈ r.edgeBucketList.flatten, e.n1 = r.zero ∨ e.n2 = r.zero →
        e.n2 = r.zero ∧ e.n1 < r.zero) := by
  have hW : (List.range nThreads).map (fun i =>
      buildPairedColorIdEdgesInParallel ops kmerHash k cqf nThreads (parts.getD i [])) =
      parts.map (buildPairedColorIdEdgesInParallel ops kmerHash k cqf nThreads) := by
    have := congrArg (List.map (buildPairedColorIdEdgesInParallel ops kmerHash k cqf nThreads))
      (map_range_getD parts)
    rw [List.map_map, hlen] at this
    exact this
  obtain ⟨mx, hmx⟩ : ∃ mx, commitMaxId ((List.range nThreads).map (fun i =>
      buildPairedColorIdEdgesInParallel ops kmerHash k cqf nThreads (parts.getD i []))) = mx :=
    ⟨_, rfl⟩
  obtain ⟨c1, c2⟩ := commitMaxId_spec ((List.range nThreads).map (fun i =>
      buildPairedColorIdEdgesInParallel ops kmerHash k cqf nThreads (parts.getD i [])))
  rw [hmx, hW] at c1 c2
  have hid : ∀ e ∈ cqf.slots, (e.2 + (2 ^ 64 - 1)) % 2 ^ 64 = e.2 - 1 := by
    intro e he
    have := hval e he
    omega
  have hsub : ∀ p ∈ parts, ∀ e ∈ p, e ∈ cqf.slots := by
    intro p hp e he
    exact hparts.mem_iff.mp (List.mem_flatten.mpr ⟨p, hp, he⟩)
  -- mx is the largest color id of the filter
  have hle : ∀ e ∈ cqf.slots, e.2 - 1 ≤ mx := by
    intro e he
    obtain ⟨p, hp, hep⟩ := List.mem_flatten.mp (hparts.mem_iff.mpr he)
    have h1 := (worker_spec ops kmerHash k cqf nThreads p).2.2.1 e hep
    have h2 := c1 _ (List.mem_map_of_mem _ hp)
    rw [hid e he] at h1
    omega
  have hex : ∃ e ∈ cqf.slots, e.2 - 1 = mx := by
    have hzero : mx = 0 → ∃ e ∈ cqf.slots, e.2 - 1 = mx := by
      intro h0
      cases hs : cqf.slots with
      | nil => exact absurd hs hne
      | cons e t =>
        have he : e ∈ cqf.slots := by rw [hs]; exact List.mem_cons_self _ _
        have := hle e he
        exact ⟨e, List.mem_cons_self _ _, by omega⟩
    rcases c2 with h0 | ⟨w, hw, hwm⟩
    · exact hzero h0
    · obtain ⟨p, hp, hpw⟩ := List.mem_map.mp hw
      rcases (worker_spec ops kmerHash k cqf nThreads p).2.2.2 with h1 | ⟨e, he, h1⟩
      · rw [hpw, hwm] at h1
        exact hzero h1
      · rw [hpw, hwm, hid e (hsub p hp e he)] at h1
        exact ⟨e, hsub p hp e he, h1⟩
  obtain ⟨em, hem, hem1⟩ := hex
  have h32 : mx + 1 < 2 ^ 32 := by
    have := hval em hem
    omega
  have hnb : ∀ c, c ≤ mx → c / NUM_BV_BUFFER < nb := by
    intro c hc
    have h1 := hbuf em hem
    rw [hem1] at h1
    exact lt_of_le_of_lt (Nat.div_le_div_right hc) h1
  -- the edges of the scratch files join color ids of the filter
  have hscr : ∀ b, ∀ x ∈ (reduceEdges zero0 nb
      ((parts.map (buildPairedColorIdEdgesInParallel ops kmerHash k cqf nThreads)).map
        (fun w => w.tmpfile.take w.cnt))).getD b [], x.n1 ≤ mx ∧ x.n2 ≤ mx := by
    intro b x hx
    obtain ⟨⟨file, hf, hxf⟩, _, _⟩ := ((getD_reduceEdges zero0 nb _ b).2.2 x).mp hx
    obtain ⟨w, hw, hwf⟩ := List.mem_map.mp hf
    obtain ⟨p, hp, hpw⟩ := List.mem_map.mp hw
    obtain ⟨w1, w2, _, _⟩ := worker_spec ops kmerHash k cqf nThreads p
    rw [hpw] at w1 w2
    rw [← hwf, w1] at hxf
    obtain ⟨⟨e1, he1, h1⟩, e2, he2, _, h2⟩ := w2 x hxf
    have a1 := hle e1 (hsub p hp e1 he1)
    have a2 := hle e2 he2
    have a3 := hid e1 (hsub p hp e1 he1)
    rw [a3] at h1
    have b1 : (e1.2 - 1) % 2 ^ 32 = e1.2 - 1 := Nat.mod_eq_of_lt (by omega)
    have b2 : (e2.2 - 1) % 2 ^ 32 = e2.2 - 1 := Nat.mod_eq_of_lt (by omega)
    rw [b1] at h1
    rw [b2] at h2
    omega
  refine ⟨_, buildEdgeSets_eq ops kmerHash k cqf nThreads nb zero0 parts mx hmx h32, ?_⟩
  rw [hW]
  simp only
  generalize hR : reduceEdges zero0 nb
    ((parts.map (buildPairedColorIdEdgesInParallel ops kmerHash k cqf nThreads)).map
      (fun w => w.tmpfile.take w.cnt)) = R at hscr
  have hRlen : R.length = nb * nb := by
    rw [← hR]
    exact (getD_reduceEdges zero0 nb _ 0).1
  -- the root loop as a sequence of pushes of the root edges
  have hfold : (List.range (mx + 1)).foldl
      (fun bl colorId =>
        bucketPush bl (MST.getBucketId (mx + 1) nb colorId (mx + 1))
          { n1 := colorId, n2 := mx + 1 }) R =
      ((List.range (mx + 1)).map (fun c => ({ n1 := c, n2 := mx + 1 } : Edge))).foldl
        (fun bl edge => bucketPush bl (MST.getBucketId (mx + 1) nb edge.n1 (mx + 1)) edge) R := by
    rw [List.foldl_map]
  rw [hfold]
  have hrange : ∀ e ∈ (List.range (mx + 1)).map (fun c => ({ n1 := c, n2 := mx + 1 } : Edge)),
      MST.getBucketId (mx + 1) nb e.n1 (mx + 1) < R.length := by
    intro e he
    obtain ⟨c, hc, hce⟩ := List.mem_map.mp he
    have hc1 := List.mem_range.mp hc
    rw [← hce, hRlen]
    simp only
    rw [getBucketId_root (mx + 1) nb c hc1]
    exact bucket_in_range _ nb (hnb c (by omega))
  have hperm := foldl_bucketPush_flatten_perm
    (fun e => MST.getBucketId (mx + 1) nb e.n1 (mx + 1))
    ((List.range (mx + 1)).map (fun c => ({ n1 := c, n2 := mx + 1 } : Edge))) R hrange
  have hRflat : ∀ x ∈ R.flatten, x.n1 ≤ mx ∧ x.n2 ≤ mx := by
    intro x hx
    obtain ⟨b, hb⟩ := mem_flatten_getD R x hx
    exact hscr b x hb
  have hnd : ((List.range (mx + 1)).map (fun c => ({ n1 := c, n2 := mx + 1 } : Edge))).Nodup := by
    apply List.Nodup.map _ (List.nodup_range _)
    intro a b hab
    injection hab
  refine ⟨?_, ⟨em, hem, ?_⟩, trivial, ?_, ?_⟩
  · intro e he
    have := hle e he
    omega
  · have := hval em hem
    omega
  · intro c hc
    have hmemL : ({ n1 := c, n2 := mx + 1 } : Edge) ∈
        (List.range (mx + 1)).map (fun c => ({ n1 := c, n2 := mx + 1 } : Edge)) :=
      List.mem_map.mpr ⟨c, List.mem_range.mpr hc, rfl⟩
    constructor
    · rw [(getD_foldl_bucketPush (fun e => MST.getBucketId (mx + 1) nb e.n1 (mx + 1))
        ((List.range (mx + 1)).map (fun c => ({ n1 := c, n2 := mx + 1 } : Edge))) R _).2,
        List.mem_append]
      right
      rw [if_pos (hrange _ hmemL), List.mem_filter]
      exact ⟨hmemL, by simp⟩
    · rw [hperm.count_eq, List.count_append, List.count_eq_one_of_mem hnd hmemL,
        List.count_eq_zero_of_not_mem]
      intro hx
      have := (hRflat _ hx).2
      simp only at this
      omega
  · intro e he hz
    rcases List.mem_append.mp (hperm.mem_iff.mp he) with h | h
    · obtain ⟨c, hc, hce⟩ := List.mem_map.mp h
      rw [← hce]
      exact ⟨rfl, List.mem_range.mp hc⟩
    · have := hRflat e h
      omega

/-- Witness of C27 on `twoKmerFilter` (the 3-mers 5 and 20 with the filter values 3 and 1, one
worker, one buffer): the only color-graph edge is `(0, 2)`, `zero` becomes 3, the root edges
`(0, 3)`, `(1, 3)`, `(2, 3)` follow, and `num_colorClasses` becomes 4. -/
theorem buildEdgeSets_root_edges_witness :
    MST.buildEdgeSets exampleKmers (fun x => x) 3 twoKmerFilter 1 1 (2 ^ 32 - 1)
        [[(5, 3), (20, 1)]] =
      some { edgeBucketList := [[⟨0, 2⟩, ⟨0, 3⟩, ⟨1, 3⟩, ⟨2, 3⟩]], num_colorClasses := 4,
             zero := 3 } ∧
    ∃ r, MST.buildEdgeSets exampleKmers (fun x => x) 3 twoKmerFilter 1 1 (2 ^ 32 - 1)
        [[(5, 3), (20, 1)]] = some r ∧ r.num_colorClasses = r.zero + 1 := by
  refine ⟨by decide, ?_⟩
  obtain ⟨r, h1, _, _, h4, _⟩ := buildEdgeSets_root_edges exampleKmers (fun x => x) 3
    twoKmerFilter 1 1 (2 ^ 32 - 1) [[(5, 3), (20, 1)]] rfl (by decide) (by decide)
    (by decide) (by decide)
  exact ⟨r, h1, h4⟩

/-- The boundary case that C27 leaves out: on an empty filter `maxId` keeps its initial
value 0, so `zero` becomes 1 and one root edge `(0, 1)` is pushed although no color id was
observed. -/
theorem buildEdgeSets_empty_filter :
    MST.buildEdgeSets exampleKmers (fun x => x) 3 { slots := [], capacity := 8 } 1 1
        (2 ^ 32 - 1) [[]] =
      some { edgeBucketList := [[⟨0, 1⟩]], num_colorClasses := 2, zero := 1 } := by
  decide

/-! ## The cache of hammingDist -/

theorem length_buildColorLoop (bv : List Bool) (S offset fuel : Nat) :
    ∀ (i wrdcnt : Nat) (eq : List Nat),
      (buildColorLoop bv S offset fuel i wrdcnt eq).length = eq.length := by
  induction fuel with
  | zero => intro i wrdcnt eq; rfl
  | succ fuel ih =>
    intro i wrdcnt eq
    rw [buildColorLoop]
    split
    · rw [ih, List.length_set]
    · rfl

theorem length_buildColor (S zero : Nat) (eq : List Nat) (eqid : Nat) (bv : List Bool) :
    (MST.buildColor S zero eq eqid bv).length = eq.length := by
  unfold MST.buildColor
  split
  · rfl
  · exact length_buildColorLoop _ _ _ _ _ _ _

theorem cnt_zero : cnt 0 = 0 := by
  unfold cnt
  simp

theorem distLoop_eq_sum (eq1 eq2 : List Nat) :
    distLoop eq1 eq2 =
      ((List.range eq1.length).map (fun i => cnt (eq1.getD i 0 ^^^ eq2.getD i 0))).sum := by
  unfold distLoop
  generalize eq1.length = n
  have key : ∀ (L : List Nat) (d : Nat),
      L.foldl (fun dist i =>
        if eq1.getD i 0 ≠ eq2.getD i 0 then dist + cnt (eq1.getD i 0 ^^^ eq2.getD i 0)
        else dist) d =
      d + (L.map (fun i => cnt (eq1.getD i 0 ^^^ eq2.getD i 0))).sum := by
    intro L
    induction L with
    | nil => intro d; simp
    | cons a t ih =>
      intro d
      rw [List.foldl_cons, ih, List.map_cons, List.sum_cons]
      by_cases h : eq1.getD a 0 = eq2.getD a 0
      · have h2 : ¬ eq1.getD a 0 ≠ eq2.getD a 0 := fun hc => hc h
        rw [if_neg h2, h, Nat.xor_self, cnt_zero]
        omega
      · rw [if_pos h]
        omega
  rw [key, Nat.zero_add]

theorem buildColor_word_testBit (S zero a : Nat) (bv : List Bool) (hS : 0 < S) (i j : Nat)
    (hj : j < 64) :
    ((MST.buildColor S zero (List.replicate ((S - 1) / 64 + 1) 0) a bv).getD i 0).testBit j =
      (decide (64 * i + j < S) && bitmapBit S zero bv a (64 * i + j)) := by
  unfold MST.buildColor bitmapBit
  by_cases hz : a = zero
  · rw [if_pos hz, if_pos hz]
    have : (List.replicate ((S - 1) / 64 + 1) 0).getD i 0 = 0 := by
      rw [List.getD_eq_getElem?_getD, List.getElem?_replicate]
      split <;> rfl
    rw [this]
    simp
  · rw [if_neg hz, if_neg hz, getD_buildColorLoop bv S _ S 0 0 _ (fun _ => rfl) (by omega)
      (by
        intro w hw
        rw [List.length_replicate]
        omega)]
    by_cases hw : 64 * i < S
    · rw [if_pos ⟨Nat.zero_le _, hw, hS⟩, testBit_get_int]
      have h1 : (j < min (S - 64 * i) 64) ↔ (64 * i + j < S) := by omega
      have h2 : a % NUM_BV_BUFFER * S + 64 * i + j = a % NUM_BV_BUFFER * S + (64 * i + j) := by
        omega
      rw [h2]
      by_cases h3 : 64 * i + j < S
      · simp [h3, h1.mpr h3]
      · have h4 : ¬ j < min (S - 64 * i) 64 := fun hc => h3 (h1.mp hc)
        simp [h3, h4]
    · have hne : ¬ (0 ≤ i ∧ 64 * i < S ∧ 0 < S) := fun hc => hw hc.2.1
      rw [if_neg hne]
      have : (List.replicate ((S - 1) / 64 + 1) 0).getD i 0 = 0 := by
        rw [List.getD_eq_getElem?_getD, List.getElem?_replicate]
        split <;> rfl
      rw [this]
      have h3 : ¬ 64 * i + j < S := by omega
      simp [h3]

theorem sum_filter_blocks (D : Nat → Bool) (W : Nat) :
    ((List.range W).map (fun i => ((List.range 64).filter (fun j => D (64 * i + j))).length)).sum =
      ((List.range (64 * W)).filter D).length := by
  induction W with
  | zero => simp
  | succ W ih =>
    have hr : List.range (W + 1) = List.range W ++ [W] := List.range_succ _
    rw [hr, List.map_append, List.sum_append, ih]
    have e : 64 * (W + 1) = 64 * W + 64 := by ring
    rw [e, List.range_add, List.filter_append, List.length_append, List.filter_map,
      List.length_map]
    simp only [List.map_cons, List.map_nil, List.sum_cons, List.sum_nil, Nat.add_zero]
    rfl

theorem filter_range_beyond (D : Nat → Bool) (S n : Nat) (hn : S ≤ n)
    (hD : ∀ s, S ≤ s → D s = false) :
    ((List.range n).filter D).length = ((List.range S).filter D).length := by
  obtain ⟨r, hr⟩ : ∃ r, n = S + r := ⟨n - S, by omega⟩
  rw [hr, List.range_add, List.filter_append, List.length_append, List.filter_map]
  have : (List.range r).filter (D ∘ fun x => S + x) = [] := by
    rw [List.filter_eq_nil_iff]
    intro x _
    simp [hD (S + x) (by omega)]
  rw [this]
  simp

/-- The loop of `hammingDist` over the words of two colors counts the samples in which their
bitmaps differ. -/
theorem distLoop_buildColor (S zero : Nat) (bvp1 bvp2 : List Bool) (a b : Nat) (hS : 0 < S) :
    distLoop (MST.buildColor S zero (List.replicate ((S - 1) / 64 + 1) 0) a bvp1)
        (MST.buildColor S zero (List.replicate ((S - 1) / 64 + 1) 0) b bvp2) =
      popcountXor S zero bvp1 bvp2 a b := by
  rw [distLoop_eq_sum, length_buildColor, List.length_replicate]
  obtain ⟨D, hD⟩ : ∃ D : Nat → Bool, D = fun s =>
      (decide (s < S) && bitmapBit S zero bvp1 a s) !=
        (decide (s < S) && bitmapBit S zero bvp2 b s) := ⟨_, rfl⟩
  have hw : ∀ i, cnt ((MST.buildColor S zero (List.replicate ((S - 1) / 64 + 1) 0) a bvp1).getD
        i 0 ^^^
      (MST.buildColor S zero (List.replicate ((S - 1) / 64 + 1) 0) b bvp2).getD i 0) =
      ((List.range 64).filter (fun j => D (64 * i + j))).length := by
    intro i
    unfold cnt
    congr 1
    apply List.filter_congr
    intro j hj
    have hj64 := List.mem_range.mp hj
    rw [Nat.testBit_xor, buildColor_word_testBit S zero a bvp1 hS i j hj64,
      buildColor_word_testBit S zero b bvp2 hS i j hj64, hD]
  have hmap : (List.range ((S - 1) / 64 + 1)).map (fun i =>
      cnt ((MST.buildColor S zero (List.replicate ((S - 1) / 64 + 1) 0) a bvp1).getD i 0 ^^^
        (MST.buildColor S zero (List.replicate ((S - 1) / 64 + 1) 0) b bvp2).getD i 0)) =
      (List.range ((S - 1) / 64 + 1)).map (fun i =>
        ((List.range 64).filter (fun j => D (64 * i + j))).length) := by
    apply List.map_congr_left
    intro i _
    exact hw i
  rw [hmap, sum_filter_blocks D, filter_range_beyond D S _ (by omega)]
  · unfold popcountXor
    congr 1
    apply List.filter_congr
    intro s hs
    have := List.mem_range.mp hs
    rw [hD]
    simp [this]
  · intro s hs
    have : ¬ s < S := by omega
    rw [hD]
    simp [this]

/-- What `hammingDist` relies on from the cache: it is the initial one, or holds the words of
the color `srcId` read from `bvp1`. -/
theorem hammingDist_cached (S zero : Nat) (bvp1 bvp2 : List Bool) (a b : Nat) (c : SrcCache)
    (hS : 0 < S) (hS32 : S < 2 ^ 32) (ha : a < 2 ^ 32)
    (hc : c.srcId = 2 ^ 64 - 1 ∨
      c.srcEq = MST.buildColor S zero (List.replicate ((S - 1) / 64 + 1) 0) c.srcId bvp1) :
    (MST.hammingDist S zero bvp1 bvp2 a b c).1 = popcountXor S zero bvp1 bvp2 a b ∧
    ((MST.hammingDist S zero bvp1 bvp2 a b c).2.srcId = 2 ^ 64 - 1 ∨
      (MST.hammingDist S zero bvp1 bvp2 a b c).2.srcEq =
        MST.buildColor S zero (List.replicate ((S - 1) / 64 + 1) 0)
          (MST.hammingDist S zero bvp1 bvp2 a b c).2.srcId bvp1) := by
  have hW : (S + (2 ^ 32 - 1)) % 2 ^ 32 / 64 + 1 = (S - 1) / 64 + 1 := by
    have : (S + (2 ^ 32 - 1)) % 2 ^ 32 = S - 1 := by omega
    rw [this]
  unfold MST.hammingDist
  rw [hW]
  by_cases h : a = c.srcId
  · rw [if_pos h]
    rcases hc with h1 | h1
    · omega
    · refine ⟨?_, Or.inr h1⟩
      simp only
      rw [h1, ← h]
      exact distLoop_buildColor S zero bvp1 bvp2 a b hS
  · rw [if_neg h]
    exact ⟨distLoop_buildColor S zero bvp1 bvp2 a b hS, Or.inr rfl⟩

theorem hammingDists_eq_map (S zero : Nat) (bvp1 bvp2 : List Bool) (hS : 0 < S)
    (hS32 : S < 2 ^ 32) (calls : List Edge) :
    ∀ c : SrcCache, (∀ e ∈ calls, e.n1 < 2 ^ 32) →
      (c.srcId = 2 ^ 64 - 1 ∨
        c.srcEq = MST.buildColor S zero (List.replicate ((S - 1) / 64 + 1) 0) c.srcId bvp1) →
      hammingDists S zero bvp1 bvp2 c calls =
        calls.map (fun e => popcountXor S zero bvp1 bvp2 e.n1 e.n2) := by
  induction calls with
  | nil => intro c _ _; rfl
  | cons e rest ih =>
    intro c hid hc
    obtain ⟨h1, h2⟩ := hammingDist_cached S zero bvp1 bvp2 e.n1 e.n2 c hS hS32
      (hid e (List.mem_cons_self _ _)) hc
    rw [hammingDists, List.map_cons, h1, ih _ (fun x hx => hid x (List.mem_cons_of_mem _ hx)) h2]

/-- C28: for every sequence `calls` of `hammingDist` calls made by one worker on one bucket
cell (buffers `bvp1`, `bvp2`), starting with the empty cache, each call `hammingDist(a, b)`
returns `popcount(bitmap[a] XOR bitmap[b])`, the root having the all-zero bitmap, which is
also what the call returns when it is made with the empty cache; and a call `(c, zero)` for a
color `c` whose bitmap has all `S` bits set returns `S`, wherever it stands in the
sequence. -/
theorem hammingDist_cache_correct (S zero : Nat) (bvp1 bvp2 : List Bool) (calls : List Edge)
    (hS : 0 < S) (hS32 : S < 2 ^ 32) (hid : ∀ e ∈ calls, e.n1 < 2 ^ 32) :
    hammingDists S zero bvp1 bvp2 SrcCache.empty calls =
      calls.map (fun e => popcountXor S zero bvp1 bvp2 e.n1 e.n2) ∧
    hammingDists S zero bvp1 bvp2 SrcCache.empty calls =
      calls.map (fun e => (MST.hammingDist S zero bvp1 bvp2 e.n1 e.n2 SrcCache.empty).1) ∧
    (∀ (pre post : List Edge) (c : Nat), calls = pre ++ { n1 := c, n2 := zero } :: post →
      c ≠ zero → (∀ i, i < S → bvp1.getD (c % NUM_BV_BUFFER * S + i) false = true) →
      (hammingDists S zero bvp1 bvp2 SrcCache.empty calls).getD pre.length 0 = S) := by
  have h1 := hammingDists_eq_map S zero bvp1 bvp2 hS hS32 calls SrcCache.empty hid (Or.inl rfl)
  refine ⟨h1, ?_, ?_⟩
  · rw [h1]
    apply List.map_congr_left
    intro e he
    exact ((hammingDist_cached S zero bvp1 bvp2 e.n1 e.n2 SrcCache.empty hS hS32 (hid e he)
      (Or.inl rfl)).1).symm
  · intro pre post c hcalls hc hall
    rw [h1, hcalls, List.map_append, List.map_cons, List.getD_eq_getElem?_getD,
      List.getElem?_append_right (by rw [List.length_map]), List.length_map, Nat.sub_self]
    simp only [List.getElem?_cons_zero, Option.getD_some]
    unfold popcountXor
    have : (List.range S).filter (fun i =>
        bitmapBit S zero bvp1 c i != bitmapBit S zero bvp2 zero i) = List.range S := by
      rw [List.filter_eq_self]
      intro i hi
      unfold bitmapBit
      rw [if_neg hc, if_pos rfl, hall i (List.mem_range.mp hi)]
      rfl
    rw [this, List.length_range]

/-- Witness of C28 on `exampleBuffer` (three samples, root 3): the calls `(0, 1)`, `(0, 2)`,
`(1, 3)` return 2, 2 and 3; the second call reads the color 0 from the cache. -/
theorem hammingDist_cache_correct_witness :
    hammingDists 3 3 exampleBuffer exampleBuffer SrcCache.empty [⟨0, 1⟩, ⟨0, 2⟩, ⟨1, 3⟩] =
      [2, 2, 3] ∧
    (hammingDists 3 3 exampleBuffer exampleBuffer SrcCache.empty
      [⟨0, 1⟩, ⟨0, 2⟩, ⟨1, 3⟩]).getD [(⟨0, 1⟩ : Edge), ⟨0, 2⟩].length 0 = 3 :=
  ⟨by decide,
    (hammingDist_cache_correct 3 3 exampleBuffer exampleBuffer [⟨0, 1⟩, ⟨0, 2⟩, ⟨1, 3⟩]
      (by norm_num) (by norm_num) (by decide)).2.2 [⟨0, 1⟩, ⟨0, 2⟩] [] 1 rfl (by decide)
      (by decide)⟩

/-! ## The workers of calcHammingDistInParallel -/

/-- C30 fails on the code for the weights: over two samples, the tree that `kruskalMSF`
builds from the root edges `(0, 2)` of weight 1 and `(1, 2)` of weight 2 (root `zero = 2`)
has the tree edge `(1, 2)` of weight 2, the parent of the node 1 is the root, but
`weight[1]` is 0, because the cells of `weightbv` have `ceil(log2(2)) = 1` bit.  The parents
and the weight 1 of the root are as claimed. -/
theorem bfsPass_weight_truncated :
    (kruskalMSF 3 2 3 [[⟨0, 2⟩], [⟨1, 2⟩]]).map (fun st => st.mst) =
      some [[(2, 1)], [(2, 2)], [(0, 1), (1, 2)]] ∧
    bfsPass [[(2, 1)], [(2, 2)], [(0, 1), (1, 2)]] 2 3 2 3 =
      some { q := [], parentbv := [2, 2, 2], weightbv := [1, 0, 1],
             visited := [true, true, true] } ∧
    ((2, 2) ∈ [[(2, 1)], [(2, 2)], [(0, 1), (1, 2)]].getD 1 [] ∧
      ([2, 2, 2] : List Nat).getD 1 0 = 2 ∧ ([1, 0, 1] : List Nat).getD 1 0 ≠ 2) ∧
    intWidth (ceilLog2 2) = 1 := by
  refine ⟨by decide, by decide, by decide, by decide⟩

/-- The same tree over three samples (cells of two bits): the weights are those of the tree
edges. -/
theorem bfsPass_three_samples :
    bfsPass [[(2, 1)], [(2, 2)], [(0, 1), (1, 2)]] 3 3 2 3 =
      some { q := [], parentbv := [2, 2, 2], weightbv := [1, 2, 1],
             visited := [true, true, true] } := by
  decide

/-- The pass inside `encodeColorClassUsingMST`. -/
theorem encode_uses_bfsPass (m : MergeInput) (fuel numSamples num_colorClasses zero nThreads :
    Nat) (weightBuckets : List (List Edge)) (st : KruskalState)
    (h : kruskalMSF fuel numSamples num_colorClasses weightBuckets = some st) :
    (encodeColorClassUsingMST m fuel numSamples num_colorClasses zero nThreads
      weightBuckets).map (fun e => e.parentbv) =
      (bfsPass st.mst numSamples num_colorClasses zero fuel).map (fun b => b.parentbv) := by
  unfold encodeColorClassUsingMST bfsPass
  rw [h]
  simp only
  cases bfsLoop st.mst (intWidth (ceilLog2 num_colorClasses)) (intWidth (ceilLog2 numSamples))
      fuel
      { q := [zero]
        parentbv := ivSet (intWidth (ceilLog2 num_colorClasses))
          (List.replicate num_colorClasses 0) zero zero
        weightbv := ivSet (intWidth (ceilLog2 numSamples))
          (List.replicate num_colorClasses 0) zero 1
        visited := List.replicate num_colorClasses false } with
  | none => rfl
  | some b => rfl

/-! ## The breadth-first pass on a tree -/

theorem getD_ivSet (width : Nat) (v : List Nat) (i x y : Nat) :
    (ivSet width v i x).getD y 0 = if y = i ∧ i < v.length then x % 2 ^ width else v.getD y 0 := by
  unfold ivSet
  rw [List.getD_eq_getElem?_getD, List.getElem?_set]
  by_cases h : i = y
  · subst h
    by_cases hl : i < v.length
    · simp [hl]
    · have : v.length ≤ i := by omega
      simp [hl, List.getElem?_eq_none this]
  · have : ¬ y = i := fun hc => h hc.symm
    simp [h, this]

theorem length_ivSet (width : Nat) (v : List Nat) (i x : Nat) :
    (ivSet width v i x).length = v.length := by
  unfold ivSet
  rw [List.length_set]

/-- The loop over the neighbours of the node taken from the queue: the unvisited ones are
queued in order and get the node as parent and the weight of their entry. -/
theorem bfsNeighbors_spec (wp ww parent : Nat) (nb : List (Nat × Nat)) :
    ∀ s : BfsState, (nb.map Prod.fst).Nodup →
      (bfsNeighbors wp ww parent s nb).visited = s.visited ∧
      (bfsNeighbors wp ww parent s nb).q =
        s.q ++ (nb.filter (fun e => s.visited.getD e.1 false = false)).map Prod.fst ∧
      (bfsNeighbors wp ww parent s nb).parentbv.length = s.parentbv.length ∧
      (bfsNeighbors wp ww parent s nb).weightbv.length = s.weightbv.length ∧
      (∀ y w, (y, w) ∈ nb → s.visited.getD y false = false →
        (y < s.parentbv.length →
          (bfsNeighbors wp ww parent s nb).parentbv.getD y 0 = parent % 2 ^ wp) ∧
        (y < s.weightbv.length →
          (bfsNeighbors wp ww parent s nb).weightbv.getD y 0 = w % 2 ^ ww)) ∧
      (∀ y, (∀ w, (y, w) ∈ nb → s.visited.getD y false = true) →
        (bfsNeighbors wp ww parent s nb).parentbv.getD y 0 = s.parentbv.getD y 0 ∧
        (bfsNeighbors wp ww parent s nb).weightbv.getD y 0 = s.weightbv.getD y 0) := by
  induction nb with
  | nil =>
    intro s _
    refine ⟨rfl, by simp [bfsNeighbors], rfl, rfl, ?_, ?_⟩
    · intro y w h
      cases h
    · intro y _
      exact ⟨rfl, rfl⟩
  | cons a rest ih =>
    intro s hnd
    rw [List.map_cons, List.nodup_cons] at hnd
    rw [bfsNeighbors]
    by_cases hv : s.visited.getD a.1 false = false
    · rw [if_pos hv]
      obtain ⟨i1, i2, i3, i4, i5, i6⟩ := ih
        { s with
            parentbv := ivSet wp s.parentbv a.1 parent
            weightbv := ivSet ww s.weightbv a.1 a.2
            q := s.q ++ [a.1] } hnd.2
      simp only at i1 i2 i3 i4 i5 i6
      rw [length_ivSet] at i3 i4
      refine ⟨i1, ?_, i3, i4, ?_, ?_⟩
      · rw [i2, List.filter_cons, if_pos (by simpa using hv), List.map_cons, List.append_assoc,
          List.singleton_append]
      · intro y w hmem hy
        rcases List.mem_cons.mp hmem with h | h
        · have hya : y = a.1 := by rw [← h]
          have hwa : w = a.2 := by rw [← h]
          have hnot : ∀ w1, (y, w1) ∈ rest → s.visited.getD y false = true := by
            intro w1 hw1
            exfalso
            apply hnd.1
            rw [← hya]
            exact List.mem_map.mpr ⟨(y, w1), hw1, rfl⟩
          obtain ⟨j1, j2⟩ := i6 y hnot
          rw [j1, j2, getD_ivSet, getD_ivSet]
          constructor
          · intro hl
            rw [if_pos ⟨hya, by rw [← hya]; exact hl⟩]
          · intro hl
            rw [if_pos ⟨hya, by rw [← hya]; exact hl⟩, hwa]
        · obtain ⟨j1, j2⟩ := i5 y w h hy
          rw [length_ivSet] at j1 j2
          exact ⟨j1, j2⟩
      · intro y hy
        have hne : y ≠ a.1 := by
          intro hc
          have := hy a.2 (by rw [hc]; exact List.mem_cons_self _ _)
          rw [hc, hv] at this
          cases this
        obtain ⟨j1, j2⟩ := i6 y (fun w hw => hy w (List.mem_cons_of_mem _ hw))
        rw [j1, j2, getD_ivSet, getD_ivSet, if_neg (fun hc => hne hc.1),
          if_neg (fun hc => hne hc.1)]
        exact ⟨rfl, rfl⟩
    · rw [if_neg hv]
      have hv1 : s.visited.getD a.1 false = true := by
        cases h : s.visited.getD a.1 false
        · exact absurd h hv
        · rfl
      obtain ⟨i1, i2, i3, i4, i5, i6⟩ := ih s hnd.2
      refine ⟨i1, ?_, i3, i4, ?_, ?_⟩
      · rw [i2, List.filter_cons, if_neg (by simpa using hv1)]
      · intro y w hmem hy
        rcases List.mem_cons.mp hmem with h | h
        · have hya : y = a.1 := by rw [← h]
          rw [hya, hv1] at hy
          cases hy
        · exact i5 y w h hy
      · intro y hy
        exact i6 y (fun w hw => hy w (List.mem_cons_of_mem _ hw))

theorem count_false_set (l : List Bool) (p : Nat) (hp : p < l.length)
    (hv : l.getD p false = false) : (l.set p true).count false + 1 = l.count false := by
  induction l generalizing p with
  | nil => simp at hp
  | cons a t ih =>
    cases p with
    | zero =>
      simp only [List.getD_cons_zero] at hv
      subst hv
      simp
    | succ p =>
      simp only [List.getD_cons_succ] at hv
      simp only [List.length_cons, Nat.add_lt_add_iff_right] at hp
      rw [List.set_cons_succ, List.count_cons, List.count_cons, ← ih p hp hv]
      omega

theorem visitedGraph_mono (n : Nat) (mst : List (List (Nat × Nat))) (v1 v2 : List Bool)
    (h : ∀ y, v1.getD y false = true → v2.getD y false = true) (a b : Fin n)
    (hr : (visitedGraph n mst v1).Reachable a b) : (visitedGraph n mst v2).Reachable a b := by
  apply reachable_of_adj_reachable _ hr
  intro x y hxy
  have : (visitedGraph n mst v2).Adj x y := by
    refine ⟨hxy.1, ?_⟩
    rcases hxy.2 with h1 | h1
    · exact Or.inl (h _ h1)
    · exact Or.inr (h _ h1)
  exact this.reachable

theorem mstGraph_adj_of_mem (n : Nat) (mst : List (List (Nat × Nat))) (p x w : Nat)
    (hp : p < n) (hx : x < n) (hne : x ≠ p) (h : (x, w) ∈ mst.getD p []) :
    (mstGraph n mst).Adj ⟨x, hx⟩ ⟨p, hp⟩ := by
  unfold mstGraph
  rw [SimpleGraph.fromRel_adj]
  refine ⟨?_, Or.inr ⟨w, h⟩⟩
  intro hc
  apply hne
  exact congrArg Fin.val hc

/-- In a tree, two unvisited adjacent nodes cannot both be joined to the root by edges with a
visited endpoint: the edge between them would close a cycle. -/
theorem tree_no_second_discovery (n : Nat) (mst : List (List (Nat × Nat))) (visited : List Bool)
    (hac : (mstGraph n mst).IsAcyclic) (x p : Fin n) (hadj : (mstGraph n mst).Adj x p)
    (hx : visited.getD x.val false = false) (hp : visited.getD p.val false = false)
    (hr : (visitedGraph n mst visited).Reachable x p) : False := by
  rw [SimpleGraph.isAcyclic_iff_forall_adj_isBridge] at hac
  have hb := ((SimpleGraph.isBridge_iff).mp (hac hadj)).2
  apply hb
  apply reachable_of_adj_reachable _ hr
  intro a b hab
  have : ((mstGraph n mst) \ SimpleGraph.fromEdgeSet {s(x, p)}).Adj a b := by
    rw [SimpleGraph.sdiff_adj, SimpleGraph.fromEdgeSet_adj]
    refine ⟨hab.1, ?_⟩
    rintro ⟨hmem, _⟩
    rw [Set.mem_singleton_iff, Sym2.eq_iff] at hmem
    rcases hmem with ⟨h1, h2⟩ | ⟨h1, h2⟩
    · rcases hab.2 with h3 | h3
      · rw [h1, hx] at h3
        cases h3
      · rw [h2, hp] at h3
        cases h3
    · rcases hab.2 with h3 | h3
      · rw [h1, hp] at h3
        cases h3
      · rw [h2, hx] at h3
        cases h3
  exact this.reachable

/-- One pass through the body of the loop `while (!q.empty())` keeps the invariant and
visits one more node. -/
theorem bfs_step (mst : List (List (Nat × Nat))) (n zero wp ww : Nat) (ht : TreeAdj n mst)
    (hwp : n ≤ 2 ^ wp) (s : BfsState) (d : Nat → Nat) (p : Nat) (q1 : List Nat)
    (hq : s.q = p :: q1) (inv : BfsInv mst n zero ww s d) :
    (∃ d1, BfsInv mst n zero ww
      { bfsNeighbors wp ww p { s with q := q1 } (mst.getD p []) with
          visited := (bfsNeighbors wp ww p { s with q := q1 }
            (mst.getD p [])).visited.set p true } d1) ∧
    ((bfsNeighbors wp ww p { s with q := q1 } (mst.getD p [])).visited.set p true).count false
      + 1 = s.visited.count false := by
  obtain ⟨b1, b2, b3, b4, b5, b6⟩ := bfsNeighbors_spec wp ww p (mst.getD p [])
    { s with q := q1 } (ht.nodup p)
  simp only at b1 b2 b3 b4 b5 b6
  generalize bfsNeighbors wp ww p { s with q := q1 } (mst.getD p []) = r at b1 b2 b3 b4 b5 b6 ⊢
  have hpq : p ∈ s.q := by rw [hq]; exact List.mem_cons_self _ _
  obtain ⟨hpn, hpv⟩ := inv.qlt p hpq
  have hnd := inv.qnd
  rw [hq, List.nodup_cons] at hnd
  have hq1 : ∀ x, x ∈ q1 → x ∈ s.q := by
    intro x hx
    rw [hq]
    exact List.mem_cons_of_mem _ hx
  -- the nodes queued by this pass
  have hnew : ∀ x, x ∈ (List.filter (fun e => s.visited.getD e.1 false = false)
      (mst.getD p [])).map Prod.fst ↔
      ∃ w, (x, w) ∈ mst.getD p [] ∧ s.visited.getD x false = false := by
    intro x
    rw [List.mem_map]
    constructor
    · rintro ⟨e, he, hex⟩
      obtain ⟨h1, h2⟩ := List.mem_filter.mp he
      refine ⟨e.2, ?_, ?_⟩
      · rw [← hex]
        exact h1
      · rw [← hex]
        simpa using h2
    · rintro ⟨w, h1, h2⟩
      exact ⟨(x, w), List.mem_filter.mpr ⟨h1, by simpa using h2⟩, rfl⟩
  have hnewnd : ((List.filter (fun e => s.visited.getD e.1 false = false)
      (mst.getD p [])).map Prod.fst).Nodup :=
    List.Nodup.sublist (List.Sublist.map _ (List.filter_sublist _)) (ht.nodup p)
  generalize (List.filter (fun e => s.visited.getD e.1 false = false)
      (mst.getD p [])).map Prod.fst = new at b2 hnew hnewnd
  have hvis : ∀ y, (r.visited.set p true).getD y false = true ↔
      (s.visited.getD y false = true ∨ y = p) := by
    intro y
    rw [b1, getD_set_true, inv.lenV]
    constructor
    · rintro (h | h)
      · exact Or.inl h
      · exact Or.inr h.1
    · rintro (h | h)
      · exact Or.inl h
      · exact Or.inr ⟨h, by rw [h]; exact hpn⟩
  have hzero_ne : ∀ x, x ∈ new → x ≠ zero ∧ x ≠ p ∧ x < n := by
    intro x hx
    obtain ⟨w, h1, h2⟩ := (hnew x).mp hx
    have hxp : x ≠ p := ht.irrefl p (x, w) h1
    refine ⟨?_, hxp, ht.range p (x, w) h1⟩
    intro hc
    rcases inv.root with h3 | h3
    · rw [hc, h3] at h2
      cases h2
    · rw [hq] at h3
      simp only [List.head?_cons, Option.some.injEq] at h3
      exact hxp (hc.trans h3.symm)
  have hnotq : ∀ x, x ∈ new → x ∉ q1 := by
    intro x hx hxq
    obtain ⟨w, h1, h2⟩ := (hnew x).mp hx
    obtain ⟨_, hxp, hxn⟩ := hzero_ne x hx
    have hz : zero < n := by
      rcases inv.root with h3 | h3
      · by_contra hc
        rw [List.getD_eq_getElem?_getD, List.getElem?_eq_none (by rw [inv.lenV]; omega)] at h3
        cases h3
      · rw [hq] at h3
        simp only [List.head?_cons, Option.some.injEq] at h3
        omega
    have r1 := inv.reach x hxn hz (Or.inl (hq1 x hxq))
    have r2 := inv.reach p hpn hz (Or.inl hpq)
    exact tree_no_second_discovery n mst s.visited ht.acyclic ⟨x, hxn⟩ ⟨p, hpn⟩
      (mstGraph_adj_of_mem n mst p x w hpn hxn hxp h1) h2 hpv (r1.trans r2.symm)
  have hpnew : p ∉ new := fun hc => (hzero_ne p hc).2.1 rfl
  have hp2 : p % 2 ^ wp = p := Nat.mod_eq_of_lt (by omega)
  -- a node that this pass does not queue keeps its cells
  have hkeep : ∀ y, y ∉ new → r.parentbv.getD y 0 = s.parentbv.getD y 0 ∧
      r.weightbv.getD y 0 = s.weightbv.getD y 0 := by
    intro y hy
    apply b6 y
    intro w hw
    cases hv : s.visited.getD y false
    · exact absurd ((hnew y).mpr ⟨w, hw, hv⟩) hy
    · rfl
  have hdisc : ∀ y, (y ∈ r.q ∨ (r.visited.set p true).getD y false = true) →
      y ∈ new ∨ (y ∈ s.q ∨ s.visited.getD y false = true) := by
    intro y hy
    rw [b2, List.mem_append, hvis] at hy
    rcases hy with (h | h) | (h | h)
    · exact Or.inr (Or.inl (hq1 y h))
    · exact Or.inl h
    · exact Or.inr (Or.inr h)
    · exact Or.inr (Or.inl (by rw [h]; exact hpq))
  refine ⟨⟨fun y => if y ∈ new then d p + 1 else d y, ?_⟩, ?_⟩
  · refine
      { lenP := by rw [b3]; exact inv.lenP
        lenW := by rw [b4]; exact inv.lenW
        lenV := by
          show (r.visited.set p true).length = n
          rw [List.length_set, b1]
          exact inv.lenV
        qlt := ?_
        qnd := ?_
        root := ?_
        rootP := ?_
        rootW := ?_
        rootD := ?_
        par := ?_
        closed := ?_
        reach := ?_ }
    · intro x hx
      show x < n ∧ (r.visited.set p true).getD x false = false
      have hx2 : x ∈ q1 ∨ x ∈ new := by
        have : x ∈ r.q := hx
        rw [b2, List.mem_append] at this
        exact this
      have key : x < n ∧ s.visited.getD x false = false ∧ x ≠ p := by
        rcases hx2 with h | h
        · obtain ⟨a1, a2⟩ := inv.qlt x (hq1 x h)
          exact ⟨a1, a2, fun hc => hnd.1 (hc ▸ h)⟩
        · obtain ⟨w, _, h2⟩ := (hnew x).mp h
          obtain ⟨_, a2, a3⟩ := hzero_ne x h
          exact ⟨a3, h2, a2⟩
      refine ⟨key.1, ?_⟩
      cases hv : (r.visited.set p true).getD x false
      · rfl
      · rcases (hvis x).mp hv with h | h
        · rw [key.2.1] at h
          cases h
        · exact absurd h key.2.2
    · show r.q.Nodup
      rw [b2]
      exact List.Nodup.append hnd.2 hnewnd (fun x h1 h2 => hnotq x h2 h1)
    · show (r.visited.set p true).getD zero false = true ∨ r.q.head? = some zero
      left
      rw [hvis]
      rcases inv.root with h | h
      · exact Or.inl h
      · rw [hq] at h
        simp only [List.head?_cons, Option.some.injEq] at h
        exact Or.inr h.symm
    · show r.parentbv.getD zero 0 = zero
      rw [(hkeep zero (fun hc => (hzero_ne zero hc).1 rfl)).1]
      exact inv.rootP
    · show r.weightbv.getD zero 0 = 1
      rw [(hkeep zero (fun hc => (hzero_ne zero hc).1 rfl)).2]
      exact inv.rootW
    · show (if zero ∈ new then d p + 1 else d zero) = 0
      rw [if_neg (fun hc => (hzero_ne zero hc).1 rfl)]
      exact inv.rootD
    · intro x hx hxz
      show (r.visited.set p true).getD (r.parentbv.getD x 0) false = true ∧
        ∃ w, (x, w) ∈ mst.getD (r.parentbv.getD x 0) [] ∧ r.weightbv.getD x 0 = w % 2 ^ ww ∧
          (if x ∈ new then d p + 1 else d x) =
            (if r.parentbv.getD x 0 ∈ new then d p + 1 else d (r.parentbv.getD x 0)) + 1
      by_cases hxn : x ∈ new
      · obtain ⟨w, h1, h2⟩ := (hnew x).mp hxn
        obtain ⟨_, _, hlt⟩ := hzero_ne x hxn
        obtain ⟨c1, c2⟩ := b5 x w h1 h2
        rw [c1 (by rw [inv.lenP]; exact hlt), c2 (by rw [inv.lenW]; exact hlt), hp2,
          if_pos hxn, if_neg hpnew]
        exact ⟨(hvis p).mpr (Or.inr rfl), w, h1, rfl, rfl⟩
      · rcases hdisc x hx with h | h
        · exact absurd h hxn
        · obtain ⟨a1, w, a2, a3, a4⟩ := inv.par x h hxz
          obtain ⟨k1, k2⟩ := hkeep x hxn
          rw [k1, k2, if_neg hxn]
          have hpar : s.parentbv.getD x 0 ∉ new := by
            intro hc
            obtain ⟨w1, _, h2⟩ := (hnew _).mp hc
            rw [a1] at h2
            cases h2
          rw [if_neg hpar]
          exact ⟨(hvis _).mpr (Or.inl a1), w, a2, a3, a4⟩
    · intro y hy e he
      show e.1 ∈ r.q ∨ (r.visited.set p true).getD e.1 false = true
      have hy2 : (r.visited.set p true).getD y false = true := hy
      rw [b2, List.mem_append, hvis]
      rcases (hvis y).mp hy2 with h | h
      · rcases inv.closed y h e he with h1 | h1
        · rw [hq] at h1
          rcases List.mem_cons.mp h1 with h2 | h2
          · exact Or.inr (Or.inr h2)
          · exact Or.inl (Or.inl h2)
        · exact Or.inr (Or.inl h1)
      · rw [h] at he
        cases hv : s.visited.getD e.1 false
        · exact Or.inl (Or.inr ((hnew e.1).mpr ⟨e.2, he, hv⟩))
        · exact Or.inr (Or.inl rfl)
    · intro x hx hz hdx
      show (visitedGraph n mst (r.visited.set p true)).Reachable ⟨x, hx⟩ ⟨zero, hz⟩
      have hmono : ∀ y, s.visited.getD y false = true →
          (r.visited.set p true).getD y false = true :=
        fun y hy => (hvis y).mpr (Or.inl hy)
      rcases hdisc x hdx with h | h
      · obtain ⟨w, h1, h2⟩ := (hnew x).mp h
        obtain ⟨_, hxp, _⟩ := hzero_ne x h
        have hadj : (visitedGraph n mst (r.visited.set p true)).Adj ⟨x, hx⟩ ⟨p, hpn⟩ :=
          ⟨mstGraph_adj_of_mem n mst p x w hpn hx hxp h1, Or.inr ((hvis p).mpr (Or.inr rfl))⟩
        exact hadj.reachable.trans
          (visitedGraph_mono n mst _ _ hmono _ _ (inv.reach p hpn hz (Or.inl hpq)))
      · exact visitedGraph_mono n mst _ _ hmono _ _ (inv.reach x hx hz h)
  · rw [b1]
    exact count_false_set s.visited p (by rw [inv.lenV]; exact hpn) hpv

/-- The loop `while (!q.empty())` ends after at most as many passes as there are unvisited
nodes, and leaves the invariant with an empty queue. -/
theorem bfsLoop_spec (mst : List (List (Nat × Nat))) (n zero wp ww : Nat) (ht : TreeAdj n mst)
    (hwp : n ≤ 2 ^ wp) (fuel : Nat) :
    ∀ (s : BfsState) (d : Nat → Nat), BfsInv mst n zero ww s d →
      s.visited.count false ≤ fuel →
      ∃ b d1, bfsLoop mst wp ww fuel s = some b ∧ BfsInv mst n zero ww b d1 ∧ b.q = [] := by
  induction fuel with
  | zero =>
    intro s d inv hf
    cases hq : s.q with
    | nil =>
      refine ⟨s, d, ?_, inv, hq⟩
      unfold bfsLoop
      simp only [hq]
    | cons p q1 =>
      exfalso
      have := (bfs_step mst n zero wp ww ht hwp s d p q1 hq inv).2
      omega
  | succ fuel ih =>
    intro s d inv hf
    cases hq : s.q with
    | nil =>
      refine ⟨s, d, ?_, inv, hq⟩
      unfold bfsLoop
      simp only [hq]
    | cons p q1 =>
      obtain ⟨⟨d1, inv1⟩, hcount⟩ := bfs_step mst n zero wp ww ht hwp s d p q1 hq inv
      obtain ⟨b, d2, h1, h2, h3⟩ := ih _ d1 inv1 (by
        show ((bfsNeighbors wp ww p { s with q := q1 } (mst.getD p [])).visited.set p
          true).count false ≤ fuel
        omega)
      refine ⟨b, d2, ?_, h2, h3⟩
      rw [← h1]
      conv => lhs; unfold bfsLoop
      simp only [hq]

theorem le_two_pow_ceilLog2From (fuel : Nat) :
    ∀ k x, x ≤ 2 ^ (ceilLog2From fuel k x) ∨ ceilLog2From fuel k x = k + fuel := by
  induction fuel with
  | zero =>
    intro k x
    right
    rfl
  | succ fuel ih =>
    intro k x
    rw [ceilLog2From]
    by_cases h : x ≤ 2 ^ k
    · rw [if_pos h]
      exact Or.inl h
    · rw [if_neg h]
      rcases ih (k + 1) x with h1 | h1
      · exact Or.inl h1
      · right
        rw [h1]
        omega

theorem le_two_pow_intWidth (n : Nat) (hn : n ≤ 2 ^ 64) : n ≤ 2 ^ intWidth (ceilLog2 n) := by
  unfold intWidth
  split
  · unfold ceilLog2
    rcases le_two_pow_ceilLog2From n 0 n with h | h
    · exact h
    · rw [h, Nat.zero_add]
      exact (Nat.lt_two_pow n).le
  · exact hn

theorem one_le_intWidth (w : Nat) : 1 ≤ intWidth w := by
  unfold intWidth
  split <;> omega

/-- The state in which the breadth-first pass starts satisfies the invariant. -/
theorem bfsInv_init (mst : List (List (Nat × Nat))) (n zero wp ww : Nat) (hz : zero < n)
    (hwp : n ≤ 2 ^ wp) (hww : 1 ≤ ww) :
    BfsInv mst n zero ww
      { q := [zero]
        parentbv := ivSet wp (List.replicate n 0) zero zero
        weightbv := ivSet ww (List.replicate n 0) zero 1
        visited := List.replicate n false } (fun _ => 0) := by
  have hvis : ∀ y, (List.replicate n false).getD y false = false := by
    intro y
    rw [List.getD_eq_getElem?_getD, List.getElem?_replicate]
    split <;> rfl
  refine
    { lenP := by rw [length_ivSet, List.length_replicate]
      lenW := by rw [length_ivSet, List.length_replicate]
      lenV := List.length_replicate _ _
      qlt := ?_
      qnd := List.nodup_singleton _
      root := Or.inr rfl
      rootP := ?_
      rootW := ?_
      rootD := rfl
      par := ?_
      closed := ?_
      reach := ?_ }
  · intro x hx
    rw [List.mem_singleton] at hx
    rw [hx]
    exact ⟨hz, hvis zero⟩
  · show (ivSet wp (List.replicate n 0) zero zero).getD zero 0 = zero
    rw [getD_ivSet, if_pos ⟨rfl, by rw [List.length_replicate]; exact hz⟩]
    exact Nat.mod_eq_of_lt (by omega)
  · show (ivSet ww (List.replicate n 0) zero 1).getD zero 0 = 1
    rw [getD_ivSet, if_pos ⟨rfl, by rw [List.length_replicate]; exact hz⟩]
    apply Nat.mod_eq_of_lt
    have : 2 ^ 1 ≤ 2 ^ ww := Nat.pow_le_pow_right (by omega) hww
    omega
  · intro x hx hxz
    exfalso
    rcases hx with h | h
    · exact hxz (List.mem_singleton.mp h)
    · have : (List.replicate n false).getD x false = true := h
      rw [hvis x] at this
      cases this
  · intro p hp
    have : (List.replicate n false).getD p false = true := hp
    rw [hvis p] at this
    cases this
  · intro x hx hz2 hdx
    rcases hdx with h | h
    · have hxz : x = zero := List.mem_singleton.mp h
      subst hxz
      exact SimpleGraph.Reachable.refl _
    · have : (List.replicate n false).getD x false = true := h
      rw [hvis x] at this
      cases this

/-- When the queue is empty, every node of the tree is visited. -/
theorem bfsInv_all_visited (mst : List (List (Nat × Nat))) (n zero ww : Nat)
    (ht : TreeAdj n mst) (hz : zero < n) (b : BfsState) (d : Nat → Nat)
    (inv : BfsInv mst n zero ww b d) (hq : b.q = []) (c : Nat) (hc : c < n) :
    b.visited.getD c false = true := by
  have hzv : b.visited.getD zero false = true := by
    rcases inv.root with h | h
    · exact h
    · rw [hq] at h
      cases h
  have hstep : ∀ x y : Fin n, (mstGraph n mst).Adj x y → b.visited.getD x.val false = true →
      b.visited.getD y.val false = true := by
    intro x y hxy hx
    unfold mstGraph at hxy
    rw [SimpleGraph.fromRel_adj] at hxy
    have hmem : ∃ w, (y.val, w) ∈ mst.getD x.val [] := by
      rcases hxy.2 with ⟨w, h⟩ | ⟨w, h⟩
      · exact ⟨w, h⟩
      · exact ⟨w, ht.symm _ _ _ h⟩
    obtain ⟨w, hw⟩ := hmem
    rcases inv.closed x.val hx (y.val, w) hw with h | h
    · rw [hq] at h
      cases h
    · exact h
  have hwalk : ∀ (x y : Fin n), (mstGraph n mst).Walk x y →
      b.visited.getD x.val false = true → b.visited.getD y.val false = true := by
    intro x y walk
    induction walk with
    | nil => exact fun h => h
    | cons hadj _ ih => exact fun h => ih (hstep _ _ hadj h)
  obtain ⟨walk⟩ := ht.connected ⟨zero, hz⟩ ⟨c, hc⟩
  exact hwalk _ _ walk hzv

/-- The parent chain of a visited node: after `j ≤ d x` steps it stands at a visited node of
depth `d x - j`. -/
theorem bfs_chain (mst : List (List (Nat × Nat))) (n zero ww : Nat) (b : BfsState)
    (d : Nat → Nat) (inv : BfsInv mst n zero ww b d) (j : Nat) :
    ∀ x, b.visited.getD x false = true → j ≤ d x →
      b.visited.getD ((fun y => b.parentbv.getD y 0)^[j] x) false = true ∧
      d ((fun y => b.parentbv.getD y 0)^[j] x) = d x - j := by
  induction j with
  | zero =>
    intro x hx _
    exact ⟨hx, rfl⟩
  | succ j ih =>
    intro x hx hj
    have hxz : x ≠ zero := by
      intro hc
      rw [hc, inv.rootD] at hj
      omega
    obtain ⟨a1, w, _, _, a4⟩ := inv.par x (Or.inr hx) hxz
    obtain ⟨i1, i2⟩ := ih (b.parentbv.getD x 0) a1 (by omega)
    rw [Function.iterate_succ_apply]
    exact ⟨i1, by rw [i2]; omega⟩

/-- What the breadth-first pass of `encodeColorClassUsingMST` computes on a tree (`fuel` of at
least `num_colorClasses` passes): the pass returns with an empty queue, the root is its own
parent and has the weight 1, and for every other node `c` the parent is a neighbour of `c` in
the tree, `weight[c]` is the weight of the tree edge `(c, parent[c])` reduced to the width
`ceil(log2(numSamples))` of the cells, and following `parent` from `c` runs through distinct
nodes, each adjacent to the next, and reaches the root: it is the tree path from `c` to the
root. -/
theorem bfsPass_spec (mst : List (List (Nat × Nat))) (numSamples n zero fuel : Nat)
    (ht : TreeAdj n mst) (hz : zero < n) (hn : n ≤ 2 ^ 64) (hfuel : n ≤ fuel) :
    ∃ b, bfsPass mst numSamples n zero fuel = some b ∧ b.q = [] ∧
      b.parentbv.getD zero 0 = zero ∧ b.weightbv.getD zero 0 = 1 ∧
      ∀ c, c < n → c ≠ zero →
        (∃ w, (b.parentbv.getD c 0, w) ∈ mst.getD c [] ∧
          b.weightbv.getD c 0 = w % 2 ^ intWidth (ceilLog2 numSamples)) ∧
        ∃ k, (fun y => b.parentbv.getD y 0)^[k] c = zero ∧
          ((List.range (k + 1)).map (fun j => (fun y => b.parentbv.getD y 0)^[j] c)).Nodup ∧
          ∀ j, j < k → ∃ w, ((fun y => b.parentbv.getD y 0)^[j + 1] c, w) ∈
            mst.getD ((fun y => b.parentbv.getD y 0)^[j] c) [] := by
  have hwp := le_two_pow_intWidth n hn
  have hww := one_le_intWidth (ceilLog2 numSamples)
  obtain ⟨b, d, h1, inv, hq⟩ := bfsLoop_spec mst n zero (intWidth (ceilLog2 n))
    (intWidth (ceilLog2 numSamples)) ht hwp fuel _ _
    (bfsInv_init mst n zero (intWidth (ceilLog2 n)) (intWidth (ceilLog2 numSamples)) hz hwp hww)
    (by
      show (List.replicate n false).count false ≤ fuel
      rw [List.count_replicate_self]
      exact hfuel)
  refine ⟨b, h1, hq, inv.rootP, inv.rootW, ?_⟩
  intro c hc hcz
  have hvis := bfsInv_all_visited mst n zero _ ht hz b d inv hq
  have hdz : ∀ x, b.visited.getD x false = true → d x = 0 → x = zero := by
    intro x hx hd
    by_contra hne
    obtain ⟨_, w, _, _, a4⟩ := inv.par x (Or.inr hx) hne
    omega
  obtain ⟨_, w, a2, a3, _⟩ := inv.par c (Or.inr (hvis c hc)) hcz
  refine ⟨⟨w, ht.symm _ _ _ a2, a3⟩, d c, ?_, ?_, ?_⟩
  · obtain ⟨i1, i2⟩ := bfs_chain mst n zero _ b d inv (d c) c (hvis c hc) (le_refl _)
    exact hdz _ i1 (by rw [i2]; omega)
  · rw [List.nodup_map_iff_inj_on (List.nodup_range _)]
    intro j1 hj1 j2 hj2 heq
    have k1 := (bfs_chain mst n zero _ b d inv j1 c (hvis c hc)
      (by have := List.mem_range.mp hj1; omega)).2
    have k2 := (bfs_chain mst n zero _ b d inv j2 c (hvis c hc)
      (by have := List.mem_range.mp hj2; omega)).2
    rw [heq] at k1
    have := List.mem_range.mp hj1
    have := List.mem_range.mp hj2
    omega
  · intro j hj
    obtain ⟨i1, i2⟩ := bfs_chain mst n zero _ b d inv j c (hvis c hc) (by omega)
    have hne : (fun y => b.parentbv.getD y 0)^[j] c ≠ zero := by
      intro hc2
      rw [hc2, inv.rootD] at i2
      omega
    obtain ⟨_, w1, b2, _, _⟩ := inv.par _ (Or.inr i1) hne
    refine ⟨w1, ?_⟩
    rw [Function.iterate_succ_apply']
    exact ht.symm _ _ _ b2

/-! ## The breadth-first pass on the tree of kruskalMSF -/

theorem kruskalEdge_simple (n fuel w W : Nat) (st st2 : KruskalState) (ρ : Nat → Nat)
    (T P : List (Nat × Nat × Nat)) (it : Edge) (hinv : KInv n st ρ T P W)
    (hu : it.n1 < n) (hv : it.n2 < n) (hfuel : n ≤ fuel)
    (hirr : ∀ p, ∀ e ∈ st.mst.getD p [], e.1 ≠ p)
    (hnd : ∀ p, ((st.mst.getD p []).map Prod.fst).Nodup)
    (h : kruskalEdge fuel w st it = some st2) :
    (∀ p, ∀ e ∈ st2.mst.getD p [], e.1 ≠ p) ∧
      ∀ p, ((st2.mst.getD p []).map Prod.fst).Nodup := by
  have hn : 0 < n := by omega
  have hTlt := hinv.length_lt hn
  have hlen := hinv.len
  obtain ⟨ds1, e1, e2, _, e4⟩ :=
    DisjointSets.find_spec ρ T.length fuel st.ds it.n1 hinv.rep (by omega) (by omega)
  obtain ⟨ds2, f1, f2, _, f4⟩ :=
    DisjointSets.find_spec ρ T.length fuel ds1 it.n2 e4 (by omega) (by omega)
  unfold kruskalEdge at h
  rw [e1] at h
  simp only at h
  rw [f1] at h
  simp only at h
  by_cases hroots : ρ it.n1 = ρ it.n2
  · rw [if_neg (fun h => h hroots)] at h
    cases h
    exact ⟨hirr, hnd⟩
  · rw [if_pos hroots] at h
    cases hm : ds2.merge fuel (ρ it.n1) (ρ it.n2) w with
    | none => rw [hm] at h; cases h
    | some ds3 =>
      rw [hm] at h
      cases h
      simp only
      have huv : it.n1 ≠ it.n2 := fun h => hroots (by rw [h])
      have hnot : ∀ a b, a < n → b < n → ρ a ≠ ρ b →
          b ∉ (st.mst.getD a []).map Prod.fst := by
        intro a b ha hb hne hmem
        rw [List.mem_map] at hmem
        obtain ⟨⟨b2, w2⟩, hmem, hb2⟩ := hmem
        simp only at hb2
        subst hb2
        have hab : a ≠ b2 := fun h => hne (by rw [h])
        apply hne
        apply (hinv.same ⟨a, ha⟩ ⟨b2, hb⟩).mpr
        apply SimpleGraph.Adj.reachable
        rw [edgeGraph_adj]
        refine ⟨fun h => hab (congrArg Fin.val h), ?_⟩
        rcases (hinv.adj a b2 w2).mp hmem with h1 | h1
        · exact Or.inl ⟨w2, h1⟩
        · exact Or.inr ⟨w2, h1⟩
      have hg : ∀ p, (adjPush (adjPush st.mst it.n1 it.n2 w) it.n2 it.n1 w).getD p [] =
          if p = it.n1 then st.mst.getD it.n1 [] ++ [(it.n2, w)]
          else if p = it.n2 then st.mst.getD it.n2 [] ++ [(it.n1, w)]
          else st.mst.getD p [] := by
        intro p
        rw [getD_adjPush, length_adjPush, getD_adjPush, getD_adjPush, hinv.mstLen]
        by_cases h1 : p = it.n1
        · have h3 : ¬ it.n1 = it.n2 := huv
          simp [h1, h3, hu]
        · by_cases h2 : p = it.n2
          · have h3 : ¬ it.n2 = it.n1 := fun h => huv h.symm
            simp [h2, h3, hv]
          · simp [h1, h2]
      refine ⟨?_, ?_⟩
      · intro p e he
        rw [hg] at he
        by_cases h1 : p = it.n1
        · rw [if_pos h1, List.mem_append, List.mem_singleton] at he
          rcases he with he | he
          · rw [h1]; exact hirr _ e he
          · rw [he, h1]; exact fun h => huv h.symm
        · rw [if_neg h1] at he
          by_cases h2 : p = it.n2
          · rw [if_pos h2, List.mem_append, List.mem_singleton] at he
            rcases he with he | he
            · rw [h2]; exact hirr _ e he
            · rw [he, h2]; exact huv
          · rw [if_neg h2] at he
            exact hirr p e he
      · intro p
        rw [hg]
        by_cases h1 : p = it.n1
        · rw [if_pos h1, List.map_append, List.nodup_append]
          refine ⟨hnd _, by simp, ?_⟩
          intro x hx hx2
          rw [List.map_singleton, List.mem_singleton] at hx2
          rw [hx2] at hx
          exact hnot it.n1 it.n2 hu hv hroots hx
        · rw [if_neg h1]
          by_cases h2 : p = it.n2
          · rw [if_pos h2, List.map_append, List.nodup_append]
            refine ⟨hnd _, by simp, ?_⟩
            intro x hx hx2
            rw [List.map_singleton, List.mem_singleton] at hx2
            rw [hx2] at hx
            exact hnot it.n2 it.n1 hv hu (fun h => hroots h.symm) hx
          · rw [if_neg h2]
            exact hnd p

theorem kruskalBucket_simple (n fuel w : Nat) (hfuel : n ≤ fuel) (es : List Edge) :
    ∀ (st : KruskalState) (ρ : Nat → Nat) (T P : List (Nat × Nat × Nat)),
      KInv n st ρ T P w → (∀ e ∈ es, e.n1 < n ∧ e.n2 < n) →
      (∀ p, ∀ e ∈ st.mst.getD p [], e.1 ≠ p) →
      (∀ p, ((st.mst.getD p []).map Prod.fst).Nodup) →
      ∃ st2 ρ2 T2, kruskalBucket fuel w st es = some st2 ∧
        KInv n st2 ρ2 T2 (P ++ es.map (fun e => (e.n1, e.n2, w))) w ∧
        (∀ p, ∀ e ∈ st2.mst.getD p [], e.1 ≠ p) ∧
        ∀ p, ((st2.mst.getD p []).map Prod.fst).Nodup := by
  induction es with
  | nil =>
    intro st ρ T P hinv _ hirr hnd
    exact ⟨st, ρ, T, rfl, by simpa using hinv, hirr, hnd⟩
  | cons e rest ih =>
    intro st ρ T P hinv hr hirr hnd
    obtain ⟨st1, ρ1, T1, h1, h2, _⟩ := kruskalEdge_spec n fuel w w st ρ T P e hinv
      (hr e (List.mem_cons_self _ _)).1 (hr e (List.mem_cons_self _ _)).2 (le_refl _) hfuel
    obtain ⟨hirr1, hnd1⟩ := kruskalEdge_simple n fuel w w st st1 ρ T P e hinv
      (hr e (List.mem_cons_self _ _)).1 (hr e (List.mem_cons_self _ _)).2 hfuel hirr hnd h1
    obtain ⟨st2, ρ2, T2, h3, h4, h5⟩ := ih st1 ρ1 T1 _ h2
      (fun x hx => hr x (List.mem_cons_of_mem _ hx)) hirr1 hnd1
    refine ⟨st2, ρ2, T2, ?_, ?_, h5⟩
    · rw [kruskalBucket, h1]
      exact h3
    · simpa [List.append_assoc] using h4

theorem kruskalBuckets_simple (n fuel : Nat) (hfuel : n ≤ fuel)
    (weightBuckets : List (List Edge)) (len : Nat) :
    ∀ (s : Nat) (st : KruskalState) (ρ : Nat → Nat) (T P : List (Nat × Nat × Nat)),
      KInv n st ρ T P s →
      (∀ i, s ≤ i → i < s + len → ∀ e ∈ weightBuckets.getD i [], e.n1 < n ∧ e.n2 < n) →
      (∀ p, ∀ e ∈ st.mst.getD p [], e.1 ≠ p) →
      (∀ p, ((st.mst.getD p []).map Prod.fst).Nodup) →
      ∃ st2 ρ2 T2, kruskalBuckets fuel weightBuckets st (List.range' s len) = some st2 ∧
        KInv n st2 ρ2 T2
          (P ++ (List.range' s len).flatMap
            (fun i => (weightBuckets.getD i []).map (fun e => (e.n1, e.n2, i + 1))))
          (s + len) ∧
        (∀ p, ∀ e ∈ st2.mst.getD p [], e.1 ≠ p) ∧
        ∀ p, ((st2.mst.getD p []).map Prod.fst).Nodup := by
  induction len with
  | zero =>
    intro s st ρ T P hinv _ hirr hnd
    exact ⟨st, ρ, T, rfl, by simpa using hinv, hirr, hnd⟩
  | succ len ih =>
    intro s st ρ T P hinv hr hirr hnd
    obtain ⟨st1, ρ1, T1, h1, h2, hirr1, hnd1⟩ := kruskalBucket_simple n fuel (s + 1) hfuel
      (weightBuckets.getD s []) st ρ T P (hinv.weaken (by omega))
      (hr s (le_refl _) (by omega)) hirr hnd
    obtain ⟨st2, ρ2, T2, h3, h4, h5⟩ := ih (s + 1) st1 ρ1 T1 _ h2
      (fun i hi1 hi2 => hr i (by omega) (by omega)) hirr1 hnd1
    refine ⟨st2, ρ2, T2, ?_, ?_, h5⟩
    · rw [List.range'_succ, kruskalBuckets, h1]
      exact h3
    · have e : s + 1 + len = s + (len + 1) := by omega
      rw [e] at h4
      rw [List.range'_succ, List.flatMap_cons, ← List.append_assoc]
      exact h4

/-- On every weighted edge collection that holds a root edge for every color id, the adjacency
lists that `kruskalMSF` returns are those of a tree over the `num_colorClasses` nodes: no list
holds its own node or a node twice, the lists are symmetric, and their graph is connected and
acyclic. -/
theorem kruskalMSF_treeAdj (fuel numSamples num_colorClasses : Nat)
    (weightBuckets : List (List Edge)) (hn : 0 < num_colorClasses)
    (hn32 : num_colorClasses ≤ 2 ^ 32) (hfuel : num_colorClasses ≤ fuel)
    (hrange : ∀ i, i < numSamples → ∀ e ∈ weightBuckets.getD i [],
      e.n1 < num_colorClasses ∧ e.n2 < num_colorClasses)
    (hroot : ∀ c, c < num_colorClasses - 1 →
      ∃ i, i < numSamples ∧ (⟨c, num_colorClasses - 1⟩ : Edge) ∈ weightBuckets.getD i []) :
    ∃ st, kruskalMSF fuel numSamples num_colorClasses weightBuckets = some st ∧
      TreeAdj num_colorClasses st.mst ∧
      ∀ a b w, (b, w) ∈ st.mst.getD a [] → ∃ i, i < numSamples ∧ w = i + 1 ∧
        ((⟨a, b⟩ : Edge) ∈ weightBuckets.getD i [] ∨
          (⟨b, a⟩ : Edge) ∈ weightBuckets.getD i []) := by
  obtain ⟨st, ρ, T, h1, h2, hirr, hnd⟩ := kruskalBuckets_simple num_colorClasses fuel hfuel
    weightBuckets numSamples 0 _ _ [] [] (kInv_init num_colorClasses hn32)
    (fun i _ hi e he => hrange i (by omega) e he)
    (fun p e he => by
      exfalso
      revert he
      simp [List.getD_eq_getElem?_getD, List.getElem?_replicate]
      split <;> simp)
    (fun p => by
      have : (List.replicate num_colorClasses ([] : List (Nat × Nat))).getD p [] = [] := by
        simp [List.getD_eq_getElem?_getD, List.getElem?_replicate]
        split <;> simp
      rw [this]
      exact List.nodup_nil)
  have hinv : KInv num_colorClasses st ρ T (bucketEdges numSamples weightBuckets)
      numSamples := by
    unfold bucketEdges
    rw [List.range_eq_range']
    simpa using h2
  refine ⟨{ st with mstTotalWeight := st.mstTotalWeight + 1 }, ?_, ?_, ?_⟩
  · unfold kruskalMSF
    rw [List.range_eq_range', h1]
  · show TreeAdj num_colorClasses st.mst
    have hzero : num_colorClasses - 1 < num_colorClasses := by omega
    have hreach : ∀ a : Fin num_colorClasses,
        (edgeGraph num_colorClasses T).Reachable a ⟨num_colorClasses - 1, hzero⟩ := by
      intro a
      by_cases ha : a.val = num_colorClasses - 1
      · have : a = ⟨num_colorClasses - 1, hzero⟩ := Fin.ext ha
        rw [this]
      · have hlt : a.val < num_colorClasses - 1 := by have := a.isLt; omega
        obtain ⟨i, hi, he⟩ := hroot a.val hlt
        apply hinv.proc
        rw [edgeGraph_adj]
        refine ⟨fun h => ha (by rw [h]), Or.inl ⟨i + 1, ?_⟩⟩
        exact (mem_bucketEdges _ _ _ _ _).mpr ⟨i, hi, rfl, he⟩
    exact
      { range := by
          intro p e he
          have h3 := (hinv.adj p e.1 e.2).mp he
          rcases h3 with h3 | h3
          · exact (hinv.range _ (hinv.sub _ h3)).2.1
          · exact (hinv.range _ (hinv.sub _ h3)).1
        irrefl := hirr
        nodup := hnd
        symm := by
          intro p x w hx
          rw [hinv.adj] at hx ⊢
          exact hx.symm
        acyclic := by
          rw [mstGraph_eq_edgeGraph _ _ T hinv.adj]
          exact hinv.acyclic
        connected := by
          intro a b
          rw [mstGraph_eq_edgeGraph _ _ T hinv.adj]
          exact (hreach a).trans (hreach b).symm }
  · intro a b w hmem
    have hmem2 : (b, w) ∈ st.mst.getD a [] := hmem
    rcases (hinv.adj a b w).mp hmem2 with h3 | h3
    · obtain ⟨i, hi, hw, he⟩ := (mem_bucketEdges _ _ _ _ _).mp (hinv.sub _ h3)
      exact ⟨i, hi, hw, Or.inl he⟩
    · obtain ⟨i, hi, hw, he⟩ := (mem_bucketEdges _ _ _ _ _).mp (hinv.sub _ h3)
      exact ⟨i, hi, hw, Or.inr he⟩

/-- The breadth-first pass on the tree of `kruskalMSF`, with the root `num_colorClasses - 1`:
the pass returns with an empty queue, the root is its own parent with the weight 1, every
other node has a parent that is a tree neighbour, the parent chain of every node reaches the
root along tree edges without repeating a node, and the stored weight of a node is the weight
`w` of the tree edge to its parent unless `w` is `2 ^ width` for the width of the cells of
`weightbv`, in which case it is 0. -/
theorem bfsPass_kruskalMSF (fuel numSamples num_colorClasses : Nat)
    (weightBuckets : List (List Edge)) (hn : 0 < num_colorClasses)
    (hn32 : num_colorClasses ≤ 2 ^ 32) (hs : numSamples ≤ 2 ^ 64)
    (hfuel : num_colorClasses ≤ fuel)
    (hrange : ∀ i, i < numSamples → ∀ e ∈ weightBuckets.getD i [],
      e.n1 < num_colorClasses ∧ e.n2 < num_colorClasses)
    (hroot : ∀ c, c < num_colorClasses - 1 →
      ∃ i, i < numSamples ∧ (⟨c, num_colorClasses - 1⟩ : Edge) ∈ weightBuckets.getD i []) :
    ∃ st b, kruskalMSF fuel numSamples num_colorClasses weightBuckets = some st ∧
      bfsPass st.mst numSamples num_colorClasses (num_colorClasses - 1) fuel = some b ∧
      b.q = [] ∧ b.parentbv.getD (num_colorClasses - 1) 0 = num_colorClasses - 1 ∧
      b.weightbv.getD (num_colorClasses - 1) 0 = 1 ∧
      ∀ c, c < num_colorClasses → c ≠ num_colorClasses - 1 →
        (∃ w, (b.parentbv.getD c 0, w) ∈ st.mst.getD c [] ∧ 1 ≤ w ∧ w ≤ numSamples ∧
          b.weightbv.getD c 0 =
            if w = 2 ^ intWidth (ceilLog2 numSamples) then 0 else w) ∧
        ∃ k, (fun y => b.parentbv.getD y 0)^[k] c = num_colorClasses - 1 ∧
          ((List.range (k + 1)).map (fun j => (fun y => b.parentbv.getD y 0)^[j] c)).Nodup ∧
          ∀ j, j < k → ∃ w, ((fun y => b.parentbv.getD y 0)^[j + 1] c, w) ∈
            st.mst.getD ((fun y => b.parentbv.getD y 0)^[j] c) [] := by
  obtain ⟨st, h1, ht, hw⟩ := kruskalMSF_treeAdj fuel numSamples num_colorClasses weightBuckets
    hn hn32 hfuel hrange hroot
  have hn64 : num_colorClasses ≤ 2 ^ 64 :=
    le_trans hn32 (Nat.pow_le_pow_right (by decide) (by decide))
  obtain ⟨b, hb, hq, hp, hwz, hall⟩ := bfsPass_spec st.mst numSamples num_colorClasses
    (num_colorClasses - 1) fuel ht (by omega) hn64 hfuel
  refine ⟨st, b, h1, hb, hq, hp, hwz, ?_⟩
  intro c hc hne
  obtain ⟨⟨w, hmem, hwt⟩, hchain⟩ := hall c hc hne
  refine ⟨⟨w, hmem, ?_⟩, hchain⟩
  obtain ⟨i, hi, hwi, _⟩ := hw c _ w hmem
  have hle := le_two_pow_intWidth numSamples hs
  refine ⟨by omega, by omega, ?_⟩
  rw [hwt]
  by_cases h2 : w = 2 ^ intWidth (ceilLog2 numSamples)
  · rw [if_pos h2]
    nth_rewrite 1 [h2]
    exact Nat.mod_self _
  · rw [if_neg h2]
    exact Nat.mod_eq_of_lt (by omega)

/-- An instance of `bfsPass_kruskalMSF`: two colors and the root over three samples. -/
theorem bfsPass_kruskalMSF_example :
    ∃ st b, kruskalMSF 3 3 3 [[⟨0, 2⟩], [⟨1, 2⟩], []] = some st ∧
      bfsPass st.mst 3 3 (3 - 1) 3 = some b ∧
      b.q = [] ∧ b.parentbv.getD (3 - 1) 0 = 3 - 1 ∧
      b.weightbv.getD (3 - 1) 0 = 1 ∧
      ∀ c, c < 3 → c ≠ 3 - 1 →
        (∃ w, (b.parentbv.getD c 0, w) ∈ st.mst.getD c [] ∧ 1 ≤ w ∧ w ≤ 3 ∧
          b.weightbv.getD c 0 = if w = 2 ^ intWidth (ceilLog2 3) then 0 else w) ∧
        ∃ k, (fun y => b.parentbv.getD y 0)^[k] c = 3 - 1 ∧
          ((List.range (k + 1)).map (fun j => (fun y => b.parentbv.getD y 0)^[j] c)).Nodup ∧
          ∀ j, j < k → ∃ w, ((fun y => b.parentbv.getD y 0)^[j + 1] c, w) ∈
            st.mst.getD ((fun y => b.parentbv.getD y 0)^[j] c) [] :=
  bfsPass_kruskalMSF 3 3 3 [[⟨0, 2⟩], [⟨1, 2⟩], []] (by decide) (by norm_num) (by norm_num)
    (by decide) (by decide) (by decide)

/-! ## The delta list of the builder -/

theorem foldl_push_filter (P : Nat → Prop) [DecidablePred P] (f : Nat → Nat) (L : List Nat) :
    ∀ r : List Nat, L.foldl (fun res j => if P j then res ++ [f j] else res) r =
      r ++ (L.filter (fun j => decide (P j))).map f := by
  induction L with
  | nil => intro r; simp
  | cons a t ih =>
    intro r
    rw [List.foldl_cons, ih]
    by_cases h : P a
    · simp [h]
    · simp [h]

theorem foldl_append_flatMap (g : Nat → List Nat) (L : List Nat) :
    ∀ r : List Nat, L.foldl (fun res i => res ++ g i) r = r ++ L.flatMap g := by
  induction L with
  | nil => intro r; simp
  | cons a t ih =>
    intro r
    rw [List.foldl_cons, ih, List.flatMap_cons, List.append_assoc]

theorem flatMap_filter_blocks (D : Nat → Bool) (W : Nat) :
    (List.range W).flatMap
        (fun i => ((List.range 64).filter (fun j => D (i * 64 + j))).map (fun j => i * 64 + j)) =
      (List.range (64 * W)).filter D := by
  induction W with
  | zero => simp
  | succ W ih =>
    have hr : List.range (W + 1) = List.range W ++ [W] := List.range_succ _
    rw [hr, List.flatMap_append, ih]
    have e : 64 * (W + 1) = 64 * W + 64 := by ring
    rw [e, List.range_add, List.filter_append, List.filter_map]
    congr 1
    simp only [List.flatMap_cons, List.flatMap_nil, List.append_nil]
    have e2 : ∀ j, W * 64 + j = 64 * W + j := fun j => by ring
    simp only [e2]
    rfl

theorem testBit_eq_shift (x j : Nat) : x.testBit j = decide ((x >>> j) &&& 1 ≠ 0) := by
  unfold Nat.testBit
  rw [Nat.and_comm]
  by_cases h : (x >>> j) &&& 1 = 0
  · rw [h]
    rfl
  · have h2 : ((x >>> j &&& 1) != 0) = true := by
      rw [bne_iff_ne]
      exact h
    rw [h2]
    exact (decide_eq_true h).symm

/-- The loops of `getDeltaList` list, in increasing order, the positions below
`64 * eq1.size()` at which the two word vectors differ. -/
theorem deltaLoop_eq (eq1 eq2 : List Nat) :
    deltaLoop eq1 eq2 =
      (List.range (64 * eq1.length)).filter
        (fun s => (eq1.getD (s / 64) 0 ^^^ eq2.getD (s / 64) 0).testBit (s % 64)) := by
  unfold deltaLoop
  have h1 : ∀ (res : List Nat) (i : Nat),
      (List.range 64).foldl
        (fun res j =>
          if ((eq1.getD i 0 ^^^ eq2.getD i 0) >>> j) &&& 1 ≠ 0 then res ++ [i * 64 + j]
          else res) res =
      res ++ ((List.range 64).filter
        (fun j => (eq1.getD ((i * 64 + j) / 64) 0 ^^^
          eq2.getD ((i * 64 + j) / 64) 0).testBit ((i * 64 + j) % 64))).map
            (fun j => i * 64 + j) := by
    intro res i
    rw [foldl_push_filter (fun j => ((eq1.getD i 0 ^^^ eq2.getD i 0) >>> j) &&& 1 ≠ 0)
      (fun j => i * 64 + j)]
    congr 2
    apply List.filter_congr
    intro j hj
    rw [List.mem_range] at hj
    have e1 : (i * 64 + j) / 64 = i := by omega
    have e2 : (i * 64 + j) % 64 = j := by omega
    rw [e1, e2, testBit_eq_shift]
  simp only [h1]
  rw [foldl_append_flatMap, List.nil_append]
  exact flatMap_filter_blocks
    (fun s => (eq1.getD (s / 64) 0 ^^^ eq2.getD (s / 64) 0).testBit (s % 64)) eq1.length

theorem filter_range_cut (D E : Nat → Bool) (S n : Nat) (hn : S ≤ n)
    (hD : ∀ s, S ≤ s → D s = false) (hE : ∀ s, s < S → D s = E s) :
    (List.range n).filter D = (List.range S).filter E := by
  obtain ⟨r, hr⟩ : ∃ r, n = S + r := ⟨n - S, by omega⟩
  rw [hr, List.range_add, List.filter_append, List.filter_map]
  have : (List.range r).filter (D ∘ fun x => S + x) = [] := by
    rw [List.filter_eq_nil_iff]
    intro x _
    simp [hD (S + x) (by omega)]
  rw [this, List.map_nil, List.append_nil]
  apply List.filter_congr
  intro s hs
  rw [List.mem_range] at hs
  exact hE s hs

/-- The list that `getDeltaList` returns for two different ids: the samples in which the
bitmap of the smaller id (read from `bvp1`) and the bitmap of the larger id (read from `bvp2`)
differ, in increasing order. -/
theorem getDeltaList_eq (S zero : Nat) (bvp1 bvp2 : List Bool) (a b : Nat) (hS : 0 < S)
    (hS32 : S < 2 ^ 32) (hab : a ≠ b) :
    MST.getDeltaList S zero bvp1 bvp2 a b =
      (List.range S).filter (fun i =>
        bitmapBit S zero bvp1 (min a b) i != bitmapBit S zero bvp2 (max a b) i) := by
  have hW : (S + (2 ^ 32 - 1)) % 2 ^ 32 / 64 + 1 = (S - 1) / 64 + 1 := by
    have : (S + (2 ^ 32 - 1)) % 2 ^ 32 = S - 1 := by omega
    rw [this]
  have hmin : (if a > b then b else a) = min a b := by
    split
    · exact (Nat.min_eq_right (by omega)).symm
    · exact (Nat.min_eq_left (by omega)).symm
  have hmax : (if a > b then a else b) = max a b := by
    split
    · exact (Nat.max_eq_left (by omega)).symm
    · exact (Nat.max_eq_right (by omega)).symm
  unfold MST.getDeltaList
  rw [if_neg hab, hW, hmin, hmax, deltaLoop_eq, length_buildColor, List.length_replicate]
  apply filter_range_cut
  · omega
  · intro s hs
    rw [Nat.testBit_xor, buildColor_word_testBit S zero _ bvp1 hS _ _ (Nat.mod_lt _ (by decide)),
      buildColor_word_testBit S zero _ bvp2 hS _ _ (Nat.mod_lt _ (by decide)),
      Nat.div_add_mod]
    have : decide (s < S) = false := by simp; omega
    rw [this]
    rfl
  · intro s hs
    rw [Nat.testBit_xor, buildColor_word_testBit S zero _ bvp1 hS _ _ (Nat.mod_lt _ (by decide)),
      buildColor_word_testBit S zero _ bvp2 hS _ _ (Nat.mod_lt _ (by decide)),
      Nat.div_add_mod]
    have : decide (s < S) = true := by simp; omega
    rw [this]
    cases bitmapBit S zero bvp1 (min a b) s <;> cases bitmapBit S zero bvp2 (max a b) s <;> rfl

theorem getDeltaList_comm (S zero : Nat) (bvp1 bvp2 : List Bool) (a b : Nat) :
    MST.getDeltaList S zero bvp1 bvp2 a b = MST.getDeltaList S zero bvp1 bvp2 b a := by
  unfold MST.getDeltaList
  by_cases h : a = b
  · rw [if_pos h, if_pos h.symm]
  · rw [if_neg h, if_neg (fun (e : b = a) => h e.symm)]
    by_cases h2 : a > b
    · have h3 : ¬ b > a := by omega
      rw [if_pos h2, if_pos h2, if_neg h3, if_neg h3]
    · have h3 : b > a := by omega
      rw [if_neg h2, if_neg h2, if_pos h3, if_pos h3]

theorem popcountXor_comm (S zero : Nat) (bv : List Bool) (a b : Nat) :
    popcountXor S zero bv bv a b = popcountXor S zero bv bv b a := by
  unfold popcountXor
  congr 1
  apply List.filter_congr
  intro i _
  cases bitmapBit S zero bv a i <;> cases bitmapBit S zero bv b i <;> rfl

theorem popcountXor_self (S zero : Nat) (bv : List Bool) (a : Nat) :
    popcountXor S zero bv bv a a = 0 := by
  unfold popcountXor
  rw [List.length_eq_zero, List.filter_eq_nil_iff]
  intro i _
  simp

/-- C31 as stated does not hold for the length: `hammingDist` reads its first argument from
`bvp1` and its second from `bvp2` without ordering them.  Over one sample, with the buffer
`bvp1` of the colors 0 (bitmap `{0}`) and 1 (empty) and the buffer `bvp2` of the colors
`NUM_BV_BUFFER` and `NUM_BV_BUFFER + 1` (both empty), `getDeltaList(NUM_BV_BUFFER + 1, 0)` is
`[0]`, the one sample in which the two colors differ, while `hammingDist(NUM_BV_BUFFER + 1, 0)`
is 0; in the other order it is 1. -/
theorem getDeltaList_length_ne_hammingDist :
    MST.getDeltaList 1 20000002 [true, false] [false, false] 20000001 0 = [0] ∧
    (MST.hammingDist 1 20000002 [true, false] [false, false] 20000001 0 SrcCache.empty).1 = 0 ∧
    (MST.hammingDist 1 20000002 [true, false] [false, false] 0 20000001 SrcCache.empty).1 = 1 ∧
    NUM_BV_BUFFER + 1 = 20000001 := by
  refine ⟨by decide, by decide, by decide, by decide⟩

/-- C31, amended: for `1 ≤ numSamples < 2 ^ 32`, `getDeltaList(a, b)` is empty for `a = b`
and otherwise lists, in strictly increasing order, exactly the samples `i < numSamples` in
which the bitmap of the smaller id (read from `bvp1`) and the bitmap of the larger id (read
from `bvp2`) differ, the root having the empty bitmap; it is symmetric in `a` and `b`; its
length is `hammingDist(min(a, b), max(a, b))` for `a ≠ b`, and `hammingDist(a, b)` in either
order when both ids are read from the same buffer. -/
theorem getDeltaList_spec (S zero : Nat) (bvp1 bvp2 : List Bool) (a b : Nat) (hS : 0 < S)
    (hS32 : S < 2 ^ 32) (ha : a < 2 ^ 32) :
    (MST.getDeltaList S zero bvp1 bvp2 a b).Pairwise (fun x y => x < y) ∧
    (∀ i, i ∈ MST.getDeltaList S zero bvp1 bvp2 a b ↔
      a ≠ b ∧ i < S ∧
        bitmapBit S zero bvp1 (min a b) i ≠ bitmapBit S zero bvp2 (max a b) i) ∧
    (a = b → MST.getDeltaList S zero bvp1 bvp2 a b = []) ∧
    (a < zero → ∀ i, i ∈ MST.getDeltaList S zero bvp1 bvp2 a zero ↔
      i < S ∧ bvp1.getD (a % NUM_BV_BUFFER * S + i) false = true) ∧
    MST.getDeltaList S zero bvp1 bvp2 a b = MST.getDeltaList S zero bvp1 bvp2 b a ∧
    (a ≠ b → (MST.getDeltaList S zero bvp1 bvp2 a b).length =
      (MST.hammingDist S zero bvp1 bvp2 (min a b) (max a b) SrcCache.empty).1) ∧
    (bvp1 = bvp2 → (MST.getDeltaList S zero bvp1 bvp2 a b).length =
      (MST.hammingDist S zero bvp1 bvp2 a b SrcCache.empty).1) := by
  have hmem : ∀ x y i, x ≠ y → (i ∈ MST.getDeltaList S zero bvp1 bvp2 x y ↔
      i < S ∧ bitmapBit S zero bvp1 (min x y) i ≠ bitmapBit S zero bvp2 (max x y) i) := by
    intro x y i hxy
    rw [getDeltaList_eq S zero bvp1 bvp2 x y hS hS32 hxy, List.mem_filter, List.mem_range]
    simp
  have hlen : a ≠ b → (MST.getDeltaList S zero bvp1 bvp2 a b).length =
      popcountXor S zero bvp1 bvp2 (min a b) (max a b) := by
    intro hab
    rw [getDeltaList_eq S zero bvp1 bvp2 a b hS hS32 hab]
    rfl
  have hmin32 : min a b < 2 ^ 32 := lt_of_le_of_lt (Nat.min_le_left a b) ha
  refine ⟨?_, ?_, ?_, ?_, getDeltaList_comm S zero bvp1 bvp2 a b, ?_, ?_⟩
  · by_cases hab : a = b
    · unfold MST.getDeltaList
      rw [if_pos hab]
      exact List.Pairwise.nil
    · rw [getDeltaList_eq S zero bvp1 bvp2 a b hS hS32 hab]
      exact List.Pairwise.filter _ (List.pairwise_lt_range S)
  · intro i
    by_cases hab : a = b
    · unfold MST.getDeltaList
      rw [if_pos hab]
      simp [hab]
    · rw [hmem a b i hab]
      simp [hab]
  · intro hab
    unfold MST.getDeltaList
    rw [if_pos hab]
  · intro haz i
    rw [hmem a zero i (by omega), Nat.min_eq_left (by omega), Nat.max_eq_right (by omega)]
    unfold bitmapBit
    rw [if_neg (by omega), if_pos rfl]
    simp
  · intro hab
    rw [hlen hab]
    exact ((hammingDist_cached S zero bvp1 bvp2 (min a b) (max a b) SrcCache.empty hS hS32
      hmin32 (Or.inl rfl)).1).symm
  · intro hbv
    subst hbv
    rw [(hammingDist_cached S zero bvp1 bvp1 a b SrcCache.empty hS hS32 ha (Or.inl rfl)).1]
    by_cases hab : a = b
    · unfold MST.getDeltaList
      rw [if_pos hab, hab, popcountXor_self]
      rfl
    · rw [hlen hab]
      by_cases h2 : a ≤ b
      · rw [Nat.min_eq_left h2, Nat.max_eq_right h2]
      · rw [Nat.min_eq_right (by omega), Nat.max_eq_left (by omega), popcountXor_comm]

/-- Witness of C31: three samples, the colors 0 = `{0}`, 1 = `{0, 1, 2}`, 2 = `{1}` of
`exampleBuffer` and the root 3. -/
theorem getDeltaList_spec_witness :
    MST.getDeltaList 3 3 exampleBuffer exampleBuffer 1 0 = [1, 2] ∧
    MST.getDeltaList 3 3 exampleBuffer exampleBuffer 2 3 = [1] ∧
    (MST.getDeltaList 3 3 exampleBuffer exampleBuffer 1 0).length =
      (MST.hammingDist 3 3 exampleBuffer exampleBuffer 1 0 SrcCache.empty).1 :=
  ⟨by decide, by decide,
    (getDeltaList_spec 3 3 exampleBuffer exampleBuffer 1 0 (by norm_num) (by norm_num)
      (by norm_num)).2.2.2.2.2.2 rfl⟩

/-! ## The disjoint sets of mst.h -/

theorem DisjointSets.find_mono (fuel : Nat) :
    ∀ (ds : DisjointSets) (u : Nat) (res : DisjointSets × Nat),
      ds.find fuel u = some res → ∀ k, ds.find (fuel + k) u = some res := by
  induction fuel with
  | zero =>
    intro ds u res h
    rw [DisjointSets.find] at h
    cases h
  | succ fuel ih =>
    intro ds u res h k
    have e : fuel + 1 + k = (fuel + k) + 1 := by omega
    rw [e, DisjointSets.find]
    rw [DisjointSets.find] at h
    by_cases hp : u ≠ (ds.node u).parent
    · rw [if_pos hp] at h ⊢
      cases h1 : DisjointSets.find fuel ds (ds.node u).parent with
      | none => rw [h1] at h; cases h
      | some p =>
        rw [h1] at h
        rw [ih ds _ p h1 k]
        exact h
    · rw [if_neg hp] at h ⊢
      exact h

theorem DisjointSets.merge_mono (fuel : Nat) (ds ds2 : DisjointSets) (x y edgeW : Nat)
    (h : ds.merge fuel x y edgeW = some ds2) (k : Nat) :
    ds.merge (fuel + k) x y edgeW = some ds2 := by
  unfold DisjointSets.merge at h ⊢
  cases h1 : ds.find fuel x with
  | none => rw [h1] at h; cases h
  | some p =>
    rw [h1] at h
    rw [DisjointSets.find_mono fuel ds x p h1 k]
    obtain ⟨ds1, x1⟩ := p
    simp only at h ⊢
    cases h2 : ds1.find fuel y with
    | none => rw [h2] at h; cases h
    | some q =>
      rw [h2] at h
      rw [DisjointSets.find_mono fuel ds1 y q h2 k]
      exact h

theorem DisjointSets.mergeWith_self (ds : DisjointSets) (a edgeW : Nat)
    (ha : a < ds.els.length) :
    (ds.mergeWith a a edgeW).els.length = ds.els.length ∧
    (∀ x, (ds.mergeWith a a edgeW).par x = ds.par x) ∧
    (∀ x, (ds.mergeWith a a edgeW).rk x = if x = a then ds.rk a + 1 else ds.rk x) := by
  unfold DisjointSets.mergeWith
  simp only [DisjointSets.node_update, DisjointSets.length_update, ha, and_true, if_true]
  refine ⟨?_, ?_, ?_⟩
  · simp [DisjointSets.length_update]
  · intro x
    simp only [DisjointSets.par_update, DisjointSets.length_update, ha, and_true, if_true]
    by_cases hx : a = x
    · subst hx
      simp [DisjointSets.par]
    · simp [hx]
  · intro x
    simp only [DisjointSets.rk_update, DisjointSets.length_update, ha, and_true, if_true]
    by_cases hx : a = x
    · subst hx
      simp [DisjointSets.rk]
    · have hx2 : ¬ x = a := fun h => hx h.symm
      simp [hx, hx2]

theorem Rep.bump {ds ds2 : DisjointSets} {ρ : Nat → Nat} {K : Nat} (a : Nat)
    (hrep : Rep ds ρ K) (ha : a < ds.els.length) (hroot : ds.par a = a)
    (hlen : ds2.els.length = ds.els.length) (hpar : ∀ x, ds2.par x = ds.par x)
    (hrk : ∀ x, ds2.rk x = if x = a then ds.rk a + 1 else ds.rk x) :
    Rep ds2 ρ (K + 1) := by
  intro u hu
  rw [hlen] at hu ⊢
  obtain ⟨h1, h2, h3, h4, h5, h6, h7, h8⟩ := hrep u hu
  have hge : ∀ x, ds.rk x ≤ ds2.rk x := by
    intro x
    rw [hrk]
    split
    · rename_i hc
      rw [hc]
      omega
    · exact le_refl _
  have hρa : ρ a = a := (hrep a ha).2.2.2.2.1 hroot
  rw [hpar, hpar]
  refine ⟨h1, h2, h3, h4, h5, ?_, ?_, ?_⟩
  · intro hne
    have hua : u ≠ a := fun h => hne (by rw [h, hρa])
    have := h6 hne
    have := hge (ρ u)
    rw [hrk u, if_neg hua]
    omega
  · intro hne
    have hua : u ≠ a := fun h => hne (by rw [h, hroot])
    have := h7 hne
    have := hge (ds.par u)
    rw [hrk u, if_neg hua]
    omega
  · rw [hrk]
    split
    · have := (hrep a ha).2.2.2.2.2.2.2
      omega
    · omega

/-- The method `merge` on two arbitrary elements: it returns when the bound of `find` exceeds
the largest rank, the result represents the partition in which the sets of `x` and `y` are
joined, and nothing else changes. -/
theorem DisjointSets.merge_any_spec (ds : DisjointSets) (ρ : Nat → Nat) (K fuel x y edgeW : Nat)
    (hrep : Rep ds ρ K) (hx : x < ds.els.length) (hy : y < ds.els.length) (hf : K < fuel) :
    ∃ ds2 ρ2, ds.merge fuel x y edgeW = some ds2 ∧ ds2.els.length = ds.els.length ∧
      Rep ds2 ρ2 (K + 1) ∧ ρ2 x = ρ2 y ∧
      ∀ a b, ρ2 a = ρ2 b ↔
        (ρ a = ρ b ∨ (ρ a = ρ x ∧ ρ b = ρ y) ∨ (ρ a = ρ y ∧ ρ b = ρ x)) := by
  obtain ⟨ds1, e1, e2, _, e4⟩ := DisjointSets.find_spec ρ K fuel ds x hrep hx (by omega)
  obtain ⟨ds2, f1, f2, _, f4⟩ :=
    DisjointSets.find_spec ρ K fuel ds1 y e4 (by omega) (by omega)
  have hx2 : x < ds2.els.length := by omega
  have hy2 : y < ds2.els.length := by omega
  obtain ⟨hrx, hrxp, _⟩ := f4 x hx2
  obtain ⟨hry, hryp, _⟩ := f4 y hy2
  unfold DisjointSets.merge
  rw [e1]
  simp only
  rw [f1]
  simp only
  by_cases hne : ρ x = ρ y
  · have hr : ¬ (ds2.node (ρ x)).rnk > (ds2.node (ρ y)).rnk := by
      rw [hne]
      omega
    rw [if_neg hr, hne]
    obtain ⟨m1, m2, m3⟩ := DisjointSets.mergeWith_self ds2 (ρ y) edgeW hry
    refine ⟨_, ρ, rfl, by omega, Rep.bump (ρ y) f4 hry hryp m1 m2 m3, hne, ?_⟩
    intro a b
    constructor
    · exact fun h => Or.inl h
    · rintro (h | ⟨h1, h2⟩ | ⟨h1, h2⟩)
      · exact h
      · rw [h1, h2]
      · rw [h1, h2]
  · have hidx : ρ (ρ x) = ρ x := f4.idem x hx2
    have hidy : ρ (ρ y) = ρ y := f4.idem y hy2
    by_cases hr : (ds2.node (ρ x)).rnk > (ds2.node (ρ y)).rnk
    · rw [if_pos hr]
      obtain ⟨g1, g2⟩ := DisjointSets.mergeWith_rep ds2 ρ K (ρ x) (ρ y) edgeW f4 hrx hry hne
        hrxp hryp (le_of_lt hr)
      refine ⟨_, _, rfl, by omega, g2, ?_, ?_⟩
      · simp
      · intro a b
        beta_reduce
        by_cases ha : ρ a = ρ y <;> by_cases hb : ρ b = ρ y
        · rw [if_pos ha, if_pos hb]
          simp only [true_iff]
          exact Or.inl (by rw [ha, hb])
        · rw [if_pos ha, if_neg hb]
          constructor
          · intro h
            exact Or.inr (Or.inr ⟨ha, h.symm⟩)
          · rintro (h | ⟨h1, h2⟩ | ⟨h1, h2⟩)
            · exact absurd (by rw [← h, ha]) hb
            · exact absurd h2 hb
            · exact h2.symm
        · rw [if_neg ha, if_pos hb]
          constructor
          · intro h
            exact Or.inr (Or.inl ⟨h, hb⟩)
          · rintro (h | ⟨h1, h2⟩ | ⟨h1, h2⟩)
            · exact absurd (by rw [h, hb]) ha
            · exact h1
            · exact absurd h1 ha
        · rw [if_neg ha, if_neg hb]
          constructor
          · exact fun h => Or.inl h
          · rintro (h | ⟨h1, h2⟩ | ⟨h1, h2⟩)
            · exact h
            · exact absurd h2 hb
            · exact absurd h1 ha
    · rw [if_neg hr]
      have hne2 : ρ y ≠ ρ x := fun h => hne h.symm
      obtain ⟨g1, g2⟩ := DisjointSets.mergeWith_rep ds2 ρ K (ρ y) (ρ x) edgeW f4 hry hrx hne2
        hryp hrxp (by
          have : ¬ ds2.rk (ρ x) > ds2.rk (ρ y) := hr
          omega)
      refine ⟨_, _, rfl, by omega, g2, ?_, ?_⟩
      · simp
      · intro a b
        beta_reduce
        by_cases ha : ρ a = ρ x <;> by_cases hb : ρ b = ρ x
        · rw [if_pos ha, if_pos hb]
          simp only [true_iff]
          exact Or.inl (by rw [ha, hb])
        · rw [if_pos ha, if_neg hb]
          constructor
          · intro h
            exact Or.inr (Or.inl ⟨ha, h.symm⟩)
          · rintro (h | ⟨h1, h2⟩ | ⟨h1, h2⟩)
            · exact absurd (by rw [← h, ha]) hb
            · exact h2.symm
            · exact absurd h2 hb
        · rw [if_neg ha, if_pos hb]
          constructor
          · intro h
            exact Or.inr (Or.inr ⟨h, hb⟩)
          · rintro (h | ⟨h1, h2⟩ | ⟨h1, h2⟩)
            · exact absurd (by rw [h, hb]) ha
            · exact absurd h1 ha
            · exact h1
        · rw [if_neg ha, if_neg hb]
          constructor
          · exact fun h => Or.inl h
          · rintro (h | ⟨h1, h2⟩ | ⟨h1, h2⟩)
            · exact h
            · exact absurd h1 ha
            · exact absurd h2 hb

/-- Every reached state represents a partition: parent chains lead to representatives along
strictly growing ranks. -/
theorem DisjointSets.Reached.rep {n : Nat} {ds : DisjointSets} (hn : n ≤ 2 ^ 32)
    (h : DisjointSets.Reached n ds) : ∃ ρ K, ds.els.length = n ∧ Rep ds ρ K := by
  induction h with
  | init => exact ⟨fun x => x, 0, (kInv_init n hn).len, (kInv_init n hn).rep⟩
  | merge ds ds2 fuel x y edgeW _ hx hy hm ih =>
    obtain ⟨ρ, K, hlen, hrep⟩ := ih
    obtain ⟨ds3, ρ2, e1, e2, e3, _⟩ := DisjointSets.merge_any_spec ds ρ K (fuel + (K + 1)) x y
      edgeW hrep (by omega) (by omega) (by omega)
    rw [DisjointSets.merge_mono fuel ds ds2 x y edgeW hm (K + 1)] at e1
    cases e1
    exact ⟨ρ2, K + 1, by omega, e3⟩
  | find ds ds2 fuel u r _ hu hf ih =>
    obtain ⟨ρ, K, hlen, hrep⟩ := ih
    obtain ⟨ds3, e1, e2, _, e4⟩ := DisjointSets.find_spec ρ K (fuel + (K + 1)) ds u hrep
      (by omega) (by omega)
    rw [DisjointSets.find_mono fuel ds u _ hf (K + 1)] at e1
    cases e1
    exact ⟨ρ, K, by omega, e4⟩

/-- C32: for the `DisjointSets` of `mst.h` over `n ≤ 2 ^ 32` elements.  Right after
construction `find(i)` returns `i` and leaves the state as it is.  In every state reached from
the constructor by calls of `merge` and `find` there are a representative function `ρ` and a
bound `F` such that `find(u)` returns `ρ u` for every recursion bound from `F` on
(termination), and in the state it leaves `find(v)` still returns `ρ v` for every `v` (path
compression changes no representative); `merge(x, y, w)` returns, and for the representative
function `ρ2` of the state it leaves, `ρ2 x = ρ2 y`, and two elements have the same
representative if and only if they had before or one was in the set of `x` and the other in
the set of `y`. -/
theorem DisjointSets_spec (n : Nat) (hn : n ≤ 2 ^ 32) :
    (∀ i fuel, i < n → 0 < fuel →
      (DisjointSets.init n).find fuel i = some (DisjointSets.init n, i)) ∧
    ∀ ds, DisjointSets.Reached n ds →
      ∃ (ρ : Nat → Nat) (F : Nat),
        (∀ u fuel, u < n → F ≤ fuel →
          ∃ ds2, ds.find fuel u = some (ds2, ρ u) ∧
            ∀ v fuel2, v < n → F ≤ fuel2 → ∃ ds3, ds2.find fuel2 v = some (ds3, ρ v)) ∧
        ∀ x y edgeW fuel, x < n → y < n → F ≤ fuel →
          ∃ (ds2 : DisjointSets) (ρ2 : Nat → Nat) (F2 : Nat),
            ds.merge fuel x y edgeW = some ds2 ∧
            (∀ u fuel2, u < n → F2 ≤ fuel2 → ∃ ds3, ds2.find fuel2 u = some (ds3, ρ2 u)) ∧
            ρ2 x = ρ2 y ∧
            ∀ a b, ρ2 a = ρ2 b ↔
              (ρ a = ρ b ∨ (ρ a = ρ x ∧ ρ b = ρ y) ∨ (ρ a = ρ y ∧ ρ b = ρ x)) := by
  refine ⟨?_, ?_⟩
  · intro i fuel hi hfuel
    obtain ⟨k, hk⟩ : ∃ k, fuel = k + 1 := ⟨fuel - 1, by omega⟩
    rw [hk, DisjointSets.find, DisjointSets.node_init n i hi]
    have hmod : i % 2 ^ 32 = i := Nat.mod_eq_of_lt (by omega)
    simp only [hmod]
    rw [if_neg (fun h => h rfl)]
  · intro ds hds
    obtain ⟨ρ, K, hlen, hrep⟩ := hds.rep hn
    refine ⟨ρ, K + 1, ?_, ?_⟩
    · intro u fuel hu hfuel
      obtain ⟨ds2, e1, e2, _, e4⟩ := DisjointSets.find_spec ρ K fuel ds u hrep (by omega)
        (by omega)
      refine ⟨ds2, e1, ?_⟩
      intro v fuel2 hv hfuel2
      obtain ⟨ds3, f1, _⟩ := DisjointSets.find_spec ρ K fuel2 ds2 v e4 (by omega) (by omega)
      exact ⟨ds3, f1⟩
    · intro x y edgeW fuel hx hy hfuel
      obtain ⟨ds2, ρ2, e1, e2, e3, e4, e5⟩ := DisjointSets.merge_any_spec ds ρ K fuel x y edgeW
        hrep (by omega) (by omega) (by omega)
      refine ⟨ds2, ρ2, K + 2, e1, ?_, e4, e5⟩
      intro u fuel2 hu hfuel2
      obtain ⟨ds3, f1, _⟩ := DisjointSets.find_spec ρ2 (K + 1) fuel2 ds2 u e3 (by omega)
        (by omega)
      exact ⟨ds3, f1⟩

/-- Witness of C32: three elements; after `merge(0, 1, 5)` and `merge(1, 2, 7)` all three
have the representative 1. -/
theorem DisjointSets_spec_witness :
    (DisjointSets.init 3).find 1 2 = some (DisjointSets.init 3, 2) ∧
    (((DisjointSets.init 3).merge 3 0 1 5).bind (fun ds => ds.merge 3 1 2 7)).bind
      (fun ds => (ds.find 3 0).map (fun p => p.2)) = some 1 :=
  ⟨(DisjointSets_spec 3 (by norm_num)).1 2 1 (by decide) (by decide), by decide⟩

/-! ## The packed disjoint sets of mstMerger.h -/

/-- The method `find` of `mstMerger.h` returns exactly on the elements that are their own
parents, with the element itself and the state as it was; on every other element the
recursion `find(u)` inside `find(u)` never ends. -/
theorem packed_find_eq (fuel : Nat) (ds : Merger.DisjointSets) (u : Nat) :
    ds.find fuel u = if 0 < fuel ∧ ds.selfParent u = true then some (ds, u) else none := by
  induction fuel with
  | zero =>
    rw [Merger.DisjointSets.find]
    simp
  | succ fuel ih =>
    rw [Merger.DisjointSets.find, ih]
    cases hs : ds.selfParent u
    · simp
    · simp [Merger.DisjointSets.getParent, hs]

theorem packed_getRank_eq (fuel : Nat) (ds : Merger.DisjointSets) (idx : Nat) :
    ds.getRank fuel idx =
      if 0 < fuel ∧ ds.selfParent idx = true then some (ds, ds.els.getD idx 0 >>> 1)
      else none := by
  unfold Merger.DisjointSets.getRank
  rw [packed_find_eq]
  by_cases h : 0 < fuel ∧ ds.selfParent idx = true
  · rw [if_pos h, if_pos h]
  · rw [if_neg h, if_neg h]

theorem shift_and_one (r : Nat) : (((r + 1) % 2 ^ 64) <<< 1) % 2 ^ 64 &&& 1 = 0 := by
  rw [Nat.and_one_is_mod, Nat.shiftLeft_eq, Nat.pow_one]
  omega

theorem packed_incrementRank_eq (fuel : Nat) (ds : Merger.DisjointSets) (idx : Nat) :
    ds.incrementRank fuel idx =
      if 0 < fuel ∧ ds.selfParent idx = true then
        some { ds with els := ivSet ds.width ds.els idx 0 }
      else none := by
  unfold Merger.DisjointSets.incrementRank
  rw [packed_find_eq]
  by_cases h : 0 < fuel ∧ ds.selfParent idx = true
  · rw [if_pos h, if_pos h]
    simp only
    rw [shift_and_one]
  · rw [if_neg h, if_neg h]

theorem packed_selfParent_init (n i : Nat) :
    (Merger.DisjointSets.init n).selfParent i = false := by
  unfold Merger.DisjointSets.selfParent Merger.DisjointSets.init
  have : (List.replicate n 0).getD i 0 = 0 := by
    rw [List.getD_eq_getElem?_getD, List.getElem?_replicate]
    split <;> rfl
  simp only [this]
  rfl

theorem packed_selfParent_cleared (ds : Merger.DisjointSets) (idx : Nat) :
    Merger.DisjointSets.selfParent { ds with els := ivSet ds.width ds.els idx 0 } idx =
      false := by
  unfold Merger.DisjointSets.selfParent ivSet
  have : (ds.els.set idx (0 % 2 ^ ds.width)).getD idx 0 = 0 := by
    rw [List.getD_eq_getElem?_getD, List.getElem?_set]
    simp only [Nat.zero_mod, if_true]
    split <;> rfl
  simp only [this]
  rfl

theorem packed_merge_init (n fuel x y edgeW : Nat) :
    (Merger.DisjointSets.init n).merge fuel x y edgeW = none := by
  unfold Merger.DisjointSets.merge
  rw [packed_find_eq, packed_selfParent_init]
  simp

theorem packed_reached_init (n : Nat) (ds : Merger.DisjointSets)
    (h : Merger.DisjointSets.Reached n ds) : ds = Merger.DisjointSets.init n := by
  induction h with
  | init => rfl
  | merge ds ds2 fuel x y edgeW _ hm ih =>
    rw [ih, packed_merge_init] at hm
    cases hm

/-- The method `merge` on two different elements that are their own parents: the call
returns, the element whose rank is larger or equal gets the other one as parent, and no other
cell changes (the rank of the surviving root stays as it was); `find` on the new child then
never returns. -/
theorem packed_merge_roots (ds : Merger.DisjointSets) (fuel x y edgeW : Nat) (hf : 0 < fuel)
    (hx : ds.selfParent x = true) (hy : ds.selfParent y = true) (hxy : x ≠ y) :
    ds.merge fuel x y edgeW =
      some (if ds.els.getD x 0 >>> 1 ≤ ds.els.getD y 0 >>> 1 then
        { ds with els := ivSet ds.width ds.els y ((x <<< 1) % 2 ^ 64 ||| 0) }
      else { ds with els := ivSet ds.width ds.els x ((y <<< 1) % 2 ^ 64 ||| 0) }) := by
  have hyx : y ≠ x := fun h => hxy h.symm
  unfold Merger.DisjointSets.merge
  simp only [packed_find_eq, packed_getRank_eq, packed_incrementRank_eq, hf, hx, hy, true_and,
    if_true]
  by_cases hr : ds.els.getD x 0 >>> 1 ≤ ds.els.getD y 0 >>> 1
  · rw [if_pos hr, if_pos hr]
    by_cases he : ds.els.getD y 0 >>> 1 = ds.els.getD x 0 >>> 1
    · rw [if_pos he]
      unfold Merger.DisjointSets.setParent ivSet
      simp only [if_neg hyx, List.set_set]
    · rw [if_neg he]
      unfold Merger.DisjointSets.setParent
      simp only [if_neg hyx]
  · rw [if_neg hr, if_neg hr]
    unfold Merger.DisjointSets.setParent
    simp only [if_neg hxy]

/-- C33 fails on the code: the constructor of `mstMerger.h` fills `els` with zeros, so for
every `n` and `i` the self-parent bit of `i` is clear, `getParent(i)` is 0, and neither
`find(i)` nor `getRank(i)` returns, whatever the recursion bound; for `n = 2` and `i = 1`
the parent read is 0 and not 1. -/
theorem packed_init_not_selfParent :
    (∀ n i fuel : Nat,
      (Merger.DisjointSets.init n).selfParent i = false ∧
      (Merger.DisjointSets.init n).getParent i = 0 ∧
      (Merger.DisjointSets.init n).find fuel i = none ∧
      (Merger.DisjointSets.init n).getRank fuel i = none) ∧
    (Merger.DisjointSets.init 2).els = [0, 0] ∧
    (Merger.DisjointSets.init 2).getParent 1 ≠ 1 := by
  refine ⟨fun n i fuel => ⟨packed_selfParent_init n i, ?_, ?_, ?_⟩, by decide, by decide⟩
  · unfold Merger.DisjointSets.getParent
    rw [packed_selfParent_init]
    have : (List.replicate n 0).getD i 0 = 0 := by
      rw [List.getD_eq_getElem?_getD, List.getElem?_replicate]
      split <;> rfl
    show (List.replicate n 0).getD i 0 >>> 1 = 0
    rw [this]
    rfl
  · rw [packed_find_eq, packed_selfParent_init]
    simp
  · rw [packed_getRank_eq, packed_selfParent_init]
    simp

/-- C34 fails on the code.  On the state that the constructor leaves `merge` never returns.
On two roots of the ranks 0 and 1 (`packedRoots`), `merge(0, 1, w)` makes the root 1 of the
larger rank a child of the root 0 of the smaller rank, and `find(1)` does not return
afterwards.  On two roots of rank 0 (`packedSingletons`) the rank of the surviving root 0 is
still 0 after the call. -/
theorem packed_merge_inverts :
    (∀ n fuel x y edgeW : Nat, (Merger.DisjointSets.init n).merge fuel x y edgeW = none) ∧
    (packedRoots.getRank 1 0).map (fun p => p.2) = some 0 ∧
    (packedRoots.getRank 1 1).map (fun p => p.2) = some 1 ∧
    packedRoots.merge 1 0 1 7 = some { els := [1, 0], width := 2, n := 2 } ∧
    Merger.DisjointSets.getParent { els := [1, 0], width := 2, n := 2 } 1 = 0 ∧
    (∀ fuel, Merger.DisjointSets.find fuel { els := [1, 0], width := 2, n := 2 } 1 = none) ∧
    packedSingletons.merge 1 0 1 7 = some { els := [1, 0], width := 2, n := 2 } ∧
    (Merger.DisjointSets.getRank 1 { els := [1, 0], width := 2, n := 2 } 0).map
      (fun p => p.2) = some 0 := by
  refine ⟨fun n fuel x y edgeW => packed_merge_init n fuel x y edgeW, by decide, by decide,
    by decide, by decide, ?_, by decide, by decide⟩
  intro fuel
  rw [packed_find_eq]
  have : Merger.DisjointSets.selfParent { els := [1, 0], width := 2, n := 2 } 1 = false := by
    decide
  rw [this]
  simp

/-- C35 fails on the code: no call of `merge` returns on the state that the constructor
leaves, so that state is the only one reached, and on it `find(u)` does not return for any
`u`, whatever the recursion bound. -/
theorem packed_find_diverges (n : Nat) (ds : Merger.DisjointSets)
    (h : Merger.DisjointSets.Reached n ds) (u fuel : Nat) :
    ds = Merger.DisjointSets.init n ∧ ds.find fuel u = none := by
  have h1 := packed_reached_init n ds h
  refine ⟨h1, ?_⟩
  rw [h1, packed_find_eq, packed_selfParent_init]
  simp

/-- Witness of C35: one element, `find(0)` right after construction. -/
theorem packed_find_diverges_witness :
    Merger.DisjointSets.init 1 = Merger.DisjointSets.init 1 ∧
    (Merger.DisjointSets.init 1).find 100 0 = none :=
  packed_find_diverges 1 (Merger.DisjointSets.init 1) Merger.DisjointSets.Reached.init 0 100

/-- C39 fails on the code: `incrementRank(idx)` returns only when `idx` is its own parent,
and then it stores `(rank << 1) & 1 = 0` in the cell of `idx`: the self-parent bit is clear
afterwards and `getRank(idx)` does not return any more.  On two roots of rank 0
(`packedSingletons`), `incrementRank(0)` leaves the cells `[0, 1]`, not `[3, 1]`. -/
theorem packed_incrementRank_clears :
    (∀ (ds : Merger.DisjointSets) (idx fuel : Nat),
      ds.incrementRank fuel idx =
        (if 0 < fuel ∧ ds.selfParent idx = true then
          some { ds with els := ivSet ds.width ds.els idx 0 }
        else none) ∧
      Merger.DisjointSets.selfParent { ds with els := ivSet ds.width ds.els idx 0 } idx =
        false ∧
      ∀ fuel2, Merger.DisjointSets.getRank fuel2
        { ds with els := ivSet ds.width ds.els idx 0 } idx = none) ∧
    packedSingletons.selfParent 0 = true ∧
    (packedSingletons.getRank 1 0).map (fun p => p.2) = some 0 ∧
    packedSingletons.incrementRank 1 0 = some { els := [0, 1], width := 2, n := 2 } ∧
    Merger.DisjointSets.selfParent { els := [0, 1], width := 2, n := 2 } 0 = false := by
  refine ⟨fun ds idx fuel => ⟨packed_incrementRank_eq fuel ds idx,
    packed_selfParent_cleared ds idx, ?_⟩, by decide, by decide, by decide, by decide⟩
  intro fuel2
  rw [packed_getRank_eq, packed_selfParent_cleared]
  simp

/-! ## The minimizers of a k-mer -/

theorem startPoint_eq (T R t : Nat) (hT : 0 < T) (hR : R < 2 ^ 64 - 1) (ht : t < T) :
    MST.startPoint T R t = t * (R / T) := by
  unfold MST.startPoint
  apply Nat.mod_eq_of_lt
  have h1 : t * (R / T) ≤ T * (R / T) := Nat.mul_le_mul_right _ (le_of_lt ht)
  have h2 : T * (R / T) ≤ R := Nat.mul_div_le R T
  have h3 : (2 : Nat) ^ 64 < 2 ^ 128 := by norm_num
  omega

theorem endPoint_eq (T R t : Nat) (hT32 : T < 2 ^ 32) (hR : R < 2 ^ 64 - 1) (ht : t < T) :
    MST.endPoint T R t = if t + 1 = T then R + 1 else (t + 1) * (R / T) := by
  unfold MST.endPoint
  have h0 : (t + 1) % 2 ^ 32 = t + 1 := Nat.mod_eq_of_lt (by omega)
  rw [h0]
  by_cases h : t + 1 = T
  · rw [if_pos h, if_pos h]
    exact Nat.mod_eq_of_lt (by omega)
  · rw [if_neg h, if_neg h]
    apply Nat.mod_eq_of_lt
    have h1 : (t + 1) * (R / T) ≤ T * (R / T) := Nat.mul_le_mul_right _ (by omega)
    have h2 : T * (R / T) ≤ R := Nat.mul_div_le R T
    have h3 : (2 : Nat) ^ 64 < 2 ^ 128 := by norm_num
    omega

theorem startPoint_le_endPoint (T R t : Nat) (hT32 : T < 2 ^ 32) (hR : R < 2 ^ 64 - 1)
    (ht : t < T) : MST.startPoint T R t ≤ MST.endPoint T R t := by
  rw [startPoint_eq T R t (by omega) hR ht, endPoint_eq T R t hT32 hR ht]
  by_cases h : t + 1 = T
  · rw [if_pos h]
    have h1 : t * (R / T) ≤ T * (R / T) := Nat.mul_le_mul_right _ (le_of_lt ht)
    have h2 : T * (R / T) ≤ R := Nat.mul_div_le R T
    omega
  · rw [if_neg h]
    exact Nat.mul_le_mul_right _ (by omega)

theorem endPoint_le_startPoint (T R t u : Nat) (hT32 : T < 2 ^ 32) (hR : R < 2 ^ 64 - 1)
    (htu : t < u) (hu : u < T) : MST.endPoint T R t ≤ MST.startPoint T R u := by
  rw [startPoint_eq T R u (by omega) hR hu, endPoint_eq T R t hT32 hR (by omega),
    if_neg (by omega)]
  exact Nat.mul_le_mul_right _ (by omega)

theorem interval_exists (T R h : Nat) (hT : 0 < T) (hT32 : T < 2 ^ 32) (hR : R < 2 ^ 64 - 1)
    (hh : h ≤ R) :
    ∃ t, t < T ∧ MST.startPoint T R t ≤ h ∧ h < MST.endPoint T R t := by
  by_cases hc : (T - 1) * (R / T) ≤ h
  · refine ⟨T - 1, by omega, ?_, ?_⟩
    · rw [startPoint_eq T R (T - 1) hT hR (by omega)]
      exact hc
    · rw [endPoint_eq T R (T - 1) hT32 hR (by omega), if_pos (by omega)]
      omega
  · have hlt : h < (T - 1) * (R / T) := by omega
    have hq : 0 < R / T := by
      rcases Nat.eq_zero_or_pos (R / T) with h0 | h0
      · rw [h0] at hlt
        simp at hlt
      · exact h0
    have ht : h / (R / T) < T - 1 := by
      apply Nat.div_lt_of_lt_mul
      rw [Nat.mul_comm]
      exact hlt
    refine ⟨h / (R / T), by omega, ?_, ?_⟩
    · rw [startPoint_eq T R _ hT hR (by omega)]
      exact Nat.div_mul_le_self h (R / T)
    · rw [endPoint_eq T R _ hT32 hR (by omega), if_neg (by omega), Nat.mul_comm]
      exact Nat.lt_mul_div_succ h hq

theorem interval_unique (T R h t u : Nat) (hT32 : T < 2 ^ 32) (hR : R < 2 ^ 64 - 1)
    (ht : t < T) (hu : u < T)
    (h1 : MST.startPoint T R t ≤ h ∧ h < MST.endPoint T R t)
    (h2 : MST.startPoint T R u ≤ h ∧ h < MST.endPoint T R u) : t = u := by
  rcases Nat.lt_trichotomy t u with hlt | heq | hgt
  · have := endPoint_le_startPoint T R t u hT32 hR hlt hu
    omega
  · exact heq
  · have := endPoint_le_startPoint T R u t hT32 hR hgt ht
    omega

theorem sum_map_ite_unique (L : List Nat) (p : Nat → Prop) [DecidablePred p] (c t0 : Nat)
    (hnd : L.Nodup) (ht0 : t0 ∈ L) (hp : p t0) (huniq : ∀ t ∈ L, p t → t = t0) :
    (L.map (fun t => if p t then c else 0)).sum = c := by
  induction L with
  | nil => cases ht0
  | cons a l ih =>
    rw [List.map_cons, List.sum_cons]
    rw [List.nodup_cons] at hnd
    by_cases ha : a = t0
    · have hz : (l.map (fun t => if p t then c else 0)).sum = 0 := by
        apply List.sum_eq_zero
        intro x hx
        rw [List.mem_map] at hx
        obtain ⟨t, ht, rfl⟩ := hx
        have hne : ¬ p t := by
          intro hpt
          have := huniq t (List.mem_cons_of_mem _ ht) hpt
          rw [this, ← ha] at ht
          exact hnd.1 ht
        rw [if_neg hne]
      rw [hz, ha, if_pos hp, Nat.add_zero]
    · have hna : ¬ p a := fun hpa => ha (huniq a (List.mem_cons_self _ _) hpa)
      rw [if_neg hna, Nat.zero_add]
      apply ih hnd.2
      · rcases List.mem_cons.mp ht0 with h | h
        · exact absurd h.symm ha
        · exact h
      · intro t ht hpt
        exact huniq t (List.mem_cons_of_mem _ ht) hpt

/-- The lists of the workers, one after the other, hold every hash of the filter exactly as
often as the filter does. -/
theorem workerHashes_perm (T R : Nat) (hashes : List Nat) (hT : 0 < T) (hT32 : T < 2 ^ 32)
    (hR : R < 2 ^ 64 - 1) (hh : ∀ h ∈ hashes, h ≤ R) :
    ((List.range T).flatMap (workerHashes T R hashes)).Perm hashes := by
  rw [List.perm_iff_count]
  intro a
  rw [List.count_flatMap]
  by_cases ha : a ∈ hashes
  · obtain ⟨t0, ht0, hin⟩ := interval_exists T R a hT hT32 hR (hh a ha)
    have e : (List.map (List.count a ∘ workerHashes T R hashes) (List.range T)) =
        (List.range T).map (fun t =>
          if MST.startPoint T R t ≤ a ∧ a < MST.endPoint T R t then hashes.count a else 0) := by
      apply List.map_congr_left
      intro t _
      unfold workerHashes
      simp only [Function.comp]
      by_cases hc : MST.startPoint T R t ≤ a ∧ a < MST.endPoint T R t
      · rw [if_pos hc, List.count_filter (by simpa using hc)]
      · rw [if_neg hc, List.count_eq_zero]
        intro hmem
        rw [List.mem_filter] at hmem
        exact hc (by simpa using hmem.2)
    rw [e]
    apply sum_map_ite_unique (List.range T)
      (fun t => MST.startPoint T R t ≤ a ∧ a < MST.endPoint T R t) _ t0 (List.nodup_range T)
      (List.mem_range.mpr ht0) hin
    intro t ht hp
    exact interval_unique T R a t t0 hT32 hR (List.mem_range.mp ht) ht0 hp hin
  · rw [List.count_eq_zero.mpr ha]
    apply List.sum_eq_zero
    intro x hx
    rw [List.mem_map] at hx
    obtain ⟨t, _, rfl⟩ := hx
    simp only [Function.comp]
    rw [List.count_eq_zero]
    intro hmem
    unfold workerHashes at hmem
    exact ha (List.mem_filter.mp hmem).1

/-- C37: for `1 ≤ nThreads < 2 ^ 32` and a hash range `R` with `R + 1 < 2 ^ 64`, the iterator
limits of the workers of `buildPairedColorIdEdgesInParallel` are
`[t * (R / T), (t + 1) * (R / T))` for `t < T - 1` and `[(T - 1) * (R / T), R + 1)` for the
last worker; they start at 0, each one ends where the next one starts, and every hash in
`0 .. R` lies between the limits of exactly one worker, so that the workers together scan
every hash of the filter once. -/
theorem buildPairedColorIdEdges_intervals (T R : Nat) (hT : 0 < T) (hT32 : T < 2 ^ 32)
    (hR : R < 2 ^ 64 - 1) :
    (∀ t, t < T → MST.startPoint T R t = t * (R / T) ∧
      MST.endPoint T R t = if t + 1 = T then R + 1 else (t + 1) * (R / T)) ∧
    MST.startPoint T R 0 = 0 ∧ MST.endPoint T R (T - 1) = R + 1 ∧
    (∀ t, t + 1 < T → MST.endPoint T R t = MST.startPoint T R (t + 1)) ∧
    (∀ t, t < T → MST.startPoint T R t ≤ MST.endPoint T R t) ∧
    (∀ h, h ≤ R → ∃! t, t < T ∧ MST.startPoint T R t ≤ h ∧ h < MST.endPoint T R t) ∧
    (∀ hashes : List Nat, (∀ h ∈ hashes, h ≤ R) →
      ((List.range T).flatMap (workerHashes T R hashes)).Perm hashes) := by
  refine ⟨?_, ?_, ?_, ?_, ?_, ?_, ?_⟩
  · intro t ht
    exact ⟨startPoint_eq T R t hT hR ht, endPoint_eq T R t hT32 hR ht⟩
  · rw [startPoint_eq T R 0 hT hR hT, Nat.zero_mul]
  · rw [endPoint_eq T R (T - 1) hT32 hR (by omega), if_pos (by omega)]
  · intro t ht
    rw [endPoint_eq T R t hT32 hR (by omega), if_neg (by omega),
      startPoint_eq T R (t + 1) hT hR ht]
  · intro t ht
    exact startPoint_le_endPoint T R t hT32 hR ht
  · intro h hh
    obtain ⟨t0, ht0, hin⟩ := interval_exists T R h hT hT32 hR hh
    refine ⟨t0, ⟨ht0, hin⟩, ?_⟩
    rintro t ⟨ht, hin2⟩
    exact interval_unique T R h t t0 hT32 hR ht ht0 hin2 hin
  · intro hashes hh
    exact workerHashes_perm T R hashes hT hT32 hR hh

/-- Witness of C37: three workers over the hashes `0 .. 10`, with the limits `[0, 3)`,
`[3, 6)` and `[6, 11)`. -/
theorem buildPairedColorIdEdges_intervals_witness :
    (List.range 3).map (fun t => (MST.startPoint 3 10 t, MST.endPoint 3 10 t)) =
      [(0, 3), (3, 6), (6, 11)] ∧
    MST.endPoint 3 10 (3 - 1) = 10 + 1 :=
  ⟨by decide,
    (buildPairedColorIdEdges_intervals 3 10 (by decide) (by norm_num) (by norm_num)).2.2.1⟩

/-! ## The blocks of divideKmersIntoBlocks -/

theorem getD_set_nat (l : List Nat) (j x t : Nat) :
    (l.set j x).getD t 0 = if j = t ∧ j < l.length then x else l.getD t 0 := by
  simp only [List.getD_eq_getElem?_getD, List.getElem?_set]
  by_cases h : j = t
  · subst h
    by_cases h2 : j < l.length
    · simp [h2]
    · have : l.length ≤ j := by omega
      simp [h2, List.getElem?_eq_none this]
  · simp [h]

theorem getD_append_single (A : List Nat) (x t : Nat) :
    (A ++ [x]).getD t 0 = if t < A.length then A.getD t 0 else if t = A.length then x else 0 := by
  by_cases h : t < A.length
  · rw [if_pos h, List.getD_append _ _ _ _ h]
  · rw [if_neg h, List.getD_append_right _ _ _ _ (by omega)]
    by_cases h2 : t = A.length
    · rw [if_pos h2, h2, Nat.sub_self]
      rfl
    · rw [if_neg h2]
      have : t - A.length = (t - A.length - 1) + 1 := by omega
      rw [this]
      rfl

theorem take_succ_getD (c : List Nat) : ∀ i, i < c.length →
    c.take (i + 1) = c.take i ++ [c.getD i 0] := by
  induction c with
  | nil => intro i hi; simp at hi
  | cons a l ih =>
    intro i hi
    cases i with
    | zero => simp
    | succ k =>
      have hk : k < l.length := by simpa using hi
      simp [ih k hk]

theorem filter_fst_eq_nil (G : List (Nat × Nat)) (b B : Nat) (hB : ∀ p ∈ G, p.1 ≤ B)
    (hb : B < b) : G.filter (fun p => decide (p.1 = b)) = [] := by
  rw [List.filter_eq_nil_iff]
  intro p hp
  have := hB p hp
  simp only [decide_eq_true_eq]
  omega

theorem filter_append_pair (G : List (Nat × Nat)) (x y b : Nat) :
    (G ++ [(x, y)]).filter (fun p => decide (p.1 = b)) =
      G.filter (fun p => decide (p.1 = b)) ++ (if x = b then [(x, y)] else []) := by
  rw [List.filter_append]
  congr 1
  by_cases h : x = b
  · rw [if_pos h]
    simp [h]
  · rw [if_neg h]
    simp [h]

theorem divInv_step (c : List Nat) (hsum : c.sum < 2 ^ 64) (i : Nat) (G : List (Nat × Nat))
    (st : BlockState) (h : DivInv c i G st) (hi : i < c.length) :
    ∃ G2, DivInv c (i + 1) G2 (divideStep st i) := by
  have hci : (st.minimizerCntr.set (i - 1) st.block).getD i 0 = c.getD i 0 := by
    rw [getD_set_nat, if_neg (fun hc => by have := h.pos; omega), h.arr, if_neg (by omega)]
  have hAlen : (G.map Prod.fst).length = i := by rw [List.length_map, h.len]
  have htake : c.take (i + 1) = c.take i ++ [c.getD i 0] := take_succ_getD c i hi
  have hle := sum_take_le c (i + 1)
  have hnoov : st.blockCnt + c.getD i 0 < 2 ^ 64 := by
    have h1 := h.total
    rw [h.cnts] at h1
    rw [htake, List.sum_append, List.sum_singleton] at hle
    omega
  have hmod1 : (st.blockCnt + c.getD i 0) % 2 ^ 64 = st.blockCnt + c.getD i 0 :=
    Nat.mod_eq_of_lt hnoov
  have hmod2 : (0 + c.getD i 0) % 2 ^ 64 = c.getD i 0 := by
    rw [Nat.zero_add]
    exact Nat.mod_eq_of_lt (by omega)
  have harr : ∀ (nb : Nat) (t : Nat), (st.minimizerCntr.set (i - 1) st.block).getD t 0 =
      if t + 1 < i + 1 then ((G ++ [(nb, c.getD i 0)]).map Prod.fst).getD t 0
      else c.getD t 0 := by
    intro nb t
    rw [getD_set_nat, List.map_append, List.map_singleton, getD_append_single, hAlen, h.arrLen]
    have hpos := h.pos
    by_cases ht : i - 1 = t
    · rw [if_pos ⟨ht, by omega⟩, if_pos (by omega), if_pos (by omega), ← ht, h.last]
    · rw [if_neg (fun hc => ht hc.1), h.arr]
      by_cases ht2 : t + 1 < i
      · rw [if_pos ht2, if_pos (by omega), if_pos (by omega)]
      · rw [if_neg ht2, if_neg (by omega)]
  have hhead : ∀ nb : Nat, ((G ++ [(nb, c.getD i 0)]).map Prod.fst).getD 0 0 = 0 := by
    intro nb
    rw [List.map_append, List.map_singleton, getD_append_single, hAlen,
      if_pos (by have := h.pos; omega)]
    exact h.head
  have hlast : ∀ nb : Nat, ((G ++ [(nb, c.getD i 0)]).map Prod.fst).getD (i + 1 - 1) 0 = nb := by
    intro nb
    rw [List.map_append, List.map_singleton, getD_append_single, hAlen, Nat.add_sub_cancel,
      if_neg (by omega), if_pos rfl]
  have hchain : ∀ nb : Nat, (nb = st.block ∨ nb = st.block + 1) → ∀ t, t + 1 < i + 1 →
      ((G ++ [(nb, c.getD i 0)]).map Prod.fst).getD (t + 1) 0 =
        ((G ++ [(nb, c.getD i 0)]).map Prod.fst).getD t 0 ∨
      ((G ++ [(nb, c.getD i 0)]).map Prod.fst).getD (t + 1) 0 =
        ((G ++ [(nb, c.getD i 0)]).map Prod.fst).getD t 0 + 1 := by
    intro nb hnb t ht
    rw [List.map_append, List.map_singleton, getD_append_single, getD_append_single, hAlen]
    by_cases ht2 : t + 1 < i
    · rw [if_pos ht2, if_pos (by omega)]
      exact h.chain t ht2
    · have hti : t + 1 = i := by omega
      rw [if_neg ht2, if_pos hti, if_pos (by omega)]
      have : t = i - 1 := by omega
      rw [this, h.last]
      exact hnb
  have hcnts : ∀ nb : Nat, (G ++ [(nb, c.getD i 0)]).map Prod.snd = c.take (i + 1) := by
    intro nb
    rw [List.map_append, List.map_singleton, h.cnts, htake]
  unfold divideStep
  rw [hci, hmod1, hmod2]
  by_cases hc : st.blockCnt + c.getD i 0 > block_kmer_threshold
  · rw [if_pos hc]
    refine ⟨G ++ [(st.block + 1, c.getD i 0)], ?_⟩
    have hnil := filter_fst_eq_nil G (st.block + 1) st.block h.bound (by omega)
    exact
      { len := by rw [List.length_append, h.len]; rfl
        pos := by omega
        le := by omega
        cnts := hcnts _
        arrLen := by simp only [List.length_set]; exact h.arrLen
        arr := harr _
        last := hlast _
        head := hhead _
        chain := hchain _ (Or.inr rfl)
        bound := by
          intro p hp
          rw [List.mem_append, List.mem_singleton] at hp
          rcases hp with hp | hp
          · have := h.bound p hp
            show p.1 ≤ st.block + 1
            omega
          · rw [hp]
        klen := by
          show (st.blockKmerCount ++ [st.blockCnt]).length = st.block + 1
          rw [List.length_append, h.klen]
          rfl
        closed := by
          intro b hb
          have hb1 : b < st.block + 1 := hb
          show (st.blockKmerCount ++ [st.blockCnt]).getD b 0 = _
          rw [filter_append_pair, if_neg (by omega), List.append_nil, getD_append_single,
            h.klen]
          by_cases hb2 : b < st.block
          · rw [if_pos hb2]
            exact h.closed b hb2
          · have hbe : b = st.block := by omega
            rw [if_neg hb2, if_pos hbe, hbe]
            exact h.cur
        cur := by
          show c.getD i 0 = _
          rw [filter_append_pair, if_pos rfl, hnil]
          simp
        single := by
          intro b hb hgt
          have hb1 : b < st.block + 1 := hb
          have hgt2 : (st.blockKmerCount ++ [st.blockCnt]).getD b 0 > block_kmer_threshold :=
            hgt
          rw [getD_append_single, h.klen] at hgt2
          rw [filter_append_pair, if_neg (by omega), List.append_nil]
          by_cases hb2 : b < st.block
          · rw [if_pos hb2] at hgt2
            exact h.single b hb2 hgt2
          · have hbe : b = st.block := by omega
            rw [if_neg hb2, if_pos hbe] at hgt2
            rw [hbe]
            exact h.curSingle hgt2
        curSingle := by
          intro _
          rw [filter_append_pair, if_pos rfl, hnil]
          rfl
        total := by
          show (st.blockKmerCount ++ [st.blockCnt]).sum + c.getD i 0 = _
          rw [List.map_append, List.sum_append, List.sum_append, ← h.total]
          simp }
  · rw [if_neg hc]
    refine ⟨G ++ [(st.block, c.getD i 0)], ?_⟩
    exact
      { len := by rw [List.length_append, h.len]; rfl
        pos := by omega
        le := by omega
        cnts := hcnts _
        arrLen := by simp only [List.length_set]; exact h.arrLen
        arr := harr _
        last := hlast _
        head := hhead _
        chain := hchain _ (Or.inl rfl)
        bound := by
          intro p hp
          rw [List.mem_append, List.mem_singleton] at hp
          rcases hp with hp | hp
          · exact h.bound p hp
          · rw [hp]
        klen := h.klen
        closed := by
          intro b hb
          have hb2 : b < st.block := hb
          rw [filter_append_pair, if_neg (by omega), List.append_nil]
          exact h.closed b hb2
        cur := by
          show st.blockCnt + c.getD i 0 = _
          rw [filter_append_pair, if_pos rfl, List.map_append, List.sum_append, ← h.cur]
          simp
        single := by
          intro b hb hgt
          have hb2 : b < st.block := hb
          rw [filter_append_pair, if_neg (by omega), List.append_nil]
          exact h.single b hb2 hgt
        curSingle := by
          intro hgt
          have hgt2 : st.blockCnt + c.getD i 0 > block_kmer_threshold := hgt
          exact absurd hgt2 hc
        total := by
          show st.blockKmerCount.sum + (st.blockCnt + c.getD i 0) = _
          rw [List.map_append, List.sum_append, ← h.total]
          simp
          omega }

theorem divInv_foldl (c : List Nat) (hsum : c.sum < 2 ^ 64) (n : Nat) :
    ∀ (i : Nat) (G : List (Nat × Nat)) (st : BlockState), DivInv c i G st →
      i + n ≤ c.length →
      ∃ G2, DivInv c (i + n) G2 ((List.range' i n).foldl divideStep st) := by
  induction n with
  | zero =>
    intro i G st h _
    exact ⟨G, h⟩
  | succ n ih =>
    intro i G st h hle
    obtain ⟨G1, h1⟩ := divInv_step c hsum i G st h (by omega)
    obtain ⟨G2, h2⟩ := ih (i + 1) G1 (divideStep st i) h1 (by omega)
    refine ⟨G2, ?_⟩
    have e : i + (n + 1) = i + 1 + n := by omega
    rw [e, List.range'_succ, List.foldl_cons]
    exact h2

theorem divInv_loop (c : List Nat) (hc : c ≠ []) (hsum : c.sum < 2 ^ 64) :
    ∃ G, DivInv c c.length G (divideLoop c) := by
  have hlen : 0 < c.length := List.length_pos.mpr hc
  have h0 : DivInv c 1 [(0, c.getD 0 0)]
      { minimizerCntr := c, blockCnt := c.getD 0 0, block := 0, blockKmerCount := [] } :=
    { len := rfl
      pos := le_refl _
      le := hlen
      cnts := by
        have := take_succ_getD c 0 hlen
        simpa using this.symm
      arrLen := rfl
      arr := fun t => by rw [if_neg (by omega)]
      last := rfl
      head := rfl
      chain := fun t ht => by omega
      bound := fun p hp => by
        rw [List.mem_singleton] at hp
        rw [hp]
      klen := rfl
      closed := fun b hb => absurd hb (Nat.not_lt_zero b)
      cur := by simp
      single := fun b hb => absurd hb (Nat.not_lt_zero b)
      curSingle := fun _ => by simp
      total := by simp }
  obtain ⟨G, hG⟩ := divInv_foldl c hsum (c.length - 1) 1 _ _ h0 (by omega)
  have e : 1 + (c.length - 1) = c.length := by omega
  rw [e] at hG
  exact ⟨G, hG⟩

theorem zip_map_fst_snd (G : List (Nat × Nat)) : (G.map Prod.fst).zip (G.map Prod.snd) = G := by
  induction G with
  | nil => rfl
  | cons a l ih =>
    rw [List.map_cons, List.map_cons, List.zip_cons_cons, ih]

theorem count_map_fst (G : List (Nat × Nat)) (b : Nat) :
    (G.map Prod.fst).count b = (G.filter (fun p => decide (p.1 = b))).length := by
  induction G with
  | nil => rfl
  | cons a l ih =>
    rw [List.map_cons, List.count_cons, ih, List.filter_cons]
    by_cases h : a.1 = b
    · simp [h]
    · simp [h]

theorem eq_of_getD_eq (A B : List Nat) (hlen : A.length = B.length)
    (h : ∀ t, t < A.length → A.getD t 0 = B.getD t 0) : A = B := by
  apply List.ext_getElem hlen
  intro t h1 h2
  have := h t h1
  rw [List.getD_eq_getElem _ _ h1, List.getD_eq_getElem _ _ h2] at this
  exact this

/-- C38: for a non-empty vector `c` of counts whose sum is below `2 ^ 64`,
`divideKmersIntoBlocks` leaves in `minimizerCntr` one block index per minimizer, starting
at 0 and rising by 0 or 1 from one minimizer to the next; the returned vector has one entry
per block `0 .. last`, the entry of the block `b` is the sum of the original counts of the
minimizers of the block `b`, the entries sum to the total count, and an entry above
`block_kmer_threshold` belongs to a block of exactly one minimizer. -/
theorem divideKmersIntoBlocks_spec (c : List Nat) (hc : c ≠ []) (hsum : c.sum < 2 ^ 64) :
    (ColoredDbg.divideKmersIntoBlocks c).1.length = c.length ∧
    (ColoredDbg.divideKmersIntoBlocks c).1.getD 0 0 = 0 ∧
    (∀ t, t + 1 < c.length →
      (ColoredDbg.divideKmersIntoBlocks c).1.getD (t + 1) 0 =
        (ColoredDbg.divideKmersIntoBlocks c).1.getD t 0 ∨
      (ColoredDbg.divideKmersIntoBlocks c).1.getD (t + 1) 0 =
        (ColoredDbg.divideKmersIntoBlocks c).1.getD t 0 + 1) ∧
    (ColoredDbg.divideKmersIntoBlocks c).2.length =
      (ColoredDbg.divideKmersIntoBlocks c).1.getD (c.length - 1) 0 + 1 ∧
    (∀ b, b < (ColoredDbg.divideKmersIntoBlocks c).2.length →
      (ColoredDbg.divideKmersIntoBlocks c).2.getD b 0 =
        ((((ColoredDbg.divideKmersIntoBlocks c).1.zip c).filter
          (fun p => decide (p.1 = b))).map Prod.snd).sum) ∧
    (ColoredDbg.divideKmersIntoBlocks c).2.sum = c.sum ∧
    (∀ b, b < (ColoredDbg.divideKmersIntoBlocks c).2.length →
      (ColoredDbg.divideKmersIntoBlocks c).2.getD b 0 > block_kmer_threshold →
      (ColoredDbg.divideKmersIntoBlocks c).1.count b = 1) := by
  obtain ⟨G, h⟩ := divInv_loop c hc hsum
  have hlen : 0 < c.length := List.length_pos.mpr hc
  have hA : (ColoredDbg.divideKmersIntoBlocks c).1 = G.map Prod.fst := by
    unfold ColoredDbg.divideKmersIntoBlocks
    apply eq_of_getD_eq
    · simp only [List.length_set, List.length_map]
      rw [h.arrLen, h.len]
    · intro t _
      simp only
      rw [getD_set_nat, h.arrLen, h.arr]
      by_cases ht : c.length - 1 = t
      · rw [if_pos ⟨ht, by omega⟩, ← ht, h.last]
      · rw [if_neg (fun hcon => ht hcon.1)]
        by_cases ht2 : t + 1 < c.length
        · rw [if_pos ht2]
        · rw [if_neg ht2]
          have h1 : c.length ≤ t := by omega
          have h2 : (G.map Prod.fst).length ≤ t := by
            rw [List.length_map, h.len]
            exact h1
          rw [List.getD_eq_default _ _ h1, List.getD_eq_default _ _ h2]
  have hB : (ColoredDbg.divideKmersIntoBlocks c).2 =
      (divideLoop c).blockKmerCount ++ [(divideLoop c).blockCnt] := rfl
  have hcnts : G.map Prod.snd = c := by
    rw [h.cnts, List.take_length]
  have hzip : (G.map Prod.fst).zip c = G := by
    have := zip_map_fst_snd G
    rw [hcnts] at this
    exact this
  rw [hA, hB]
  refine ⟨?_, h.head, h.chain, ?_, ?_, ?_, ?_⟩
  · rw [List.length_map, h.len]
  · rw [List.length_append, h.klen, h.last]
    rfl
  · intro b hb
    rw [List.length_append, h.klen] at hb
    rw [hzip, getD_append_single, h.klen]
    by_cases hb2 : b < (divideLoop c).block
    · rw [if_pos hb2]
      exact h.closed b hb2
    · have hbe : b = (divideLoop c).block := by
        have : b < (divideLoop c).block + 1 := hb
        omega
      rw [if_neg hb2, if_pos hbe, hbe]
      exact h.cur
  · rw [List.sum_append, List.sum_singleton, h.total, hcnts]
  · intro b hb hgt
    rw [List.length_append, h.klen] at hb
    rw [getD_append_single, h.klen] at hgt
    rw [count_map_fst]
    by_cases hb2 : b < (divideLoop c).block
    · rw [if_pos hb2] at hgt
      exact h.single b hb2 hgt
    · have hbe : b = (divideLoop c).block := by
        have : b < (divideLoop c).block + 1 := hb
        omega
      rw [if_neg hb2, if_pos hbe] at hgt
      rw [hbe]
      exact h.curSingle hgt

/-- Witness of C38: five minimizers with the counts `60000000, 50000000, 200000000, 1, 2`
fall into the blocks `0, 1, 2, 3, 3`. -/
theorem divideKmersIntoBlocks_spec_witness :
    ColoredDbg.divideKmersIntoBlocks [60000000, 50000000, 200000000, 1, 2] =
      ([0, 1, 2, 3, 3], [60000000, 50000000, 200000000, 3]) ∧
    (ColoredDbg.divideKmersIntoBlocks [60000000, 50000000, 200000000, 1, 2]).2.sum =
      [60000000, 50000000, 200000000, 1, 2].sum :=
  ⟨by decide,
    (divideKmersIntoBlocks_spec [60000000, 50000000, 200000000, 1, 2] (by decide)
      (by norm_num)).2.2.2.2.2.1⟩

/-! ## The cell of an edge -/

theorem mem_calculateWeightsCells (n i j : Nat) (hij : i ≤ j) (hj : j < n) :
    i * n + j ∈ calculateWeightsCells n := by
  unfold calculateWeightsCells
  rw [List.mem_flatMap]
  refine ⟨i, List.mem_range.mpr (by omega), ?_⟩
  rw [List.mem_map]
  refine ⟨j, ?_, rfl⟩
  rw [List.mem_range']
  exact ⟨j - i, by omega, by omega⟩

theorem cell_lt (n i j : Nat) (hi : i < n) (hj : j < n) : i * n + j < n * n := by
  have h1 : (i + 1) * n ≤ n * n := Nat.mul_le_mul_right n (by omega)
  have h2 : (i + 1) * n = i * n + n := by ring
  omega

theorem getBucketId_pair (zero n a b : Nat) (ha : a < zero) (hb : b < zero) :
    MST.getBucketId zero n a b =
      min a b / NUM_BV_BUFFER * n + max a b / NUM_BV_BUFFER := by
  unfold MST.getBucketId
  by_cases h : a > b
  · have hc : a = zero ∨ a > b := Or.inr h
    simp only [if_pos hc]
    rw [if_neg (by omega), Nat.min_eq_right (by omega), Nat.max_eq_left (by omega)]
  · have hc : ¬ (a = zero ∨ a > b) := by
      rintro (h1 | h1)
      · omega
      · exact h h1
    simp only [if_neg hc]
    rw [if_neg (by omega), Nat.min_eq_left (by omega), Nat.max_eq_right (by omega)]

theorem getBucketId_zero_left (zero n c : Nat) :
    MST.getBucketId zero n zero c = c / NUM_BV_BUFFER * n + c / NUM_BV_BUFFER := by
  unfold MST.getBucketId
  simp only [true_or, if_true]

/-- The cells of `getBucketId` in terms of the constant `N = NUM_BV_BUFFER` by which it
divides, with `n = num_of_ccBuffers`: for color ids `a, b < zero ≤ n * N`, `getBucketId(a, b)`
and `getBucketId(b, a)` are both `(min(a, b) / N) * n + max(a, b) / N`, the row
`min(a, b) / N` is at most the column `max(a, b) / N`, which is below `n`, and the cell is
below `n * n`; `getBucketId(a, zero)` and `getBucketId(zero, a)` are the diagonal cell
`(a / N) * n + a / N`; all these cells are among those that the loops of `calculateWeights`
visit.  This is the statement of C40 for an index whose buffers hold `NUM_BV_BUFFER` color
classes each. -/
theorem getBucketId_cell (zero n a b : Nat) (ha : a < zero) (hb : b < zero)
    (hz : zero ≤ n * NUM_BV_BUFFER) :
    MST.getBucketId zero n a b = min a b / NUM_BV_BUFFER * n + max a b / NUM_BV_BUFFER ∧
    MST.getBucketId zero n b a = MST.getBucketId zero n a b ∧
    min a b / NUM_BV_BUFFER ≤ max a b / NUM_BV_BUFFER ∧ max a b / NUM_BV_BUFFER < n ∧
    MST.getBucketId zero n a b < n * n ∧
    MST.getBucketId zero n a zero = a / NUM_BV_BUFFER * n + a / NUM_BV_BUFFER ∧
    MST.getBucketId zero n zero a = a / NUM_BV_BUFFER * n + a / NUM_BV_BUFFER ∧
    a / NUM_BV_BUFFER < n ∧
    MST.getBucketId zero n a b ∈ calculateWeightsCells n ∧
    MST.getBucketId zero n a zero ∈ calculateWeightsCells n := by
  have hdiv : ∀ x, x < zero → x / NUM_BV_BUFFER < n := by
    intro x hx
    apply Nat.div_lt_of_lt_mul
    rw [Nat.mul_comm]
    omega
  have hmax : max a b < zero := Nat.max_lt.mpr ⟨ha, hb⟩
  have hle : min a b / NUM_BV_BUFFER ≤ max a b / NUM_BV_BUFFER :=
    Nat.div_le_div_right (le_trans (Nat.min_le_left a b) (Nat.le_max_left a b))
  have hroot := getBucketId_root zero n a ha
  rw [getBucketId_pair zero n a b ha hb, getBucketId_pair zero n b a hb ha, hroot,
    getBucketId_zero_left, Nat.min_comm b a, Nat.max_comm b a]
  refine ⟨rfl, rfl, hle, hdiv _ hmax, ?_, rfl, rfl, hdiv a ha, ?_, ?_⟩
  · exact cell_lt n _ _ (lt_of_le_of_lt hle (hdiv _ hmax)) (hdiv _ hmax)
  · exact mem_calculateWeightsCells n _ _ hle (hdiv _ hmax)
  · exact mem_calculateWeightsCells n _ _ (le_refl _) (hdiv a ha)

/-- An instance of `getBucketId_cell`: two buffers, the colors `5` (buffer 0) and
`NUM_BV_BUFFER + 3` (buffer 1), and the root `NUM_BV_BUFFER + 10`. -/
theorem getBucketId_cell_example :
    MST.getBucketId 20000010 2 20000003 5 = 0 * 2 + 1 ∧
    calculateWeightsCells 2 = [0, 1, 3] ∧
    MST.getBucketId 20000010 2 20000003 5 ∈ calculateWeightsCells 2 :=
  ⟨by decide, by decide,
    (getBucketId_cell 20000010 2 20000003 5 (by decide) (by decide)
      (by decide)).2.2.2.2.2.2.2.2.1⟩

/-- C40 fails on the code: `getBucketId` divides by the constant `NUM_BV_BUFFER = 20000000`
and not by the capacity `B` of the buffers of the index.  The builder with three samples and
`BV_BUF_LEN = 6` writes three files of capacity `B = 2` for the five colors `0 .. 4`, so
`n = 3` and `zero = 5 ≤ n * B`; the claim puts the edge of the colors 2 (file 1) and 4
(file 2) in the cell `(2 / 2) * 3 + 4 / 2 = 5`, and `getBucketId(2, 4)` and
`getBucketId(4, 2)` are both the cell 0 of the file pair `(0, 0)`; the root edge of the
color 4 is in the cell 0 too, not in the diagonal cell `(4 / 2) * 3 + 4 / 2 = 8` of its
file. -/
theorem getBucketId_ignores_capacity :
    (construct exampleHeap exampleHash (ColoredDbg.init 6 8 3) [[1, 4, 5], [2, 4], [3, 5]]
      invalid).map (fun r => r.toOption.map
        (fun s => (s.colorClassPerBuffer, s.get_num_eqclasses, (serialize s).files))) =
      some (some (2, 5,
        [(0, [true, false, false, false, true, false]),
         (1, [false, false, true, true, true, false]),
         (2, [true, false, true])])) ∧
    5 ≤ 3 * 2 ∧
    MST.getBucketId 5 3 2 4 = 0 ∧ MST.getBucketId 5 3 4 2 = 0 ∧
    min 2 4 / 2 * 3 + max 2 4 / 2 = 5 ∧
    MST.getBucketId 5 3 4 5 = 0 ∧ MST.getBucketId 5 3 5 4 = 0 ∧
    4 / 2 * 3 + 4 / 2 = 8 := by
  refine ⟨rfl, by decide, by decide, by decide, by decide, by decide, by decide, by decide⟩

/-- With buffers of a capacity above `NUM_BV_BUFFER` the cell can lie outside the
`n * n` cells: one buffer (`n = 1`) that holds the colors `0 .. 20000000` and the root
`zero = 20000001` gives the root edge of the color `20000000` the cell 2, and the loops of
`calculateWeights` visit the cell 0 only. -/
theorem getBucketId_cell_out_of_range :
    MST.getBucketId 20000001 1 20000000 20000001 = 2 ∧ calculateWeightsCells 1 = [0] ∧
    ¬ MST.getBucketId 20000001 1 20000000 20000001 < 1 * 1 := by
  refine ⟨by decide, by decide, by decide⟩

end Mantis
